import Mathlib

/-!
# Data Distribution core of AliceO2: SubTimeFrame model, serializers, STF files, O2ExtentVector

A shallow embedding of
* `Common/SubTimeFrameDataModel.{h,cxx}` (EquipmentIdentifier, EquipmentHBFrames, SubTimeFrame),
* `Common/SubTimeFrameVisitors.cxx` (the interleaved and the split wire layouts),
* `Common/SubTimeFrameFileWriter.cxx`, `Common/SubTimeFrameFileReader.cxx`,
* `Common/O2ExtentVector.h` (Extent, ExtentPosition, ExtentVectorBase),
followed by the theorems proved about them.

Conventions of the embedding.
* Sizes and counters (`size_t`, `uint64_t`) are natural numbers, `difference_type` is an
  integer; no container of the program can hold 2^64 elements, so no operation on them wraps.
* `assert(...)` is a diagnostic that is compiled out under `NDEBUG`; it is not control
  flow.  Where a property is about an assertion, the asserted condition is stated apart.
* A member function that can leave by an exception returns an `Outcome`: the object is still
  there after the `throw`, in the state the function left it in.
* Undefined behaviour of C++ (reading a vector past its end, an iterator past the received
  messages) is the value `none` / `Outcome.undefined`.
* `DataDescription`, `DataOrigin` (o2::header::Descriptor, compared bytewise) are declared in
  `Headers/DataHeader.h`, outside the sources at hand: they are the type parameters `D` and
  `O`, linearly ordered.  Constants of that header are fields of `Constants`.
-/

namespace O2
namespace DataDistribution

/-! ## Outcomes -/

/-- Outcome of a member function run on an object with state type `σ`. -/
inductive Outcome (σ : Type) where
  /-- normal return, the object is in state `s` -/
  | ok (s : σ)
  /-- an exception left the function, the object is in state `s` -/
  | raised (s : σ)
  /-- undefined behaviour -/
  | undefined
  deriving DecidableEq, Repr

/-! ## Headers and messages -/

/-- EquipmentIdentifier of `SubTimeFrameDataModel.h`. -/
structure EquipmentIdentifier (D O : Type) where
  mDataDescription : D
  mDataOrigin : O
  mSubSpecification : Nat
  deriving DecidableEq, Repr

/-- The member `EquipmentIdentifier::operator<` as coded (`SubTimeFrameDataModel.h`, 56-70). -/
def EquipmentIdentifier.operatorLt {D O : Type} [LinearOrder D]
    (self other : EquipmentIdentifier D O) : Bool :=
  if self.mDataDescription < other.mDataDescription then
    true
  else if self.mDataDescription = other.mDataDescription ∧
      self.mSubSpecification < other.mSubSpecification then
    true
  else if self.mDataDescription = other.mDataDescription ∧
      self.mSubSpecification = other.mSubSpecification ∧
      self.mSubSpecification < other.mSubSpecification then
    true
  else
    false

/-- The order the specification states for EquipmentIdentifier: lexicographic on
`(DataDescription, SubSpecification, DataOrigin)`. This definition follows the words of the
specification, to be compared with `EquipmentIdentifier.operatorLt`. -/
def EquipmentIdentifier.specLexLt {D O : Type} [LinearOrder D] [LinearOrder O]
    (a b : EquipmentIdentifier D O) : Prop :=
  a.mDataDescription < b.mDataDescription ∨
  (a.mDataDescription = b.mDataDescription ∧
    (a.mSubSpecification < b.mSubSpecification ∨
      (a.mSubSpecification = b.mSubSpecification ∧ a.mDataOrigin < b.mDataOrigin)))

/-- The fields of o2::header::DataHeader the Data Distribution code reads or writes. -/
structure DataHeader (D O : Type) where
  dataDescription : D
  dataOrigin : O
  subSpecification : Nat
  payloadSize : Nat
  headerSize : Nat
  payloadSerializationMethod : Nat
  deriving DecidableEq, Repr

/-- EquipmentHeader adds nothing to DataHeader (`struct EquipmentHeader : public DataHeader`). -/
abbrev EquipmentHeader (D O : Type) := DataHeader D O

/-- SubTimeFrameHeader: a DataHeader with `mId` and `mMaxHBFrames`. -/
structure SubTimeFrameHeader (D O : Type) extends DataHeader D O where
  mId : Nat
  mMaxHBFrames : Nat
  deriving DecidableEq, Repr

/-- A transport message (FairMQMessage). A header of the data model lives in a message of
its own (ChannelPtr); a heartbeat frame is a message holding payload bytes. -/
inductive FairMQMessage (D O : Type) where
  | stfHeader (h : SubTimeFrameHeader D O)
  | equipmentHeader (h : EquipmentHeader D O)
  | data (bytes : List Nat)
  deriving DecidableEq, Repr

/-- Constants and defaults declared in headers outside the sources at hand
(`Headers/DataHeader.h`, `Common/ReadoutDataModel.h`), taken as parameters. -/
structure Constants (D O : Type) where
  gDataDescriptionCruData : D
  gDataOriginCRU : O
  gDataDescriptionSubTimeFrame : D
  gDataOriginFLP : O
  gDataDescFileSubTimeFrame : D
  gSerializationMethodNone : Nat
  /-- what `make_channel_ptr<T>` default-constructs for the DataHeader part of a header -/
  defaultDataHeader : DataHeader D O
  defaultMaxHBFrames : Nat
  sizeofEquipmentHBFrames : Nat
  sizeofSubTimeFrameHeader : Nat
  sizeofDataHeader : Nat
  sizeofSubTimeFrameFileMeta : Nat

/-! ## EquipmentHBFrames -/

/-- EquipmentHBFrames: the header (absent once moved out) and the frames, in order. -/
structure EquipmentHBFrames (D O : Type) where
  mHeader : Option (EquipmentHeader D O)
  mHBFrames : List (FairMQMessage D O)
  deriving DecidableEq, Repr

/-- The default constructor `EquipmentHBFrames() = default`. -/
def EquipmentHBFrames.default {D O : Type} : EquipmentHBFrames D O :=
  { mHeader := none, mHBFrames := [] }

/-- The constructor `EquipmentHBFrames(int pFMQChannelId, const EquipmentIdentifier&)`. -/
def EquipmentHBFrames.new {D O : Type} (K : Constants D O) (_pFMQChannelId : Int)
    (pHdr : EquipmentIdentifier D O) : EquipmentHBFrames D O :=
  { mHeader := some { K.defaultDataHeader with
      dataDescription := pHdr.mDataDescription
      dataOrigin := pHdr.mDataOrigin
      subSpecification := pHdr.mSubSpecification
      headerSize := K.sizeofEquipmentHBFrames }
    mHBFrames := [] }

/-- Modelled from the spec: `ChannelPtr<T>::operator->` is declared in
`Common/DataModelUtils.h`, outside the sources at hand. The specification says that
operations reject the state in which the header is released: writing `payloadSize` through
an absent header raises, the frames appended before stay appended. -/
def EquipmentHBFrames.setPayloadSize {D O : Type} (e : EquipmentHBFrames D O) :
    Outcome (EquipmentHBFrames D O) :=
  match e.mHeader with
  | none => .raised e
  | some h => .ok { e with mHeader := some { h with payloadSize := e.mHBFrames.length } }

/-- The member `EquipmentHBFrames::getEquipmentIdentifier`. -/
def EquipmentHBFrames.getEquipmentIdentifier {D O : Type} (e : EquipmentHBFrames D O) :
    Option (EquipmentIdentifier D O) :=
  e.mHeader.map fun h =>
    { mDataDescription := h.dataDescription
      mDataOrigin := h.dataOrigin
      mSubSpecification := h.subSpecification }

/-- The member `EquipmentHBFrames::addHBFrame(FairMQMessagePtr&&)`. -/
def EquipmentHBFrames.addHBFrame {D O : Type} (e : EquipmentHBFrames D O)
    (pHBFrame : FairMQMessage D O) : Outcome (EquipmentHBFrames D O) :=
  EquipmentHBFrames.setPayloadSize { e with mHBFrames := e.mHBFrames ++ [pHBFrame] }

/-- The member `EquipmentHBFrames::addHBFrames(std::vector<FairMQMessagePtr>&&)`; the
vector passed in is cleared by the call. -/
def EquipmentHBFrames.addHBFrames {D O : Type} (e : EquipmentHBFrames D O)
    (pHBFrames : List (FairMQMessage D O)) : Outcome (EquipmentHBFrames D O) :=
  EquipmentHBFrames.setPayloadSize { e with mHBFrames := e.mHBFrames ++ pHBFrames }

/-! ## The map of a SubTimeFrame

`std::map<EquipmentIdentifier, EquipmentHBFrames>` with the comparator
`EquipmentIdentifier::operator<`, as the C++ standard defines it: the entries in key order,
two keys being the same key when neither is less than the other. -/

/-- The entries of `mReadoutData`, in iteration order. -/
abbrev ReadoutMap (D O : Type) := List (EquipmentIdentifier D O × EquipmentHBFrames D O)

namespace StdMap

variable {D O : Type} [LinearOrder D]

/-- Lookup `std::map::find`: the entry whose key is equivalent to `k`, if any. -/
def find : ReadoutMap D O → EquipmentIdentifier D O →
    Option (EquipmentIdentifier D O × EquipmentHBFrames D O)
  | [], _ => none
  | (k1, v1) :: rest, k =>
    if k1.operatorLt k then find rest k
    else if k.operatorLt k1 then none
    else some (k1, v1)

/-- Insertion `std::map::emplace` / `std::map::insert`: no effect when an equivalent key is
present, otherwise the entry is placed in key order. -/
def emplace : ReadoutMap D O → EquipmentIdentifier D O → EquipmentHBFrames D O → ReadoutMap D O
  | [], k, v => [(k, v)]
  | (k1, v1) :: rest, k, v =>
    if k1.operatorLt k then (k1, v1) :: emplace rest k v
    else if k.operatorLt k1 then (k, v) :: (k1, v1) :: rest
    else (k1, v1) :: rest

/-- Writing through the reference `std::map::at(k)` returns: the mapped value of the entry
equivalent to `k` becomes `v`. -/
def assignAt : ReadoutMap D O → EquipmentIdentifier D O → EquipmentHBFrames D O → ReadoutMap D O
  | [], _, _ => []
  | (k1, v1) :: rest, k, v =>
    if k1.operatorLt k then (k1, v1) :: assignAt rest k v
    else if k.operatorLt k1 then (k1, v1) :: rest
    else (k1, v) :: rest

end StdMap

/-! ## SubTimeFrame -/

/-- SubTimeFrame: header (absent for a default-constructed or moved-from STF), readout data
and the channel id. -/
structure SubTimeFrame (D O : Type) where
  mHeader : Option (SubTimeFrameHeader D O)
  mReadoutData : ReadoutMap D O
  mFMQChannelId : Int
  deriving DecidableEq, Repr

namespace SubTimeFrame

variable {D O : Type}

/-- The default constructor `SubTimeFrame() = default`. -/
def default : SubTimeFrame D O :=
  { mHeader := none, mReadoutData := [], mFMQChannelId := -1 }

/-- The constructor `SubTimeFrame(int pFMQChannelId, uint64_t pStfId)`. -/
def new (K : Constants D O) (pFMQChannelId : Int) (pStfId : Nat) : SubTimeFrame D O :=
  { mHeader := some
      { toDataHeader := { K.defaultDataHeader with
          headerSize := K.sizeofSubTimeFrameHeader
          dataDescription := K.gDataDescriptionSubTimeFrame
          dataOrigin := K.gDataOriginFLP
          payloadSerializationMethod := K.gSerializationMethodNone
          payloadSize := 0 }
        mId := pStfId
        mMaxHBFrames := K.defaultMaxHBFrames }
    mReadoutData := []
    mFMQChannelId := pFMQChannelId }

/-- The statement `mHeader->payloadSize = mReadoutData.size()` that ends every mutator.
Modelled from the spec for the absent header, as `EquipmentHBFrames.setPayloadSize`. -/
def updateCount (s : SubTimeFrame D O) : Outcome (SubTimeFrame D O) :=
  match s.mHeader with
  | none => .raised s
  | some h => .ok { s with mHeader := some { h with payloadSize := s.mReadoutData.length } }

variable [LinearOrder D]

/-- The body shared by `addHBFrame` and `addHBFrames` after the identifier is known: create
the entry if `find` fails, run `f` on `mReadoutData.at(id)`, update the count. -/
def withEquipment (K : Constants D O) (s : SubTimeFrame D O) (id : EquipmentIdentifier D O)
    (f : EquipmentHBFrames D O → Outcome (EquipmentHBFrames D O)) : Outcome (SubTimeFrame D O) :=
  let m1 :=
    if (StdMap.find s.mReadoutData id).isNone then
      StdMap.emplace s.mReadoutData id (EquipmentHBFrames.new K s.mFMQChannelId id)
    else s.mReadoutData
  match StdMap.find m1 id with
  | none => .raised { s with mReadoutData := m1 }
  | some (_, e) =>
    match f e with
    | .ok e1 => updateCount { s with mReadoutData := StdMap.assignAt m1 id e1 }
    | .raised e1 => .raised { s with mReadoutData := StdMap.assignAt m1 id e1 }
    | .undefined => .undefined

/-- The member `SubTimeFrame::addHBFrame(const EquipmentIdentifier&, FairMQMessagePtr&&)`. -/
def addHBFrame (K : Constants D O) (s : SubTimeFrame D O) (pEqId : EquipmentIdentifier D O)
    (pHBFrame : FairMQMessage D O) : Outcome (SubTimeFrame D O) :=
  withEquipment K s pEqId fun e => e.addHBFrame pHBFrame

/-- The member `SubTimeFrame::addHBFrames(const ReadoutSubTimeframeHeader&, vector&&)`;
`linkId` is the field `pHdr.linkId` of the readout header. -/
def addHBFrames (K : Constants D O) (s : SubTimeFrame D O) (linkId : Nat)
    (pHBFrames : List (FairMQMessage D O)) : Outcome (SubTimeFrame D O) :=
  let lEquipId : EquipmentIdentifier D O :=
    { mDataDescription := K.gDataDescriptionCruData
      mDataOrigin := K.gDataOriginCRU
      mSubSpecification := linkId }
  withEquipment K s lEquipId fun e => e.addHBFrames pHBFrames

/-- The member `SubTimeFrame::getEquipmentIdentifiers`. -/
def getEquipmentIdentifiers (s : SubTimeFrame D O) : List (EquipmentIdentifier D O) :=
  s.mReadoutData.map Prod.fst

/-- The loop of `SubTimeFrame::operator+=` over the entries of the source, on the map of the
destination: every entry is offered to `std::map::insert`. -/
def mergeInto (dst : ReadoutMap D O) : ReadoutMap D O → ReadoutMap D O
  | [] => dst
  | (k, v) :: rest => mergeInto (StdMap.emplace dst k v) rest

/-- The member `SubTimeFrame::operator+=(SubTimeFrame&&)`: the destination after the call.
The warning for a key that is already present only logs. -/
def operatorPlusEq (s pStf : SubTimeFrame D O) : Outcome (SubTimeFrame D O) :=
  updateCount { s with mReadoutData := mergeInto s.mReadoutData pStf.mReadoutData }

end SubTimeFrame


/-! ### Invariants of the data model -/

/-- The count of an entry is right: the header is present and `header.payloadSize` equals
the number of frames. -/
def EquipmentHBFrames.countOk {D O : Type} (e : EquipmentHBFrames D O) : Bool :=
  match e.mHeader with
  | none => false
  | some h => h.payloadSize == e.mHBFrames.length

/-- The STF invariant of the specification, for a populated STF: the header is present,
`header.payloadSize` equals the number of entries of `readoutData`, and the count of every
entry is right. -/
def SubTimeFrame.invariant {D O : Type} (s : SubTimeFrame D O) : Bool :=
  (match s.mHeader with
    | none => false
    | some h => h.payloadSize == s.mReadoutData.length)
  && s.mReadoutData.all fun kv => kv.2.countOk

/-- The representation invariant of `mReadoutData` that the class keeps by construction: the
keys stand in strictly increasing order of `operator<` (it is a `std::map`), and every entry
is filed under the identifier its own header carries. -/
def ReadoutMap.wellFormed {D O : Type} [LinearOrder D] [DecidableEq O] (m : ReadoutMap D O) :
    Prop :=
  m.Pairwise (fun a b => a.1.operatorLt b.1 = true) ∧
  ∀ kv ∈ m, kv.2.getEquipmentIdentifier = some kv.1

/-- The frames `readoutData` holds for the equipment `id`, if it has an entry. -/
def SubTimeFrame.framesOf {D O : Type} [LinearOrder D] (s : SubTimeFrame D O)
    (id : EquipmentIdentifier D O) : Option (List (FairMQMessage D O)) :=
  (StdMap.find s.mReadoutData id).map fun kv => kv.2.mHBFrames

/-- The STF id, if the header is present. -/
def SubTimeFrame.id? {D O : Type} (s : SubTimeFrame D O) : Option Nat :=
  s.mHeader.map fun h => h.mId

/-! ## Serializers (`Common/SubTimeFrameVisitors.cxx`)

A visitor carries its message vector; the functions below take it and return it. Handing
a released (null) header message to the transport is undefined. -/

namespace InterleavedHdrDataSerializer

variable {D O : Type}

/-- The visitor `InterleavedHdrDataSerializer::visit(EquipmentHBFrames&)`: the vector after
the visit and the object after it. -/
def visitEquipment (mMessages : List (FairMQMessage D O)) (pHBFrames : EquipmentHBFrames D O) :
    Option (List (FairMQMessage D O) × EquipmentHBFrames D O) :=
  match pHBFrames.mHeader with
  | none => none
  | some h =>
    some (mMessages ++ [FairMQMessage.equipmentHeader h] ++ pHBFrames.mHBFrames,
          { mHeader := none, mHBFrames := [] })

/-- The loop `for (auto& lDataSourceKey : pStf.mReadoutData)` of the visit of an STF. -/
def visitEntries : List (FairMQMessage D O) → ReadoutMap D O →
    Option (List (FairMQMessage D O) × ReadoutMap D O)
  | mMessages, [] => some (mMessages, [])
  | mMessages, (k, e) :: rest =>
    match visitEquipment mMessages e with
    | none => none
    | some (m1, e1) =>
      match visitEntries m1 rest with
      | none => none
      | some (m2, rest1) => some (m2, (k, e1) :: rest1)

/-- The visitor `InterleavedHdrDataSerializer::visit(SubTimeFrame&)`. -/
def visit (mMessages : List (FairMQMessage D O)) (pStf : SubTimeFrame D O) :
    Option (List (FairMQMessage D O) × SubTimeFrame D O) :=
  match pStf.mHeader with
  | none => none
  | some h =>
    match visitEntries (mMessages ++ [FairMQMessage.stfHeader h]) pStf.mReadoutData with
    | none => none
    | some (m1, data1) => some (m1, { pStf with mHeader := none, mReadoutData := data1 })

/-- The member `InterleavedHdrDataSerializer::serialize(SubTimeFrame&&)`: the vector handed
to `mChan.Send` and the source STF after the call. -/
def serialize (pStf : SubTimeFrame D O) :
    Option (List (FairMQMessage D O) × SubTimeFrame D O) :=
  visit [] pStf

end InterleavedHdrDataSerializer

/-- Modelled from the spec: the assignment of a received message to a
`ChannelPtr<SubTimeFrameHeader>` (`Common/DataModelUtils.h`, outside the sources at hand)
views the message as the header it carries; a message that carries none gives no header. -/
def FairMQMessage.asStfHeader {D O : Type} : FairMQMessage D O → Option (SubTimeFrameHeader D O)
  | .stfHeader h => some h
  | _ => none

/-- Modelled from the spec: as `FairMQMessage.asStfHeader`, for
`ChannelPtr<EquipmentHeader>`. -/
def FairMQMessage.asEquipmentHeader {D O : Type} :
    FairMQMessage D O → Option (EquipmentHeader D O)
  | .equipmentHeader h => some h
  | _ => none

namespace InterleavedHdrDataDeserializer

variable {D O : Type}

/-- The visitor `InterleavedHdrDataDeserializer::visit(EquipmentHBFrames&)`; `mMsgIter` is
the list of the messages not yet consumed. -/
def visitEquipment (mMsgIter : List (FairMQMessage D O)) (pHBFrames : EquipmentHBFrames D O) :
    Option (List (FairMQMessage D O) × EquipmentHBFrames D O) :=
  match mMsgIter with
  | [] => none
  | m :: rest =>
    match m.asEquipmentHeader with
    | none => none
    | some h =>
      let lHBFramesCnt := h.payloadSize
      if lHBFramesCnt ≤ rest.length then
        some (rest.drop lHBFramesCnt,
              { mHeader := some h, mHBFrames := pHBFrames.mHBFrames ++ rest.take lHBFramesCnt })
      else none

variable [LinearOrder D]

/-- The loop `for (size_t i = 0; i < pStf.mHeader->payloadSize; i++)` of the visit of an
STF; the first argument is the number of rounds left. -/
def visitLoop : Nat → List (FairMQMessage D O) → ReadoutMap D O →
    Option (List (FairMQMessage D O) × ReadoutMap D O)
  | 0, mMsgIter, data => some (mMsgIter, data)
  | n + 1, mMsgIter, data =>
    match visitEquipment mMsgIter EquipmentHBFrames.default with
    | none => none
    | some (it1, lDataSource) =>
      match lDataSource.getEquipmentIdentifier with
      | none => none
      | some id => visitLoop n it1 (StdMap.emplace data id lDataSource)

/-- The visitor `InterleavedHdrDataDeserializer::visit(SubTimeFrame&)`. -/
def visit (mMsgIter : List (FairMQMessage D O)) (pStf : SubTimeFrame D O) :
    Option (List (FairMQMessage D O) × SubTimeFrame D O) :=
  match mMsgIter with
  | [] => none
  | m :: rest =>
    match m.asStfHeader with
    | none => none
    | some h =>
      match visitLoop h.payloadSize rest pStf.mReadoutData with
      | none => none
      | some (it1, data1) => some (it1, { pStf with mHeader := some h, mReadoutData := data1 })

/-- The member `deserialize(SubTimeFrame&, FairMQParts&)` with `deserialize_impl`: the value
returned, the STF, and the messages `mMsgIter` has not consumed (what the closing assertion
`mMsgIter == mMessages.end()` is about). Nothing in the visit throws, so the handlers that
return `false` are never entered. -/
def deserialize (pStf : SubTimeFrame D O) (pMsgs : List (FairMQMessage D O)) :
    Option (Bool × SubTimeFrame D O × List (FairMQMessage D O)) :=
  match visit pMsgs pStf with
  | none => none
  | some (it1, stf1) => some (true, stf1, it1)

end InterleavedHdrDataDeserializer

/-- The transport channel between a split serializer and deserializer: the batches sent and
not yet received, oldest first. -/
abbrev Channel (D O : Type) := List (List (FairMQMessage D O))

namespace HdrDataSerializer

variable {D O : Type}

/-- The visitor `HdrDataSerializer::visit(EquipmentHBFrames&)`: header vector, data vector
and the object after the visit. -/
def visitEquipment (mHeaderMessages mDataMessages : List (FairMQMessage D O))
    (pHBFrames : EquipmentHBFrames D O) :
    Option (List (FairMQMessage D O) × List (FairMQMessage D O) × EquipmentHBFrames D O) :=
  match pHBFrames.mHeader with
  | none => none
  | some h =>
    some (mHeaderMessages ++ [FairMQMessage.equipmentHeader h],
          mDataMessages ++ pHBFrames.mHBFrames,
          { mHeader := none, mHBFrames := [] })

/-- The loop over `pStf.mReadoutData` of the visit of an STF. -/
def visitEntries : List (FairMQMessage D O) → List (FairMQMessage D O) → ReadoutMap D O →
    Option (List (FairMQMessage D O) × List (FairMQMessage D O) × ReadoutMap D O)
  | hs, ds, [] => some (hs, ds, [])
  | hs, ds, (k, e) :: rest =>
    match visitEquipment hs ds e with
    | none => none
    | some (hs1, ds1, e1) =>
      match visitEntries hs1 ds1 rest with
      | none => none
      | some (hs2, ds2, rest1) => some (hs2, ds2, (k, e1) :: rest1)

/-- The visitor `HdrDataSerializer::visit(SubTimeFrame&)`. -/
def visit (mHeaderMessages mDataMessages : List (FairMQMessage D O)) (pStf : SubTimeFrame D O) :
    Option (List (FairMQMessage D O) × List (FairMQMessage D O) × SubTimeFrame D O) :=
  match pStf.mHeader with
  | none => none
  | some h =>
    match visitEntries (mHeaderMessages ++ [FairMQMessage.stfHeader h]) mDataMessages
        pStf.mReadoutData with
    | none => none
    | some (hs, ds, data1) => some (hs, ds, { pStf with mHeader := none, mReadoutData := data1 })

/-- The member `HdrDataSerializer::serialize(SubTimeFrame&&)`: the channel after the sends
and the source STF after the call. -/
def serialize (mChan : Channel D O) (pStf : SubTimeFrame D O) :
    Option (Channel D O × SubTimeFrame D O) :=
  match visit [] [] pStf with
  | none => none
  | some (mHeaderMessages, mDataMessages, stf1) =>
    let lSendData := decide (mHeaderMessages.length > 1)
    let chan1 := mChan ++ [mHeaderMessages]
    if lSendData then some (chan1 ++ [mDataMessages], stf1) else some (chan1, stf1)

end HdrDataSerializer

namespace HdrDataDeserializer

variable {D O : Type}

/-- The visitor `HdrDataDeserializer::visit(EquipmentHBFrames&)`; `mHeaderIter` and
`mDataIter` are the lists of the messages not yet consumed. -/
def visitEquipment (mHeaderIter mDataIter : List (FairMQMessage D O))
    (pHBFrames : EquipmentHBFrames D O) :
    Option (List (FairMQMessage D O) × List (FairMQMessage D O) × EquipmentHBFrames D O) :=
  match mHeaderIter with
  | [] => none
  | m :: rest =>
    match m.asEquipmentHeader with
    | none => none
    | some h =>
      let lHBFramesCnt := h.payloadSize
      if lHBFramesCnt ≤ mDataIter.length then
        some (rest, mDataIter.drop lHBFramesCnt,
              { mHeader := some h,
                mHBFrames := pHBFrames.mHBFrames ++ mDataIter.take lHBFramesCnt })
      else none

variable [LinearOrder D]

/-- The loop `for (size_t i = 0; i < pStf.mHeader->payloadSize; i++)` of the visit of an
STF; the first argument is the number of rounds left. -/
def visitLoop : Nat → List (FairMQMessage D O) → List (FairMQMessage D O) → ReadoutMap D O →
    Option (List (FairMQMessage D O) × List (FairMQMessage D O) × ReadoutMap D O)
  | 0, hs, ds, data => some (hs, ds, data)
  | n + 1, hs, ds, data =>
    match visitEquipment hs ds EquipmentHBFrames.default with
    | none => none
    | some (hs1, ds1, lDataSource) =>
      match lDataSource.getEquipmentIdentifier with
      | none => none
      | some id => visitLoop n hs1 ds1 (StdMap.emplace data id lDataSource)

/-- The visitor `HdrDataDeserializer::visit(SubTimeFrame&)`. -/
def visit (mHeaderIter mDataIter : List (FairMQMessage D O)) (pStf : SubTimeFrame D O) :
    Option (List (FairMQMessage D O) × List (FairMQMessage D O) × SubTimeFrame D O) :=
  match mHeaderIter with
  | [] => none
  | m :: rest =>
    match m.asStfHeader with
    | none => none
    | some h =>
      match visitLoop h.payloadSize rest mDataIter pStf.mReadoutData with
      | none => none
      | some (hs, ds, data1) => some (hs, ds, { pStf with mHeader := some h, mReadoutData := data1 })

/-- What `HdrDataDeserializer::deserialize` leaves: the value returned, the STF, the channel
and the header and data messages the iterators have not consumed. -/
structure Result (D O : Type) where
  returned : Bool
  stf : SubTimeFrame D O
  chan : Channel D O
  headersLeft : List (FairMQMessage D O)
  dataLeft : List (FairMQMessage D O)
  deriving DecidableEq, Repr

/-- The member `HdrDataDeserializer::deserialize(SubTimeFrame&)`. A `Receive` on a channel
without a pending batch returns a negative value (the transfer was interrupted). -/
def deserialize (mChan : Channel D O) (pStf : SubTimeFrame D O) : Option (Result D O) :=
  match mChan with
  | [] => some { returned := false, stf := pStf, chan := [], headersLeft := [], dataLeft := [] }
  | mHeaderMessages :: chan1 =>
    let received : Option (List (FairMQMessage D O) × Channel D O) :=
      if mHeaderMessages.length > 1 then
        match chan1 with
        | [] => none
        | mDataMessages :: chan2 => some (mDataMessages, chan2)
      else some ([], chan1)
    match received with
    | none =>
      some { returned := false, stf := pStf, chan := [], headersLeft := mHeaderMessages,
             dataLeft := [] }
    | some (mDataMessages, chan2) =>
      match visit mHeaderMessages mDataMessages pStf with
      | none => none
      | some (hs, ds, stf1) =>
        some { returned := true, stf := stf1, chan := chan2, headersLeft := hs, dataLeft := ds }

end HdrDataDeserializer

/-! ### The two wire layouts, in the words of the specification -/

/-- The messages of one entry in the interleaved layout: the equipment header, then the
frames in their stored order. -/
def EquipmentHBFrames.interleavedLayout {D O : Type} (e : EquipmentHBFrames D O) :
    List (FairMQMessage D O) :=
  match e.mHeader with
  | none => []
  | some h => FairMQMessage.equipmentHeader h :: e.mHBFrames

/-- The interleaved layout of the entries: `eq1Header, eq1msg1 .. eq1msgk1, eq2Header, ...`
in map order. -/
def ReadoutMap.interleavedLayout {D O : Type} (m : ReadoutMap D O) : List (FairMQMessage D O) :=
  (m.map fun kv => kv.2.interleavedLayout).flatten

/-- The equipment headers of the entries, in map order (the headers batch of the split
layout after the STF header). -/
def ReadoutMap.headersLayout {D O : Type} (m : ReadoutMap D O) : List (FairMQMessage D O) :=
  (m.map fun kv =>
    match kv.2.mHeader with
    | none => []
    | some h => [FairMQMessage.equipmentHeader h]).flatten

/-- The frames of the entries concatenated in map order (the data batch of the split
layout). -/
def ReadoutMap.dataLayout {D O : Type} (m : ReadoutMap D O) : List (FairMQMessage D O) :=
  (m.map fun kv => kv.2.mHBFrames).flatten

/-- The entries of a map after a serializer visited them: keys kept, header released,
frames cleared. -/
def ReadoutMap.released {D O : Type} (m : ReadoutMap D O) : ReadoutMap D O :=
  m.map fun kv => (kv.1, ({ mHeader := none, mHBFrames := [] } : EquipmentHBFrames D O))

/-! ## STF files (`Common/SubTimeFrameFile.h`, `SubTimeFrameFileWriter.cxx`,
`SubTimeFrameFileReader.cxx`)

A file is the list of its bytes. The byte image of a header record is fixed by the compiler
and by `Headers/DataHeader.h`; it is the parameter `Layout`. -/

/-- SubTimeFrameFileMeta of `SubTimeFrameFile.h`. -/
structure SubTimeFrameFileMeta where
  mStfFileVersion : Nat
  mStfSizeInFile : Nat
  mWriteTimeMs : Nat
  deriving DecidableEq, Repr

/-- The constructor `SubTimeFrameFileMeta(const std::uint64_t pStfSize)`; `now` is the
reading of the system clock in milliseconds. -/
def SubTimeFrameFileMeta.new (now pStfSize : Nat) : SubTimeFrameFileMeta :=
  { mStfFileVersion := 1, mStfSizeInFile := pStfSize, mWriteTimeMs := now }

/-- The byte images of the records written to a file (what `reinterpret_cast<char*>` of a
record reads and writes). -/
structure Layout (D O : Type) where
  encodeDataHeader : DataHeader D O → List Nat
  decodeDataHeader : List Nat → DataHeader D O
  encodeFileMeta : SubTimeFrameFileMeta → List Nat
  decodeFileMeta : List Nat → SubTimeFrameFileMeta
  encodeStfHeader : SubTimeFrameHeader D O → List Nat

/-- A layout is lawful when a record occupies `sizeof` bytes and reading back the bytes of a
record gives the record. -/
structure Layout.Lawful {D O : Type} (K : Constants D O) (L : Layout D O) : Prop where
  dataHeader_length : ∀ h, (L.encodeDataHeader h).length = K.sizeofDataHeader
  dataHeader_decode : ∀ h, L.decodeDataHeader (L.encodeDataHeader h) = h
  fileMeta_length : ∀ m, (L.encodeFileMeta m).length = K.sizeofSubTimeFrameFileMeta
  fileMeta_decode : ∀ m, L.decodeFileMeta (L.encodeFileMeta m) = m

/-- The bytes of a message, `GetData()` over `GetSize()` bytes. -/
def FairMQMessage.GetData {D O : Type} (L : Layout D O) : FairMQMessage D O → List Nat
  | .stfHeader h => L.encodeStfHeader h
  | .equipmentHeader h => L.encodeDataHeader h
  | .data bytes => bytes

/-- The size of a message, `GetSize()`. -/
def FairMQMessage.GetSize {D O : Type} (L : Layout D O) (m : FairMQMessage D O) : Nat :=
  (m.GetData L).length

/-- Modelled from the spec: the constructor `DataHeader(desc, origin, subSpec, size)` of
`Headers/DataHeader.h`, outside the sources at hand; it sets the four fields named. -/
def DataHeader.new {D O : Type} (K : Constants D O) (desc : D) (origin : O)
    (subSpec size : Nat) : DataHeader D O :=
  { K.defaultDataHeader with
    dataDescription := desc, dataOrigin := origin, subSpecification := subSpec,
    payloadSize := size }

/-- Modelled from the spec: the constant `gStfFileDataHeader` of `SubTimeFrameFile.h` is
built by a constructor of `Headers/DataHeader.h`, outside the sources at hand; the
specification gives it the description FILESUBTIMEFRAME, the origin FLP and
`payloadSize = sizeof(Meta)`. -/
def gStfFileDataHeader {D O : Type} (K : Constants D O) : DataHeader D O :=
  { K.defaultDataHeader with
    dataDescription := K.gDataDescFileSubTimeFrame, dataOrigin := K.gDataOriginFLP,
    payloadSize := K.sizeofSubTimeFrameFileMeta }

/-- The constructor `EquipmentIdentifier(const o2::header::DataHeader&)`. -/
def EquipmentIdentifier.ofDataHeader {D O : Type} (pDh : DataHeader D O) :
    EquipmentIdentifier D O :=
  { mDataDescription := pDh.dataDescription
    mDataOrigin := pDh.dataOrigin
    mSubSpecification := pDh.subSpecification }

/-- SubTimeFrameFileWriter: the bytes of the file, which is opened for appending, and the
state of the stream. -/
structure SubTimeFrameFileWriter where
  mFile : List Nat
  good : Bool
  deriving DecidableEq, Repr

namespace SubTimeFrameFileWriter

variable {D O : Type}

/-- The constant `sBuffSize`, 256 kiB. -/
def sBuffSize : Nat := 256 * 1024

/-- The constant `sChunkSize`. -/
def sChunkSize : Nat := 512

/-- The member `size()`, the position `tellp()` of a stream that appends. -/
def size (w : SubTimeFrameFileWriter) : Nat := w.mFile.length

/-- The visitor `visit(const EquipmentHBFrames&)`: the block headers and the blocks the
frames add, one pair per frame. Reading `Header()` of an object whose header is released
is undefined. -/
def visitEquipment (K : Constants D O) (L : Layout D O) (pHbFrames : EquipmentHBFrames D O) :
    Option (List (DataHeader D O × List Nat)) :=
  match pHbFrames.mHeader with
  | none => if pHbFrames.mHBFrames.isEmpty then some [] else none
  | some h =>
    some (pHbFrames.mHBFrames.map fun lHbFrame =>
      (DataHeader.new K h.dataDescription h.dataOrigin h.subSpecification (lHbFrame.GetSize L),
       lHbFrame.GetData L))

/-- The visitor `visit(const SubTimeFrame&)`: the blocks of all entries, in map order. -/
def visit (K : Constants D O) (L : Layout D O) :
    ReadoutMap D O → Option (List (DataHeader D O × List Nat))
  | [] => some []
  | (_, e) :: rest =>
    match visitEquipment K L e, visit K L rest with
    | some b1, some b2 => some (b1 ++ b2)
    | _, _ => none

/-- The loop `while (pCount > 0)` of `buffered_write`: the chunks passed to `mFile.write`.
The first argument bounds the number of rounds, every round taking at least one byte. -/
def buffered_write_loop : Nat → List Nat → List (List Nat)
  | 0, _ => []
  | fuel + 1, p =>
    if p.length > 0 then
      let lToWrite := min p.length sChunkSize
      p.take lToWrite :: buffered_write_loop fuel (p.drop lToWrite)
    else []

/-- The member `buffered_write(p, count)`: the chunks passed to `mFile.write`, in order. -/
def buffered_write (p : List Nat) : List (List Nat) :=
  if p.length ≥ sBuffSize then [p] else buffered_write_loop p.length p

/-- The member `stf_size_file()`. -/
def stf_size_file (K : Constants D O) (mBlocksToWrite : List (DataHeader D O × List Nat)) : Nat :=
  K.sizeofDataHeader + K.sizeofSubTimeFrameFileMeta
    + mBlocksToWrite.length * K.sizeofDataHeader
    + (mBlocksToWrite.map fun lBlk => lBlk.2.length).sum

/-- The chunks `write` passes to the stream for the blocks, header then payload each. -/
def blockChunks (L : Layout D O) : List (DataHeader D O × List Nat) → List (List Nat)
  | [] => []
  | (hdr, blk) :: rest =>
    buffered_write (L.encodeDataHeader hdr) ++ buffered_write blk ++ blockChunks L rest

/-- The member `write(const SubTimeFrame&)`: the writer after the call and the value
returned. The stream accepts every write (a full disk is outside the embedding). -/
def write (K : Constants D O) (L : Layout D O) (now : Nat) (w : SubTimeFrameFileWriter)
    (pStf : SubTimeFrame D O) : Option (SubTimeFrameFileWriter × Nat) :=
  if !w.good then some (w, 0)
  else
    match visit K L pStf.mReadoutData with
    | none => none
    | some mBlocksToWrite =>
      let lPrevSize := w.size
      let lStfSizeInFile := stf_size_file K mBlocksToWrite
      let lStfFileMeta := SubTimeFrameFileMeta.new now lStfSizeInFile
      let chunks :=
        buffered_write (L.encodeDataHeader (gStfFileDataHeader K))
          ++ buffered_write (L.encodeFileMeta lStfFileMeta)
          ++ blockChunks L mBlocksToWrite
      let w1 : SubTimeFrameFileWriter := { w with mFile := w.mFile ++ chunks.flatten }
      some (w1, w1.size - lPrevSize)

end SubTimeFrameFileWriter

/-- SubTimeFrameFileReader: the bytes of the file, `mFileSize`, the read position, and the
state of the stream (`good`: no eofbit, failbit or badbit; `isOpen`). -/
structure SubTimeFrameFileReader where
  file : List Nat
  mFileSize : Nat
  pos : Nat
  good : Bool
  isOpen : Bool
  deriving DecidableEq, Repr

/-- What `SubTimeFrameFileReader::read` leaves in the STF passed and how it ends. -/
inductive ReadResult (D O : Type) where
  | returned (value : Bool) (stf : SubTimeFrame D O)
  | raised (stf : SubTimeFrame D O)
  | undefined
  deriving DecidableEq, Repr

namespace SubTimeFrameFileReader

variable {D O : Type}

/-- The constructor `SubTimeFrameFileReader(path)` on a file that exists. -/
def new (file : List Nat) : SubTimeFrameFileReader :=
  { file := file, mFileSize := file.length, pos := 0, good := true, isOpen := true }

/-- A reader in good state that has consumed the first `pos` bytes of `file`. -/
def positioned (file : List Nat) (pos : Nat) : SubTimeFrameFileReader :=
  { file := file, mFileSize := file.length, pos := pos, good := true, isOpen := true }

/-- The call `mFile.read(dst, n)` on a stream that throws on failbit: the bytes read and the
stream after, or the stream after the failure. -/
def streamRead (r : SubTimeFrameFileReader) (n : Nat) :
    Option (List Nat) × SubTimeFrameFileReader :=
  if r.isOpen ∧ r.good ∧ r.pos + n ≤ r.file.length then
    (some ((r.file.drop r.pos).take n), { r with pos := r.pos + n })
  else (none, { r with good := false })

/-- The loop of `visit(SubTimeFrame&)` over `mBlocks`. -/
def visit [LinearOrder D] (K : Constants D O) :
    List (DataHeader D O × FairMQMessage D O) → SubTimeFrame D O → Outcome (SubTimeFrame D O)
  | [], pStf => .ok pStf
  | (hdr, msg) :: rest, pStf =>
    match pStf.addHBFrame K (EquipmentIdentifier.ofDataHeader hdr) msg with
    | .ok stf1 => visit K rest stf1
    | .raised stf1 => .raised stf1
    | .undefined => .undefined

/-- The member `read(SubTimeFrame& pStf, std::uint64_t pStfId, const FairMQChannel&)`. The
sum `lTfStartPosition + lStfSizeInFile` is taken in `uint64_t`. -/
def read [LinearOrder D] [DecidableEq O] (K : Constants D O) (L : Layout D O)
    (r : SubTimeFrameFileReader) (pStf : SubTimeFrame D O) (_pStfId : Nat) :
    SubTimeFrameFileReader × ReadResult D O :=
  if !r.good then (r, .returned false pStf)
  else
    let lTfStartPosition := if r.isOpen then r.pos else 2 ^ 64 - 1
    match streamRead r K.sizeofDataHeader with
    | (none, r1) => (r1, .returned false pStf)
    | (some hdrBytes, r1) =>
      match streamRead r1 K.sizeofSubTimeFrameFileMeta with
      | (none, r2) => (r2, .returned false pStf)
      | (some metaBytes, r2) =>
        let lStfMetaDataHdr := L.decodeDataHeader hdrBytes
        let lStfFileMeta := L.decodeFileMeta metaBytes
        if gStfFileDataHeader K ≠ lStfMetaDataHdr then
          ({ r2 with isOpen := false }, .returned false pStf)
        else
          let lStfSizeInFile := lStfFileMeta.mStfSizeInFile
          if lStfSizeInFile = K.sizeofDataHeader + K.sizeofSubTimeFrameFileMeta then
            (r2, .returned false pStf)
          else if (lTfStartPosition + lStfSizeInFile) % 2 ^ 64 > r2.mFileSize then
            (r2, .returned false pStf)
          else
            match streamRead r2 K.sizeofDataHeader with
            | (none, r3) => (r3, .returned false pStf)
            | (some blkHdrBytes, r3) =>
              let lBlkDataHdr := L.decodeDataHeader blkHdrBytes
              match streamRead r3 lBlkDataHdr.payloadSize with
              | (none, r4) => (r4, .returned false pStf)
              | (some payload, r4) =>
                let mBlocks := [(lBlkDataHdr, FairMQMessage.data payload)]
                match visit K mBlocks pStf with
                | .ok stf1 => (r4, .returned true stf1)
                | .raised stf1 => (r4, .raised stf1)
                | .undefined => (r4, .undefined)

end SubTimeFrameFileReader

/-- The file round trip as the specification states it, for an STF `s` written at time
`now` to a new file: `write` succeeds, and `read` on the bytes written, into an STF
constructed with the id of `s`, returns true and produces an STF with the identical
equipment set, for every equipment the identical frames (count and payload bytes), and the
identical id. This definition follows the words of the specification. -/
def fileRoundTrip {D O : Type} [LinearOrder D] [DecidableEq O] (K : Constants D O)
    (L : Layout D O) (now : Nat) (s : SubTimeFrame D O) : Prop :=
  ∃ stfId w1 n r1 s1,
    s.id? = some stfId ∧
    SubTimeFrameFileWriter.write K L now { mFile := [], good := true } s = some (w1, n) ∧
    SubTimeFrameFileReader.read K L (SubTimeFrameFileReader.new w1.mFile)
      (SubTimeFrame.new K s.mFMQChannelId stfId) stfId = (r1, .returned true s1) ∧
    s1.getEquipmentIdentifiers = s.getEquipmentIdentifiers ∧
    (∀ id, (s1.framesOf id).map (List.map (FairMQMessage.GetData L))
        = (s.framesOf id).map (List.map (FairMQMessage.GetData L))) ∧
    s1.id? = s.id?

/-! ### The record of an STF in a file, in the words of the specification -/

/-- The blocks of the entries in a file: for each equipment in `readoutData` order and each
of its frames in order, a DataHeader that carries the description, origin and
sub-specification of the equipment and `payloadSize` = the size of the frame, followed by
the payload bytes of the frame. -/
def ReadoutMap.fileBlocksLayout {D O : Type} (K : Constants D O) (L : Layout D O)
    (m : ReadoutMap D O) : List Nat :=
  (m.map fun kv =>
    match kv.2.mHeader with
    | none => []
    | some h =>
      (kv.2.mHBFrames.map fun f =>
        L.encodeDataHeader
            (DataHeader.new K h.dataDescription h.dataOrigin h.subSpecification (f.GetSize L))
          ++ f.GetData L).flatten).flatten

/-- The size of the record of an STF, as the specification computes `stfSizeInFile`:
`sizeof(DataHeader) + sizeof(Meta) + Σ (sizeof(DataHeader) + payload size)` over the
frames. -/
def SubTimeFrame.fileRecordSize {D O : Type} (K : Constants D O) (L : Layout D O)
    (s : SubTimeFrame D O) : Nat :=
  K.sizeofDataHeader + K.sizeofSubTimeFrameFileMeta
    + (s.mReadoutData.map fun kv =>
        (kv.2.mHBFrames.map fun f => K.sizeofDataHeader + f.GetSize L).sum).sum

/-- The record of an STF written at the time `now`: the file-level DataHeader, the Meta
record, the blocks. -/
def SubTimeFrame.fileRecord {D O : Type} (K : Constants D O) (L : Layout D O) (now : Nat)
    (s : SubTimeFrame D O) : List Nat :=
  L.encodeDataHeader (gStfFileDataHeader K)
    ++ (L.encodeFileMeta (SubTimeFrameFileMeta.new now (s.fileRecordSize K L))
    ++ s.mReadoutData.fileBlocksLayout K L)

/-! ## O2ExtentVector (`Common/O2ExtentVector.h`)

Allocation is taken to succeed. The element size `sizeof(T)` is the parameter `sizeofT`, the
value-initialised element `T{}` is the parameter `T0`. A comparison between a signed index
and an unsigned size converts the index to `size_t`: a negative index then compares as larger
than every size. -/

namespace detail

/-- Extent: one contiguous allocation of `mCapacity` slots of which the first `mSize` hold
constructed elements; `mStart` lists those elements, so `mSize` is its length. -/
structure Extent (α : Type) where
  mStart : List α
  mCapacity : Nat
  deriving DecidableEq, Repr

namespace Extent

variable {α : Type}

/-- The constructor `Extent(size_type n, Allocator&)`. -/
def new (n : Nat) : Extent α := { mStart := [], mCapacity := n }

/-- The member `Extent::size`. -/
def size (e : Extent α) : Nat := e.mStart.length

/-- The member `Extent::capacity`. -/
def capacity (e : Extent α) : Nat := e.mCapacity

/-- The member `Extent::unused`. -/
def unused (e : Extent α) : Nat := e.mCapacity - e.size

/-- The member `Extent::operator[]`; an offset that is not below `mSize` reads memory that
holds no element. -/
def get (e : Extent α) (off : Int) : Option α :=
  if 0 ≤ off then e.mStart.get? off.toNat else none

/-- The member `Extent::emplace_back`; without an unused slot it writes past the allocation. -/
def emplace_back (e : Extent α) (x : α) : Option (Extent α) :=
  if e.size < e.mCapacity then some { e with mStart := e.mStart ++ [x] } else none

/-- The member `Extent::emplace_replace`: destroy, then construct at slot `pos`. -/
def emplace_replace (e : Extent α) (pos : Int) (x : α) : Option (Extent α) :=
  if 0 ≤ pos ∧ pos < e.size then some { e with mStart := e.mStart.set pos.toNat x } else none

/-- The member `Extent::clear`. -/
def clear (e : Extent α) : Extent α := { e with mStart := [] }

/-- The member `Extent::pop_back`; on an empty extent `mSize` would wrap. -/
def pop_back (e : Extent α) : Option (Extent α) :=
  if 0 < e.size then some { e with mStart := e.mStart.dropLast } else none

end Extent

/-- ExtentPosition, the iterator: the index of the extent, the index inside the extent and
the logical index. The vector it points into is an argument of every operation. -/
structure ExtentPosition where
  mExtentIndex : Nat
  mElementIndex : Int
  mVectorIndex : Int
  deriving DecidableEq, Repr

/-- ExtentVectorBase: the extents, the recorded size and capacity, and the position of the
end. -/
structure ExtentVectorBase (α : Type) where
  mExtents : List (Extent α)
  mSize : Nat
  mCapacity : Nat
  mBackPosition : ExtentPosition
  deriving DecidableEq, Repr

/-- Result of reading through an iterator: the element, the exception
`std::runtime_error("iterator not dereferenceable")`, or undefined behaviour. -/
inductive Access (β : Type) where
  | value (b : β)
  | raised
  | undefined
  deriving DecidableEq, Repr

namespace ExtentPosition

variable {α : Type}

/-- The member `operator--()`. -/
def dec (v : ExtentVectorBase α) (p : ExtentPosition) : Option ExtentPosition :=
  let cap : Int := v.mCapacity
  let idx := p.mVectorIndex - 1
  if idx < 0 then
    some { mExtentIndex := 0, mElementIndex := 0, mVectorIndex := idx }
  else if idx ≥ cap then
    some { p with mVectorIndex := idx }
  else if idx = cap - 1 then
    match v.mExtents.get? (v.mExtents.length - 1) with
    | none => none
    | some e =>
      some { mExtentIndex := v.mExtents.length - 1, mElementIndex := (e.capacity : Int) - 1,
             mVectorIndex := idx }
  else if p.mElementIndex > 0 then
    some { p with mElementIndex := p.mElementIndex - 1, mVectorIndex := idx }
  else if p.mExtentIndex > 0 then
    match v.mExtents.get? (p.mExtentIndex - 1) with
    | none => none
    | some e =>
      some { mExtentIndex := p.mExtentIndex - 1, mElementIndex := (e.capacity : Int) - 1,
             mVectorIndex := idx }
  else
    some { p with mVectorIndex := idx }

/-- The member `operator++()`. The first test compares the signed index with the unsigned
capacity, so a negative index takes that branch as well. -/
def inc (v : ExtentVectorBase α) (p : ExtentPosition) : Option ExtentPosition :=
  let cap : Int := v.mCapacity
  let idx := p.mVectorIndex + 1
  if idx < 0 ∨ idx ≥ cap then
    some { mExtentIndex := 0, mElementIndex := 0, mVectorIndex := idx }
  else if idx = 0 then
    some { p with mVectorIndex := idx }
  else
    match v.mExtents.get? p.mExtentIndex with
    | none => none
    | some e =>
      if 0 ≤ p.mElementIndex ∧ p.mElementIndex < (e.capacity : Int) - 1 then
        some { p with mElementIndex := p.mElementIndex + 1, mVectorIndex := idx }
      else if p.mExtentIndex + 1 < v.mExtents.length then
        some { mExtentIndex := p.mExtentIndex + 1, mElementIndex := 0, mVectorIndex := idx }
      else
        some { p with mVectorIndex := idx }

/-- The loop `while (n > 0)` of `operator+=`; the first argument lists the extents from
`mExtentIndex` on. Returns the final `(mExtentIndex, mElementIndex)`. -/
def walkForward : List (Extent α) → Nat → Int → Int → Option (Nat × Int)
  | [], ext, elem, n => if n > 0 then none else some (ext, elem)
  | e :: rest, ext, elem, n =>
    if n > 0 then
      let nElems := min n ((e.capacity : Int) - elem - 1)
      if n - nElems > 0 then walkForward rest (ext + 1) 0 (n - nElems - 1)
      else some (ext, elem + nElems)
    else some (ext, elem)

/-- The loop `while (n > 0)` of `operator-=`, by recursion on `mExtentIndex`. Returns the
final `(mExtentIndex, mElementIndex)`. -/
def walkBackward (es : List (Extent α)) : Nat → Int → Int → Option (Nat × Int)
  | 0, elem, n =>
    if n > 0 then
      let nElems := min elem n
      if n - nElems > 0 then none else some (0, elem - nElems)
    else some (0, elem)
  | ext + 1, elem, n =>
    if n > 0 then
      let nElems := min elem n
      if n - nElems > 0 then
        match es.get? ext with
        | none => none
        | some e => walkBackward es ext ((e.capacity : Int) - 1) (n - nElems - 1)
      else some (ext + 1, elem - nElems)
    else some (ext + 1, elem)

/-- The part of `operator+=(n)` that runs for `n > 0`. -/
def addPos (v : ExtentVectorBase α) (p : ExtentPosition) (n : Int) : Option ExtentPosition :=
  let cap : Int := v.mCapacity
  if p.mVectorIndex + n < 0 ∨ p.mVectorIndex + n ≥ cap then
    some { mExtentIndex := 0, mElementIndex := 0, mVectorIndex := p.mVectorIndex + n }
  else
    let afterUnderflow : Option (ExtentPosition × Int) :=
      if p.mVectorIndex < 0 then
        let under := min (|p.mVectorIndex| - 1) n
        let p1 := { p with mVectorIndex := p.mVectorIndex + under }
        if n - under > 0 then (inc v p1).map fun q => (q, n - under - 1)
        else some (p1, n - under)
      else some (p, n)
    match afterUnderflow with
    | none => none
    | some (q, m) =>
      (walkForward (v.mExtents.drop q.mExtentIndex) q.mExtentIndex q.mElementIndex m).map
        fun r => { mExtentIndex := r.1, mElementIndex := r.2, mVectorIndex := q.mVectorIndex + m }

/-- The part of `operator-=(n)` that runs for `n > 0`. -/
def subPos (v : ExtentVectorBase α) (p : ExtentPosition) (n : Int) : Option ExtentPosition :=
  if p.mVectorIndex - n < 0 then
    some { mExtentIndex := 0, mElementIndex := 0, mVectorIndex := p.mVectorIndex - n }
  else
    let vcap : Int := v.mCapacity
    let afterOverflow : Option (ExtentPosition × Int) :=
      if p.mVectorIndex ≥ vcap then
        let over := min (p.mVectorIndex - vcap) n
        let p1 := { p with mVectorIndex := p.mVectorIndex - over }
        if n - over > 0 then (dec v p1).map fun q => (q, n - over - 1)
        else some (p1, n - over)
      else some (p, n)
    match afterOverflow with
    | none => none
    | some (q, m) =>
      (walkBackward v.mExtents q.mExtentIndex q.mElementIndex m).map
        fun r => { mExtentIndex := r.1, mElementIndex := r.2, mVectorIndex := q.mVectorIndex - m }

/-- The member `operator+=(difference_type n)`. -/
def operatorPlusEq (v : ExtentVectorBase α) (p : ExtentPosition) (n : Int) :
    Option ExtentPosition :=
  if n = 0 then some p
  else if n < 0 then subPos v p |n|
  else addPos v p n

/-- The member `operator-=(difference_type n)`. -/
def operatorMinusEq (v : ExtentVectorBase α) (p : ExtentPosition) (n : Int) :
    Option ExtentPosition :=
  if n = 0 then some p
  else if n < 0 then addPos v p |n|
  else subPos v p n

/-- The constructor `ExtentPosition(base, off)`: start at zero, then `operator+=(off)`. -/
def new (v : ExtentVectorBase α) (off : Int) : Option ExtentPosition :=
  operatorPlusEq v { mExtentIndex := 0, mElementIndex := 0, mVectorIndex := 0 } off

/-- The member `is_past_end`. -/
def is_past_end (v : ExtentVectorBase α) (p : ExtentPosition) : Bool :=
  decide (p.mVectorIndex < 0 ∨ p.mVectorIndex ≥ (v.mCapacity : Int))

/-- The member `is_before_begin`. -/
def is_before_begin (p : ExtentPosition) : Bool := decide (p.mVectorIndex < 0)

/-- The member `is_dereferenceable`. -/
def is_dereferenceable (v : ExtentVectorBase α) (p : ExtentPosition) : Bool :=
  !is_before_begin p && decide (p.mVectorIndex < (v.mSize : Int))

/-- The member `operator*` used for reading. -/
def deref (v : ExtentVectorBase α) (p : ExtentPosition) : Access α :=
  if is_dereferenceable v p then
    match v.mExtents.get? p.mExtentIndex with
    | none => .undefined
    | some e =>
      match e.get p.mElementIndex with
      | none => .undefined
      | some x => .value x
  else .raised

/-- Assignment `*it = x` through the reference `operator*` returns. -/
def assign (v : ExtentVectorBase α) (p : ExtentPosition) (x : α) :
    Outcome (ExtentVectorBase α) :=
  if is_dereferenceable v p then
    match v.mExtents.get? p.mExtentIndex with
    | none => .undefined
    | some e =>
      if 0 ≤ p.mElementIndex ∧ p.mElementIndex < e.size then
        let e1 : Extent α := { e with mStart := e.mStart.set p.mElementIndex.toNat x }
        .ok { v with mExtents := v.mExtents.set p.mExtentIndex e1 }
      else .undefined
  else .raised v

end ExtentPosition

namespace ExtentVectorBase

variable {α : Type}

/-- The constructor `ExtentVectorBase()`: no extent, `mBackPosition(this, 0)`. -/
def empty : ExtentVectorBase α :=
  { mExtents := [], mSize := 0, mCapacity := 0,
    mBackPosition := { mExtentIndex := 0, mElementIndex := 0, mVectorIndex := 0 } }

/-- The constant `PAGESIZE_ALIGN` of `expand_size`. -/
def PAGESIZE_ALIGN : Nat := 4096

/-- The private member `expand_size(req_cap, exact)`. -/
def expand_size (sizeofT : Nat) (v : ExtentVectorBase α) (req_cap : Nat) (exact : Bool) : Nat :=
  let next_cap := max v.mCapacity 2
  let next_cap := if exact then max req_cap v.mCapacity else max (next_cap * 3 / 2) req_cap
  (next_cap * sizeofT + PAGESIZE_ALIGN - 1) / PAGESIZE_ALIGN * PAGESIZE_ALIGN / sizeofT

/-- The member `make_space_for(n, exact)`. -/
def make_space_for (sizeofT : Nat) (v : ExtentVectorBase α) (n : Nat) (exact : Bool) :
    Option (ExtentVectorBase α) :=
  let free := v.mCapacity - v.mSize
  if free ≥ n then some v
  else
    let n1 := n - free
    let new_cap := expand_size sizeofT v (v.mCapacity + n1) exact
    let new_ext_size := new_cap - v.mCapacity
    let v1 : ExtentVectorBase α :=
      { v with mExtents := v.mExtents ++ [Extent.new new_ext_size]
               mCapacity := v.mCapacity + new_ext_size }
    (ExtentPosition.new v1 v1.mSize).map fun p => { v1 with mBackPosition := p }

/-- The member `reserve(new_cap)`. -/
def reserve (sizeofT : Nat) (v : ExtentVectorBase α) (new_cap : Nat) :
    Option (ExtentVectorBase α) :=
  if v.mCapacity ≥ new_cap then some v
  else make_space_for sizeofT v (new_cap - v.mSize) true

/-- The loop of `shrink_to_fit`; the first argument bounds the number of iterations by the
number of extents, one extent being removed per iteration. -/
def shrink_to_fit_loop : List (Extent α) → ExtentVectorBase α → Option (ExtentVectorBase α)
  | [], v => some v
  | _ :: fuel, v =>
    match v.mExtents.getLast? with
    | none => some v
    | some e =>
      if e.size = 0 then
        let v1 : ExtentVectorBase α :=
          { v with mCapacity := v.mCapacity - e.capacity, mExtents := v.mExtents.dropLast }
        match ExtentPosition.new v1 v1.mSize with
        | none => none
        | some p => shrink_to_fit_loop fuel { v1 with mBackPosition := p }
      else some v

/-- The member `shrink_to_fit()`. -/
def shrink_to_fit (v : ExtentVectorBase α) : Option (ExtentVectorBase α) :=
  shrink_to_fit_loop v.mExtents v

/-- The member `get_iterator_at(idx)`. -/
def get_iterator_at (v : ExtentVectorBase α) (idx : Nat) : Option ExtentPosition :=
  ExtentPosition.new v idx

/-- The member `begin()`. -/
def begin_ (v : ExtentVectorBase α) : Option ExtentPosition := ExtentPosition.new v 0

/-- The member `end()`. -/
def end_ (v : ExtentVectorBase α) : ExtentPosition := v.mBackPosition

/-- One round of the loop of `fill_expand`, which is also the body of `emplace_back` after
`make_space_for(1)`: construct `x` in the extent `mBackPosition` names, then
`mBackPosition++` and `mSize++`. -/
def append_at_back (v : ExtentVectorBase α) (x : α) : Option (ExtentVectorBase α) :=
  match v.mExtents.get? v.mBackPosition.mExtentIndex with
  | none => none
  | some e =>
    match e.emplace_back x with
    | none => none
    | some e1 =>
      let v1 : ExtentVectorBase α :=
        { v with mExtents := v.mExtents.set v.mBackPosition.mExtentIndex e1 }
      (ExtentPosition.inc v1 v1.mBackPosition).map fun p =>
        { v1 with mBackPosition := p, mSize := v1.mSize + 1 }

/-- The loop `for (i = 0; i < n; i++, mBackPosition++, mSize++)` of `fill_expand`. -/
def fill_expand_loop : Nat → ExtentVectorBase α → α → Option (ExtentVectorBase α)
  | 0, v, _ => some v
  | n + 1, v, x =>
    match append_at_back v x with
    | none => none
    | some v1 => fill_expand_loop n v1 x

/-- The member `fill_expand(n, v)`. -/
def fill_expand (sizeofT : Nat) (v : ExtentVectorBase α) (n : Nat) (x : α) :
    Option (ExtentVectorBase α) :=
  match make_space_for sizeofT v n false with
  | none => none
  | some v1 => fill_expand_loop n v1 x

/-- The member `fill_overwrite(dst, n, v)`: the loop `for (i = 0; i < n; i++, dst++)`. -/
def fill_overwrite : Nat → ExtentVectorBase α → ExtentPosition → α → Option (ExtentVectorBase α)
  | 0, v, _, _ => some v
  | n + 1, v, dst, x =>
    match v.mExtents.get? dst.mExtentIndex with
    | none => none
    | some e =>
      match e.emplace_replace dst.mElementIndex x with
      | none => none
      | some e1 =>
        let v1 : ExtentVectorBase α := { v with mExtents := v.mExtents.set dst.mExtentIndex e1 }
        match ExtentPosition.inc v1 dst with
        | none => none
        | some dst1 => fill_overwrite n v1 dst1 x

/-- The member `emplace_back(args...)`. -/
def emplace_back (sizeofT : Nat) (v : ExtentVectorBase α) (x : α) :
    Option (ExtentVectorBase α) :=
  match make_space_for sizeofT v 1 false with
  | none => none
  | some v1 => append_at_back v1 x

/-- The member `push_back(const T&)`. -/
def push_back (sizeofT : Nat) (v : ExtentVectorBase α) (value : α) :
    Option (ExtentVectorBase α) :=
  emplace_back sizeofT v value

/-- The member `pop_back()`. -/
def pop_back (v : ExtentVectorBase α) : Outcome (ExtentVectorBase α) :=
  if v.mSize = 0 then .raised v
  else
    match ExtentPosition.operatorMinusEq v v.mBackPosition 1 with
    | none => .undefined
    | some it =>
      match v.mExtents.get? it.mExtentIndex with
      | none => .undefined
      | some ext =>
        match ext.pop_back with
        | none => .undefined
        | some ext1 =>
          .ok { v with mExtents := v.mExtents.set it.mExtentIndex ext1
                       mSize := v.mSize - 1
                       mBackPosition := it }

/-- The loop `while (mSize > n) pop_back();` of `resize`; the first argument bounds the
number of iterations, `mSize` dropping by one per iteration. -/
def resize_shrink_loop : Nat → ExtentVectorBase α → Nat → Outcome (ExtentVectorBase α)
  | 0, v, _ => .ok v
  | fuel + 1, v, n =>
    if v.mSize > n then
      match pop_back v with
      | .ok v1 => resize_shrink_loop fuel v1 n
      | .raised v1 => .raised v1
      | .undefined => .undefined
    else .ok v

/-- The member `resize(n, v)`. -/
def resize (sizeofT : Nat) (v : ExtentVectorBase α) (n : Nat) (x : α) :
    Outcome (ExtentVectorBase α) :=
  if n = v.mSize then .ok v
  else if n > v.mSize then
    match fill_expand sizeofT v (n - v.mSize) x with
    | none => .undefined
    | some v1 => .ok v1
  else resize_shrink_loop (v.mSize - n) v n

/-- The member `clear()`. -/
def clear (v : ExtentVectorBase α) : ExtentVectorBase α :=
  { v with mExtents := v.mExtents.map Extent.clear
           mSize := v.mSize - (v.mExtents.map Extent.size).sum
           mBackPosition := { mExtentIndex := 0, mElementIndex := 0, mVectorIndex := 0 } }

/-- Modelled from the C++ standard: `std::copy_backward(first, last, d_last)` on
ExtentPosition iterators of the vector itself, `last - first` rounds of
`*--d_last = *--last`. The first argument is that number of rounds. -/
def copy_backward : Nat → ExtentVectorBase α → ExtentPosition → ExtentPosition →
    Outcome (ExtentVectorBase α)
  | 0, v, _, _ => .ok v
  | n + 1, v, last, d_last =>
    match ExtentPosition.dec v d_last, ExtentPosition.dec v last with
    | some d1, some l1 =>
      match ExtentPosition.deref v l1 with
      | .undefined => .undefined
      | .raised => .raised v
      | .value x =>
        match ExtentPosition.assign v d1 x with
        | .ok v1 => copy_backward n v1 l1 d1
        | .raised v1 => .raised v1
        | .undefined => .undefined
    | _, _ => .undefined

/-- The member `emplace(pos, n, args...)`. -/
def emplace (sizeofT : Nat) (T0 : α) (v : ExtentVectorBase α) (pos : ExtentPosition) (n : Nat)
    (x : α) : Outcome (ExtentVectorBase α) :=
  if pos.mVectorIndex > v.mBackPosition.mVectorIndex then .raised v
  else if n = 0 then .ok v
  else if pos.mVectorIndex = v.mBackPosition.mVectorIndex then
    match fill_expand sizeofT v n x with
    | none => .undefined
    | some v1 => .ok v1
  else
    match fill_expand sizeofT v n T0 with
    | none => .undefined
    | some v1 =>
      match ExtentPosition.operatorMinusEq v1 v1.mBackPosition n with
      | none => .undefined
      | some pos_end =>
        match copy_backward (pos_end.mVectorIndex - pos.mVectorIndex).toNat v1 pos_end
            v1.mBackPosition with
        | .undefined => .undefined
        | .raised v2 => .raised v2
        | .ok v2 =>
          match fill_overwrite n v2 pos x with
          | none => .undefined
          | some v3 => .ok v3

/-- The inner loop `for (; first <= last; first++) func(*first);` of `for_each` on one
extent: `func` runs on the `cnt` slots from `start` on, in increasing order, and may change
the element it is handed (`func : state → element → state × element`). A slot that holds no
element is memory outside the elements of the extent. -/
def for_each_slots {σ : Type} (func : σ → α → σ × α) :
    Nat → Extent α → Nat → σ → Option (σ × Extent α)
  | 0, ext, _, acc => some (acc, ext)
  | cnt + 1, ext, start, acc =>
    match ext.mStart.get? start with
    | none => none
    | some x =>
      for_each_slots func cnt { ext with mStart := ext.mStart.set start (func acc x).2 }
        (start + 1) (func acc x).1

/-- The loop `while (elems > 0)` of `for_each(base_iterator, base_iterator, func)` over the
extents from `ext_idx` on: `cnt = min(ext.size() - ext_start_idx, elems)` slots of the
extent, then `elems -= cnt; ext_start_idx = 0; ext_idx += 1`. `extent(ext_idx)` past the
last extent is undefined; with `ext_start_idx` above `ext.size()` the unsigned difference
wraps and the first slot read is outside the elements. -/
def for_each_loop {σ : Type} (func : σ → α → σ × α) :
    List (Extent α) → Nat → Nat → σ → Option (σ × List (Extent α))
  | exts, 0, _, acc => some (acc, exts)
  | [], _ + 1, _, _ => none
  | ext :: rest, elems + 1, ext_start_idx, acc =>
    if ext_start_idx ≤ ext.size then
      let cnt := min (ext.size - ext_start_idx) (elems + 1)
      match for_each_slots func cnt ext ext_start_idx acc with
      | none => none
      | some (acc1, ext1) =>
        match for_each_loop func rest (elems + 1 - cnt) 0 acc1 with
        | none => none
        | some (acc2, rest1) => some (acc2, ext1 :: rest1)
    else none

/-- The member `for_each(base_iterator si, base_iterator ei, UnaryFunction func)`: the
functor returned and the vector after the call. With `elems = 0` the loop does not run.
`size_type elems = ei - si` and `size_type ext_start_idx = si.mElementIndex` wrap for a
negative value, which sends the loop past the last extent or outside the elements of an
extent. -/
def for_each {σ : Type} (v : ExtentVectorBase α) (si ei : ExtentPosition)
    (func : σ → α → σ × α) (acc : σ) : Option (σ × ExtentVectorBase α) :=
  let elems : Int := ei.mVectorIndex - si.mVectorIndex
  if elems = 0 then some (acc, v)
  else if elems < 0 ∨ si.mElementIndex < 0 then none
  else
    match for_each_loop func (v.mExtents.drop si.mExtentIndex) elems.toNat
        si.mElementIndex.toNat acc with
    | none => none
    | some (acc1, exts1) =>
      some (acc1, { v with mExtents := v.mExtents.take si.mExtentIndex ++ exts1 })

/-- The inner loop of the `const` overload of `for_each`: `func` reads the elements. -/
def for_each_const_slots {σ : Type} (func : σ → α → σ) : Nat → Extent α → Nat → σ → Option σ
  | 0, _, _, acc => some acc
  | cnt + 1, ext, start, acc =>
    match ext.mStart.get? start with
    | none => none
    | some x => for_each_const_slots func cnt ext (start + 1) (func acc x)

/-- The loop `while (elems > 0)` of the `const` overload of `for_each`. -/
def for_each_const_loop {σ : Type} (func : σ → α → σ) :
    List (Extent α) → Nat → Nat → σ → Option σ
  | _, 0, _, acc => some acc
  | [], _ + 1, _, _ => none
  | ext :: rest, elems + 1, ext_start_idx, acc =>
    if ext_start_idx ≤ ext.size then
      let cnt := min (ext.size - ext_start_idx) (elems + 1)
      match for_each_const_slots func cnt ext ext_start_idx acc with
      | none => none
      | some acc1 => for_each_const_loop func rest (elems + 1 - cnt) 0 acc1
    else none

/-- The member `for_each(const_base_iterator si, const_base_iterator ei, UnaryFunction func)
const`: the functor returned. -/
def for_each_const {σ : Type} (v : ExtentVectorBase α) (si ei : ExtentPosition)
    (func : σ → α → σ) (acc : σ) : Option σ :=
  let elems : Int := ei.mVectorIndex - si.mVectorIndex
  if elems = 0 then some acc
  else if elems < 0 ∨ si.mElementIndex < 0 then none
  else
    for_each_const_loop func (v.mExtents.drop si.mExtentIndex) elems.toNat
      si.mElementIndex.toNat acc

end ExtentVectorBase

end detail

/-! ### The public class O2ExtentVector -/

namespace O2ExtentVector

open detail

variable {α : Type}

/-- The position `begin() + p` a caller passes to `insert` and `emplace`. -/
def beginPlus (v : ExtentVectorBase α) (p : Int) : Option ExtentPosition :=
  match ExtentVectorBase.begin_ v with
  | none => none
  | some b => ExtentPosition.operatorPlusEq v b p

/-- The member `O2ExtentVector::insert(pos, count, value)` with `pos = begin() + p`. -/
def insert (sizeofT : Nat) (T0 : α) (v : ExtentVectorBase α) (p : Int) (count : Nat) (value : α) :
    Outcome (ExtentVectorBase α) :=
  match beginPlus v p with
  | none => .undefined
  | some pos => ExtentVectorBase.emplace sizeofT T0 v pos count value

/-- The member `O2ExtentVector::emplace(pos, args...)` with `pos = begin() + p`. -/
def emplace (sizeofT : Nat) (T0 : α) (v : ExtentVectorBase α) (p : Int) (value : α) :
    Outcome (ExtentVectorBase α) :=
  match beginPlus v p with
  | none => .undefined
  | some pos => ExtentVectorBase.emplace sizeofT T0 v pos 1 value

/-- The member `O2ExtentVector::resize(count)`: `mBase.resize(count)` with the default
argument `T{}`. -/
def resize (sizeofT : Nat) (T0 : α) (v : ExtentVectorBase α) (count : Nat) :
    Outcome (ExtentVectorBase α) :=
  ExtentVectorBase.resize sizeofT v count T0

/-- The member `O2ExtentVector::resize(count, value)`. -/
def resizeValue (sizeofT : Nat) (v : ExtentVectorBase α) (count : Nat) (value : α) :
    Outcome (ExtentVectorBase α) :=
  ExtentVectorBase.resize sizeofT v count value

/-- The member `O2ExtentVector::at(pos)`. -/
def at_ (v : ExtentVectorBase α) (pos : Nat) : Access α :=
  if pos ≥ v.mSize then .raised
  else
    match ExtentVectorBase.get_iterator_at v pos with
    | none => .undefined
    | some it => ExtentPosition.deref v it

/-- The member `O2ExtentVector::operator[]`. -/
def index (v : ExtentVectorBase α) (pos : Nat) : Access α :=
  match ExtentVectorBase.get_iterator_at v pos with
  | none => .undefined
  | some it => ExtentPosition.deref v it

/-- The sequence the vector holds: the elements of the extents, in order. -/
def toList (v : ExtentVectorBase α) : List α :=
  (v.mExtents.map fun e => e.mStart).flatten

/-- The comparison of the parity test with a contiguous vector `xs`: `size()` is the size of
`xs`, and `at(i)` returns the element `xs[i]` for every index below it. -/
def readsAs (v : ExtentVectorBase α) (xs : List α) : Prop :=
  v.mSize = xs.length ∧ ∀ i y, xs.get? i = some y → at_ v i = .value y

end O2ExtentVector

namespace algorithm

open detail

/-- The function `o2::algorithm::for_each(first, last, func)` on iterators of a vector that
is not `const`: `first.mExtentVectorBase->for_each(first, last, func)`. -/
def for_each {α σ : Type} (v : ExtentVectorBase α) (first last : ExtentPosition)
    (func : σ → α → σ × α) (acc : σ) : Option (σ × ExtentVectorBase α) :=
  ExtentVectorBase.for_each v first last func acc

/-- The function `o2::algorithm::for_each(first, last, func)` on `const` iterators
(`cbegin()`, `cend()`). -/
def for_each_const {α σ : Type} (v : ExtentVectorBase α) (first last : ExtentPosition)
    (func : σ → α → σ) (acc : σ) : Option σ :=
  ExtentVectorBase.for_each_const v first last func acc

/-- The reference `std::for_each(first, last, func)` on a contiguous sequence: `func` runs
once on every element, in order; the functor returned and the elements after the call. -/
def stdForEach {α σ : Type} (func : σ → α → σ × α) : List α → σ → σ × List α
  | [], acc => (acc, [])
  | x :: xs, acc =>
    ((stdForEach func xs (func acc x).1).1, (func acc x).2 :: (stdForEach func xs (func acc x).1).2)

/-- The reference `std::for_each(v.begin() + a, v.begin() + b, func)` on a contiguous
vector that holds `xs`. -/
def stdForEachRange {α σ : Type} (func : σ → α → σ × α) (xs : List α) (a b : Nat) (acc : σ) :
    σ × List α :=
  ((stdForEach func ((xs.drop a).take (b - a)) acc).1,
   xs.take a ++ (stdForEach func ((xs.drop a).take (b - a)) acc).2 ++ xs.drop b)

end algorithm

end DataDistribution
end O2

/-! ### The representation of an O2ExtentVector -/

namespace O2
namespace DataDistribution
namespace detail

/-- The extent and the offset inside it of the logical index `i`, for extents of the
capacities `caps`: the first extent whose cumulative capacity exceeds `i`, and `i` minus the
capacity of the extents before it. -/
def locate : List Nat → Nat → Nat × Nat
  | [], i => (0, i)
  | c :: cs, i => if i < c then (0, i) else ((locate cs (i - c)).1 + 1, (locate cs (i - c)).2)

/-- The iterator state that stands for the logical index `i`: the located pair inside
`[0, capacity)`, and `(0, 0)` in underflow and in overflow. -/
def positionOf (caps : List Nat) (i : Int) : ExtentPosition :=
  if i < 0 ∨ i ≥ (caps.sum : Int) then
    { mExtentIndex := 0, mElementIndex := 0, mVectorIndex := i }
  else
    { mExtentIndex := (locate caps i.toNat).1, mElementIndex := (locate caps i.toNat).2,
      mVectorIndex := i }

/-- Extents of the capacities `caps` filled in order with the elements `xs`. -/
def fillExtents {α : Type} : List Nat → List α → List (Extent α)
  | [], _ => []
  | c :: cs, xs => { mStart := xs.take c, mCapacity := c } :: fillExtents cs (xs.drop c)

/-- The vector with extents of the capacities `caps` that holds the sequence `xs`. -/
def canonical {α : Type} (caps : List Nat) (xs : List α) : ExtentVectorBase α :=
  { mExtents := fillExtents caps xs
    mSize := xs.length
    mCapacity := caps.sum
    mBackPosition := positionOf caps xs.length }

/-- The capacities of the extents after `make_space_for(n, exact)` on a vector with extents
of the capacities `caps` that holds `size` elements: unchanged when `n` slots are free, one
more extent otherwise, of `expand_size(capacity + (n - free), exact) - capacity` slots. -/
def grownCapacities {α : Type} (sizeofT : Nat) (v : ExtentVectorBase α) (n : Nat)
    (exact : Bool) : List Nat :=
  if v.mCapacity - v.mSize ≥ n then v.mExtents.map Extent.capacity
  else
    v.mExtents.map Extent.capacity ++
      [ExtentVectorBase.expand_size sizeofT v (v.mCapacity + (n - (v.mCapacity - v.mSize))) exact
        - v.mCapacity]

/-- The capacities of the extents of a vector. -/
def ExtentVectorBase.capacities {α : Type} (v : ExtentVectorBase α) : List Nat :=
  v.mExtents.map Extent.capacity

/-- The representation invariant of ExtentVectorBase: every extent has a capacity above
zero, the recorded capacity is the sum of the capacities of the extents, the recorded size
is the number of elements held and does not exceed the capacity, the extents are filled in
order, and `mBackPosition` is the position of the logical index `mSize`. -/
def ExtentVectorBase.repInvariant {α : Type} (v : ExtentVectorBase α) : Prop :=
  (∀ c ∈ v.capacities, 0 < c) ∧
  v.mCapacity = v.capacities.sum ∧
  v.mSize = (O2ExtentVector.toList v).length ∧
  v.mSize ≤ v.mCapacity ∧
  v.mExtents = fillExtents v.capacities (O2ExtentVector.toList v) ∧
  v.mBackPosition = positionOf v.capacities v.mSize

/-- The loop of `shrink_to_fit` on the capacities, last extent first: `total` is the sum of
the capacities left, an extent is removed while it holds no element, that is while `size`
does not exceed the capacity of the extents before it. -/
def shrinkReversed : List Nat → Nat → Nat → List Nat
  | [], _, _ => []
  | c :: rest, total, size =>
    if size ≤ total - c then shrinkReversed rest (total - c) size else c :: rest

/-- The capacities of the extents after `shrink_to_fit` on a vector with extents of the
capacities `caps` that holds `size` elements. -/
def shrunkCapacities (caps : List Nat) (size : Nat) : List Nat :=
  (shrinkReversed caps.reverse caps.sum size).reverse

/-- The storage location of the logical index `i`: the extent that holds it and the offset
inside that extent, as the iterator `get_iterator_at(i)` records them. -/
def ExtentVectorBase.locationOf {α : Type} (v : ExtentVectorBase α) (i : Nat) :
    Option (Nat × Int) :=
  (ExtentVectorBase.get_iterator_at v i).map fun p => (p.mExtentIndex, p.mElementIndex)

/-- Every index below the size of `v` has a storage location in `v`, and the same one in
`v1`. -/
def ExtentVectorBase.sameLocations {α : Type} (v v1 : ExtentVectorBase α) : Prop :=
  ∀ i, i < v.mSize → ∃ loc, v.locationOf i = some loc ∧ v1.locationOf i = some loc

/-- The elements at the indices below `k` are read in `v1` as they are in `v`. -/
def ExtentVectorBase.sameElements {α : Type} (v v1 : ExtentVectorBase α) (k : Nat) : Prop :=
  ∀ i, i < k → ∃ y, O2ExtentVector.at_ v i = .value y ∧ O2ExtentVector.at_ v1 i = .value y

/-- The states of a vector reachable from the empty vector by the public operations of
O2ExtentVector; a position is passed as `begin() + p` for an integer `p`. An operation that
leaves by an exception leaves a reachable state too. -/
inductive Reachable {α : Type} (sizeofT : Nat) (T0 : α) : ExtentVectorBase α → Prop where
  | empty : Reachable sizeofT T0 ExtentVectorBase.empty
  | push_back {v v1 : ExtentVectorBase α} (x : α) :
      Reachable sizeofT T0 v → ExtentVectorBase.push_back sizeofT v x = some v1 →
      Reachable sizeofT T0 v1
  | emplace_back {v v1 : ExtentVectorBase α} (x : α) :
      Reachable sizeofT T0 v → ExtentVectorBase.emplace_back sizeofT v x = some v1 →
      Reachable sizeofT T0 v1
  | emplace {v v1 : ExtentVectorBase α} (p : Int) (x : α) :
      Reachable sizeofT T0 v →
      (O2ExtentVector.emplace sizeofT T0 v p x = .ok v1 ∨
        O2ExtentVector.emplace sizeofT T0 v p x = .raised v1) →
      Reachable sizeofT T0 v1
  | insert {v v1 : ExtentVectorBase α} (p : Int) (n : Nat) (x : α) :
      Reachable sizeofT T0 v →
      (O2ExtentVector.insert sizeofT T0 v p n x = .ok v1 ∨
        O2ExtentVector.insert sizeofT T0 v p n x = .raised v1) →
      Reachable sizeofT T0 v1
  | resize {v v1 : ExtentVectorBase α} (n : Nat) (x : α) :
      Reachable sizeofT T0 v →
      (ExtentVectorBase.resize sizeofT v n x = .ok v1 ∨
        ExtentVectorBase.resize sizeofT v n x = .raised v1) →
      Reachable sizeofT T0 v1
  | reserve {v v1 : ExtentVectorBase α} (n : Nat) :
      Reachable sizeofT T0 v → ExtentVectorBase.reserve sizeofT v n = some v1 →
      Reachable sizeofT T0 v1
  | shrink_to_fit {v v1 : ExtentVectorBase α} :
      Reachable sizeofT T0 v → ExtentVectorBase.shrink_to_fit v = some v1 →
      Reachable sizeofT T0 v1
  | pop_back {v v1 : ExtentVectorBase α} :
      Reachable sizeofT T0 v →
      (ExtentVectorBase.pop_back v = .ok v1 ∨ ExtentVectorBase.pop_back v = .raised v1) →
      Reachable sizeofT T0 v1
  | clear {v : ExtentVectorBase α} :
      Reachable sizeofT T0 v → Reachable sizeofT T0 (ExtentVectorBase.clear v)

end detail
end DataDistribution
end O2

/-! ## The sender (`SubTimeFrameSender/src/SubTimeFrameSenderDevice.cxx`,
`SubTimeFrameSender/src/SubTimeFrameSenderOutput.cxx`)

The queues of the destinations are lists, oldest STF first. -/

namespace O2
namespace DataDistribution

namespace StfSenderOutput

/-- Modelled from the spec: `StfSenderOutput::PushStf(pEpnIdx, stf)` is defined in
`SubTimeFrameSenderOutput.h`, outside the sources at hand; it pushes the STF to the queue of
the destination `pEpnIdx`. A destination that does not exist is an access outside
`mStfQueues`. -/
def PushStf {D O : Type} (mStfQueues : List (List (SubTimeFrame D O))) (pEpnIdx : Nat)
    (pStf : SubTimeFrame D O) : Option (List (List (SubTimeFrame D O))) :=
  match mStfQueues.get? pEpnIdx with
  | none => none
  | some q => some (mStfQueues.set pEpnIdx (q ++ [pStf]))

/-- The end of the body of the loop of `StfSchedulerThread`, once a send slot is taken:
`lTargetEpn = lStfId % mDevice.getEpnNodeCount(); PushStf(lTargetEpn, std::move(lStf))`.
The remainder by zero is undefined, and so is reading the id of a released header. -/
def dispatch {D O : Type} (epnNodeCount : Nat) (mStfQueues : List (List (SubTimeFrame D O)))
    (lStf : SubTimeFrame D O) : Option (List (List (SubTimeFrame D O))) :=
  match lStf.mHeader with
  | none => none
  | some h =>
    let lStfId := h.mId
    if epnNodeCount = 0 then none
    else PushStf mStfQueues (lStfId % epnNodeCount) lStf

/-- The dispatches of `StfSchedulerThread` for the STFs it dequeues, in order. -/
def dispatchAll {D O : Type} (epnNodeCount : Nat) :
    List (SubTimeFrame D O) → List (List (SubTimeFrame D O)) →
      Option (List (List (SubTimeFrame D O)))
  | [], mStfQueues => some mStfQueues
  | lStf :: rest, mStfQueues =>
    match dispatch epnNodeCount mStfQueues lStf with
    | none => none
    | some q1 => dispatchAll epnNodeCount rest q1

/-- The state the scheduler thread and the sender threads of StfSenderOutput share, as far as
the send slots go: the counter `mNumSendSlots`, the number of STFs dispatched to a queue and
not yet sent, whether the device is in the running state, and whether the scheduler thread
holds a dequeued STF and stands at the loop that waits for a slot. The declaration of
`mNumSendSlots` is in `SubTimeFrameSenderOutput.h`, outside the sources at hand; the counter
is an integer here, so that a decrement at zero shows as `-1` (an unsigned counter wraps to
its largest value there). -/
structure SlotState where
  mNumSendSlots : Int
  inFlight : Nat
  running : Bool
  holding : Bool
  deriving DecidableEq, Repr

/-- The steps of the threads. -/
inductive SlotStep where
  /-- the scheduler thread: `mDevice.dequeue(eSenderIn)` returns an STF -/
  | dequeue
  /-- the scheduler thread leaves `while (mNumSendSlots == 0 && running())`, runs
  `mNumSendSlots--` and pushes the STF to a queue -/
  | takeSlot
  /-- a sender thread: `serialize` returns, `mNumSendSlots++` -/
  | send
  /-- a sender thread: `serialize` throws, the thread leaves its loop -/
  | sendFailed
  /-- the device leaves the running state -/
  | leaveRunning
  deriving DecidableEq, Repr

/-- The state at the start: all slots free, nothing dispatched. -/
def SlotState.initial (capacity : Nat) : SlotState :=
  { mNumSendSlots := capacity, inFlight := 0, running := true, holding := false }

/-- One step, if the thread can take it in the state `s`. The scheduler leaves the waiting
loop exactly when `mNumSendSlots == 0 && running()` is false; the statement behind the loop
is `mNumSendSlots--`, with no further test. -/
def SlotState.step (s : SlotState) : SlotStep → Option SlotState
  | .dequeue => if s.holding then none else some { s with holding := true }
  | .takeSlot =>
    if s.holding ∧ ¬ (s.mNumSendSlots = 0 ∧ s.running = true) then
      some { s with mNumSendSlots := s.mNumSendSlots - 1, inFlight := s.inFlight + 1,
                    holding := false }
    else none
  | .send =>
    if 0 < s.inFlight then
      some { s with inFlight := s.inFlight - 1, mNumSendSlots := s.mNumSendSlots + 1 }
    else none
  | .sendFailed =>
    if 0 < s.inFlight then some { s with inFlight := s.inFlight - 1 } else none
  | .leaveRunning => some { s with running := false }

/-- A sequence of steps. -/
def SlotState.run : List SlotStep → SlotState → Option SlotState
  | [], s => some s
  | e :: rest, s =>
    match s.step e with
    | none => none
    | some s1 => SlotState.run rest s1

end StfSenderOutput

namespace StfSenderDevice

/-- The loop of `StfSenderDevice::Run` on the STFs received, in order: with
`mEpnNodeCount > 0` the STF goes to the destination `lStfId % mEpnNodeCount`, otherwise it is
dropped. -/
def Run {D O : Type} (mEpnNodeCount : Nat) :
    List (SubTimeFrame D O) → List (List (SubTimeFrame D O)) →
      Option (List (List (SubTimeFrame D O)))
  | [], queues => some queues
  | lStf :: rest, queues =>
    match lStf.mHeader with
    | none => none
    | some h =>
      let lStfId := h.mId
      if mEpnNodeCount > 0 then
        match StfSenderOutput.PushStf queues (lStfId % mEpnNodeCount) lStf with
        | none => none
        | some q1 => Run mEpnNodeCount rest q1
      else Run mEpnNodeCount rest queues

end StfSenderDevice

/-! ## The DPL adapter (`Common/SubTimeFrameDplAdapter.cxx`,
`SubTimeFrameBuilder/src/SubTimeFrameBuilderDPL.cxx`) -/

/-- HBFrameHeader of `SubTimeFrameDataModel.h`: the index of the frame. -/
structure HBFrameHeader where
  mHBFrameId : Nat
  deriving DecidableEq, Repr

/-- The fields of `o2::framework::DataProcessingHeader` the adapter sets. The class is
declared in `Framework/DataProcessingHeader.h`, outside the sources at hand. -/
structure DataProcessingHeader where
  startTime : Nat
  duration : Nat
  deriving DecidableEq, Repr

/-- The header stack `o2::header::Stack{dataHeader, hbFrameHeader, dplHeader}`: the three
headers in this order. The class is declared in `Headers/DataHeader.h`, outside the sources
at hand. -/
structure Stack (D O : Type) where
  dataHeader : DataHeader D O
  hbFrameHeader : HBFrameHeader
  dplHeader : DataProcessingHeader
  deriving DecidableEq, Repr

namespace StfToDplAdapter

variable {D O : Type}

/-- The loop of `visit(EquipmentHBFrames&)` over the frames, from the index `i` on: the
pairs appended to the header vector and the payload vector. -/
def visitFrames (L : Layout D O) (lDataHdr : DataHeader D O) (mDplHdr : DataProcessingHeader) :
    Nat → List (FairMQMessage D O) → List (Stack D O × FairMQMessage D O)
  | _, [] => []
  | i, lHbfMsg :: rest =>
    ({ dataHeader := { lDataHdr with payloadSize := lHbfMsg.GetSize L }
       hbFrameHeader := { mHBFrameId := i }
       dplHeader := mDplHdr }, lHbfMsg)
      :: visitFrames L lDataHdr mDplHdr (i + 1) rest

/-- The visitor `StfToDplAdapter::visit(EquipmentHBFrames&)`: the pairs appended and the
object after the visit; `mEquipment` is the key of the entry. -/
def visitEquipment (K : Constants D O) (L : Layout D O) (mEquipment : EquipmentIdentifier D O)
    (mDplHdr : DataProcessingHeader) (pHBFrames : EquipmentHBFrames D O) :
    List (Stack D O × FairMQMessage D O) × EquipmentHBFrames D O :=
  let lDataHdr : DataHeader D O :=
    { K.defaultDataHeader with
      dataOrigin := mEquipment.mDataOrigin
      dataDescription := mEquipment.mDataDescription
      subSpecification := mEquipment.mSubSpecification }
  (visitFrames L lDataHdr mDplHdr 0 pHBFrames.mHBFrames, { mHeader := none, mHBFrames := [] })

/-- The loop of `visit(SubTimeFrame&)` over the entries of `mReadoutData`. -/
def visitEntries (K : Constants D O) (L : Layout D O) (mDplHdr : DataProcessingHeader) :
    ReadoutMap D O → List (Stack D O × FairMQMessage D O)
  | [] => []
  | (k, e) :: rest =>
    (visitEquipment K L k mDplHdr e).1 ++ visitEntries K L mDplHdr rest

/-- The member `StfToDplAdapter::adapt(SubTimeFrame&&, headers, payloads)` with the visitor
`visit(SubTimeFrame&)`: the two vectors and the source STF after the call. Reading `mId`
through a released header is undefined. -/
def adapt (K : Constants D O) (L : Layout D O) (pStf : SubTimeFrame D O)
    (pDplHdr : List (Stack D O)) (pDplData : List (FairMQMessage D O)) :
    Option (List (Stack D O) × List (FairMQMessage D O) × SubTimeFrame D O) :=
  match pStf.mHeader with
  | none => none
  | some h =>
    let mDplHdr : DataProcessingHeader := { startTime := h.mId, duration := 0 }
    let pairs := visitEntries K L mDplHdr pStf.mReadoutData
    some (pDplHdr ++ pairs.map Prod.fst, pDplData ++ pairs.map Prod.snd,
          { pStf with mHeader := none, mReadoutData := [] })

end StfToDplAdapter

/-- The pairs of the DPL layout for the frames of one equipment, in the words of the
specification: for the frame at the index `j`, a DataHeader with the origin, description
and sub-specification of the equipment and `payloadSize` = the size of the frame, an
HBFrameHeader with `j`, and the DataProcessingHeader; the payload is the frame. -/
def EquipmentHBFrames.dplLayout {D O : Type} (K : Constants D O) (L : Layout D O)
    (eq : EquipmentIdentifier D O) (dpl : DataProcessingHeader) (e : EquipmentHBFrames D O) :
    List (Stack D O × FairMQMessage D O) :=
  (List.range e.mHBFrames.length).zipWith
    (fun j f =>
      ({ dataHeader :=
           { K.defaultDataHeader with
             dataOrigin := eq.mDataOrigin, dataDescription := eq.mDataDescription,
             subSpecification := eq.mSubSpecification, payloadSize := f.GetSize L }
         hbFrameHeader := { mHBFrameId := j }
         dplHeader := dpl }, f))
    e.mHBFrames

/-- The DPL layout of the entries: the pairs of the equipments, in map order. -/
def ReadoutMap.dplLayout {D O : Type} (K : Constants D O) (L : Layout D O)
    (dpl : DataProcessingHeader) (m : ReadoutMap D O) : List (Stack D O × FairMQMessage D O) :=
  (m.map fun kv => kv.2.dplLayout K L kv.1 dpl).flatten

namespace StfToO2Adapter

/-- Modelled from the spec: the class `StfToO2Adapter`, which the injector of
`SubTimeFrameBuilder/src/SubTimeFrameBuilderDPL.cxx` uses, is declared outside the sources
at hand. The specification describes one adapter from an STF to pairs of a header stack and
a payload, the flattening that StfToDplAdapter does. -/
def adapt {D O : Type} (K : Constants D O) (L : Layout D O) (pStf : SubTimeFrame D O) :
    List (Stack D O × FairMQMessage D O) :=
  match StfToDplAdapter.adapt K L pStf [] [] with
  | none => []
  | some (lDplHdr, lDplData, _) => lDplHdr.zip lDplData

end StfToO2Adapter

namespace SubTimeFrameModelDplAdaptor

variable {D O : Type} [LinearOrder D]

/-- The loop `for (size_t i = 0; i < lDplHdrVec.size(); i++)` of the injector of
`Common/SubTimeFrameDplAdapter.cxx`: `startTime = *timesliceId; *timesliceId += step;`
(in `size_t`), then the pair is broadcast. The counter afterwards and the messages
broadcast. -/
def broadcastLoop (step : Nat) :
    Nat → List (Stack D O × FairMQMessage D O) → Nat × List (Stack D O × FairMQMessage D O)
  | timesliceId, [] => (timesliceId, [])
  | timesliceId, (hdr, data) :: rest =>
    let r := broadcastLoop step ((timesliceId + step) % 2 ^ 64) rest
    (r.1, ({ hdr with dplHeader := { hdr.dplHeader with startTime := timesliceId } }, data)
            :: r.2)

/-- One invocation of the injector `SubTimeFrameModelDplAdaptor(spec, startTime, step)`
returns, on the parts received: the value of `*timesliceId` afterwards and the messages
broadcast. The value `deserialize` returns is not looked at. -/
def invoke (K : Constants D O) (L : Layout D O) (step : Nat) (timesliceId : Nat)
    (parts : List (FairMQMessage D O)) :
    Option (Nat × List (Stack D O × FairMQMessage D O)) :=
  match InterleavedHdrDataDeserializer.deserialize SubTimeFrame.default parts with
  | none => none
  | some (_, lStf, _) =>
    match StfToDplAdapter.adapt K L lStf [] [] with
    | none => none
    | some (lDplHdrVec, lDplDataVec, _) =>
      some (broadcastLoop step timesliceId (lDplHdrVec.zip lDplDataVec))

/-- The invocations of one injector, in order, from the value `timesliceId` of the counter:
all the messages broadcast, in emission order. The counter starts at `startTime`. -/
def invokeAll (K : Constants D O) (L : Layout D O) (step : Nat) :
    Nat → List (List (FairMQMessage D O)) → Option (List (Stack D O × FairMQMessage D O))
  | _, [] => some []
  | timesliceId, parts :: rest =>
    match invoke K L step timesliceId parts with
    | none => none
    | some (t1, msgs) =>
      match invokeAll K L step t1 rest with
      | none => none
      | some more => some (msgs ++ more)

/-- One invocation of the injector that `SubTimeFrameBuilder/src/SubTimeFrameBuilderDPL.cxx`
defines under the same name: the pairs its adapter gives are broadcast as they are. The
adapter `StfToO2Adapter` is outside the sources at hand and is the parameter `adaptO2`; the
counter `timesliceId` and `step` are captured and not used. -/
def invokeBuilderDPL (adaptO2 : SubTimeFrame D O → List (Stack D O × FairMQMessage D O))
    (_step : Nat) (timesliceId : Nat) (parts : List (FairMQMessage D O)) :
    Option (Nat × List (Stack D O × FairMQMessage D O)) :=
  match InterleavedHdrDataDeserializer.deserialize SubTimeFrame.default parts with
  | none => none
  | some (_, lStf, _) => some (timesliceId, adaptO2 lStf)

end SubTimeFrameModelDplAdaptor

/-! ## The file sink (`Common/SubTimeFrameFileSink.cxx`)

A file of the session directory is known by the counter its name was built from; the
directory is new, so that a writer starts on an empty file. -/

/-- SubTimeFrameFileSink with its thread: the configuration, the counter of file names, the
writer with the counter of its file, the files of the writers destroyed so far, the output
queue, and the two locals of `DataHandlerThread`. -/
structure SubTimeFrameFileSink (D O : Type) where
  mEnabled : Bool
  mStfsPerFile : Nat
  mFileSize : Nat
  mCurrentFileIdx : Nat
  mStfWriter : Option (Nat × SubTimeFrameFileWriter)
  closedFiles : List (Nat × List Nat)
  mOutStfQueue : List (SubTimeFrame D O)
  lCurrentFileSize : Nat
  lCurrentFileStfs : Nat
  deriving DecidableEq, Repr

namespace SubTimeFrameFileSink

variable {D O : Type}

/-- The member `newStfFileName()`: the counter the name is built from, and the sink with the
counter advanced; `mCurrentFileIdx` is an `unsigned` of 32 bits. -/
def newStfFileName (s : SubTimeFrameFileSink D O) : Nat × SubTimeFrameFileSink D O :=
  (s.mCurrentFileIdx, { s with mCurrentFileIdx := (s.mCurrentFileIdx + 1) % 2 ^ 32 })

/-- The member `loadVerifyConfig` on options that name a root directory in which the session
directory can be created, followed by the start of the thread: the sink at the first round
of `DataHandlerThread`. A disabled sink has no writer, and the members it never reads are
zero here. The file name pattern holds `%n`, as its default does, so that the files of a
session have different names. -/
def loadVerifyConfig (enable : Bool) (stfsPerFile fileSize : Nat) : SubTimeFrameFileSink D O :=
  if !enable then
    { mEnabled := false, mStfsPerFile := 0, mFileSize := 0, mCurrentFileIdx := 0,
      mStfWriter := none, closedFiles := [], mOutStfQueue := [],
      lCurrentFileSize := 0, lCurrentFileStfs := 0 }
  else
    { mEnabled := true, mStfsPerFile := max 1 stfsPerFile, mFileSize := max 1 fileSize,
      mCurrentFileIdx := 1,
      mStfWriter := some (0, { mFile := [], good := true }),
      closedFiles := [], mOutStfQueue := [],
      lCurrentFileSize := 0, lCurrentFileStfs := 0 }

/-- The files of the session directory: those of the writers destroyed, then the file of the
writer at hand. -/
def files (s : SubTimeFrameFileSink D O) : List (Nat × List Nat) :=
  s.closedFiles ++
    (match s.mStfWriter with
     | none => []
     | some (c, w) => [(c, w.mFile)])

/-- The destruction of the writer at hand, when `mStfWriter` is assigned or reset. -/
def closeWriter (s : SubTimeFrameFileSink D O) : SubTimeFrameFileSink D O :=
  { s with closedFiles := s.files, mStfWriter := none }

/-- One round of the loop of `DataHandlerThread` for the STF `lStf` popped from the input
queue, the clock reading `now`. A call through a null `mStfWriter` is undefined. -/
def handle (K : Constants D O) (L : Layout D O) (s : SubTimeFrameFileSink D O) (now : Nat)
    (lStf : SubTimeFrame D O) : Option (SubTimeFrameFileSink D O) :=
  if !s.mEnabled then
    some { s with mOutStfQueue := s.mOutStfQueue ++ [lStf] }
  else
    let s1 : SubTimeFrameFileSink D O :=
      if s.lCurrentFileStfs ≥ s.mStfsPerFile ∨ s.lCurrentFileSize ≥ s.mFileSize then
        let named := newStfFileName (closeWriter s)
        { named.2 with
          lCurrentFileStfs := 0, lCurrentFileSize := 0
          mStfWriter := some (named.1, { mFile := [], good := true }) }
      else s
    match s1.mStfWriter with
    | none => none
    | some (c, w) =>
      match SubTimeFrameFileWriter.write K L now w lStf with
      | none => none
      | some (w1, written) =>
        if written ≠ 0 then
          some { s1 with
            mStfWriter := some (c, w1)
            lCurrentFileStfs := s1.lCurrentFileStfs + 1
            lCurrentFileSize := w1.size }
        else
          some { closeWriter { s1 with mStfWriter := some (c, w1) } with mEnabled := false }

/-- The member `DataHandlerThread` on the STFs popped from the input queue while the device
runs, each with the reading of the clock at its write. -/
def DataHandlerThread (K : Constants D O) (L : Layout D O) :
    List (Nat × SubTimeFrame D O) → SubTimeFrameFileSink D O → Option (SubTimeFrameFileSink D O)
  | [], s => some s
  | (now, lStf) :: rest, s =>
    match handle K L s now lStf with
    | none => none
    | some s1 => DataHandlerThread K L rest s1

end SubTimeFrameFileSink

/-! ### Rotation by count, in the words of the specification -/

/-- The STFs of the file with the counter `c` when a file takes `k` STFs: those at the
indices `c * k` to `c * k + k - 1` of the arrivals, the indices `i` with `i / k = c`, in
arrival order. -/
def rotatedBatch {α : Type} (k c : Nat) (xs : List α) : List α :=
  (xs.drop (c * k)).take k

/-- The bytes of the file with the counter `c`: the records of its STFs, one after the
other. -/
def SubTimeFrameFileSink.rotatedContent {D O : Type} (K : Constants D O) (L : Layout D O)
    (k c : Nat) (inputs : List (Nat × SubTimeFrame D O)) : List Nat :=
  ((rotatedBatch k c inputs).map fun p => p.2.fileRecord K L p.1).flatten

/-- The files of the session directory after the STFs `inputs`, when a file takes `k` STFs:
the counters `0` to `(n - 1) / k`, the counter of the file of the last STF; before the
first STF the file with the counter 0 is there and empty. -/
def SubTimeFrameFileSink.rotatedFiles {D O : Type} (K : Constants D O) (L : Layout D O)
    (k : Nat) (inputs : List (Nat × SubTimeFrame D O)) : List (Nat × List Nat) :=
  (List.range ((inputs.length - 1) / k + 1)).map fun c =>
    (c, SubTimeFrameFileSink.rotatedContent K L k c inputs)

/-- The sink after the STFs `inputs` under rotation by count: the files before the last are
closed, the writer is on the file of the last STF. -/
def SubTimeFrameFileSink.rotatedState {D O : Type} (K : Constants D O) (L : Layout D O)
    (k fileSize : Nat) (inputs : List (Nat × SubTimeFrame D O)) : SubTimeFrameFileSink D O :=
  { mEnabled := true
    mStfsPerFile := max 1 k
    mFileSize := max 1 fileSize
    mCurrentFileIdx := (inputs.length - 1) / k + 1
    mStfWriter := some ((inputs.length - 1) / k,
      { mFile := SubTimeFrameFileSink.rotatedContent K L k ((inputs.length - 1) / k) inputs
        good := true })
    closedFiles := (List.range ((inputs.length - 1) / k)).map fun c =>
      (c, SubTimeFrameFileSink.rotatedContent K L k c inputs)
    mOutStfQueue := []
    lCurrentFileSize :=
      (SubTimeFrameFileSink.rotatedContent K L k ((inputs.length - 1) / k) inputs).length
    lCurrentFileStfs := inputs.length - (inputs.length - 1) / k * k }

end DataDistribution
end O2

/-! ## Names of the sink files (`SubTimeFrameFileSink::newStfFileName`)

A string is the list of its characters. -/

namespace O2
namespace DataDistribution

/-- The broken-down time `struct tm` that `localtime` returns, as far as the formats used
read it: the year in full, the month from 1, the day, the hour, the minute, the second. -/
structure Tm where
  year : Nat
  month : Nat
  day : Nat
  hour : Nat
  min : Nat
  sec : Nat
  deriving DecidableEq, Repr

/-- The digits `os << std::dec << std::setw(width) << std::setfill('0') << n` writes: the
decimal digits of `n`, with zeros in front up to `width` characters. -/
def setwDecimal (width n : Nat) : List Char :=
  List.replicate (width - (Nat.toDigits 10 n).length) '0' ++ Nat.toDigits 10 n

/-- Modelled from the C standard: `strftime(buf, size, format, tm)` for the conversions
`%F` (`%Y-%m-%d`), `%H`, `%M`, `%S` and `%%` (a percent sign); every other character is
copied. The buffer of 32 characters takes every text produced here. -/
def strftime : List Char → Tm → List Char
  | [], _ => []
  | '%' :: 'F' :: rest, t =>
    setwDecimal 4 t.year ++ '-' :: setwDecimal 2 t.month ++ '-' :: setwDecimal 2 t.day
      ++ strftime rest t
  | '%' :: 'H' :: rest, t => setwDecimal 2 t.hour ++ strftime rest t
  | '%' :: 'M' :: rest, t => setwDecimal 2 t.min ++ strftime rest t
  | '%' :: 'S' :: rest, t => setwDecimal 2 t.sec ++ strftime rest t
  | '%' :: '%' :: rest, t => '%' :: strftime rest t
  | c :: rest, t => c :: strftime rest t

/-- Modelled from the Boost documentation: the scan of `boost::replace_all(input, search,
format)`, left to right; an occurrence of `search` is replaced by `format` and the scan goes
on behind it. The first argument bounds the number of rounds by the length of the input. -/
def replace_all_scan (search format : List Char) : Nat → List Char → List Char
  | 0, input => input
  | _ + 1, [] => []
  | fuel + 1, c :: rest =>
    if (c :: rest).take search.length = search then
      format ++ replace_all_scan search format fuel ((c :: rest).drop search.length)
    else c :: replace_all_scan search format fuel rest

/-- Modelled from the Boost documentation: `boost::replace_all(input, search, format)` for a
search string that is not empty. -/
def replace_all (input search format : List Char) : List Char :=
  replace_all_scan search format input.length input

/-- The text `SubTimeFrameFileSink::newStfFileName` returns for the pattern
`mFileNamePattern`, the counter `mCurrentFileIdx` and the local time `lNow`, and the counter
after the call (an `unsigned` of 32 bits). -/
def SubTimeFrameFileSink.newStfFileNameText (mFileNamePattern : List Char)
    (mCurrentFileIdx : Nat) (lNow : Tm) : List Char × Nat :=
  let lFileName := mFileNamePattern
  let lIdxString := setwDecimal 6 mCurrentFileIdx
  let lFileName := replace_all lFileName "%n".toList lIdxString
  let lTimeBuf := strftime "%F".toList lNow
  let lFileName := replace_all lFileName "%D".toList lTimeBuf
  let lTimeBuf := strftime "%%H_%M_%S".toList lNow
  let lFileName := replace_all lFileName "%T".toList lTimeBuf
  (lFileName, (mCurrentFileIdx + 1) % 2 ^ 32)

/-- The name the specification gives the file with the counter `k`: the pattern with every
`%n` replaced by `k` in six digits, every `%D` by the date as `%F` writes it and every `%T`
by the time as `%H_%M_%S` writes it. This definition follows the words of the
specification, to be compared with `SubTimeFrameFileSink.newStfFileNameText`. -/
def SubTimeFrameFileSink.specFileName : List Char → Nat → Tm → List Char
  | [], _, _ => []
  | '%' :: 'n' :: rest, k, t => setwDecimal 6 k ++ specFileName rest k t
  | '%' :: 'D' :: rest, k, t =>
    setwDecimal 4 t.year ++ '-' :: setwDecimal 2 t.month ++ '-' :: setwDecimal 2 t.day
      ++ specFileName rest k t
  | '%' :: 'T' :: rest, k, t =>
    setwDecimal 2 t.hour ++ '_' :: setwDecimal 2 t.min ++ '_' :: setwDecimal 2 t.sec
      ++ specFileName rest k t
  | c :: rest, k, t => c :: specFileName rest k t

namespace detail

/-- The assertion `assert((next_cap * sizeof(T)) % PAGESIZE_ALIGN < sizeof(T))` that ends
`expand_size`, on the value `next_cap` the function returns. -/
def ExtentVectorBase.expand_size_assertion (sizeofT next_cap : Nat) : Bool :=
  decide ((next_cap * sizeofT) % ExtentVectorBase.PAGESIZE_ALIGN < sizeofT)

/-- The number of slots of the extent a growth allocates, in the words of the
specification: `max(1.5 × current capacity, requested)` rounded up to a page of 4 KiB. This
definition follows the words of the specification, to be compared with `make_space_for`. -/
def ExtentVectorBase.specNewExtentSlots (sizeofT capacity requested : Nat) : Nat :=
  (max (capacity * 3 / 2) requested * sizeofT + 4096 - 1) / 4096 * 4096 / sizeofT

/-- The assertions of `emplace_back` and of a round of `fill_expand` before the element is
constructed: `mBackPosition.mExtentIndex < extent_count()` and
`mBackPosition.mElementIndex == e.size()` for the extent `e` at that index. -/
def ExtentVectorBase.backAssertions {α : Type} (v : ExtentVectorBase α) : Prop :=
  v.mBackPosition.mExtentIndex < v.mExtents.length ∧
  ∀ e, v.mExtents.get? v.mBackPosition.mExtentIndex = some e →
    v.mBackPosition.mElementIndex = (e.size : Int)

/-- The assertions of `pop_back` on `it = mBackPosition - 1`:
`it.mExtentIndex < mExtents.size()` and `it.mVectorIndex == mSize - 1`. -/
def ExtentVectorBase.popAssertions {α : Type} (v : ExtentVectorBase α) : Prop :=
  ∃ it, ExtentPosition.operatorMinusEq v v.mBackPosition 1 = some it ∧
    it.mExtentIndex < v.mExtents.length ∧ it.mVectorIndex = (v.mSize : Int) - 1

end detail

end DataDistribution
end O2

/-! ## Concrete inputs

Descriptors are numbers here: CRUDATA is 1, SUBTIMEFRAME is 2, FILESUBTIMEFRAME is 3, and
the origins CRU and FLP are 1 and 2. -/

namespace O2
namespace DataDistribution
namespace Examples

/-- Constants with numbers for the descriptors; a header record takes six storage units in
a file, a meta record three. -/
def K0 : Constants Nat Nat :=
  { gDataDescriptionCruData := 1
    gDataOriginCRU := 1
    gDataDescriptionSubTimeFrame := 2
    gDataOriginFLP := 2
    gDataDescFileSubTimeFrame := 3
    gSerializationMethodNone := 0
    defaultDataHeader :=
      { dataDescription := 0, dataOrigin := 0, subSpecification := 0, payloadSize := 0,
        headerSize := 0, payloadSerializationMethod := 0 }
    defaultMaxHBFrames := 0
    sizeofEquipmentHBFrames := 6
    sizeofSubTimeFrameHeader := 8
    sizeofDataHeader := 6
    sizeofSubTimeFrameFileMeta := 3 }

/-- A layout that stores one field per storage unit. -/
def L0 : Layout Nat Nat :=
  { encodeDataHeader := fun h =>
      [h.dataDescription, h.dataOrigin, h.subSpecification, h.payloadSize, h.headerSize,
        h.payloadSerializationMethod]
    decodeDataHeader := fun bytes =>
      { dataDescription := bytes.getD 0 0, dataOrigin := bytes.getD 1 0,
        subSpecification := bytes.getD 2 0, payloadSize := bytes.getD 3 0,
        headerSize := bytes.getD 4 0, payloadSerializationMethod := bytes.getD 5 0 }
    encodeFileMeta := fun m => [m.mStfFileVersion, m.mStfSizeInFile, m.mWriteTimeMs]
    decodeFileMeta := fun bytes =>
      { mStfFileVersion := bytes.getD 0 0, mStfSizeInFile := bytes.getD 1 0,
        mWriteTimeMs := bytes.getD 2 0 }
    encodeStfHeader := fun h =>
      [h.dataDescription, h.dataOrigin, h.subSpecification, h.payloadSize, h.headerSize,
        h.payloadSerializationMethod, h.mId, h.mMaxHBFrames] }

/-- The equipment `(CRUDATA, CRU, link 7)`. -/
def eqLink7 : EquipmentIdentifier Nat Nat :=
  { mDataDescription := 1, mDataOrigin := 1, mSubSpecification := 7 }

/-- The equipment `(CRUDATA, CRU, link 3)`. -/
def eqLink3 : EquipmentIdentifier Nat Nat :=
  { mDataDescription := 1, mDataOrigin := 1, mSubSpecification := 3 }

/-- The equipment header the constructor of EquipmentHBFrames builds for `id`, with the
count `n`. -/
def equipmentHeaderOf (id : EquipmentIdentifier Nat Nat) (n : Nat) : EquipmentHeader Nat Nat :=
  { dataDescription := id.mDataDescription, dataOrigin := id.mDataOrigin,
    subSpecification := id.mSubSpecification, payloadSize := n, headerSize := 6,
    payloadSerializationMethod := 0 }

/-- The STF header the constructor of SubTimeFrame builds for the id `stfId`, with the
count `n`. -/
def stfHeaderOf (stfId n : Nat) : SubTimeFrameHeader Nat Nat :=
  { dataDescription := 2, dataOrigin := 2, subSpecification := 0, payloadSize := n,
    headerSize := 8, payloadSerializationMethod := 0, mId := stfId, mMaxHBFrames := 0 }

/-- The STF with id 42 and no equipment, `SubTimeFrame(0, 42)`. -/
def stfEmpty42 : SubTimeFrame Nat Nat :=
  { mHeader := some (stfHeaderOf 42 0), mReadoutData := [], mFMQChannelId := 0 }

/-- The STF with id 42 and the one equipment `(CRUDATA, CRU, link 7)` holding the three
frames `01`, `02 02`, `03 03 03`. -/
def stfThreeFrames : SubTimeFrame Nat Nat :=
  { mHeader := some (stfHeaderOf 42 1)
    mReadoutData :=
      [(eqLink7, { mHeader := some (equipmentHeaderOf eqLink7 3)
                   mHBFrames := [.data [1], .data [2, 2], .data [3, 3, 3]] })]
    mFMQChannelId := 0 }

/-- The STF with id 10 and two equipments, link 3 with two frames and link 7 with one. -/
def stfTwoEquipments : SubTimeFrame Nat Nat :=
  { mHeader := some (stfHeaderOf 10 2)
    mReadoutData :=
      [(eqLink3, { mHeader := some (equipmentHeaderOf eqLink3 2)
                   mHBFrames := [.data [5, 6], .data []] }),
       (eqLink7, { mHeader := some (equipmentHeaderOf eqLink7 1)
                   mHBFrames := [.data [9]] })]
    mFMQChannelId := 0 }

/-- The STF with id 10 and the one equipment link 7 holding the one frame `09 08`. -/
def stfOneFrame : SubTimeFrame Nat Nat :=
  { mHeader := some (stfHeaderOf 10 1)
    mReadoutData :=
      [(eqLink7, { mHeader := some (equipmentHeaderOf eqLink7 1), mHBFrames := [.data [9, 8]] })]
    mFMQChannelId := 0 }

/-- The STF with id 10 and the one equipment link 7 holding the two frames `09`, `08 07`. -/
def stfTwoFrames : SubTimeFrame Nat Nat :=
  { mHeader := some (stfHeaderOf 10 1)
    mReadoutData :=
      [(eqLink7, { mHeader := some (equipmentHeaderOf eqLink7 2)
                   mHBFrames := [.data [9], .data [8, 7]] })]
    mFMQChannelId := 0 }

/-- The equipment `(CRUDATA, FLP, link 7)`: the description and the sub-specification of
`eqLink7`, another origin. -/
def eqLink7Flp : EquipmentIdentifier Nat Nat :=
  { mDataDescription := 1, mDataOrigin := 2, mSubSpecification := 7 }

/-- The STF with id 10 and the one equipment `(CRUDATA, FLP, link 7)` holding the one frame
`04`. -/
def stfOtherOrigin : SubTimeFrame Nat Nat :=
  { mHeader := some (stfHeaderOf 10 1)
    mReadoutData :=
      [(eqLink7Flp, { mHeader := some (equipmentHeaderOf eqLink7Flp 1), mHBFrames := [.data [4]] })]
    mFMQChannelId := 0 }

/-- The STF `stfOneFrame` with the frame `04` appended to the frames of its one equipment
`(CRUDATA, CRU, link 7)`. -/
def stfOneFrameJoined : SubTimeFrame Nat Nat :=
  { mHeader := some (stfHeaderOf 10 1)
    mReadoutData :=
      [(eqLink7, { mHeader := some (equipmentHeaderOf eqLink7 2)
                   mHBFrames := [.data [9, 8], .data [4]] })]
    mFMQChannelId := 0 }

/-- The STF `stfOtherOrigin` with the frames `01`, `02` appended to the frames of its one
equipment `(CRUDATA, FLP, link 7)`. -/
def stfOtherOriginJoined : SubTimeFrame Nat Nat :=
  { mHeader := some (stfHeaderOf 10 1)
    mReadoutData :=
      [(eqLink7Flp, { mHeader := some (equipmentHeaderOf eqLink7Flp 3)
                      mHBFrames := [.data [4], .data [1], .data [2]] })]
    mFMQChannelId := 0 }

/-- A file of 25 storage units: a file-level header and a Meta record that announces 1000
units, then a whole record of 16 units with the one frame `09` of link 7. -/
def fileOversizedThenRecord : List Nat :=
  [3, 2, 0, 3, 0, 0, 1, 1000, 7,
   3, 2, 0, 3, 0, 0, 1, 16, 7, 1, 1, 7, 1, 0, 0, 9]

/-- The size of the elements of the example vectors: a page of 4096 bytes holds four. -/
def sizeofElement : Nat := 1024

/-- The vector after `push_back(10)` on an empty vector: one extent of four slots. -/
def vecOne : detail.ExtentVectorBase Nat :=
  { mExtents := [{ mStart := [10], mCapacity := 4 }]
    mSize := 1
    mCapacity := 4
    mBackPosition := { mExtentIndex := 0, mElementIndex := 1, mVectorIndex := 1 } }

/-- The vector that holds `10 20 30 40` in one full extent of four slots: its size equals
its capacity. -/
def vecFull : detail.ExtentVectorBase Nat :=
  { mExtents := [{ mStart := [10, 20, 30, 40], mCapacity := 4 }]
    mSize := 4
    mCapacity := 4
    mBackPosition := { mExtentIndex := 0, mElementIndex := 0, mVectorIndex := 4 } }

/-- The vector that holds `10 20 30 40 50` in two extents of four slots. -/
def vecTwoExtents : detail.ExtentVectorBase Nat :=
  { mExtents := [{ mStart := [10, 20, 30, 40], mCapacity := 4 },
                 { mStart := [50], mCapacity := 4 }]
    mSize := 5
    mCapacity := 8
    mBackPosition := { mExtentIndex := 1, mElementIndex := 1, mVectorIndex := 5 } }

/-- The vector `reserve(5)` leaves from the full vector `10 20 30 40`: a second extent of
four slots that holds no element. -/
def vecReserved : detail.ExtentVectorBase Nat :=
  { mExtents := [{ mStart := [10, 20, 30, 40], mCapacity := 4 },
                 { mStart := [], mCapacity := 4 }]
    mSize := 4
    mCapacity := 8
    mBackPosition := { mExtentIndex := 1, mElementIndex := 0, mVectorIndex := 4 } }

/-- The vector after `resize(5, 0)` on the vector that holds `10`: a second extent of four
slots holds the fifth element. -/
def vecResized : detail.ExtentVectorBase Nat :=
  { mExtents := [{ mStart := [10, 0, 0, 0], mCapacity := 4 },
                 { mStart := [0], mCapacity := 4 }]
    mSize := 5
    mCapacity := 8
    mBackPosition := { mExtentIndex := 1, mElementIndex := 1, mVectorIndex := 5 } }

/-- The message vector of the interleaved layout for `stfTwoFrames`. -/
def wireStfTwoFrames : List (FairMQMessage Nat Nat) :=
  [.stfHeader (stfHeaderOf 10 1), .equipmentHeader (equipmentHeaderOf eqLink7 2),
   .data [9], .data [8, 7]]

/-- The STF with the id `i` and the one equipment link 7 holding the one frame `09 08`. -/
def stfWithId (i : Nat) : SubTimeFrame Nat Nat :=
  { mHeader := some (stfHeaderOf i 1)
    mReadoutData :=
      [(eqLink7, { mHeader := some (equipmentHeaderOf eqLink7 1), mHBFrames := [.data [9, 8]] })]
    mFMQChannelId := 0 }

/-- A file of two records: that of the STF with the two frames `09`, `08 07` of link 7
written at the time 1000 (24 storage units), then that of the STF with the one frame
`09 08` written at the time 1001 (17 storage units). -/
def fileTwoRecords : List Nat :=
  [3, 2, 0, 3, 0, 0, 1, 24, 1000, 1, 1, 7, 1, 0, 0, 9, 1, 1, 7, 2, 0, 0, 8, 7,
   3, 2, 0, 3, 0, 0, 1, 17, 1001, 1, 1, 7, 2, 0, 0, 9, 8]

/-- The local time 2018-03-05 14:07:09. -/
def tmAfternoon : Tm :=
  { year := 2018, month := 3, day := 5, hour := 14, min := 7, sec := 9 }

/-- A message vector in the interleaved layout that announces two equipments and names
`(CRUDATA, CRU, link 7)` with the frame `01` and `(CRUDATA, FLP, link 7)` with the frame
`02`: two identifiers that `operator<` does not tell apart. -/
def wireEquivalentEquipments : List (FairMQMessage Nat Nat) :=
  [.stfHeader (stfHeaderOf 10 2),
   .equipmentHeader (equipmentHeaderOf eqLink7 1), .data [1],
   .equipmentHeader (equipmentHeaderOf eqLink7Flp 1), .data [2]]

/-- The batches of the split layout for the same STF header, equipment headers and
frames. -/
def channelEquivalentEquipments : Channel Nat Nat :=
  [[.stfHeader (stfHeaderOf 10 2), .equipmentHeader (equipmentHeaderOf eqLink7 1),
    .equipmentHeader (equipmentHeaderOf eqLink7Flp 1)],
   [.data [1], .data [2]]]

/-- The STF both deserializers build from these messages: the header announces two
equipments, one entry is there. -/
def stfOneOfTwo : SubTimeFrame Nat Nat :=
  { mHeader := some (stfHeaderOf 10 2)
    mReadoutData :=
      [(eqLink7, { mHeader := some (equipmentHeaderOf eqLink7 1), mHBFrames := [.data [1]] })]
    mFMQChannelId := -1 }

/-- The STFs with the ids 10 to 14, each with the reading of the clock at its write. -/
def stfs10to14 : List (Nat × SubTimeFrame Nat Nat) :=
  [(1, stfWithId 10), (2, stfWithId 11), (3, stfWithId 12), (4, stfWithId 13),
   (5, stfWithId 14)]

end Examples
end DataDistribution
end O2

/-! # Theorems: the SubTimeFrame data model -/

namespace O2
namespace DataDistribution

section DataModel

variable {D O : Type}

theorem countOk_setPayloadSize {e : EquipmentHBFrames D O} (h : e.mHeader.isSome = true) :
    ∃ e1, e.setPayloadSize = .ok e1 ∧ e1.countOk = true ∧ e1.mHBFrames = e.mHBFrames := by
  unfold EquipmentHBFrames.setPayloadSize
  cases hh : e.mHeader with
  | none => simp [hh] at h
  | some hd => exact ⟨_, rfl, by simp [EquipmentHBFrames.countOk], rfl⟩

theorem isSome_of_countOk {e : EquipmentHBFrames D O} (h : e.countOk = true) :
    e.mHeader.isSome = true := by
  unfold EquipmentHBFrames.countOk at h
  cases hh : e.mHeader with
  | none => simp [hh] at h
  | some hd => rfl

theorem countOk_new (K : Constants D O) (c : Int) (id : EquipmentIdentifier D O) :
    (EquipmentHBFrames.new K c id).mHeader.isSome = true := rfl

theorem all_of_all_mem {P : EquipmentHBFrames D O → Bool} {m : ReadoutMap D O}
    (h : m.all (fun kv => P kv.2) = true)
    {kv : EquipmentIdentifier D O × EquipmentHBFrames D O} (hk : kv ∈ m) : P kv.2 = true := by
  rw [List.all_eq_true] at h
  exact h kv hk

theorem SubTimeFrame.invariant_iff (s : SubTimeFrame D O) :
    s.invariant = true ↔
      (∃ h, s.mHeader = some h ∧ h.payloadSize = s.mReadoutData.length) ∧
      s.mReadoutData.all (fun kv => kv.2.countOk) = true := by
  unfold SubTimeFrame.invariant
  cases hh : s.mHeader with
  | none => simp
  | some h => simp

theorem SubTimeFrame.invariant_updateCount {s : SubTimeFrame D O} (hh : s.mHeader.isSome = true)
    (hall : s.mReadoutData.all (fun kv => kv.2.countOk) = true) :
    ∃ s1, s.updateCount = .ok s1 ∧ s1.invariant = true ∧ s1.mReadoutData = s.mReadoutData := by
  unfold SubTimeFrame.updateCount
  cases hs : s.mHeader with
  | none => simp [hs] at hh
  | some h =>
    refine ⟨_, rfl, ?_, rfl⟩
    rw [SubTimeFrame.invariant_iff]
    exact ⟨⟨_, rfl, rfl⟩, hall⟩

variable [LinearOrder D]

theorem operatorLt_iff (a b : EquipmentIdentifier D O) :
    a.operatorLt b = true ↔
      a.mDataDescription < b.mDataDescription ∨
      (a.mDataDescription = b.mDataDescription ∧ a.mSubSpecification < b.mSubSpecification) := by
  unfold EquipmentIdentifier.operatorLt
  by_cases h1 : a.mDataDescription < b.mDataDescription
  · simp [h1]
  · by_cases h2 : a.mDataDescription = b.mDataDescription ∧
        a.mSubSpecification < b.mSubSpecification
    · simp [h1, h2]
    · have h3 : ¬ (a.mDataDescription = b.mDataDescription ∧
          a.mSubSpecification = b.mSubSpecification ∧
          a.mSubSpecification < b.mSubSpecification) := by
        rintro ⟨e1, e2, e3⟩
        omega
      simp [h1, h2, h3]

theorem operatorLt_irrefl (a : EquipmentIdentifier D O) : a.operatorLt a = false := by
  cases h : a.operatorLt a
  · rfl
  · rw [operatorLt_iff] at h
    rcases h with h | ⟨_, h⟩
    · exact absurd h (lt_irrefl _)
    · exact absurd h (lt_irrefl _)

theorem operatorLt_asymm {a b : EquipmentIdentifier D O} (h : a.operatorLt b = true) :
    b.operatorLt a = false := by
  cases h2 : b.operatorLt a
  · rfl
  · rw [operatorLt_iff] at h h2
    rcases h with h | ⟨e, h⟩ <;> rcases h2 with h2 | ⟨e2, h2⟩
    · exact absurd h (lt_asymm h2)
    · rw [e2] at h; exact absurd h (lt_irrefl _)
    · rw [e] at h2; exact absurd h2 (lt_irrefl _)
    · omega

namespace StdMap

theorem length_assignAt (m : ReadoutMap D O) (k : EquipmentIdentifier D O)
    (v : EquipmentHBFrames D O) : (assignAt m k v).length = m.length := by
  induction m with
  | nil => rfl
  | cons hd tl ih =>
    obtain ⟨k1, v1⟩ := hd
    unfold assignAt
    split_ifs <;> simp [ih]

theorem all_assignAt (P : EquipmentHBFrames D O → Bool) (m : ReadoutMap D O)
    (k : EquipmentIdentifier D O) (v : EquipmentHBFrames D O)
    (hm : m.all (fun kv => P kv.2) = true) (hv : P v = true) :
    (assignAt m k v).all (fun kv => P kv.2) = true := by
  induction m with
  | nil => rfl
  | cons hd tl ih =>
    obtain ⟨k1, v1⟩ := hd
    simp only [List.all_cons, Bool.and_eq_true] at hm
    unfold assignAt
    split_ifs
    · simp only [List.all_cons, Bool.and_eq_true]; exact ⟨hm.1, ih hm.2⟩
    · simp only [List.all_cons, Bool.and_eq_true]; exact hm
    · simp only [List.all_cons, Bool.and_eq_true]; exact ⟨hv, hm.2⟩

theorem all_emplace (P : EquipmentHBFrames D O → Bool) (m : ReadoutMap D O)
    (k : EquipmentIdentifier D O) (v : EquipmentHBFrames D O)
    (hm : m.all (fun kv => P kv.2) = true) (hv : P v = true) :
    (emplace m k v).all (fun kv => P kv.2) = true := by
  induction m with
  | nil => simp [emplace, hv]
  | cons hd tl ih =>
    obtain ⟨k1, v1⟩ := hd
    simp only [List.all_cons, Bool.and_eq_true] at hm
    unfold emplace
    split_ifs
    · simp only [List.all_cons, Bool.and_eq_true]; exact ⟨hm.1, ih hm.2⟩
    · simp only [List.all_cons, Bool.and_eq_true]; exact ⟨hv, hm⟩
    · simp only [List.all_cons, Bool.and_eq_true]; exact hm

/-- After `emplace m k v` a lookup of `k` succeeds; the entry found is the one `find` gave
before, or the new one. -/
theorem find_emplace (m : ReadoutMap D O) (k : EquipmentIdentifier D O)
    (v : EquipmentHBFrames D O) :
    (∃ kv, find m k = some kv ∧ find (emplace m k v) k = some kv) ∨
    (find m k = none ∧ find (emplace m k v) k = some (k, v)) := by
  induction m with
  | nil =>
    right
    simp [find, emplace, operatorLt_irrefl]
  | cons hd tl ih =>
    obtain ⟨k1, v1⟩ := hd
    by_cases h1 : k1.operatorLt k = true
    · simp only [find, emplace, h1, if_true]
      exact ih
    · by_cases h2 : k.operatorLt k1 = true
      · right
        simp [find, emplace, h1, h2, operatorLt_irrefl]
      · left
        exact ⟨(k1, v1), by simp [find, h1, h2], by simp [find, emplace, h1, h2]⟩

theorem all_assignAt_emplace (P : EquipmentHBFrames D O → Bool) (m : ReadoutMap D O)
    (k : EquipmentIdentifier D O) (fresh v : EquipmentHBFrames D O)
    (hm : m.all (fun kv => P kv.2) = true) (hf : find m k = none) (hv : P v = true) :
    (assignAt (emplace m k fresh) k v).all (fun kv => P kv.2) = true := by
  induction m with
  | nil => simp [emplace, assignAt, operatorLt_irrefl, hv]
  | cons hd tl ih =>
    obtain ⟨k1, v1⟩ := hd
    simp only [List.all_cons, Bool.and_eq_true] at hm
    unfold find at hf
    by_cases h1 : k1.operatorLt k = true
    · simp only [h1, if_true] at hf
      simp only [emplace, assignAt, h1, if_true, List.all_cons, Bool.and_eq_true]
      exact ⟨hm.1, ih hm.2 hf⟩
    · by_cases h2 : k.operatorLt k1 = true
      · simp only [emplace, assignAt, h1, h2, operatorLt_irrefl, if_true, Bool.false_eq_true,
          if_false, List.all_cons, Bool.and_eq_true]
        exact ⟨hv, hm.1, hm.2⟩
      · rw [if_neg h1, if_neg h2] at hf
        exact absurd hf (by simp)

theorem find_mem {m : ReadoutMap D O} {k : EquipmentIdentifier D O}
    {kv : EquipmentIdentifier D O × EquipmentHBFrames D O} (h : find m k = some kv) :
    kv ∈ m := by
  induction m with
  | nil => simp [find] at h
  | cons hd tl ih =>
    obtain ⟨k1, v1⟩ := hd
    unfold find at h
    split_ifs at h with h1 h2
    · exact List.mem_cons_of_mem _ (ih h)
    · cases h; exact List.mem_cons_self _ _

end StdMap

namespace SubTimeFrame

/-- The shared body of the two mutators keeps the invariant, when `f` returns normally with
a right count on every entry whose header is present. -/
theorem invariant_withEquipment (K : Constants D O) {s : SubTimeFrame D O}
    (hinv : s.invariant = true) (id : EquipmentIdentifier D O)
    (f : EquipmentHBFrames D O → Outcome (EquipmentHBFrames D O))
    (hf : ∀ e, e.mHeader.isSome = true → ∃ e1, f e = .ok e1 ∧ e1.countOk = true) :
    ∃ s1, withEquipment K s id f = .ok s1 ∧ s1.invariant = true := by
  rw [invariant_iff] at hinv
  obtain ⟨⟨h, hh, _⟩, hall⟩ := hinv
  unfold withEquipment
  set m1 := (if (StdMap.find s.mReadoutData id).isNone then
      StdMap.emplace s.mReadoutData id (EquipmentHBFrames.new K s.mFMQChannelId id)
    else s.mReadoutData) with hm1
  -- every entry of m1 has its header
  have hsome : m1.all (fun kv => kv.2.mHeader.isSome) = true := by
    have h0 : s.mReadoutData.all (fun kv => kv.2.mHeader.isSome) = true := by
      rw [List.all_eq_true] at hall ⊢
      intro kv hkv
      exact isSome_of_countOk (hall kv hkv)
    rw [hm1]
    split_ifs
    · exact StdMap.all_emplace (fun e => e.mHeader.isSome) _ _ _ h0 (countOk_new K _ _)
    · exact h0
  -- the entries of m1 other than the one at id have a right count
  have hfind : ∃ kv, StdMap.find m1 id = some kv := by
    rw [hm1]
    split_ifs with hn
    · rcases StdMap.find_emplace s.mReadoutData id
          (EquipmentHBFrames.new K s.mFMQChannelId id) with ⟨kv, _, h2⟩ | ⟨_, h2⟩
      · exact ⟨kv, h2⟩
      · exact ⟨_, h2⟩
    · cases hf0 : StdMap.find s.mReadoutData id with
      | none => simp [hf0] at hn
      | some kv => exact ⟨kv, rfl⟩
  obtain ⟨⟨k0, e0⟩, hkv⟩ := hfind
  have he0 : e0.mHeader.isSome = true :=
    all_of_all_mem (P := fun e => e.mHeader.isSome) hsome (StdMap.find_mem hkv)
  obtain ⟨e1, hfe, hc1⟩ := hf e0 he0
  simp only [hkv, hfe]
  -- all entries after the assignment: count right for those that were, and for the new one
  have hall1 : (StdMap.assignAt m1 id e1).all (fun kv => kv.2.countOk) = true := by
    -- m1 may hold the fresh entry, whose count is not yet right; it is the one replaced
    rw [hm1]
    split_ifs with hn
    · cases hf0 : StdMap.find s.mReadoutData id with
      | some kv => simp [hf0] at hn
      | none => exact StdMap.all_assignAt_emplace (fun e => e.countOk) _ _ _ _ hall hf0 hc1
    · exact StdMap.all_assignAt (fun e => e.countOk) _ _ _ hall hc1
  have hh1 : (({ s with mReadoutData := StdMap.assignAt m1 id e1 } : SubTimeFrame D O)).mHeader.isSome
      = true := by simp [hh]
  obtain ⟨s1, hs1, hi1, _⟩ := invariant_updateCount hh1 (by rw [hm1] at *; exact hall1)
  exact ⟨s1, hs1, hi1⟩

theorem all_mergeInto (P : EquipmentHBFrames D O → Bool) (src dst : ReadoutMap D O)
    (hd : dst.all (fun kv => P kv.2) = true) (hs : src.all (fun kv => P kv.2) = true) :
    (mergeInto dst src).all (fun kv => P kv.2) = true := by
  induction src generalizing dst with
  | nil => exact hd
  | cons hd1 tl ih =>
    obtain ⟨k, v⟩ := hd1
    simp only [List.all_cons, Bool.and_eq_true] at hs
    exact ih _ (StdMap.all_emplace P dst k v hd hs.1) hs.2

end SubTimeFrame

end DataModel

/-- Claim C4. Starting from a populated SubTimeFrame that satisfies the STF invariant, each
of `addHBFrame`, `addHBFrames` and `operator+=` (with a source STF that satisfies it too)
returns normally and leaves an STF that satisfies the invariant: `header.payloadSize` is the
number of entries of `readoutData` and every entry has `header.payloadSize` equal to its
number of frames. -/
theorem stf_invariant_preserved {D O : Type} [LinearOrder D] (K : Constants D O)
    (s : SubTimeFrame D O) (hinv : s.invariant = true) :
    (∀ (pEqId : EquipmentIdentifier D O) (pHBFrame : FairMQMessage D O),
        ∃ s1, s.addHBFrame K pEqId pHBFrame = .ok s1 ∧ s1.invariant = true) ∧
    (∀ (linkId : Nat) (pHBFrames : List (FairMQMessage D O)),
        ∃ s1, s.addHBFrames K linkId pHBFrames = .ok s1 ∧ s1.invariant = true) ∧
    (∀ src : SubTimeFrame D O, src.invariant = true → src.id? = s.id? →
        ∃ s1, s.operatorPlusEq src = .ok s1 ∧ s1.invariant = true) := by
  refine ⟨?_, ?_, ?_⟩
  · intro pEqId pHBFrame
    refine SubTimeFrame.invariant_withEquipment K hinv pEqId _ ?_
    intro e he
    obtain ⟨e1, h1, h2, _⟩ := countOk_setPayloadSize
      (e := { e with mHBFrames := e.mHBFrames ++ [pHBFrame] }) he
    exact ⟨e1, h1, h2⟩
  · intro linkId pHBFrames
    refine SubTimeFrame.invariant_withEquipment K hinv _ _ ?_
    intro e he
    obtain ⟨e1, h1, h2, _⟩ := countOk_setPayloadSize
      (e := { e with mHBFrames := e.mHBFrames ++ pHBFrames }) he
    exact ⟨e1, h1, h2⟩
  · intro src hsrc _
    rw [SubTimeFrame.invariant_iff] at hinv hsrc
    obtain ⟨⟨h, hh, _⟩, hall⟩ := hinv
    have hm := SubTimeFrame.all_mergeInto (fun e => e.countOk) src.mReadoutData s.mReadoutData
      hall hsrc.2
    obtain ⟨s1, hs1, hi1, _⟩ := SubTimeFrame.invariant_updateCount
      (s := { s with mReadoutData := SubTimeFrame.mergeInto s.mReadoutData src.mReadoutData })
      (by simp [hh]) hm
    exact ⟨s1, hs1, hi1⟩

end DataDistribution
end O2

/-! # Theorems: the wire round trips -/

namespace O2
namespace DataDistribution

section Wire

variable {D O : Type}

theorem InterleavedHdrDataSerializer.visitEntries_interleaved (m : ReadoutMap D O)
    (acc : List (FairMQMessage D O))
    (hm : m.all (fun kv => kv.2.mHeader.isSome) = true) :
    InterleavedHdrDataSerializer.visitEntries acc m
      = some (acc ++ m.interleavedLayout, m.released) := by
  induction m generalizing acc with
  | nil => simp [InterleavedHdrDataSerializer.visitEntries, ReadoutMap.interleavedLayout,
      ReadoutMap.released]
  | cons hd tl ih =>
    obtain ⟨k, e⟩ := hd
    simp only [List.all_cons, Bool.and_eq_true] at hm
    obtain ⟨he, htl⟩ := hm
    cases hh : e.mHeader with
    | none => simp [hh] at he
    | some h =>
      simp only [InterleavedHdrDataSerializer.visitEntries,
        InterleavedHdrDataSerializer.visitEquipment, hh, ih _ htl]
      simp [ReadoutMap.interleavedLayout, ReadoutMap.released,
        EquipmentHBFrames.interleavedLayout, hh]

theorem HdrDataSerializer.visitEntries_split (m : ReadoutMap D O)
    (hs ds : List (FairMQMessage D O))
    (hm : m.all (fun kv => kv.2.mHeader.isSome) = true) :
    HdrDataSerializer.visitEntries hs ds m
      = some (hs ++ m.headersLayout, ds ++ m.dataLayout, m.released) := by
  induction m generalizing hs ds with
  | nil => simp [HdrDataSerializer.visitEntries, ReadoutMap.headersLayout,
      ReadoutMap.dataLayout, ReadoutMap.released]
  | cons hd tl ih =>
    obtain ⟨k, e⟩ := hd
    simp only [List.all_cons, Bool.and_eq_true] at hm
    obtain ⟨he, htl⟩ := hm
    cases hh : e.mHeader with
    | none => simp [hh] at he
    | some h =>
      simp only [HdrDataSerializer.visitEntries, HdrDataSerializer.visitEquipment, hh,
        ih _ _ htl]
      simp [ReadoutMap.headersLayout, ReadoutMap.dataLayout, ReadoutMap.released, hh]

theorem ReadoutMap.interleavedLayout_cons (k : EquipmentIdentifier D O)
    (h : EquipmentHeader D O) (frames : List (FairMQMessage D O)) (tl : ReadoutMap D O) :
    ReadoutMap.interleavedLayout ((k, ⟨some h, frames⟩) :: tl)
      = FairMQMessage.equipmentHeader h :: (frames ++ ReadoutMap.interleavedLayout tl) := by
  simp [ReadoutMap.interleavedLayout, EquipmentHBFrames.interleavedLayout]

theorem ReadoutMap.dataLayout_cons (k : EquipmentIdentifier D O)
    (e : EquipmentHBFrames D O) (tl : ReadoutMap D O) :
    ReadoutMap.dataLayout ((k, e) :: tl) = e.mHBFrames ++ ReadoutMap.dataLayout tl := by
  simp [ReadoutMap.dataLayout]

theorem all_isSome_of_all_countOk {m : ReadoutMap D O}
    (h : m.all (fun kv => kv.2.countOk) = true) :
    m.all (fun kv => kv.2.mHeader.isSome) = true := by
  rw [List.all_eq_true] at h ⊢
  intro kv hkv
  exact isSome_of_countOk (h kv hkv)

variable [LinearOrder D]

/-- Offering to `std::map::insert` a key above all keys present appends the entry. -/
theorem StdMap.emplace_append (d : ReadoutMap D O) (k : EquipmentIdentifier D O)
    (v : EquipmentHBFrames D O) (h : ∀ x ∈ d, x.1.operatorLt k = true) :
    StdMap.emplace d k v = d ++ [(k, v)] := by
  induction d with
  | nil => rfl
  | cons hd tl ih =>
    obtain ⟨k1, v1⟩ := hd
    have h1 : k1.operatorLt k = true := h (k1, v1) (List.mem_cons_self _ _)
    simp only [StdMap.emplace, h1, if_true, List.cons_append]
    rw [ih (fun x hx => h x (List.mem_cons_of_mem _ hx))]

/-- Offering the entries of a map in their order to a map whose keys are all below them
rebuilds the concatenation. -/
theorem SubTimeFrame.mergeInto_sorted (m d : ReadoutMap D O)
    (h : (d ++ m).Pairwise (fun a b => a.1.operatorLt b.1 = true)) :
    SubTimeFrame.mergeInto d m = d ++ m := by
  induction m generalizing d with
  | nil => simp [SubTimeFrame.mergeInto]
  | cons hd tl ih =>
    obtain ⟨k, v⟩ := hd
    have hk : ∀ x ∈ d, x.1.operatorLt k = true := by
      intro x hx
      rw [List.pairwise_append] at h
      exact h.2.2 x hx (k, v) (List.mem_cons_self _ _)
    simp only [SubTimeFrame.mergeInto, StdMap.emplace_append d k v hk]
    rw [ih (d ++ [(k, v)]) (by simpa using h)]
    simp

/-- The loop of the interleaved deserializer, run on the interleaved layout of a map whose
counts are right, consumes exactly that layout and offers the entries to the output map. -/
theorem InterleavedHdrDataDeserializer.visitLoop_interleaved (m : ReadoutMap D O)
    (rest : List (FairMQMessage D O)) (data : ReadoutMap D O)
    (hc : m.all (fun kv => kv.2.countOk) = true)
    (hk : ∀ kv ∈ m, kv.2.getEquipmentIdentifier = some kv.1) :
    InterleavedHdrDataDeserializer.visitLoop m.length (m.interleavedLayout ++ rest) data
      = some (rest, SubTimeFrame.mergeInto data m) := by
  induction m generalizing data with
  | nil => simp [InterleavedHdrDataDeserializer.visitLoop, ReadoutMap.interleavedLayout,
      SubTimeFrame.mergeInto]
  | cons hd tl ih =>
    obtain ⟨k, e⟩ := hd
    simp only [List.all_cons, Bool.and_eq_true] at hc
    obtain ⟨he, htl⟩ := hc
    have hke := hk (k, e) (List.mem_cons_self _ _)
    obtain ⟨eh, frames⟩ := e
    cases eh with
    | none => simp [EquipmentHBFrames.countOk] at he
    | some h =>
      simp only [EquipmentHBFrames.countOk, beq_iff_eq] at he
      simp only [EquipmentHBFrames.getEquipmentIdentifier, Option.map_some'] at hke
      have hlen : h.payloadSize ≤ (frames ++ (ReadoutMap.interleavedLayout tl ++ rest)).length := by
        simp only [List.length_append]; omega
      simp only [List.length_cons, InterleavedHdrDataDeserializer.visitLoop,
        ReadoutMap.interleavedLayout_cons, List.cons_append, List.append_assoc,
        InterleavedHdrDataDeserializer.visitEquipment, FairMQMessage.asEquipmentHeader]
      rw [if_pos hlen]
      simp only [EquipmentHBFrames.default, List.nil_append,
        EquipmentHBFrames.getEquipmentIdentifier, Option.map_some', hke]
      rw [he, List.drop_left, List.take_left]
      exact ih (StdMap.emplace data k ⟨some h, frames⟩) htl
        (fun kv hkv => hk kv (List.mem_cons_of_mem _ hkv))

end Wire

end DataDistribution
end O2

namespace O2
namespace DataDistribution

/-- Claim C1. Interleaved wire round trip: for every populated SubTimeFrame `s` that
satisfies the STF invariant (an STF without equipments included), whose map is in the state
the class keeps it in, `InterleavedHdrDataSerializer::serialize` hands a message vector to
the transport, and `InterleavedHdrDataDeserializer::deserialize` run on that vector and a
default-constructed STF returns true, consumes every message, and yields an STF with the
same header (so the same id), the same equipment identifiers and the same entries, that is
for every equipment the same frames in the same order. -/
theorem interleaved_wire_round_trip {D O : Type} [LinearOrder D] [DecidableEq O]
    (s : SubTimeFrame D O) (hinv : s.invariant = true) (hwf : s.mReadoutData.wellFormed) :
    ∃ msgs s0 s1,
      InterleavedHdrDataSerializer.serialize s = some (msgs, s0) ∧
      InterleavedHdrDataDeserializer.deserialize SubTimeFrame.default msgs
        = some (true, s1, []) ∧
      s1.id? = s.id? ∧ s1.mHeader = s.mHeader ∧
      s1.getEquipmentIdentifiers = s.getEquipmentIdentifiers ∧
      (∀ id, s1.framesOf id = s.framesOf id) ∧
      s1.mReadoutData = s.mReadoutData := by
  rw [SubTimeFrame.invariant_iff] at hinv
  obtain ⟨⟨h, hh, hsize⟩, hall⟩ := hinv
  have hsome := all_isSome_of_all_countOk hall
  have hser : InterleavedHdrDataSerializer.serialize s
      = some (FairMQMessage.stfHeader h :: s.mReadoutData.interleavedLayout,
          { s with mHeader := none, mReadoutData := s.mReadoutData.released }) := by
    simp [InterleavedHdrDataSerializer.serialize, InterleavedHdrDataSerializer.visit, hh,
      InterleavedHdrDataSerializer.visitEntries_interleaved _ _ hsome]
  have hloop := InterleavedHdrDataDeserializer.visitLoop_interleaved s.mReadoutData [] [] hall hwf.2
  rw [SubTimeFrame.mergeInto_sorted s.mReadoutData [] (by simpa using hwf.1)] at hloop
  simp only [List.append_nil, List.nil_append] at hloop
  refine ⟨_, _, { mHeader := some h, mReadoutData := s.mReadoutData, mFMQChannelId := -1 },
    hser, ?_, ?_, ?_, rfl, ?_, rfl⟩
  · simp [InterleavedHdrDataDeserializer.deserialize, InterleavedHdrDataDeserializer.visit,
      FairMQMessage.asStfHeader, SubTimeFrame.default, hsize, hloop]
  · simp [SubTimeFrame.id?, hh]
  · exact hh.symm
  · intro id; rfl

end DataDistribution
end O2

/-! # Theorems: STF files -/

namespace O2
namespace DataDistribution

section Files

namespace SubTimeFrameFileWriter

theorem flatten_buffered_write_loop (fuel : Nat) (p : List Nat) (h : p.length ≤ fuel) :
    (buffered_write_loop fuel p).flatten = p := by
  induction fuel generalizing p with
  | zero =>
    have : p = [] := List.length_eq_zero.mp (Nat.le_zero.mp h)
    simp [buffered_write_loop, this]
  | succ fuel ih =>
    unfold buffered_write_loop
    by_cases hp : p.length > 0
    · rw [if_pos hp]
      have hmin : 0 < min p.length sChunkSize := by
        simp only [sChunkSize]; omega
      have hdrop : (p.drop (min p.length sChunkSize)).length ≤ fuel := by
        simp only [List.length_drop]; omega
      simp only [List.flatten_cons, ih _ hdrop, List.take_append_drop]
    · rw [if_neg hp]
      have : p = [] := List.length_eq_zero.mp (by omega)
      simp [this]

/-- The chunks `buffered_write` passes to the stream concatenate to the buffer. -/
theorem flatten_buffered_write (p : List Nat) : (buffered_write p).flatten = p := by
  unfold buffered_write
  split_ifs
  · simp
  · exact flatten_buffered_write_loop _ _ (le_refl _)

variable {D O : Type}

theorem flatten_blockChunks (L : Layout D O) (blocks : List (DataHeader D O × List Nat)) :
    (blockChunks L blocks).flatten
      = (blocks.map fun b => L.encodeDataHeader b.1 ++ b.2).flatten := by
  induction blocks with
  | nil => rfl
  | cons hd tl ih =>
    obtain ⟨hdr, blk⟩ := hd
    simp [blockChunks, flatten_buffered_write, ih]

end SubTimeFrameFileWriter

namespace SubTimeFrameFileReader

/-- Reading `b.length` bytes from a good stream positioned in front of `b` gives `b`. -/
theorem streamRead_append (r : SubTimeFrameFileReader) (a b c : List Nat)
    (hfile : r.file = a ++ (b ++ c)) (hpos : r.pos = a.length) (hopen : r.isOpen = true)
    (hgood : r.good = true) :
    streamRead r b.length = (some b, { r with pos := a.length + b.length }) := by
  unfold streamRead
  have hle : r.pos + b.length ≤ r.file.length := by
    rw [hfile, hpos]; simp only [List.length_append]; omega
  rw [if_pos ⟨hopen, hgood, hle⟩, hfile, hpos]
  simp

end SubTimeFrameFileReader

variable {D O : Type}

theorem Layout.Lawful.sizeofDataHeader_pos {K : Constants D O} {L : Layout D O}
    (hL : L.Lawful K) : 0 < K.sizeofDataHeader := by
  by_contra h0
  have hz : K.sizeofDataHeader = 0 := by omega
  have e1 : L.encodeDataHeader { K.defaultDataHeader with payloadSize := 0 } = [] :=
    List.length_eq_zero.mp (by rw [hL.dataHeader_length, hz])
  have e2 : L.encodeDataHeader { K.defaultDataHeader with payloadSize := 1 } = [] :=
    List.length_eq_zero.mp (by rw [hL.dataHeader_length, hz])
  have d1 := hL.dataHeader_decode { K.defaultDataHeader with payloadSize := 0 }
  have d2 := hL.dataHeader_decode { K.defaultDataHeader with payloadSize := 1 }
  rw [e1] at d1
  rw [e2] at d2
  have := d1.symm.trans d2
  have hp := congrArg DataHeader.payloadSize this
  simp at hp

/-- The record `write` appends for an STF whose blocks are `blocks`. -/
theorem SubTimeFrameFileWriter.write_eq (K : Constants D O) (L : Layout D O) (now : Nat)
    (w : SubTimeFrameFileWriter) (hgood : w.good = true) (s : SubTimeFrame D O)
    (blocks : List (DataHeader D O × List Nat))
    (hv : SubTimeFrameFileWriter.visit K L s.mReadoutData = some blocks) :
    SubTimeFrameFileWriter.write K L now w s
      = some ({ w with mFile := w.mFile ++
                (L.encodeDataHeader (gStfFileDataHeader K)
                  ++ (L.encodeFileMeta (SubTimeFrameFileMeta.new now
                        (SubTimeFrameFileWriter.stf_size_file K blocks))
                  ++ (blocks.map fun b => L.encodeDataHeader b.1 ++ b.2).flatten)) },
              (L.encodeDataHeader (gStfFileDataHeader K)
                  ++ (L.encodeFileMeta (SubTimeFrameFileMeta.new now
                        (SubTimeFrameFileWriter.stf_size_file K blocks))
                  ++ (blocks.map fun b => L.encodeDataHeader b.1 ++ b.2).flatten)).length) := by
  unfold SubTimeFrameFileWriter.write
  simp only [hgood, Bool.not_true, Bool.false_eq_true, if_false, hv, List.flatten_append,
    SubTimeFrameFileWriter.flatten_buffered_write, SubTimeFrameFileWriter.flatten_blockChunks,
    SubTimeFrameFileWriter.size, List.length_append, List.append_assoc]
  congr 2
  omega

variable [LinearOrder D] [DecidableEq O]

/-- Reading a record that holds no block: `read` returns false and leaves the STF as it
was. -/
theorem SubTimeFrameFileReader.read_bare_record (K : Constants D O) (L : Layout D O)
    (hL : L.Lawful K) (now : Nat) (pre tail : List Nat) (pStf : SubTimeFrame D O) (stfId : Nat) :
    (SubTimeFrameFileReader.read K L
      (SubTimeFrameFileReader.positioned
        (pre ++ (L.encodeDataHeader (gStfFileDataHeader K)
          ++ (L.encodeFileMeta (SubTimeFrameFileMeta.new now
                (SubTimeFrameFileWriter.stf_size_file K [])) ++ tail))) pre.length)
      pStf stfId).2 = .returned false pStf := by
  unfold SubTimeFrameFileReader.read
  simp only [SubTimeFrameFileReader.positioned, Bool.not_true, Bool.false_eq_true, if_false]
  have r1 := SubTimeFrameFileReader.streamRead_append
    (SubTimeFrameFileReader.positioned
        (pre ++ (L.encodeDataHeader (gStfFileDataHeader K)
          ++ (L.encodeFileMeta (SubTimeFrameFileMeta.new now
                (SubTimeFrameFileWriter.stf_size_file K [])) ++ tail))) pre.length)
    pre (L.encodeDataHeader (gStfFileDataHeader K)) _ rfl rfl rfl rfl
  rw [hL.dataHeader_length] at r1
  simp only [SubTimeFrameFileReader.positioned] at r1
  rw [r1]
  simp only
  have r2 := SubTimeFrameFileReader.streamRead_append
    (SubTimeFrameFileReader.positioned
        (pre ++ (L.encodeDataHeader (gStfFileDataHeader K)
          ++ (L.encodeFileMeta (SubTimeFrameFileMeta.new now
                (SubTimeFrameFileWriter.stf_size_file K [])) ++ tail)))
        (pre.length + K.sizeofDataHeader))
    (pre ++ L.encodeDataHeader (gStfFileDataHeader K))
    (L.encodeFileMeta (SubTimeFrameFileMeta.new now (SubTimeFrameFileWriter.stf_size_file K [])))
    tail (by simp [SubTimeFrameFileReader.positioned])
    (by simp [SubTimeFrameFileReader.positioned, hL.dataHeader_length]) rfl rfl
  rw [hL.fileMeta_length] at r2
  simp only [SubTimeFrameFileReader.positioned] at r2
  rw [r2]
  simp only [hL.dataHeader_decode, hL.fileMeta_decode, ne_eq, not_true_eq_false, if_false]
  rw [if_pos (by simp [SubTimeFrameFileMeta.new, SubTimeFrameFileWriter.stf_size_file])]

omit [DecidableEq O] in
/-- Adding a frame to an STF that is populated and has no entry creates the entry. -/
theorem SubTimeFrame.addHBFrame_new (K : Constants D O) (c : Int) (stfId : Nat)
    (id : EquipmentIdentifier D O) (msg : FairMQMessage D O) :
    ∃ s1, (SubTimeFrame.new K c stfId).addHBFrame K id msg = .ok s1 ∧
      s1.id? = some stfId ∧
      ∃ eh, s1.mReadoutData = [(id, ⟨some eh, [msg]⟩)] := by
  simp only [SubTimeFrame.addHBFrame, SubTimeFrame.withEquipment, SubTimeFrame.new,
    StdMap.find, Option.isNone_none, if_true, StdMap.emplace, operatorLt_irrefl,
    Bool.false_eq_true, if_false, EquipmentHBFrames.addHBFrame, EquipmentHBFrames.new,
    EquipmentHBFrames.setPayloadSize, List.nil_append, StdMap.assignAt,
    SubTimeFrame.updateCount]
  exact ⟨_, rfl, rfl, _, rfl⟩

/-- Reading a record that holds one block, from a file that ends with it: `read` returns
true, the frame is added under the identifier of the block header, the reader stands at the
end of the record. -/
theorem SubTimeFrameFileReader.read_one_block (K : Constants D O) (L : Layout D O)
    (hL : L.Lawful K) (now : Nat) (pre : List Nat) (hdr : DataHeader D O) (payload : List Nat)
    (hp : hdr.payloadSize = payload.length) (c : Int) (stfId : Nat)
    (hfit : pre.length + SubTimeFrameFileWriter.stf_size_file K [(hdr, payload)] < 2 ^ 64) :
    ∃ r1 s1,
      SubTimeFrameFileReader.read K L
        (SubTimeFrameFileReader.positioned
          (pre ++ (L.encodeDataHeader (gStfFileDataHeader K)
            ++ (L.encodeFileMeta (SubTimeFrameFileMeta.new now
                  (SubTimeFrameFileWriter.stf_size_file K [(hdr, payload)]))
            ++ (L.encodeDataHeader hdr ++ payload)))) pre.length)
        (SubTimeFrame.new K c stfId) stfId = (r1, .returned true s1) ∧
      r1.pos = pre.length + SubTimeFrameFileWriter.stf_size_file K [(hdr, payload)] ∧
      s1.id? = some stfId ∧
      ∃ eh, s1.mReadoutData
        = [(EquipmentIdentifier.ofDataHeader hdr, ⟨some eh, [FairMQMessage.data payload]⟩)] := by
  set file := pre ++ (L.encodeDataHeader (gStfFileDataHeader K)
            ++ (L.encodeFileMeta (SubTimeFrameFileMeta.new now
                  (SubTimeFrameFileWriter.stf_size_file K [(hdr, payload)]))
            ++ (L.encodeDataHeader hdr ++ payload))) with hfile
  have hpos := hL.sizeofDataHeader_pos
  have hflen : file.length
      = pre.length + SubTimeFrameFileWriter.stf_size_file K [(hdr, payload)] := by
    simp only [hfile, List.length_append, hL.dataHeader_length, hL.fileMeta_length,
      SubTimeFrameFileWriter.stf_size_file, List.length_cons, List.length_nil, List.map_cons,
      List.map_nil, List.sum_cons, List.sum_nil]
    omega
  have r1 := SubTimeFrameFileReader.streamRead_append
    (SubTimeFrameFileReader.positioned file pre.length)
    pre (L.encodeDataHeader (gStfFileDataHeader K)) _ hfile rfl rfl rfl
  have r2 := SubTimeFrameFileReader.streamRead_append
    (SubTimeFrameFileReader.positioned file (pre.length + K.sizeofDataHeader))
    (pre ++ L.encodeDataHeader (gStfFileDataHeader K))
    (L.encodeFileMeta (SubTimeFrameFileMeta.new now
      (SubTimeFrameFileWriter.stf_size_file K [(hdr, payload)])))
    (L.encodeDataHeader hdr ++ payload)
    (by simp [SubTimeFrameFileReader.positioned, hfile])
    (by simp [SubTimeFrameFileReader.positioned, hL.dataHeader_length]) rfl rfl
  have r3 := SubTimeFrameFileReader.streamRead_append
    (SubTimeFrameFileReader.positioned file
      (pre.length + K.sizeofDataHeader + K.sizeofSubTimeFrameFileMeta))
    (pre ++ L.encodeDataHeader (gStfFileDataHeader K)
      ++ L.encodeFileMeta (SubTimeFrameFileMeta.new now
        (SubTimeFrameFileWriter.stf_size_file K [(hdr, payload)])))
    (L.encodeDataHeader hdr) payload
    (by simp [SubTimeFrameFileReader.positioned, hfile])
    (by
      simp only [SubTimeFrameFileReader.positioned, List.length_append, hL.dataHeader_length,
        hL.fileMeta_length])
    rfl rfl
  have r4 := SubTimeFrameFileReader.streamRead_append
    (SubTimeFrameFileReader.positioned file
      (pre.length + K.sizeofDataHeader + K.sizeofSubTimeFrameFileMeta + K.sizeofDataHeader))
    (pre ++ L.encodeDataHeader (gStfFileDataHeader K)
      ++ L.encodeFileMeta (SubTimeFrameFileMeta.new now
        (SubTimeFrameFileWriter.stf_size_file K [(hdr, payload)]))
      ++ L.encodeDataHeader hdr)
    payload []
    (by simp [SubTimeFrameFileReader.positioned, hfile])
    (by
      simp only [SubTimeFrameFileReader.positioned, List.length_append, hL.dataHeader_length,
        hL.fileMeta_length])
    rfl rfl
  rw [hL.dataHeader_length] at r1 r3
  rw [hL.fileMeta_length] at r2
  simp only [SubTimeFrameFileReader.positioned, List.length_append, hL.dataHeader_length,
    hL.fileMeta_length] at r1 r2 r3 r4
  obtain ⟨s1, hadd, hid, eh, hdata⟩ := SubTimeFrame.addHBFrame_new K c stfId
    (EquipmentIdentifier.ofDataHeader hdr) (FairMQMessage.data payload)
  refine ⟨SubTimeFrameFileReader.positioned file (pre.length + K.sizeofDataHeader
      + K.sizeofSubTimeFrameFileMeta + K.sizeofDataHeader + payload.length),
    s1, ?_, ?_, hid, eh, hdata⟩
  · unfold SubTimeFrameFileReader.read
    simp only [SubTimeFrameFileReader.positioned, Bool.not_true, Bool.false_eq_true, if_false,
      r1, r2, hL.dataHeader_decode, hL.fileMeta_decode, ne_eq, not_true_eq_false]
    rw [if_neg (by
      simp only [SubTimeFrameFileMeta.new, SubTimeFrameFileWriter.stf_size_file,
        List.length_cons, List.length_nil, List.map_cons, List.map_nil, List.sum_cons,
        List.sum_nil]
      omega)]
    rw [if_neg (by
      simp only [SubTimeFrameFileMeta.new, if_true]
      rw [Nat.mod_eq_of_lt hfit]
      omega)]
    simp only [r3, hL.dataHeader_decode, hp, r4, SubTimeFrameFileReader.visit, hadd]
  · simp only [SubTimeFrameFileReader.positioned, SubTimeFrameFileWriter.stf_size_file,
      List.length_cons, List.length_nil, List.map_cons, List.map_nil, List.sum_cons,
      List.sum_nil]
    omega

omit [LinearOrder D] [DecidableEq O] in
theorem SubTimeFrameFileWriter.visit_no_frames (K : Constants D O) (L : Layout D O)
    (m : ReadoutMap D O) (h : m.dataLayout = []) :
    SubTimeFrameFileWriter.visit K L m = some [] := by
  induction m with
  | nil => rfl
  | cons hd tl ih =>
    obtain ⟨k, e⟩ := hd
    rw [ReadoutMap.dataLayout_cons, List.append_eq_nil] at h
    obtain ⟨he, htl⟩ := h
    unfold SubTimeFrameFileWriter.visit
    rw [ih htl]
    cases hh : e.mHeader <;>
      simp [SubTimeFrameFileWriter.visitEquipment, hh, he]

end Files

/-- Claim C3, as amended. For a lawful layout and a writer in good state: (a) an STF that
holds exactly one equipment with exactly one frame is written as one record, and `read`,
positioned at the start of
that record and given an STF constructed with the id of the STF written, returns true,
stands at the end of the record afterwards, and produces an STF with the identical
equipment set, the identical frame with identical payload bytes, and the identical id;
(b) an STF that holds no frame is written as a record without blocks, on which `read`
returns false and leaves the STF passed as it was. -/
theorem file_round_trip_one_frame {D O : Type} [LinearOrder D] [DecidableEq O]
    (K : Constants D O) (L : Layout D O) (hL : L.Lawful K) (now : Nat)
    (w : SubTimeFrameFileWriter) (hgood : w.good = true) (s : SubTimeFrame D O)
    (c : Int) (stfId : Nat) :
    (∀ k e h f, s.mReadoutData = [(k, e)] → e.mHeader = some h → e.mHBFrames = [f] →
        e.getEquipmentIdentifier = some k → s.id? = some stfId →
        w.size + (2 * K.sizeofDataHeader + K.sizeofSubTimeFrameFileMeta + f.GetSize L) < 2 ^ 64 →
        ∃ w1 n r1 s1,
          SubTimeFrameFileWriter.write K L now w s = some (w1, n) ∧
          SubTimeFrameFileReader.read K L (SubTimeFrameFileReader.positioned w1.mFile w.size)
            (SubTimeFrame.new K c stfId) stfId = (r1, .returned true s1) ∧
          r1.pos = w1.size ∧
          s1.getEquipmentIdentifiers = s.getEquipmentIdentifiers ∧
          (∀ id, (s1.framesOf id).map (List.map (FairMQMessage.GetData L))
              = (s.framesOf id).map (List.map (FairMQMessage.GetData L))) ∧
          s1.id? = s.id?) ∧
    (s.mReadoutData.dataLayout = [] →
        ∃ w1 n,
          SubTimeFrameFileWriter.write K L now w s = some (w1, n) ∧
          (SubTimeFrameFileReader.read K L (SubTimeFrameFileReader.positioned w1.mFile w.size)
            (SubTimeFrame.new K c stfId) stfId).2 = .returned false (SubTimeFrame.new K c stfId)) := by
  constructor
  · intro k e h f hs he hf hk hid hfit
    have hv : SubTimeFrameFileWriter.visit K L s.mReadoutData
        = some [(DataHeader.new K h.dataDescription h.dataOrigin h.subSpecification
            (f.GetSize L), f.GetData L)] := by
      simp [hs, SubTimeFrameFileWriter.visit, SubTimeFrameFileWriter.visitEquipment, he, hf]
    have hw := SubTimeFrameFileWriter.write_eq K L now w hgood s _ hv
    have hfit2 : w.mFile.length + SubTimeFrameFileWriter.stf_size_file K
        [(DataHeader.new K h.dataDescription h.dataOrigin h.subSpecification (f.GetSize L),
          f.GetData L)] < 2 ^ 64 := by
      simp only [SubTimeFrameFileWriter.stf_size_file, List.length_cons, List.length_nil,
        List.map_cons, List.map_nil, List.sum_cons, List.sum_nil]
      simp only [SubTimeFrameFileWriter.size, FairMQMessage.GetSize] at hfit
      omega
    obtain ⟨r1, s1, hr, hpos, hid1, eh, hdata⟩ := SubTimeFrameFileReader.read_one_block K L hL
      now w.mFile
      (DataHeader.new K h.dataDescription h.dataOrigin h.subSpecification (f.GetSize L))
      (f.GetData L) rfl c stfId hfit2
    have hkey : EquipmentIdentifier.ofDataHeader
        (DataHeader.new K h.dataDescription h.dataOrigin h.subSpecification (f.GetSize L))
        = k := by
      simp only [EquipmentHBFrames.getEquipmentIdentifier, he, Option.map_some',
        Option.some.injEq] at hk
      rw [← hk]
      rfl
    rw [hkey] at hdata
    refine ⟨_, _, r1, s1, hw, ?_, ?_, ?_, ?_, ?_⟩
    · simp only [List.map_cons, List.map_nil, List.flatten_cons, List.flatten_nil,
        List.append_nil]
      exact hr
    · rw [hpos]
      simp only [SubTimeFrameFileWriter.size, List.length_append, hL.dataHeader_length,
        hL.fileMeta_length, SubTimeFrameFileWriter.stf_size_file, List.length_cons,
        List.length_nil, List.map_cons, List.map_nil, List.sum_cons, List.sum_nil,
        List.flatten_cons, List.flatten_nil]
      omega
    · simp [SubTimeFrame.getEquipmentIdentifiers, hdata, hs]
    · intro id
      simp only [SubTimeFrame.framesOf, hdata, hs, StdMap.find]
      split_ifs <;> simp [hf, FairMQMessage.GetData]
    · rw [hid1, hid]
  · intro hnone
    have hv := SubTimeFrameFileWriter.visit_no_frames K L _ hnone
    have hw := SubTimeFrameFileWriter.write_eq K L now w hgood s _ hv
    refine ⟨_, _, hw, ?_⟩
    have := SubTimeFrameFileReader.read_bare_record K L hL now w.mFile []
      (SubTimeFrame.new K c stfId) stfId
    simpa [SubTimeFrameFileWriter.size] using this

namespace Examples

theorem L0_lawful : L0.Lawful K0 where
  dataHeader_length := fun _ => rfl
  dataHeader_decode := fun _ => rfl
  fileMeta_length := fun _ => rfl
  fileMeta_decode := fun _ => rfl

end Examples

/-- Witness of `file_round_trip_one_frame`: the layout `L0` is lawful, the STF with id 10
that holds the one frame `09 08` of link 7 is read back, and the STF with id 42 and no
equipment gives a record on which `read` returns false. -/
theorem file_round_trip_one_frame_witness :
    (∃ w1 n r1 s1,
      SubTimeFrameFileWriter.write Examples.K0 Examples.L0 1000 { mFile := [], good := true }
        Examples.stfOneFrame = some (w1, n) ∧
      SubTimeFrameFileReader.read Examples.K0 Examples.L0
        (SubTimeFrameFileReader.positioned w1.mFile 0)
        (SubTimeFrame.new Examples.K0 0 10) 10 = (r1, .returned true s1) ∧
      r1.pos = w1.size ∧
      s1.getEquipmentIdentifiers = Examples.stfOneFrame.getEquipmentIdentifiers ∧
      (∀ id, (s1.framesOf id).map (List.map (FairMQMessage.GetData Examples.L0))
          = (Examples.stfOneFrame.framesOf id).map
              (List.map (FairMQMessage.GetData Examples.L0))) ∧
      s1.id? = Examples.stfOneFrame.id?) ∧
    (∃ w1 n,
      SubTimeFrameFileWriter.write Examples.K0 Examples.L0 1000 { mFile := [], good := true }
        Examples.stfEmpty42 = some (w1, n) ∧
      (SubTimeFrameFileReader.read Examples.K0 Examples.L0
        (SubTimeFrameFileReader.positioned w1.mFile 0)
        (SubTimeFrame.new Examples.K0 0 42) 42).2
        = .returned false (SubTimeFrame.new Examples.K0 0 42)) :=
  ⟨(file_round_trip_one_frame Examples.K0 Examples.L0 Examples.L0_lawful 1000
      { mFile := [], good := true } rfl Examples.stfOneFrame 0 10).1
      Examples.eqLink7 _ _ _ rfl rfl rfl rfl rfl (by decide),
   (file_round_trip_one_frame Examples.K0 Examples.L0 Examples.L0_lawful 1000
      { mFile := [], good := true } rfl Examples.stfEmpty42 0 42).2 rfl⟩

/-- Counterexample to claim C3 as stated: the STF with id 42 and no equipment is written as
a record of nine storage units, and `read` on it returns false; the round trip the
specification states does not hold for it. -/
theorem file_round_trip_fails_for_empty_stf :
    ¬ fileRoundTrip Examples.K0 Examples.L0 1000 Examples.stfEmpty42 := by
  rintro ⟨stfId, w1, n, r1, s1, hid, hw, hr, -⟩
  have hid42 : stfId = 42 := by
    have : Examples.stfEmpty42.id? = some 42 := rfl
    rw [this] at hid
    exact (Option.some.inj hid).symm
  subst hid42
  have hw0 : SubTimeFrameFileWriter.write Examples.K0 Examples.L0 1000
      { mFile := [], good := true } Examples.stfEmpty42
      = some ({ mFile := [3, 2, 0, 3, 0, 0, 1, 9, 1000], good := true }, 9) := by decide
  rw [hw0] at hw
  obtain ⟨rfl, -⟩ := Prod.mk.inj (Option.some.inj hw)
  have hr0 : (SubTimeFrameFileReader.read Examples.K0 Examples.L0
      (SubTimeFrameFileReader.new [3, 2, 0, 3, 0, 0, 1, 9, 1000])
      (SubTimeFrame.new Examples.K0 Examples.stfEmpty42.mFMQChannelId 42) 42).2
      = .returned false (SubTimeFrame.new Examples.K0 0 42) := by decide
  rw [hr] at hr0
  exact absurd hr0 (by simp)

/-- The reader on a record of two blocks: written from the STF with id 10 that holds the two
frames `09`, `08 07` of link 7, the record takes 24 storage units; `read` returns true after
the first block, with an STF that holds the one frame `09`, and stands at 16. -/
theorem read_two_frames_reads_one :
    SubTimeFrameFileWriter.write Examples.K0 Examples.L0 1000 { mFile := [], good := true }
        Examples.stfTwoFrames
      = some ({ mFile := [3, 2, 0, 3, 0, 0, 1, 24, 1000, 1, 1, 7, 1, 0, 0, 9,
                          1, 1, 7, 2, 0, 0, 8, 7], good := true }, 24) ∧
    ∃ r1 s1,
      SubTimeFrameFileReader.read Examples.K0 Examples.L0
        (SubTimeFrameFileReader.new [3, 2, 0, 3, 0, 0, 1, 24, 1000, 1, 1, 7, 1, 0, 0, 9,
                                     1, 1, 7, 2, 0, 0, 8, 7])
        (SubTimeFrame.new Examples.K0 0 10) 10 = (r1, .returned true s1) ∧
      r1.pos = 16 ∧
      s1.framesOf Examples.eqLink7 = some [FairMQMessage.data [9]] ∧
      Examples.stfTwoFrames.framesOf Examples.eqLink7
        = some [FairMQMessage.data [9], FairMQMessage.data [8, 7]] := by
  refine ⟨by decide, _, _, rfl, ?_, ?_, ?_⟩ <;> decide

end DataDistribution
end O2

/-! # Concrete instances -/

namespace O2
namespace DataDistribution

/-- Witness of `interleaved_wire_round_trip`: the STF with two equipments, and by the same
theorem the STF with id 42 and no equipment, satisfy the hypotheses and come back. -/
theorem interleaved_wire_round_trip_witness :
    Examples.stfTwoEquipments.invariant = true ∧
    Examples.stfTwoEquipments.mReadoutData.wellFormed ∧
    ∃ msgs s0 s1,
      InterleavedHdrDataSerializer.serialize Examples.stfTwoEquipments = some (msgs, s0) ∧
      InterleavedHdrDataDeserializer.deserialize SubTimeFrame.default msgs
        = some (true, s1, []) ∧
      s1.id? = Examples.stfTwoEquipments.id? ∧ s1.mHeader = Examples.stfTwoEquipments.mHeader ∧
      s1.getEquipmentIdentifiers = Examples.stfTwoEquipments.getEquipmentIdentifiers ∧
      (∀ id, s1.framesOf id = Examples.stfTwoEquipments.framesOf id) ∧
      s1.mReadoutData = Examples.stfTwoEquipments.mReadoutData :=
  ⟨by decide, by unfold ReadoutMap.wellFormed; decide,
   interleaved_wire_round_trip Examples.stfTwoEquipments (by decide)
     (by unfold ReadoutMap.wellFormed; decide)⟩

/-- Witness of `stf_invariant_preserved`: the STF with two equipments satisfies the
invariant, and so does the STF with one frame and the same id that is merged into it. -/
theorem stf_invariant_preserved_witness :
    Examples.stfTwoEquipments.invariant = true ∧
    Examples.stfOneFrame.invariant = true ∧
    Examples.stfOneFrame.id? = Examples.stfTwoEquipments.id? ∧
    (∃ s1, Examples.stfTwoEquipments.addHBFrame Examples.K0 Examples.eqLink3 (.data [4])
        = .ok s1 ∧ s1.invariant = true) ∧
    (∃ s1, Examples.stfTwoEquipments.addHBFrames Examples.K0 5 [.data [4], .data [4, 4]]
        = .ok s1 ∧ s1.invariant = true) ∧
    (∃ s1, Examples.stfTwoEquipments.operatorPlusEq Examples.stfOneFrame = .ok s1 ∧
        s1.invariant = true) :=
  ⟨by decide, by decide, by decide,
   (stf_invariant_preserved Examples.K0 Examples.stfTwoEquipments (by decide)).1 _ _,
   (stf_invariant_preserved Examples.K0 Examples.stfTwoEquipments (by decide)).2.1 _ _,
   (stf_invariant_preserved Examples.K0 Examples.stfTwoEquipments (by decide)).2.2
     Examples.stfOneFrame (by decide) (by decide)⟩

/-- Claim C5 on the code: two identifiers with the same description and sub-specification
and the origins 0 and 1. The lexicographic order of the specification puts the first below
the second; `operator<` as coded answers false both ways, so the two are one key of the
map although their origins differ. -/
theorem operatorLt_ignores_dataOrigin :
    EquipmentIdentifier.specLexLt
      (⟨1, 0, 7⟩ : EquipmentIdentifier Nat Nat) (⟨1, 1, 7⟩ : EquipmentIdentifier Nat Nat) ∧
    EquipmentIdentifier.operatorLt
      (⟨1, 0, 7⟩ : EquipmentIdentifier Nat Nat) (⟨1, 1, 7⟩ : EquipmentIdentifier Nat Nat) = false ∧
    EquipmentIdentifier.operatorLt
      (⟨1, 1, 7⟩ : EquipmentIdentifier Nat Nat) (⟨1, 0, 7⟩ : EquipmentIdentifier Nat Nat) = false ∧
    (⟨1, 0, 7⟩ : EquipmentIdentifier Nat Nat) ≠ ⟨1, 1, 7⟩ := by
  refine ⟨?_, by decide, by decide, by decide⟩
  unfold EquipmentIdentifier.specLexLt
  decide

end DataDistribution
end O2

/-! # Theorems: O2ExtentVector -/

namespace O2
namespace DataDistribution
namespace detail

/-! ### Locating a logical index -/

theorem locate_spec (caps : List Nat) (j : Nat) (h : j < caps.sum) :
    ∃ c, caps.get? (locate caps j).1 = some c ∧ (locate caps j).2 < c ∧
      (caps.take (locate caps j).1).sum + (locate caps j).2 = j := by
  induction caps generalizing j with
  | nil => simp at h
  | cons c cs ih =>
    unfold locate
    by_cases hj : j < c
    · simp [hj]
    · simp only [hj, if_false, List.get?_cons_succ, List.take_succ_cons, List.sum_cons]
      simp only [List.sum_cons] at h
      obtain ⟨c1, h1, h2, h3⟩ := ih (j - c) (by omega)
      exact ⟨c1, h1, h2, by omega⟩

theorem locate_unique (caps : List Nat) (j ext a c : Nat) (hc : caps.get? ext = some c)
    (ha : a < c) (hj : (caps.take ext).sum + a = j) : locate caps j = (ext, a) := by
  induction caps generalizing j ext with
  | nil => simp at hc
  | cons c0 cs ih =>
    unfold locate
    cases ext with
    | zero =>
      simp only [List.get?_cons_zero, Option.some.injEq] at hc
      simp only [List.take_zero, List.sum_nil, zero_add] at hj
      subst hc hj
      simp [ha]
    | succ ext =>
      simp only [List.get?_cons_succ] at hc
      simp only [List.take_succ_cons, List.sum_cons] at hj
      have hge : ¬ j < c0 := by omega
      simp only [hge, if_false]
      rw [ih (j - c0) ext hc (by omega)]

theorem sum_take_le (caps : List Nat) (n : Nat) : (caps.take n).sum ≤ caps.sum := by
  induction caps generalizing n with
  | nil => simp
  | cons c cs ih =>
    cases n with
    | zero => simp
    | succ n => simp only [List.take_succ_cons, List.sum_cons]; have := ih n; omega

theorem sum_take_succ (caps : List Nat) (n c : Nat) (h : caps.get? n = some c) :
    (caps.take (n + 1)).sum = (caps.take n).sum + c := by
  induction caps generalizing n with
  | nil => simp at h
  | cons c0 cs ih =>
    cases n with
    | zero => simp at h; simp [h]
    | succ n =>
      simp only [List.get?_cons_succ] at h
      simp only [List.take_succ_cons, List.sum_cons, ih n h]
      omega

theorem locate_fst_lt (caps : List Nat) (j : Nat) (h : j < caps.sum) :
    (locate caps j).1 < caps.length := by
  obtain ⟨c, h1, _, _⟩ := locate_spec caps j h
  exact (List.get?_eq_some.mp h1).1

/-! ### The extents of a canonical vector -/

variable {α : Type}

theorem map_capacity_fillExtents (caps : List Nat) (xs : List α) :
    (fillExtents caps xs).map Extent.capacity = caps := by
  induction caps generalizing xs with
  | nil => rfl
  | cons c cs ih => simp [fillExtents, Extent.capacity, ih]

theorem length_fillExtents (caps : List Nat) (xs : List α) :
    (fillExtents caps xs).length = caps.length := by
  have := congrArg List.length (map_capacity_fillExtents caps xs)
  simpa using this

theorem fillExtents_get? (caps : List Nat) (xs : List α) (ext c : Nat)
    (h : caps.get? ext = some c) :
    (fillExtents caps xs).get? ext
      = some { mStart := (xs.drop (caps.take ext).sum).take c, mCapacity := c } := by
  induction caps generalizing xs ext with
  | nil => simp at h
  | cons c0 cs ih =>
    cases ext with
    | zero => simp at h; simp [fillExtents, h]
    | succ ext =>
      simp only [List.get?_cons_succ] at h
      simp only [fillExtents, List.get?_cons_succ, List.take_succ_cons, List.sum_cons]
      rw [ih (xs.drop c0) ext h, List.drop_drop]

theorem flatten_fillExtents (caps : List Nat) (xs : List α) (h : xs.length ≤ caps.sum) :
    ((fillExtents caps xs).map fun e => e.mStart).flatten = xs := by
  induction caps generalizing xs with
  | nil =>
    simp at h
    simp [fillExtents, h]
  | cons c cs ih =>
    simp only [fillExtents, List.map_cons, List.flatten_cons]
    rw [ih (xs.drop c) (by simp only [List.length_drop, List.sum_cons] at h ⊢; omega)]
    exact List.take_append_drop c xs

theorem toList_canonical (caps : List Nat) (xs : List α) (h : xs.length ≤ caps.sum) :
    O2ExtentVector.toList (canonical caps xs) = xs :=
  flatten_fillExtents caps xs h

theorem capacities_canonical (caps : List Nat) (xs : List α) :
    (canonical caps xs).capacities = caps :=
  map_capacity_fillExtents caps xs

/-- A canonical vector satisfies the representation invariant. -/
theorem repInvariant_canonical (caps : List Nat) (xs : List α) (hpos : ∀ c ∈ caps, 0 < c)
    (h : xs.length ≤ caps.sum) : (canonical caps xs).repInvariant := by
  unfold ExtentVectorBase.repInvariant
  rw [capacities_canonical, toList_canonical caps xs h]
  exact ⟨hpos, rfl, rfl, h, rfl, rfl⟩

/-- A vector that satisfies the representation invariant is the canonical vector of its
capacities and its elements. -/
theorem eq_canonical_of_repInvariant (v : ExtentVectorBase α) (h : v.repInvariant) :
    v = canonical v.capacities (O2ExtentVector.toList v) ∧
    (∀ c ∈ v.capacities, 0 < c) ∧
    (O2ExtentVector.toList v).length ≤ v.capacities.sum := by
  obtain ⟨h1, h2, h3, h4, h5, h6⟩ := h
  refine ⟨?_, h1, by omega⟩
  obtain ⟨es, sz, cap, bp⟩ := v
  simp only [canonical, ExtentVectorBase.capacities, O2ExtentVector.toList] at *
  rw [← h5, ← h3, ← h6, ← h2]

end detail
end DataDistribution
end O2

namespace O2
namespace DataDistribution
namespace detail

/-! ### Iterator arithmetic on a canonical vector -/

variable {α : Type}

theorem positionOf_of_lt (caps : List Nat) (j : Nat) (h : j < caps.sum) :
    positionOf caps (j : Int)
      = { mExtentIndex := (locate caps j).1, mElementIndex := ((locate caps j).2 : Int),
          mVectorIndex := (j : Int) } := by
  unfold positionOf
  rw [if_neg (by omega)]
  simp

theorem positionOf_of_ge (caps : List Nat) (i : Int) (h : i < 0 ∨ (caps.sum : Int) ≤ i) :
    positionOf caps i = { mExtentIndex := 0, mElementIndex := 0, mVectorIndex := i } := by
  unfold positionOf
  rw [if_pos h]

theorem locate_zero (caps : List Nat) (hpos : ∀ c ∈ caps, 0 < c) : locate caps 0 = (0, 0) := by
  cases caps with
  | nil => rfl
  | cons c cs =>
    have := hpos c (List.mem_cons_self _ _)
    simp [locate, this]

theorem positionOf_zero (caps : List Nat) (hpos : ∀ c ∈ caps, 0 < c) :
    positionOf caps 0 = { mExtentIndex := 0, mElementIndex := 0, mVectorIndex := 0 } := by
  by_cases h : 0 < caps.sum
  · have := positionOf_of_lt caps 0 h
    simp only [Nat.cast_zero] at this
    rw [this, locate_zero caps hpos]
    rfl
  · exact positionOf_of_ge caps 0 (Or.inr (by omega))

/-- The forward walk of `operator+=`, started at offset `a` of the first of the extents
`es` with `m` steps to go, ends at the located pair of `a + m`. -/
theorem walkForward_locate (es : List (Extent α)) (ext a m : Nat)
    (hpos : ∀ c ∈ es.map Extent.capacity, 0 < c)
    (ha : ∀ e ∈ es.head?, a < e.capacity)
    (hm : a + m < (es.map Extent.capacity).sum) :
    ExtentPosition.walkForward es ext (a : Int) (m : Int)
      = some (ext + (locate (es.map Extent.capacity) (a + m)).1,
              ((locate (es.map Extent.capacity) (a + m)).2 : Int)) := by
  induction es generalizing ext a m with
  | nil => simp at hm
  | cons e rest ih =>
    have hac : a < e.capacity := ha e (by simp)
    simp only [List.map_cons, List.sum_cons] at hm
    unfold ExtentPosition.walkForward
    by_cases hm0 : (m : Int) > 0
    · rw [if_pos hm0]
      by_cases hfit : a + m < e.capacity
      · have hmin : min (m : Int) ((e.capacity : Int) - a - 1) = m := by
          apply min_eq_left; omega
        simp only [hmin, sub_self, gt_iff_lt, lt_self_iff_false, if_false, List.map_cons,
          locate, hfit, if_true, add_zero]
        congr 2
      · have hmin : min (m : Int) ((e.capacity : Int) - a - 1) = (e.capacity : Int) - a - 1 := by
          apply min_eq_right; omega
        simp only [hmin]
        rw [if_pos (by omega)]
        have hrest : rest ≠ [] := by
          intro h0
          subst h0
          simp at hm
          omega
        have key := ih (ext + 1) 0 (a + m - e.capacity)
          (fun c hc => hpos c (by simp only [List.map_cons]; exact List.mem_cons_of_mem _ hc))
          (by
            intro e1 he1
            cases rest with
            | nil => exact absurd rfl hrest
            | cons r rs =>
              simp only [List.head?_cons, Option.mem_def, Option.some.injEq] at he1
              subst he1
              exact hpos _ (by simp))
          (by omega)
        have hcast : ((m : Int) - ((e.capacity : Int) - a - 1) - 1) = ((a + m - e.capacity : Nat) : Int) := by
          omega
        rw [hcast]
        simp only [Nat.cast_zero] at key
        rw [key]
        simp only [List.map_cons, locate, hfit, if_false, zero_add]
        congr 1
        congr 1
        omega
    · rw [if_neg hm0]
      have hmz : m = 0 := by omega
      subst hmz
      simp [locate, hac]

/-- The constructor `ExtentPosition(base, off)` on a canonical vector gives the position
of `off`, for every offset. -/
theorem new_canonical (caps : List Nat) (xs : List α) (hpos : ∀ c ∈ caps, 0 < c) (i : Int) :
    ExtentPosition.new (canonical caps xs) i = some (positionOf caps i) := by
  unfold ExtentPosition.new ExtentPosition.operatorPlusEq
  by_cases h0 : i = 0
  · subst h0
    simp [positionOf_zero caps hpos]
  · rw [if_neg h0]
    by_cases hneg : i < 0
    · rw [if_pos hneg]
      unfold ExtentPosition.subPos
      have : (0 : Int) - |i| < 0 := by
        have := abs_pos.mpr h0
        omega
      simp only [this, if_true]
      rw [positionOf_of_ge caps i (Or.inl hneg)]
      congr 2
      rw [abs_of_neg hneg]
      ring
    · rw [if_neg hneg]
      unfold ExtentPosition.addPos
      simp only [canonical, zero_add]
      by_cases hov : i < 0 ∨ i ≥ (caps.sum : Int)
      · rw [if_pos hov, positionOf_of_ge caps i hov]
      · rw [if_neg hov]
        simp only [lt_self_iff_false, if_false, List.drop_zero]
        obtain ⟨k, rfl⟩ := Int.eq_ofNat_of_zero_le (by omega : 0 ≤ i)
        have hk : k < caps.sum := by omega
        have key := walkForward_locate (fillExtents caps xs) 0 0 k
          (by rw [map_capacity_fillExtents]; exact hpos)
          (by
            intro e he
            cases caps with
            | nil => simp at hk
            | cons c cs =>
              simp only [fillExtents, List.head?_cons, Option.mem_def, Option.some.injEq] at he
              subst he
              exact hpos c (List.mem_cons_self _ _))
          (by rw [map_capacity_fillExtents]; omega)
        simp only [Nat.cast_zero, zero_add, map_capacity_fillExtents] at key
        try simp only [Int.ofNat_eq_coe]
        rw [key, positionOf_of_lt caps k hk]
        simp

end detail
end DataDistribution
end O2

namespace O2
namespace DataDistribution
namespace detail

variable {α : Type}

theorem get?_fillExtents_capacity (caps : List Nat) (xs : List α) (ext : Nat) :
    ((fillExtents caps xs).get? ext).map Extent.capacity = caps.get? ext := by
  rw [← List.get?_map, map_capacity_fillExtents]

theorem length_lt_of_sum_take_lt (caps : List Nat) (n : Nat)
    (h : (caps.take n).sum < caps.sum) : n < caps.length := by
  by_contra hn
  rw [List.take_of_length_le (by omega)] at h
  omega

/-- The increment `operator++` moves the position of `i` to the position of `i + 1`. -/
theorem inc_canonical (caps : List Nat) (xs : List α) (hpos : ∀ c ∈ caps, 0 < c) (i : Int) :
    ExtentPosition.inc (canonical caps xs) (positionOf caps i) = some (positionOf caps (i + 1)) := by
  unfold ExtentPosition.inc
  have hidx : (positionOf caps i).mVectorIndex = i := by
    unfold positionOf; split_ifs <;> rfl
  simp only [hidx, canonical]
  by_cases hov : i + 1 < 0 ∨ i + 1 ≥ (caps.sum : Int)
  · rw [if_pos hov, positionOf_of_ge caps (i + 1) hov]
  · rw [if_neg hov]
    by_cases h0 : i + 1 = 0
    · rw [if_pos h0]
      have hi : i = -1 := by omega
      subst hi
      rw [positionOf_of_ge caps (-1) (Or.inl (by omega))]
      simp only [Int.reduceNeg, neg_add_cancel]
      rw [positionOf_zero caps hpos]
    · rw [if_neg h0]
      obtain ⟨k, rfl⟩ := Int.eq_ofNat_of_zero_le (by omega : 0 ≤ i)
      have hk : k + 1 < caps.sum := by omega
      obtain ⟨c, hc, ha, hsum⟩ := locate_spec caps k (by omega)
      rw [positionOf_of_lt caps k (by omega)]
      have hget := fillExtents_get? caps xs _ c hc
      simp only [hget]
      have hk1 : ((k : Int) + 1) = ((k + 1 : Nat) : Int) := by push_cast; ring
      rw [hk1, positionOf_of_lt caps (k + 1) hk]
      by_cases hin : (locate caps k).2 + 1 < c
      · rw [if_pos (by simp only [Extent.capacity]; omega)]
        rw [locate_unique caps (k + 1) (locate caps k).1 ((locate caps k).2 + 1) c hc hin
          (by omega)]
        simp
      · rw [if_neg (by simp only [Extent.capacity]; omega)]
        have hnext : (caps.take ((locate caps k).1 + 1)).sum = k + 1 := by
          rw [sum_take_succ caps _ c hc]; omega
        have hlen : (locate caps k).1 + 1 < caps.length :=
          length_lt_of_sum_take_lt caps _ (by omega)
        rw [if_pos (by rw [length_fillExtents]; exact hlen)]
        obtain ⟨c1, hc1⟩ : ∃ c1, caps.get? ((locate caps k).1 + 1) = some c1 :=
          ⟨_, List.get?_eq_get hlen⟩
        have hc1pos : 0 < c1 := hpos c1 (List.get?_mem hc1)
        rw [locate_unique caps (k + 1) ((locate caps k).1 + 1) 0 c1 hc1 hc1pos (by omega)]
        simp

theorem sum_take_length_pred (caps : List Nat) (c : Nat)
    (h : caps.get? (caps.length - 1) = some c) :
    (caps.take (caps.length - 1)).sum + c = caps.sum := by
  have hlen : caps.length - 1 < caps.length := (List.get?_eq_some.mp h).1
  have := sum_take_succ caps (caps.length - 1) c h
  rw [show caps.length - 1 + 1 = caps.length by omega, List.take_length] at this
  omega

/-- The decrement `operator--` moves the position of `i` to the position of `i - 1`. -/
theorem dec_canonical (caps : List Nat) (xs : List α) (hpos : ∀ c ∈ caps, 0 < c) (i : Int) :
    ExtentPosition.dec (canonical caps xs) (positionOf caps i) = some (positionOf caps (i - 1)) := by
  unfold ExtentPosition.dec
  have hidx : (positionOf caps i).mVectorIndex = i := by
    unfold positionOf; split_ifs <;> rfl
  simp only [hidx, canonical]
  by_cases hneg : i - 1 < 0
  · rw [if_pos hneg, positionOf_of_ge caps (i - 1) (Or.inl hneg)]
  · rw [if_neg hneg]
    by_cases hov : i - 1 ≥ (caps.sum : Int)
    · rw [if_pos hov, positionOf_of_ge caps (i - 1) (Or.inr hov),
        positionOf_of_ge caps i (Or.inr (by omega))]
    · rw [if_neg hov]
      obtain ⟨k, hk⟩ := Int.eq_ofNat_of_zero_le (by omega : 0 ≤ i - 1)
      have hi : i = ((k + 1 : Nat) : Int) := by push_cast; omega
      subst hi
      have hklt : k < caps.sum := by omega
      have hk1 : (((k + 1 : Nat) : Int) - 1) = (k : Int) := by push_cast; ring
      rw [hk1, positionOf_of_lt caps k hklt]
      by_cases hlast : (k : Int) = (caps.sum : Int) - 1
      · rw [if_pos hlast]
        have hlen : 0 < caps.length := by
          cases caps with
          | nil => simp at hklt
          | cons c cs => simp
        obtain ⟨c, hc⟩ : ∃ c, caps.get? (caps.length - 1) = some c :=
          ⟨_, List.get?_eq_get (by omega)⟩
        have hcpos : 0 < c := hpos c (List.get?_mem hc)
        rw [length_fillExtents, fillExtents_get? caps xs _ c hc]
        have hs := sum_take_length_pred caps c hc
        rw [locate_unique caps k (caps.length - 1) (c - 1) c hc (by omega) (by omega)]
        simp only [Extent.capacity, Option.some.injEq, ExtentPosition.mk.injEq, true_and, and_true]
        omega
      · rw [if_neg hlast]
        have hk1lt : k + 1 < caps.sum := by omega
        rw [positionOf_of_lt caps (k + 1) hk1lt]
        obtain ⟨c, hc, ha, hsum⟩ := locate_spec caps (k + 1) hk1lt
        simp only
        by_cases hel : (locate caps (k + 1)).2 > 0
        · rw [if_pos (by omega)]
          rw [locate_unique caps k (locate caps (k + 1)).1 ((locate caps (k + 1)).2 - 1) c hc
            (by omega) (by omega)]
          simp only [Option.some.injEq, ExtentPosition.mk.injEq, true_and, and_true]
          omega
        · rw [if_neg (by omega)]
          have hext : (locate caps (k + 1)).1 > 0 := by
            by_contra h0
            have hz : (locate caps (k + 1)).1 = 0 := by omega
            rw [hz] at hsum
            simp at hsum
            omega
          rw [if_pos hext]
          have hlen := locate_fst_lt caps (k + 1) hk1lt
          obtain ⟨c1, hc1⟩ : ∃ c1, caps.get? ((locate caps (k + 1)).1 - 1) = some c1 :=
            ⟨_, List.get?_eq_get (by omega)⟩
          have hc1pos : 0 < c1 := hpos c1 (List.get?_mem hc1)
          rw [fillExtents_get? caps xs _ c1 hc1]
          have hs := sum_take_succ caps ((locate caps (k + 1)).1 - 1) c1 hc1
          rw [show (locate caps (k + 1)).1 - 1 + 1 = (locate caps (k + 1)).1 by omega] at hs
          rw [locate_unique caps k ((locate caps (k + 1)).1 - 1) (c1 - 1) c1 hc1 (by omega)
            (by omega)]
          simp only [Extent.capacity, Option.some.injEq, ExtentPosition.mk.injEq, true_and, and_true]
          omega

/-- The backward walk of `operator-=`, started at the located pair of `j` with `n ≤ j`
steps to go, ends at the located pair of `j - n`. -/
theorem walkBackward_locate (caps : List Nat) (xs : List α) (hpos : ∀ c ∈ caps, 0 < c)
    (ext a c j n : Nat) (hc : caps.get? ext = some c) (ha : a < c)
    (hj : (caps.take ext).sum + a = j) (hn : n ≤ j) :
    ExtentPosition.walkBackward (fillExtents caps xs) ext (a : Int) (n : Int)
      = some ((locate caps (j - n)).1, ((locate caps (j - n)).2 : Int)) := by
  induction ext generalizing a c j n with
  | zero =>
    simp only [List.take_zero, List.sum_nil, zero_add] at hj
    subst hj
    unfold ExtentPosition.walkBackward
    by_cases hn0 : (n : Int) > 0
    · rw [if_pos hn0]
      have hmin : min (a : Int) (n : Int) = n := min_eq_right (by omega)
      simp only [hmin, sub_self, gt_iff_lt, lt_self_iff_false, if_false]
      rw [locate_unique caps (a - n) 0 (a - n) c hc (by omega) (by simp)]
      simp only [Option.some.injEq, Prod.mk.injEq, true_and, and_true]
      omega
    · rw [if_neg hn0]
      have : n = 0 := by omega
      subst this
      rw [locate_unique caps (a - 0) 0 a c hc ha (by simp)]
  | succ ext ih =>
    unfold ExtentPosition.walkBackward
    by_cases hn0 : (n : Int) > 0
    · rw [if_pos hn0]
      by_cases hna : n ≤ a
      · have hmin : min (a : Int) (n : Int) = n := min_eq_right (by omega)
        simp only [hmin, sub_self, gt_iff_lt, lt_self_iff_false, if_false]
        rw [locate_unique caps (j - n) (ext + 1) (a - n) c hc (by omega) (by omega)]
        simp only [Option.some.injEq, Prod.mk.injEq, true_and, and_true]
        omega
      · have hmin : min (a : Int) (n : Int) = a := min_eq_left (by omega)
        simp only [hmin]
        rw [if_pos (by omega)]
        have hlen : ext < caps.length := by
          have := (List.get?_eq_some.mp hc).1
          omega
        obtain ⟨c1, hc1⟩ : ∃ c1, caps.get? ext = some c1 := ⟨_, List.get?_eq_get hlen⟩
        have hc1pos : 0 < c1 := hpos c1 (List.get?_mem hc1)
        rw [fillExtents_get? caps xs _ c1 hc1]
        have hs := sum_take_succ caps ext c1 hc1
        have key := ih (c1 - 1) c1 ((caps.take ext).sum + (c1 - 1)) (n - a - 1) hc1 (by omega)
          rfl (by omega)
        simp only [Extent.capacity]
        have e1 : ((c1 : Int) - 1) = ((c1 - 1 : Nat) : Int) := by omega
        have e2 : ((n : Int) - a - 1) = ((n - a - 1 : Nat) : Int) := by omega
        rw [e1, e2, key]
        have hidx : (caps.take ext).sum + (c1 - 1) - (n - a - 1) = j - n := by omega
        rw [hidx]
    · rw [if_neg hn0]
      have : n = 0 := by omega
      subst this
      rw [locate_unique caps (j - 0) (ext + 1) a c hc ha (by simpa using hj)]

/-- The member `operator-=(n)` with `n > 0` moves the position of `i` to the position of
`i - n`. -/
theorem operatorMinusEq_canonical (caps : List Nat) (xs : List α) (hpos : ∀ c ∈ caps, 0 < c)
    (i n : Int) (hn : 0 < n) :
    ExtentPosition.operatorMinusEq (canonical caps xs) (positionOf caps i) n
      = some (positionOf caps (i - n)) := by
  unfold ExtentPosition.operatorMinusEq
  rw [if_neg (by omega), if_neg (by omega)]
  unfold ExtentPosition.subPos
  have hidx : (positionOf caps i).mVectorIndex = i := by
    unfold positionOf; split_ifs <;> rfl
  simp only [hidx]
  by_cases hneg : i - n < 0
  · rw [if_pos hneg, positionOf_of_ge caps (i - n) (Or.inl hneg)]
  · rw [if_neg hneg]
    have hcap : (canonical caps xs).mCapacity = caps.sum := rfl
    simp only [hcap]
    by_cases hov : i ≥ (caps.sum : Int)
    · rw [if_pos hov]
      rw [positionOf_of_ge caps i (Or.inr hov)]
      by_cases hstay : n ≤ i - caps.sum
      · have hmin : min (i - (caps.sum : Int)) n = n := min_eq_right hstay
        simp only [hmin, sub_self, gt_iff_lt, lt_self_iff_false, if_false, sub_zero]
        rw [positionOf_of_ge caps (i - n) (Or.inr (by omega))]
        cases hfe : fillExtents caps xs with
        | nil => simp [canonical, hfe, ExtentPosition.walkBackward]
        | cons e es => simp [canonical, hfe, ExtentPosition.walkBackward]
      · have hmin : min (i - (caps.sum : Int)) n = i - caps.sum := min_eq_left (by omega)
        simp only [hmin]
        rw [if_pos (by omega)]
        have hp1 : ExtentPosition.mk 0 0 (i - (i - (caps.sum : Int)))
            = positionOf caps (caps.sum : Int) := by
          rw [positionOf_of_ge caps _ (Or.inr (le_refl _))]
          congr 1
          ring
        rw [hp1, dec_canonical caps xs hpos]
        simp only [Option.map_some']
        have hsum : 0 < caps.sum := by omega
        obtain ⟨k, hk⟩ : ∃ k : Nat, k + 1 = caps.sum := ⟨caps.sum - 1, by omega⟩
        have hk' : ((caps.sum : Int) - 1) = (k : Int) := by omega
        rw [hk', positionOf_of_lt caps k (by omega)]
        obtain ⟨c, hc, ha, hsumk⟩ := locate_spec caps k (by omega)
        obtain ⟨m, hm⟩ := Int.eq_ofNat_of_zero_le (by omega : 0 ≤ n - (i - (caps.sum : Int)) - 1)
        rw [hm]
        simp only [canonical]
        rw [walkBackward_locate caps xs hpos _ _ c k m hc ha hsumk (by omega)]
        simp only [Option.map_some']
        have hfin : i - n = ((k - m : Nat) : Int) := by omega
        rw [hfin, positionOf_of_lt caps (k - m) (by omega)]
        simp only [Option.some.injEq, ExtentPosition.mk.injEq, true_and, and_true]
        omega
    · rw [if_neg hov]
      obtain ⟨k, rfl⟩ := Int.eq_ofNat_of_zero_le (by omega : 0 ≤ i)
      obtain ⟨m, rfl⟩ := Int.eq_ofNat_of_zero_le (by omega : 0 ≤ n)
      have hk : k < caps.sum := by omega
      rw [positionOf_of_lt caps k hk]
      obtain ⟨c, hc, ha, hsumk⟩ := locate_spec caps k hk
      simp only [canonical]
      rw [walkBackward_locate caps xs hpos _ _ c k m hc ha hsumk (by omega)]
      simp only [Option.map_some']
      have hfin : ((k : Int) - (m : Int)) = ((k - m : Nat) : Int) := by omega
      rw [hfin, positionOf_of_lt caps (k - m) (by omega)]

end detail
end DataDistribution
end O2

namespace O2
namespace DataDistribution
namespace detail

variable {α : Type}

/-! ### Elements of a canonical vector -/

/-- Replacing the element at logical index `i` changes one slot of one extent. -/
theorem fillExtents_set (caps : List Nat) (xs : List α) (i : Nat) (y : α) (ext a c : Nat)
    (hc : caps.get? ext = some c) (ha : a < c) (hi : (caps.take ext).sum + a = i) :
    fillExtents caps (xs.set i y)
      = (fillExtents caps xs).set ext
          { mStart := ((xs.drop (caps.take ext).sum).take c).set a y, mCapacity := c } := by
  induction caps generalizing xs i ext with
  | nil => simp at hc
  | cons c0 cs ih =>
    cases ext with
    | zero =>
      simp only [List.get?_cons_zero, Option.some.injEq] at hc
      simp only [List.take_zero, List.sum_nil, zero_add] at hi
      subst hc hi
      simp only [fillExtents, List.set_take, List.drop_set_of_lt y xs ha, List.set_cons_zero,
        List.take_zero, List.sum_nil, List.drop_zero]
    | succ ext =>
      simp only [List.get?_cons_succ] at hc
      simp only [List.take_succ_cons, List.sum_cons] at hi
      have hge : ¬ i < c0 := by omega
      have htake : (xs.set i y).take c0 = xs.take c0 := by
        rw [List.set_take]
        exact List.set_eq_of_length_le (by simp only [List.length_take]; omega)
      simp only [fillExtents, htake, List.drop_set, hge, if_false, List.set_cons_succ,
        List.take_succ_cons, List.sum_cons]
      rw [ih (xs.drop c0) (i - c0) ext hc (by omega), List.drop_drop]

/-- Appending an element changes one extent: the one that holds the logical index
`xs.length`. -/
theorem fillExtents_snoc (caps : List Nat) (xs : List α) (x : α) (ext a c : Nat)
    (hc : caps.get? ext = some c) (ha : a < c) (hi : (caps.take ext).sum + a = xs.length) :
    fillExtents caps (xs ++ [x])
      = (fillExtents caps xs).set ext
          { mStart := (xs.drop (caps.take ext).sum).take c ++ [x], mCapacity := c } ∧
    ((xs.drop (caps.take ext).sum).take c).length = a := by
  induction caps generalizing xs ext with
  | nil => simp at hc
  | cons c0 cs ih =>
    cases ext with
    | zero =>
      simp only [List.get?_cons_zero, Option.some.injEq] at hc
      simp only [List.take_zero, List.sum_nil, zero_add] at hi
      subst hc
      have h1 : (xs ++ [x]).take c0 = xs ++ [x] :=
        List.take_of_length_le (by simp only [List.length_append, List.length_singleton]; omega)
      have h2 : xs.take c0 = xs := List.take_of_length_le (by omega)
      have h3 : (xs ++ [x]).drop c0 = [] :=
        List.drop_of_length_le (by simp only [List.length_append, List.length_singleton]; omega)
      have h4 : xs.drop c0 = [] := List.drop_of_length_le (by omega)
      simp only [fillExtents, h1, h2, h3, h4, List.set_cons_zero, List.take_zero, List.sum_nil,
        List.drop_zero, true_and]
      omega
    | succ ext =>
      simp only [List.get?_cons_succ] at hc
      simp only [List.take_succ_cons, List.sum_cons] at hi
      have hle : c0 ≤ xs.length := by omega
      obtain ⟨e1, e2⟩ := ih (xs.drop c0) ext hc (by simp only [List.length_drop]; omega)
      simp only [fillExtents, List.take_append_of_le_length hle,
        List.drop_append_of_le_length hle, List.set_cons_succ, List.take_succ_cons,
        List.sum_cons]
      rw [List.drop_drop] at e1 e2
      exact ⟨by rw [e1], e2⟩

theorem fillExtents_append_capacity (caps : List Nat) (xs : List α) (k : Nat)
    (h : xs.length ≤ caps.sum) :
    fillExtents (caps ++ [k]) xs = fillExtents caps xs ++ [Extent.new k] := by
  induction caps generalizing xs with
  | nil =>
    have : xs = [] := List.length_eq_zero.mp (by simpa using h)
    simp [fillExtents, this, Extent.new]
  | cons c cs ih =>
    have hstep : fillExtents (c :: cs ++ [k]) xs
        = { mStart := xs.take c, mCapacity := c } :: fillExtents (cs ++ [k]) (xs.drop c) := rfl
    rw [hstep, ih (xs.drop c) (by simp only [List.length_drop, List.sum_cons] at h ⊢; omega)]
    rfl

/-- Reading through the position of `i` gives the element at `i`. -/
theorem deref_canonical (caps : List Nat) (xs : List α) (h : xs.length ≤ caps.sum)
    (i : Nat) (x : α) (hx : xs.get? i = some x) :
    ExtentPosition.deref (canonical caps xs) (positionOf caps i) = .value x := by
  have hi : i < xs.length := (List.get?_eq_some.mp hx).1
  obtain ⟨c, hc, ha, hsum⟩ := locate_spec caps i (by omega)
  rw [positionOf_of_lt caps i (by omega)]
  unfold ExtentPosition.deref ExtentPosition.is_dereferenceable ExtentPosition.is_before_begin
  have hd : (!decide ((i : Int) < 0) && decide ((i : Int) < ((canonical caps xs).mSize : Int)))
      = true := by
    simp only [canonical, Bool.and_eq_true, Bool.not_eq_true', decide_eq_false_iff_not,
      decide_eq_true_eq]
    omega
  simp only [hd, if_true]
  simp only [canonical, fillExtents_get? caps xs _ c hc, Extent.get]
  rw [if_pos (by omega)]
  simp only [Int.toNat_ofNat, List.get?_take ha, List.get?_drop, hsum, hx]

/-- Writing through the position of `i` replaces the element at `i`. -/
theorem assign_canonical (caps : List Nat) (xs : List α) (h : xs.length ≤ caps.sum)
    (i : Nat) (hi : i < xs.length) (y : α) :
    ExtentPosition.assign (canonical caps xs) (positionOf caps i) y
      = .ok (canonical caps (xs.set i y)) := by
  obtain ⟨c, hc, ha, hsum⟩ := locate_spec caps i (by omega)
  rw [positionOf_of_lt caps i (by omega)]
  unfold ExtentPosition.assign ExtentPosition.is_dereferenceable ExtentPosition.is_before_begin
  have hd : (!decide ((i : Int) < 0) && decide ((i : Int) < ((canonical caps xs).mSize : Int)))
      = true := by
    simp only [canonical, Bool.and_eq_true, Bool.not_eq_true', decide_eq_false_iff_not,
      decide_eq_true_eq]
    omega
  simp only [hd, if_true]
  simp only [canonical, fillExtents_get? caps xs _ c hc, Extent.size]
  rw [if_pos (by
    simp only [List.length_take, List.length_drop]
    omega)]
  simp only [Int.toNat_ofNat, List.length_set]
  rw [fillExtents_set caps xs i y _ _ c hc ha hsum]

/-- The increment reads the recorded capacity and the capacities of the extents only. -/
theorem inc_congr (v w : ExtentVectorBase α) (p : ExtentPosition)
    (h1 : v.mCapacity = w.mCapacity) (h2 : v.capacities = w.capacities) :
    ExtentPosition.inc v p = ExtentPosition.inc w p := by
  unfold ExtentPosition.inc
  have hlen : v.mExtents.length = w.mExtents.length := by
    have := congrArg List.length h2
    simpa [ExtentVectorBase.capacities] using this
  have hget : (v.mExtents.get? p.mExtentIndex).map Extent.capacity
      = (w.mExtents.get? p.mExtentIndex).map Extent.capacity := by
    rw [← List.get?_map, ← List.get?_map]
    exact congrArg (fun l => l.get? p.mExtentIndex) h2
  rw [h1, hlen]
  cases hv : v.mExtents.get? p.mExtentIndex <;> cases hw : w.mExtents.get? p.mExtentIndex <;>
    simp only [hv, hw, Option.map_some', Option.map_none', Option.some.injEq] at hget ⊢
  · simp at hget
  · simp at hget
  · rw [hget]

/-- One round of the loop of `fill_expand` on a canonical vector with room: the element is
appended. -/
theorem append_at_back_canonical (caps : List Nat) (xs : List α) (hpos : ∀ c ∈ caps, 0 < c)
    (x : α) (h : xs.length < caps.sum) :
    ExtentVectorBase.append_at_back (canonical caps xs) x = some (canonical caps (xs ++ [x])) := by
  obtain ⟨c, hc, ha, hsum⟩ := locate_spec caps xs.length h
  obtain ⟨hfill, hlen⟩ := fillExtents_snoc caps xs x _ _ c hc ha hsum
  unfold ExtentVectorBase.append_at_back
  have hback : (canonical caps xs).mBackPosition
      = { mExtentIndex := (locate caps xs.length).1,
          mElementIndex := ((locate caps xs.length).2 : Int),
          mVectorIndex := (xs.length : Int) } := positionOf_of_lt caps xs.length h
  have hget : (canonical caps xs).mExtents.get? (locate caps xs.length).1
      = some { mStart := (xs.drop (caps.take (locate caps xs.length).1).sum).take c,
               mCapacity := c } := fillExtents_get? caps xs _ c hc
  simp only [hback, hget, Extent.emplace_back, Extent.size, hlen]
  rw [if_pos ha]
  simp only
  rw [inc_congr (w := canonical caps (xs ++ [x]))]
  · rw [← positionOf_of_lt caps xs.length h, inc_canonical caps (xs ++ [x]) hpos xs.length]
    simp only [Option.map_some', canonical, ← hfill, List.length_append, List.length_singleton,
      Nat.cast_add, Nat.cast_one]
  · rfl
  · simp only [ExtentVectorBase.capacities, canonical, ← hfill, map_capacity_fillExtents]

end detail
end DataDistribution
end O2

namespace O2
namespace DataDistribution
namespace detail

variable {α : Type}

/-! ### Growing -/

/-- The value of `expand_size` is at least the capacity asked for, and at least the current
capacity. -/
theorem expand_size_ge (sizeofT : Nat) (hs : 0 < sizeofT) (v : ExtentVectorBase α)
    (req_cap : Nat) (exact : Bool) :
    req_cap ≤ ExtentVectorBase.expand_size sizeofT v req_cap exact ∧
    v.mCapacity ≤ ExtentVectorBase.expand_size sizeofT v req_cap exact := by
  unfold ExtentVectorBase.expand_size ExtentVectorBase.PAGESIZE_ALIGN
  have key : ∀ nc : Nat, nc ≤ (nc * sizeofT + 4096 - 1) / 4096 * 4096 / sizeofT := by
    intro nc
    rw [Nat.le_div_iff_mul_le hs]
    omega
  cases exact
  · simp only [Bool.false_eq_true, if_false]
    have h1 := key (max (max v.mCapacity 2 * 3 / 2) req_cap)
    have h2 : req_cap ≤ max (max v.mCapacity 2 * 3 / 2) req_cap := le_max_right _ _
    have h3 : v.mCapacity ≤ max (max v.mCapacity 2 * 3 / 2) req_cap := by
      have : v.mCapacity ≤ max v.mCapacity 2 * 3 / 2 := by
        have := le_max_left v.mCapacity 2
        omega
      exact le_trans this (le_max_left _ _)
    exact ⟨le_trans h2 h1, le_trans h3 h1⟩
  · simp only [if_true]
    have h1 := key (max req_cap v.mCapacity)
    exact ⟨le_trans (le_max_left _ _) h1, le_trans (le_max_right _ _) h1⟩

theorem grownCapacities_canonical (sizeofT : Nat) (hs : 0 < sizeofT) (caps : List Nat)
    (xs : List α) (hpos : ∀ c ∈ caps, 0 < c) (h : xs.length ≤ caps.sum) (n : Nat)
    (exact : Bool) :
    (∀ c ∈ grownCapacities sizeofT (canonical caps xs) n exact, 0 < c) ∧
    xs.length + n ≤ (grownCapacities sizeofT (canonical caps xs) n exact).sum ∧
    (∃ ks, grownCapacities sizeofT (canonical caps xs) n exact = caps ++ ks) := by
  unfold grownCapacities
  have hm : (canonical caps xs).mExtents.map Extent.capacity = caps :=
    map_capacity_fillExtents caps xs
  have hcap : (canonical caps xs).mCapacity = caps.sum := rfl
  have hsz : (canonical caps xs).mSize = xs.length := rfl
  rw [hm, hcap, hsz]
  by_cases hfree : caps.sum - xs.length ≥ n
  · rw [if_pos hfree]
    exact ⟨hpos, by omega, [], by simp⟩
  · rw [if_neg hfree]
    have hge := (expand_size_ge sizeofT hs (canonical caps xs)
      (caps.sum + (n - (caps.sum - xs.length))) exact).1
    refine ⟨?_, ?_, _, rfl⟩
    · intro c hc
      rcases List.mem_append.mp hc with h1 | h1
      · exact hpos c h1
      · simp only [List.mem_singleton] at h1
        omega
    · simp only [List.sum_append, List.sum_cons, List.sum_nil]
      omega

/-- The member `make_space_for` on a canonical vector: the elements stay, the capacities
become the grown capacities. -/
theorem make_space_for_canonical (sizeofT : Nat) (caps : List Nat)
    (xs : List α) (hpos : ∀ c ∈ caps, 0 < c) (h : xs.length ≤ caps.sum) (n : Nat)
    (exact : Bool)
    (hg : ∀ c ∈ grownCapacities sizeofT (canonical caps xs) n exact, 0 < c) :
    ExtentVectorBase.make_space_for sizeofT (canonical caps xs) n exact
      = some (canonical (grownCapacities sizeofT (canonical caps xs) n exact) xs) := by
  unfold ExtentVectorBase.make_space_for grownCapacities at *
  have hm : (canonical caps xs).mExtents.map Extent.capacity = caps :=
    map_capacity_fillExtents caps xs
  rw [hm] at hg ⊢
  by_cases hfree : (canonical caps xs).mCapacity - (canonical caps xs).mSize ≥ n
  · simp only [if_pos hfree]
  · simp only [if_neg hfree] at hg ⊢
    generalize ExtentVectorBase.expand_size sizeofT (canonical caps xs)
      ((canonical caps xs).mCapacity
        + (n - ((canonical caps xs).mCapacity - (canonical caps xs).mSize))) exact
      - (canonical caps xs).mCapacity = k at hg ⊢
    have hsum : caps.sum + k = (caps ++ [k]).sum := by simp
    have hnew : ExtentPosition.new
        ({ mExtents := fillExtents caps xs ++ [Extent.new k], mSize := xs.length,
           mCapacity := (caps ++ [k]).sum, mBackPosition := positionOf caps xs.length } :
          ExtentVectorBase α) (xs.length : Int)
        = some (positionOf (caps ++ [k]) xs.length) := by
      rw [← fillExtents_append_capacity caps xs k h]
      exact new_canonical (caps ++ [k]) xs hg xs.length
    simp only [canonical, fillExtents_append_capacity caps xs k h, hsum]
    rw [hnew]
    rfl

/-- Claim C7 on canonical vectors: `push_back` and `emplace_back` append the value. -/
theorem emplace_back_canonical (sizeofT : Nat) (hs : 0 < sizeofT) (caps : List Nat)
    (xs : List α) (hpos : ∀ c ∈ caps, 0 < c) (h : xs.length ≤ caps.sum) (x : α) :
    ExtentVectorBase.emplace_back sizeofT (canonical caps xs) x
      = some (canonical (grownCapacities sizeofT (canonical caps xs) 1 false) (xs ++ [x])) := by
  obtain ⟨hg, hroom, _⟩ := grownCapacities_canonical sizeofT hs caps xs hpos h 1 false
  unfold ExtentVectorBase.emplace_back
  rw [make_space_for_canonical sizeofT caps xs hpos h 1 false hg]
  exact append_at_back_canonical _ xs hg x (by omega)

theorem fill_expand_loop_canonical (caps : List Nat) (hpos : ∀ c ∈ caps, 0 < c) (n : Nat)
    (xs : List α) (x : α) (h : xs.length + n ≤ caps.sum) :
    ExtentVectorBase.fill_expand_loop n (canonical caps xs) x
      = some (canonical caps (xs ++ List.replicate n x)) := by
  induction n generalizing xs with
  | zero => simp [ExtentVectorBase.fill_expand_loop]
  | succ n ih =>
    unfold ExtentVectorBase.fill_expand_loop
    rw [append_at_back_canonical caps xs hpos x (by omega)]
    simp only
    rw [ih (xs ++ [x]) (by simp only [List.length_append, List.length_singleton]; omega)]
    simp [List.replicate_succ]

/-- The member `fill_expand(n, x)` on a canonical vector appends `n` copies of `x`. -/
theorem fill_expand_canonical (sizeofT : Nat) (hs : 0 < sizeofT) (caps : List Nat)
    (xs : List α) (hpos : ∀ c ∈ caps, 0 < c) (h : xs.length ≤ caps.sum) (n : Nat) (x : α) :
    ExtentVectorBase.fill_expand sizeofT (canonical caps xs) n x
      = some (canonical (grownCapacities sizeofT (canonical caps xs) n false)
          (xs ++ List.replicate n x)) := by
  obtain ⟨hg, hroom, _⟩ := grownCapacities_canonical sizeofT hs caps xs hpos h n false
  unfold ExtentVectorBase.fill_expand
  rw [make_space_for_canonical sizeofT caps xs hpos h n false hg]
  exact fill_expand_loop_canonical _ hg n xs x hroom

/-! ### Shrinking -/

/-- The member `pop_back` on a canonical vector that holds `ys ++ [x]` leaves `ys`. -/
theorem pop_back_canonical (caps : List Nat) (hpos : ∀ c ∈ caps, 0 < c) (ys : List α) (x : α)
    (h : ys.length + 1 ≤ caps.sum) :
    ExtentVectorBase.pop_back (canonical caps (ys ++ [x])) = .ok (canonical caps ys) := by
  obtain ⟨c, hc, ha, hsum⟩ := locate_spec caps ys.length (by omega)
  obtain ⟨hfill, hlen⟩ := fillExtents_snoc caps ys x _ _ c hc ha hsum
  unfold ExtentVectorBase.pop_back
  have hsz : (canonical caps (ys ++ [x])).mSize = ys.length + 1 := by simp [canonical]
  rw [if_neg (by rw [hsz]; omega)]
  have hback : (canonical caps (ys ++ [x])).mBackPosition
      = positionOf caps ((ys.length : Int) + 1) := by simp [canonical]
  rw [hback, operatorMinusEq_canonical caps (ys ++ [x]) hpos _ 1 (by omega)]
  simp only [add_sub_cancel_right]
  rw [positionOf_of_lt caps ys.length (by omega)]
  have hext : (locate caps ys.length).1 < (fillExtents caps ys).length := by
    rw [length_fillExtents]; exact locate_fst_lt caps ys.length (by omega)
  have hget : (canonical caps (ys ++ [x])).mExtents.get? (locate caps ys.length).1
      = some { mStart := (ys.drop (caps.take (locate caps ys.length).1).sum).take c ++ [x],
               mCapacity := c } := by
    simp only [canonical, hfill]
    rw [List.get?_eq_getElem?, List.getElem?_set_eq hext]
  simp only [hget, Extent.pop_back, Extent.size, List.length_append, List.length_singleton]
  rw [if_pos (by omega)]
  simp only [List.dropLast_concat, hsz, Nat.add_sub_cancel]
  have hself : (fillExtents caps ys).set (locate caps ys.length).1
      { mStart := (ys.drop (caps.take (locate caps ys.length).1).sum).take c, mCapacity := c }
      = fillExtents caps ys := by
    apply List.ext_getElem?
    intro i
    by_cases hi : i = (locate caps ys.length).1
    · subst hi
      rw [List.getElem?_set_eq hext, ← List.get?_eq_getElem?, fillExtents_get? caps ys _ c hc]
    · rw [List.getElem?_set_ne (Ne.symm hi)]
  simp only [canonical, hfill, List.set_set, hself]
  rw [positionOf_of_lt caps ys.length (by omega)]

theorem resize_shrink_loop_canonical (caps : List Nat) (hpos : ∀ c ∈ caps, 0 < c) (n k : Nat)
    (xs : List α) (h : xs.length ≤ caps.sum) (hk : xs.length ≤ n + k) :
    ExtentVectorBase.resize_shrink_loop k (canonical caps xs) n
      = .ok (canonical caps (xs.take n)) := by
  induction k generalizing xs with
  | zero =>
    unfold ExtentVectorBase.resize_shrink_loop
    rw [List.take_of_length_le (by omega)]
  | succ k ih =>
    unfold ExtentVectorBase.resize_shrink_loop
    by_cases hgt : xs.length > n
    · rw [if_pos (by simpa [canonical] using hgt)]
      have hne : xs ≠ [] := by
        intro h0; subst h0; simp at hgt
      obtain ⟨ys, x, rfl⟩ : ∃ ys x, xs = ys ++ [x] :=
        ⟨xs.dropLast, xs.getLast hne, (List.dropLast_concat_getLast hne).symm⟩
      simp only [List.length_append, List.length_singleton] at h hk hgt
      rw [pop_back_canonical caps hpos ys x h]
      simp only
      rw [ih ys (by omega) (by omega), List.take_append_of_le_length (by omega)]
    · rw [if_neg (by simpa [canonical] using hgt)]
      rw [List.take_of_length_le (by omega)]

end detail
end DataDistribution
end O2

namespace O2
namespace DataDistribution
namespace detail

variable {α : Type}

/-! ### Insertion -/

/-- Extents appended after the one that holds an index do not change its position. -/
theorem locate_append (caps ks : List Nat) (p : Nat) (h : p < caps.sum) :
    locate (caps ++ ks) p = locate caps p := by
  obtain ⟨c, hc, ha, hsum⟩ := locate_spec caps p h
  have hlen : (locate caps p).1 < caps.length := (List.get?_eq_some.mp hc).1
  apply locate_unique (caps ++ ks) p _ _ c
  · rw [List.get?_eq_getElem?, List.getElem?_append_left hlen, ← List.get?_eq_getElem?]
    exact hc
  · exact ha
  · rw [List.take_append_of_le_length (by omega)]
    exact hsum

theorem positionOf_append (caps ks : List Nat) (p : Nat) (h : p < caps.sum) :
    positionOf (caps ++ ks) p = positionOf caps p := by
  rw [positionOf_of_lt caps p h,
    positionOf_of_lt (caps ++ ks) p (by simp only [List.sum_append]; omega),
    locate_append caps ks p h]

/-- The loop of `std::copy_backward` inside a canonical vector: `k` elements that end at
index `e` are copied to end at index `d`, where `e ≤ d`; every element copied is the one the
vector held before the call. -/
theorem copy_backward_canonical (caps : List Nat) (hpos : ∀ c ∈ caps, 0 < c) (k : Nat)
    (zs : List α) (hz : zs.length ≤ caps.sum) (e d : Nat) (hk : k ≤ e) (hed : e ≤ d)
    (hd : d ≤ zs.length) :
    ∃ zs1, ExtentVectorBase.copy_backward k (canonical caps zs) (positionOf caps e)
        (positionOf caps d) = .ok (canonical caps zs1) ∧
      zs1.length = zs.length ∧
      ∀ i, zs1[i]? = if d - k ≤ i ∧ i < d then zs[i - (d - e)]? else zs[i]? := by
  induction k generalizing zs e d with
  | zero =>
    refine ⟨zs, rfl, rfl, ?_⟩
    intro i
    rw [if_neg (by omega)]
  | succ k ih =>
    unfold ExtentVectorBase.copy_backward
    rw [dec_canonical caps zs hpos, dec_canonical caps zs hpos]
    have he1 : ((e : Int) - 1) = ((e - 1 : Nat) : Int) := by omega
    have hd1 : ((d : Int) - 1) = ((d - 1 : Nat) : Int) := by omega
    rw [he1, hd1]
    obtain ⟨v, hv⟩ : ∃ v, zs.get? (e - 1) = some v :=
      ⟨_, List.get?_eq_get (by omega)⟩
    simp only
    rw [deref_canonical caps zs hz (e - 1) v hv]
    simp only
    rw [assign_canonical caps zs hz (d - 1) (by omega) v]
    simp only
    obtain ⟨zs1, h1, h2, h3⟩ := ih (zs.set (d - 1) v)
      (by simp only [List.length_set]; exact hz) (e - 1) (d - 1) (by omega) (by omega)
      (by simp only [List.length_set]; omega)
    refine ⟨zs1, h1, by simpa using h2, ?_⟩
    intro i
    rw [h3 i]
    rw [List.get?_eq_getElem?] at hv
    by_cases hin : d - 1 - k ≤ i ∧ i < d - 1
    · rw [if_pos hin, if_pos (by omega)]
      rw [List.getElem?_set_ne (by omega)]
      congr 1
      omega
    · rw [if_neg hin]
      by_cases hlast : i = d - 1
      · subst hlast
        rw [if_pos (by omega), List.getElem?_set_eq (by omega)]
        rw [← hv]
        congr 1
        omega
      · rw [List.getElem?_set_ne (by omega), if_neg (by omega)]

/-- The member `fill_overwrite(dst, n, x)` on a canonical vector: the `n` elements from the
index `p` on become `x`. -/
theorem fill_overwrite_canonical (caps : List Nat) (hpos : ∀ c ∈ caps, 0 < c) (n : Nat)
    (zs : List α) (hz : zs.length ≤ caps.sum) (p : Nat) (x : α) (hp : p + n ≤ zs.length) :
    ∃ zs1, ExtentVectorBase.fill_overwrite n (canonical caps zs) (positionOf caps p) x
        = some (canonical caps zs1) ∧
      zs1.length = zs.length ∧
      ∀ i, zs1[i]? = if p ≤ i ∧ i < p + n then some x else zs[i]? := by
  induction n generalizing zs p with
  | zero =>
    refine ⟨zs, rfl, rfl, ?_⟩
    intro i
    rw [if_neg (by omega)]
  | succ n ih =>
    obtain ⟨c, hc, ha, hsum⟩ := locate_spec caps p (by omega)
    unfold ExtentVectorBase.fill_overwrite
    rw [positionOf_of_lt caps p (by omega)]
    have hget : (canonical caps zs).mExtents.get? (locate caps p).1
        = some { mStart := (zs.drop (caps.take (locate caps p).1).sum).take c,
                 mCapacity := c } := fillExtents_get? caps zs _ c hc
    simp only [hget, Extent.emplace_replace, Extent.size]
    rw [if_pos (by
      simp only [List.length_take, List.length_drop]
      omega)]
    simp only [Int.toNat_ofNat]
    have hv1 : ExtentVectorBase.mk
        ((canonical caps zs).mExtents.set (locate caps p).1
          (Extent.mk (((zs.drop (caps.take (locate caps p).1).sum).take c).set
            (locate caps p).2 x) c))
        (canonical caps zs).mSize (canonical caps zs).mCapacity
        (canonical caps zs).mBackPosition
        = canonical caps (zs.set p x) := by
      simp only [canonical, List.length_set]
      rw [fillExtents_set caps zs p x _ _ c hc ha hsum]
    rw [hv1, ← positionOf_of_lt caps p (by omega), inc_canonical caps (zs.set p x) hpos p]
    simp only
    obtain ⟨zs1, h1, h2, h3⟩ := ih (zs.set p x) (by simp only [List.length_set]; exact hz)
      (p + 1) (by simp only [List.length_set]; omega)
    have hcast : ((p : Int) + 1) = ((p + 1 : Nat) : Int) := by push_cast; ring
    rw [hcast]
    refine ⟨zs1, h1, by simpa using h2, ?_⟩
    intro i
    rw [h3 i]
    by_cases hin : p + 1 ≤ i ∧ i < p + 1 + n
    · rw [if_pos hin, if_pos (by omega)]
    · rw [if_neg hin]
      by_cases hfirst : i = p
      · subst hfirst
        rw [if_pos (by omega), List.getElem?_set_eq (by omega)]
      · rw [List.getElem?_set_ne (by omega), if_neg (by omega)]

theorem getElem?_insertion (xs : List α) (p n : Nat) (x : α) (hp : p ≤ xs.length) (i : Nat) :
    (xs.take p ++ List.replicate n x ++ xs.drop p)[i]?
      = if i < p then xs[i]? else if i < p + n then some x else xs[i - n]? := by
  have hlen : (xs.take p).length = p := by simp only [List.length_take]; omega
  by_cases h1 : i < p
  · rw [if_pos h1, List.append_assoc, List.getElem?_append_left (by omega),
      List.getElem?_take_of_lt h1]
  · rw [if_neg h1, List.append_assoc, List.getElem?_append_right (by omega), hlen]
    by_cases h2 : i < p + n
    · rw [if_pos h2, List.getElem?_append_left (by simp only [List.length_replicate]; omega),
        List.getElem?_replicate_of_lt (by omega)]
    · rw [if_neg h2, List.getElem?_append_right (by simp only [List.length_replicate]; omega),
        List.length_replicate, List.getElem?_drop]
      congr 1
      omega

/-- The member `emplace(pos, n, x)` of ExtentVectorBase on a canonical vector, for a position
`pos` that stands for an index `p` in `[0, size]`: `n` copies of `x` are inserted in front
of the element at `p`. -/
theorem emplace_canonical (sizeofT : Nat) (hs : 0 < sizeofT) (T0 : α) (caps : List Nat)
    (xs : List α) (hpos : ∀ c ∈ caps, 0 < c) (h : xs.length ≤ caps.sum) (p n : Nat) (x : α)
    (hp : p ≤ xs.length) :
    ExtentVectorBase.emplace sizeofT T0 (canonical caps xs) (positionOf caps p) n x
      = .ok (canonical
          (if n = 0 then caps else grownCapacities sizeofT (canonical caps xs) n false)
          (xs.take p ++ List.replicate n x ++ xs.drop p)) := by
  have hidx : (positionOf caps (p : Int)).mVectorIndex = p := by
    unfold positionOf; split_ifs <;> rfl
  have hback : (canonical caps xs).mBackPosition.mVectorIndex = xs.length := by
    simp only [canonical]
    unfold positionOf; split_ifs <;> rfl
  unfold ExtentVectorBase.emplace
  rw [hidx, hback, if_neg (by omega)]
  by_cases hn : n = 0
  · subst hn
    simp
  · rw [if_neg hn, if_neg hn]
    obtain ⟨hg, hroom, ks, hks⟩ := grownCapacities_canonical sizeofT hs caps xs hpos h n false
    by_cases hend : p = xs.length
    · rw [if_pos (by omega), fill_expand_canonical sizeofT hs caps xs hpos h n x]
      subst hend
      simp
    · rw [if_neg (by omega), fill_expand_canonical sizeofT hs caps xs hpos h n T0]
      simp only
      generalize grownCapacities sizeofT (canonical caps xs) n false = caps1 at hg hroom hks ⊢
      have hlen1 : (xs ++ List.replicate n T0).length = xs.length + n := by simp
      have hz : (xs ++ List.replicate n T0).length ≤ caps1.sum := by omega
      have hb1 : (canonical caps1 (xs ++ List.replicate n T0)).mBackPosition
          = positionOf caps1 ((xs.length + n : Nat) : Int) := by
        simp [canonical]
      rw [hb1, operatorMinusEq_canonical caps1 _ hg _ n (by omega)]
      simp only
      have hsub : (((xs.length + n : Nat) : Int) - (n : Int)) = (xs.length : Int) := by
        push_cast; ring
      rw [hsub]
      have hidx2 : (positionOf caps1 (xs.length : Int)).mVectorIndex = xs.length := by
        unfold positionOf; split_ifs <;> rfl
      rw [hidx2]
      have hcnt : ((xs.length : Int) - (p : Int)).toNat = xs.length - p := by omega
      rw [hcnt]
      obtain ⟨zs1, hc1, hl1, hg1⟩ := copy_backward_canonical caps1 hg (xs.length - p)
        (xs ++ List.replicate n T0) hz xs.length (xs.length + n) (by omega) (by omega)
        (by omega)
      rw [hc1]
      simp only
      have hpp : positionOf caps (p : Int) = positionOf caps1 (p : Int) := by
        rw [hks, positionOf_append caps ks p (by omega)]
      rw [hpp]
      obtain ⟨zs2, hc2, hl2, hg2⟩ := fill_overwrite_canonical caps1 hg n zs1 (by omega) p x
        (by omega)
      rw [hc2]
      simp only [Outcome.ok.injEq]
      congr 1
      apply List.ext_getElem?
      intro i
      rw [hg2 i, getElem?_insertion xs p n x hp i]
      by_cases h1 : i < p
      · rw [if_neg (by omega), if_pos h1, hg1 i, if_neg (by omega),
          List.getElem?_append_left (by omega)]
      · rw [if_neg h1]
        by_cases h2 : i < p + n
        · rw [if_pos (by omega), if_pos h2]
        · rw [if_neg (by omega), if_neg h2, hg1 i]
          by_cases h3 : i < xs.length + n
          · rw [if_pos (by omega), List.getElem?_append_left (by omega)]
            congr 1
            omega
          · rw [if_neg (by omega), List.getElem?_eq_none (by omega),
              List.getElem?_eq_none (by omega)]

end detail
end DataDistribution
end O2

namespace O2
namespace DataDistribution
namespace detail

variable {α : Type}

/-! ### shrink_to_fit, reserve, clear -/

theorem shrunkCapacities_concat (cs : List Nat) (c size : Nat) :
    shrunkCapacities (cs ++ [c]) size
      = if size ≤ cs.sum then shrunkCapacities cs size else cs ++ [c] := by
  unfold shrunkCapacities
  simp only [List.reverse_append, List.reverse_cons, List.reverse_nil, List.nil_append,
    List.singleton_append, shrinkReversed, List.sum_append, List.sum_cons, List.sum_nil,
    add_zero, Nat.add_sub_cancel]
  split_ifs <;> simp

theorem shrunkCapacities_nil (size : Nat) : shrunkCapacities [] size = [] := rfl

theorem shrunkCapacities_spec (caps : List Nat) (size : Nat) (hpos : ∀ c ∈ caps, 0 < c)
    (h : size ≤ caps.sum) :
    (∀ c ∈ shrunkCapacities caps size, 0 < c) ∧ size ≤ (shrunkCapacities caps size).sum ∧
    ∃ ks, caps = shrunkCapacities caps size ++ ks := by
  induction caps using List.reverseRecOn with
  | nil => exact ⟨by simp [shrunkCapacities_nil], by rw [shrunkCapacities_nil]; exact h, [], rfl⟩
  | append_singleton cs c ih =>
    rw [shrunkCapacities_concat]
    by_cases hle : size ≤ cs.sum
    · rw [if_pos hle]
      obtain ⟨h1, h2, ks, h3⟩ := ih (fun c hc => hpos c (List.mem_append_left _ hc)) hle
      refine ⟨h1, h2, ks ++ [c], ?_⟩
      rw [← List.append_assoc, ← h3]
    · rw [if_neg hle]
      exact ⟨hpos, h, [], by simp⟩

theorem fillExtents_concat (cs : List Nat) (c : Nat) (xs : List α) :
    fillExtents (cs ++ [c]) xs
      = fillExtents cs xs ++ [{ mStart := (xs.drop cs.sum).take c, mCapacity := c }] := by
  induction cs generalizing xs with
  | nil => simp [fillExtents]
  | cons c0 cs ih =>
    have hstep : fillExtents (c0 :: cs ++ [c]) xs
        = { mStart := xs.take c0, mCapacity := c0 } :: fillExtents (cs ++ [c]) (xs.drop c0) := rfl
    rw [hstep, ih (xs.drop c0)]
    simp only [fillExtents, List.cons_append, List.sum_cons, List.drop_drop]

theorem shrink_to_fit_loop_canonical (fuel : List (Extent α)) (caps : List Nat) (xs : List α)
    (hpos : ∀ c ∈ caps, 0 < c) (h : xs.length ≤ caps.sum) (hf : fuel.length = caps.length) :
    ExtentVectorBase.shrink_to_fit_loop fuel (canonical caps xs)
      = some (canonical (shrunkCapacities caps xs.length) xs) := by
  induction fuel generalizing caps with
  | nil =>
    have : caps = [] := List.length_eq_zero.mp hf.symm
    subst this
    rfl
  | cons f fuel ih =>
    rcases List.eq_nil_or_concat caps with h0 | ⟨cs, c, hcc⟩
    · subst h0
      simp at hf
    · rw [List.concat_eq_append] at hcc
      subst hcc
      have hcpos : 0 < c := hpos c (by simp)
      unfold ExtentVectorBase.shrink_to_fit_loop
      have hlast : (canonical (cs ++ [c]) xs).mExtents.getLast?
          = some { mStart := (xs.drop cs.sum).take c, mCapacity := c } := by
        simp [canonical, fillExtents_concat]
      simp only [hlast, Extent.size, Extent.capacity]
      rw [shrunkCapacities_concat]
      by_cases hle : xs.length ≤ cs.sum
      · have hz : ((xs.drop cs.sum).take c).length = 0 := by
          simp only [List.length_take, List.length_drop]; omega
        rw [if_pos hz, if_pos hle]
        have hposcs : ∀ c ∈ cs, 0 < c := fun c hc => hpos c (List.mem_append_left _ hc)
        have hnew : ExtentPosition.new
            (ExtentVectorBase.mk (canonical (cs ++ [c]) xs).mExtents.dropLast
              (canonical (cs ++ [c]) xs).mSize ((canonical (cs ++ [c]) xs).mCapacity - c)
              (canonical (cs ++ [c]) xs).mBackPosition)
            ((ExtentVectorBase.mk (canonical (cs ++ [c]) xs).mExtents.dropLast
              (canonical (cs ++ [c]) xs).mSize ((canonical (cs ++ [c]) xs).mCapacity - c)
              (canonical (cs ++ [c]) xs).mBackPosition).mSize : Int)
            = some (positionOf cs xs.length) := by
          have e1 : (canonical (cs ++ [c]) xs).mExtents.dropLast = fillExtents cs xs := by
            simp only [canonical, fillExtents_concat, List.dropLast_concat]
          have e2 : (canonical (cs ++ [c]) xs).mCapacity - c = cs.sum := by
            simp [canonical]
          rw [e1, e2]
          exact new_canonical cs xs hposcs xs.length
        simp only [hnew]
        have hv : ExtentVectorBase.mk (canonical (cs ++ [c]) xs).mExtents.dropLast
            (canonical (cs ++ [c]) xs).mSize ((canonical (cs ++ [c]) xs).mCapacity - c)
            (positionOf cs xs.length) = canonical cs xs := by
          simp [canonical, fillExtents_concat]
        rw [hv]
        exact ih cs hposcs hle (by simpa using hf)
      · have hz : ¬ ((xs.drop cs.sum).take c).length = 0 := by
          simp only [List.length_take, List.length_drop]; omega
        rw [if_neg hz, if_neg hle]

/-- The member `shrink_to_fit` on a canonical vector: the elements stay, the trailing extents
that hold no element go. -/
theorem shrink_to_fit_canonical (caps : List Nat) (xs : List α) (hpos : ∀ c ∈ caps, 0 < c)
    (h : xs.length ≤ caps.sum) :
    ExtentVectorBase.shrink_to_fit (canonical caps xs)
      = some (canonical (shrunkCapacities caps xs.length) xs) := by
  unfold ExtentVectorBase.shrink_to_fit
  exact shrink_to_fit_loop_canonical _ caps xs hpos h (length_fillExtents caps xs)

/-- The member `reserve` on a canonical vector: the elements stay. -/
theorem reserve_canonical (sizeofT : Nat) (hs : 0 < sizeofT) (caps : List Nat) (xs : List α)
    (hpos : ∀ c ∈ caps, 0 < c) (h : xs.length ≤ caps.sum) (m : Nat) :
    ExtentVectorBase.reserve sizeofT (canonical caps xs) m
      = some (canonical
          (if caps.sum ≥ m then caps
            else grownCapacities sizeofT (canonical caps xs) (m - xs.length) true) xs) := by
  unfold ExtentVectorBase.reserve
  have hcap : (canonical caps xs).mCapacity = caps.sum := rfl
  simp only [hcap]
  by_cases hm : caps.sum ≥ m
  · rw [if_pos hm, if_pos hm]
  · rw [if_neg hm, if_neg hm]
    obtain ⟨hg, _, _⟩ := grownCapacities_canonical sizeofT hs caps xs hpos h (m - xs.length) true
    exact make_space_for_canonical sizeofT caps xs hpos h (m - xs.length) true hg

theorem map_clear_fillExtents (caps : List Nat) (xs : List α) :
    (fillExtents caps xs).map Extent.clear = fillExtents caps [] := by
  induction caps generalizing xs with
  | nil => rfl
  | cons c cs ih => simp [fillExtents, Extent.clear, ih]

theorem sum_size_fillExtents (caps : List Nat) (xs : List α) (h : xs.length ≤ caps.sum) :
    ((fillExtents caps xs).map Extent.size).sum = xs.length := by
  have := congrArg List.length (flatten_fillExtents caps xs h)
  rw [List.length_flatten, List.map_map] at this
  exact this

/-- The member `clear` on a canonical vector: no element is left, the extents stay. -/
theorem clear_canonical (caps : List Nat) (xs : List α) (hpos : ∀ c ∈ caps, 0 < c)
    (h : xs.length ≤ caps.sum) :
    ExtentVectorBase.clear (canonical caps xs) = canonical caps [] := by
  unfold ExtentVectorBase.clear
  simp only [canonical, map_clear_fillExtents, sum_size_fillExtents caps xs h, Nat.sub_self,
    List.length_nil, Nat.cast_zero, positionOf_zero caps hpos]

end detail
end DataDistribution
end O2

namespace O2
namespace DataDistribution
namespace detail

variable {α : Type}

/-! ### Every outcome of the public operations -/

theorem beginPlus_canonical (caps : List Nat) (xs : List α) (hpos : ∀ c ∈ caps, 0 < c)
    (p : Int) :
    O2ExtentVector.beginPlus (canonical caps xs) p = some (positionOf caps p) := by
  unfold O2ExtentVector.beginPlus ExtentVectorBase.begin_
  have h0 : ExtentPosition.new (canonical caps xs) 0
      = some { mExtentIndex := 0, mElementIndex := 0, mVectorIndex := 0 } := by
    simp [ExtentPosition.new, ExtentPosition.operatorPlusEq]
  rw [h0]
  exact new_canonical caps xs hpos p

theorem index_canonical (caps : List Nat) (xs : List α) (hpos : ∀ c ∈ caps, 0 < c)
    (h : xs.length ≤ caps.sum) (i : Nat) (x : α) (hx : xs.get? i = some x) :
    O2ExtentVector.index (canonical caps xs) i = .value x := by
  unfold O2ExtentVector.index ExtentVectorBase.get_iterator_at
  rw [new_canonical caps xs hpos i]
  exact deref_canonical caps xs h i x hx

theorem locationOf_canonical (caps : List Nat) (xs : List α) (hpos : ∀ c ∈ caps, 0 < c)
    (i : Nat) (hi : i < caps.sum) :
    (canonical caps xs).locationOf i = some ((locate caps i).1, ((locate caps i).2 : Int)) := by
  unfold ExtentVectorBase.locationOf ExtentVectorBase.get_iterator_at
  rw [new_canonical caps xs hpos i, positionOf_of_lt caps i hi]
  rfl

/-- The loop of `std::copy_backward` asked for more elements than stand in front of the
source end: the read in front of index zero throws, the vector keeps its extents and
size. -/
theorem copy_backward_raises (caps : List Nat) (hpos : ∀ c ∈ caps, 0 < c) (k : Nat)
    (zs : List α) (hz : zs.length ≤ caps.sum) (e d : Nat) (hk : e < k) (hed : e ≤ d)
    (hd : d ≤ zs.length) :
    ∃ zs1, ExtentVectorBase.copy_backward k (canonical caps zs) (positionOf caps e)
        (positionOf caps d) = .raised (canonical caps zs1) ∧
      zs1.length = zs.length := by
  induction k generalizing zs e d with
  | zero => omega
  | succ k ih =>
    unfold ExtentVectorBase.copy_backward
    rw [dec_canonical caps zs hpos, dec_canonical caps zs hpos]
    simp only
    by_cases he : e = 0
    · subst he
      have hderef : ExtentPosition.deref (canonical caps zs)
          (positionOf caps (((0 : Nat) : Int) - 1)) = .raised := by
        rw [positionOf_of_ge caps _ (Or.inl (by omega))]
        simp [ExtentPosition.deref, ExtentPosition.is_dereferenceable,
          ExtentPosition.is_before_begin]
      rw [hderef]
      exact ⟨zs, rfl, rfl⟩
    · have he1 : ((e : Int) - 1) = ((e - 1 : Nat) : Int) := by omega
      have hd1 : ((d : Int) - 1) = ((d - 1 : Nat) : Int) := by omega
      rw [he1, hd1]
      obtain ⟨v, hv⟩ : ∃ v, zs.get? (e - 1) = some v :=
        ⟨_, List.get?_eq_get (by omega)⟩
      rw [deref_canonical caps zs hz (e - 1) v hv]
      simp only
      rw [assign_canonical caps zs hz (d - 1) (by omega) v]
      simp only
      obtain ⟨zs1, h1, h2⟩ := ih (zs.set (d - 1) v)
        (by simp only [List.length_set]; exact hz) (e - 1) (d - 1) (by omega) (by omega)
        (by simp only [List.length_set]; omega)
      exact ⟨zs1, h1, by simpa using h2⟩

/-- Every outcome of `insert(begin() + p, n, x)` on a canonical vector, for every integer
`p`: a canonical vector again, whose capacities extend the former ones. -/
theorem insert_outcome (sizeofT : Nat) (hs : 0 < sizeofT) (T0 : α) (caps : List Nat)
    (xs : List α) (hpos : ∀ c ∈ caps, 0 < c) (h : xs.length ≤ caps.sum) (p : Int) (n : Nat)
    (x : α) :
    ∃ caps1 xs1, (∀ c ∈ caps1, 0 < c) ∧ xs1.length ≤ caps1.sum ∧
      (O2ExtentVector.insert sizeofT T0 (canonical caps xs) p n x = .ok (canonical caps1 xs1) ∨
       O2ExtentVector.insert sizeofT T0 (canonical caps xs) p n x
         = .raised (canonical caps1 xs1)) := by
  unfold O2ExtentVector.insert
  rw [beginPlus_canonical caps xs hpos p]
  simp only
  by_cases hp0 : 0 ≤ p
  · obtain ⟨k, rfl⟩ := Int.eq_ofNat_of_zero_le hp0
    by_cases hk : k ≤ xs.length
    · rw [emplace_canonical sizeofT hs T0 caps xs hpos h k n x hk]
      obtain ⟨hg, hroom, _⟩ := grownCapacities_canonical sizeofT hs caps xs hpos h n false
      refine ⟨_, _, ?_, ?_, Or.inl rfl⟩
      · split_ifs
        · exact hpos
        · exact hg
      · simp only [List.length_append, List.length_take, List.length_replicate,
          List.length_drop]
        split_ifs <;> omega
    · refine ⟨caps, xs, hpos, h, Or.inr ?_⟩
      unfold ExtentVectorBase.emplace
      have hidx : (positionOf caps (k : Int)).mVectorIndex = k := by
        unfold positionOf; split_ifs <;> rfl
      have hback : (canonical caps xs).mBackPosition.mVectorIndex = xs.length := by
        simp only [canonical]
        unfold positionOf; split_ifs <;> rfl
      rw [hidx, hback, if_pos (by omega)]
  · have hidx : (positionOf caps p).mVectorIndex = p := by
      unfold positionOf; split_ifs <;> rfl
    have hback : (canonical caps xs).mBackPosition.mVectorIndex = xs.length := by
      simp only [canonical]
      unfold positionOf; split_ifs <;> rfl
    unfold ExtentVectorBase.emplace
    rw [hidx, hback, if_neg (by omega)]
    by_cases hn : n = 0
    · rw [if_pos hn]
      exact ⟨caps, xs, hpos, h, Or.inl rfl⟩
    · rw [if_neg hn, if_neg (by omega), fill_expand_canonical sizeofT hs caps xs hpos h n T0]
      simp only
      obtain ⟨hg, hroom, ks, hks⟩ := grownCapacities_canonical sizeofT hs caps xs hpos h n false
      generalize grownCapacities sizeofT (canonical caps xs) n false = caps1 at hg hroom hks ⊢
      have hlen1 : (xs ++ List.replicate n T0).length = xs.length + n := by simp
      have hz : (xs ++ List.replicate n T0).length ≤ caps1.sum := by omega
      have hb1 : (canonical caps1 (xs ++ List.replicate n T0)).mBackPosition
          = positionOf caps1 ((xs.length + n : Nat) : Int) := by
        simp [canonical]
      rw [hb1, operatorMinusEq_canonical caps1 _ hg _ n (by omega)]
      simp only
      have hsub : (((xs.length + n : Nat) : Int) - (n : Int)) = (xs.length : Int) := by
        push_cast; ring
      rw [hsub]
      have hidx2 : (positionOf caps1 (xs.length : Int)).mVectorIndex = xs.length := by
        unfold positionOf; split_ifs <;> rfl
      rw [hidx2]
      obtain ⟨zs1, hc1, hl1⟩ := copy_backward_raises caps1 hg ((xs.length : Int) - p).toNat
        (xs ++ List.replicate n T0) hz xs.length (xs.length + n) (by omega) (by omega)
        (by omega)
      rw [hc1]
      exact ⟨caps1, zs1, hg, by omega, Or.inr rfl⟩

/-- The member `pop_back` on a canonical vector: an exception and no change on an empty
vector, the last element removed otherwise. -/
theorem pop_back_outcome (caps : List Nat) (xs : List α) (hpos : ∀ c ∈ caps, 0 < c)
    (h : xs.length ≤ caps.sum) :
    (xs = [] ∧ ExtentVectorBase.pop_back (canonical caps xs) = .raised (canonical caps xs)) ∨
    (xs ≠ [] ∧ ExtentVectorBase.pop_back (canonical caps xs) = .ok (canonical caps xs.dropLast)) := by
  by_cases hne : xs = []
  · left
    subst hne
    exact ⟨rfl, by simp [ExtentVectorBase.pop_back, canonical]⟩
  · right
    refine ⟨hne, ?_⟩
    obtain ⟨ys, x, rfl⟩ : ∃ ys x, xs = ys ++ [x] :=
      ⟨xs.dropLast, xs.getLast hne, (List.dropLast_concat_getLast hne).symm⟩
    simp only [List.length_append, List.length_singleton] at h
    rw [pop_back_canonical caps hpos ys x h, List.dropLast_concat]

/-- The member `resize(n, x)` on a canonical vector. -/
theorem resize_canonical (sizeofT : Nat) (hs : 0 < sizeofT) (caps : List Nat) (xs : List α)
    (hpos : ∀ c ∈ caps, 0 < c) (h : xs.length ≤ caps.sum) (n : Nat) (x : α) :
    ExtentVectorBase.resize sizeofT (canonical caps xs) n x
      = .ok (canonical
          (if n ≤ xs.length then caps
            else grownCapacities sizeofT (canonical caps xs) (n - xs.length) false)
          (if n ≤ xs.length then xs.take n else xs ++ List.replicate (n - xs.length) x)) := by
  unfold ExtentVectorBase.resize
  have hsz : (canonical caps xs).mSize = xs.length := rfl
  simp only [hsz]
  by_cases heq : n = xs.length
  · rw [if_pos heq, if_pos (by omega), if_pos (by omega), List.take_of_length_le (by omega)]
  · rw [if_neg heq]
    by_cases hgt : n > xs.length
    · rw [if_pos hgt, if_neg (by omega), if_neg (by omega),
        fill_expand_canonical sizeofT hs caps xs hpos h]
    · rw [if_neg hgt, if_pos (by omega), if_pos (by omega)]
      exact resize_shrink_loop_canonical caps hpos n _ xs h (by omega)

theorem empty_eq_canonical : (ExtentVectorBase.empty : ExtentVectorBase α) = canonical [] [] := by
  simp [ExtentVectorBase.empty, canonical, fillExtents, positionOf]

/-- Every reachable vector satisfies the representation invariant. -/
theorem repInvariant_of_reachable (sizeofT : Nat) (hs : 0 < sizeofT) (T0 : α)
    (v : ExtentVectorBase α) (hr : Reachable sizeofT T0 v) : v.repInvariant := by
  induction hr with
  | empty =>
    rw [empty_eq_canonical]
    exact repInvariant_canonical [] [] (by simp) (by simp)
  | push_back x _ hstep ih =>
    obtain ⟨hc, hpos, hlen⟩ := eq_canonical_of_repInvariant _ ih
    rw [hc] at hstep
    unfold ExtentVectorBase.push_back at hstep
    rw [emplace_back_canonical sizeofT hs _ _ hpos hlen x] at hstep
    obtain ⟨hg, hroom, _⟩ := grownCapacities_canonical sizeofT hs _ _ hpos hlen 1 false
    rw [← Option.some.inj hstep]
    exact repInvariant_canonical _ _ hg (by simpa using hroom)
  | emplace_back x _ hstep ih =>
    obtain ⟨hc, hpos, hlen⟩ := eq_canonical_of_repInvariant _ ih
    rw [hc, emplace_back_canonical sizeofT hs _ _ hpos hlen x] at hstep
    obtain ⟨hg, hroom, _⟩ := grownCapacities_canonical sizeofT hs _ _ hpos hlen 1 false
    rw [← Option.some.inj hstep]
    exact repInvariant_canonical _ _ hg (by simpa using hroom)
  | emplace p x _ hstep ih =>
    obtain ⟨hc, hpos, hlen⟩ := eq_canonical_of_repInvariant _ ih
    rw [hc] at hstep
    obtain ⟨caps1, xs1, h1, h2, h3⟩ := insert_outcome sizeofT hs T0 _ _ hpos hlen p 1 x
    have hsame : ∀ w : ExtentVectorBase α, O2ExtentVector.emplace sizeofT T0 w p x
        = O2ExtentVector.insert sizeofT T0 w p 1 x := fun _ => rfl
    rw [hsame] at hstep
    rcases h3 with h3 | h3 <;> rcases hstep with hstep | hstep <;> rw [h3] at hstep
    · rw [← Outcome.ok.inj hstep]; exact repInvariant_canonical _ _ h1 h2
    · exact absurd hstep (by simp)
    · exact absurd hstep (by simp)
    · rw [← Outcome.raised.inj hstep]; exact repInvariant_canonical _ _ h1 h2
  | insert p n x _ hstep ih =>
    obtain ⟨hc, hpos, hlen⟩ := eq_canonical_of_repInvariant _ ih
    rw [hc] at hstep
    obtain ⟨caps1, xs1, h1, h2, h3⟩ := insert_outcome sizeofT hs T0 _ _ hpos hlen p n x
    rcases h3 with h3 | h3 <;> rcases hstep with hstep | hstep <;> rw [h3] at hstep
    · rw [← Outcome.ok.inj hstep]; exact repInvariant_canonical _ _ h1 h2
    · exact absurd hstep (by simp)
    · exact absurd hstep (by simp)
    · rw [← Outcome.raised.inj hstep]; exact repInvariant_canonical _ _ h1 h2
  | resize n x _ hstep ih =>
    obtain ⟨hc, hpos, hlen⟩ := eq_canonical_of_repInvariant _ ih
    rw [hc, resize_canonical sizeofT hs _ _ hpos hlen n x] at hstep
    obtain ⟨hg, hroom, _⟩ := grownCapacities_canonical sizeofT hs _ _ hpos hlen
      (n - (O2ExtentVector.toList _).length) false
    rcases hstep with hstep | hstep
    · rw [← Outcome.ok.inj hstep]
      split_ifs with hle
      · exact repInvariant_canonical _ _ hpos
          (by simp only [List.length_take]; omega)
      · exact repInvariant_canonical _ _ hg
          (by simpa using hroom)
    · exact absurd hstep (by simp)
  | reserve n _ hstep ih =>
    obtain ⟨hc, hpos, hlen⟩ := eq_canonical_of_repInvariant _ ih
    rw [hc, reserve_canonical sizeofT hs _ _ hpos hlen n] at hstep
    obtain ⟨hg, hroom, _⟩ := grownCapacities_canonical sizeofT hs _ _ hpos hlen
      (n - (O2ExtentVector.toList _).length) true
    rw [← Option.some.inj hstep]
    split_ifs
    · exact repInvariant_canonical _ _ hpos hlen
    · exact repInvariant_canonical _ _ hg (by omega)
  | shrink_to_fit _ hstep ih =>
    obtain ⟨hc, hpos, hlen⟩ := eq_canonical_of_repInvariant _ ih
    rw [hc, shrink_to_fit_canonical _ _ hpos hlen] at hstep
    obtain ⟨h1, h2, _⟩ := shrunkCapacities_spec _ _ hpos hlen
    rw [← Option.some.inj hstep]
    exact repInvariant_canonical _ _ h1 h2
  | pop_back _ hstep ih =>
    obtain ⟨hc, hpos, hlen⟩ := eq_canonical_of_repInvariant _ ih
    rw [hc] at hstep
    rcases pop_back_outcome _ _ hpos hlen with ⟨_, h3⟩ | ⟨_, h3⟩ <;>
      rcases hstep with hstep | hstep <;> rw [h3] at hstep
    · exact absurd hstep (by simp)
    · rw [← Outcome.raised.inj hstep]; exact repInvariant_canonical _ _ hpos hlen
    · rw [← Outcome.ok.inj hstep]
      exact repInvariant_canonical _ _ hpos (by simp only [List.length_dropLast]; omega)
    · exact absurd hstep (by simp)
  | clear _ ih =>
    obtain ⟨hc, hpos, hlen⟩ := eq_canonical_of_repInvariant _ ih
    rw [hc, clear_canonical _ _ hpos hlen]
    exact repInvariant_canonical _ _ hpos (by simp)

end detail
end DataDistribution
end O2

namespace O2
namespace DataDistribution
namespace detail

variable {α : Type}

/-! ### Parity with a contiguous vector, invariant and address stability -/

theorem exists_canonical_of_repInvariant (v : ExtentVectorBase α) (h : v.repInvariant) :
    ∃ caps xs, (∀ c ∈ caps, 0 < c) ∧ xs.length ≤ caps.sum ∧ v = canonical caps xs := by
  obtain ⟨hc, hpos, hlen⟩ := eq_canonical_of_repInvariant v h
  exact ⟨_, _, hpos, hlen, hc⟩

theorem at_canonical (caps : List Nat) (xs : List α) (hpos : ∀ c ∈ caps, 0 < c)
    (h : xs.length ≤ caps.sum) (i : Nat) (y : α) (hy : xs.get? i = some y) :
    O2ExtentVector.at_ (canonical caps xs) i = .value y := by
  have hi : i < xs.length := (List.get?_eq_some.mp hy).1
  have hsz : (canonical caps xs).mSize = xs.length := rfl
  unfold O2ExtentVector.at_
  rw [hsz, if_neg (by omega)]
  exact index_canonical caps xs hpos h i y hy

theorem readsAs_canonical (caps : List Nat) (xs : List α) (hpos : ∀ c ∈ caps, 0 < c)
    (h : xs.length ≤ caps.sum) : O2ExtentVector.readsAs (canonical caps xs) xs :=
  ⟨rfl, fun i y hy => at_canonical caps xs hpos h i y hy⟩

/-- Two canonical vectors of which one has the extents of the other and further ones give
every index below the smaller capacity the same storage location. -/
theorem sameLocations_canonical (caps ks : List Nat) (xs ys : List α)
    (hpos : ∀ c ∈ caps, 0 < c) (hpos1 : ∀ c ∈ caps ++ ks, 0 < c) (h : xs.length ≤ caps.sum) :
    (canonical caps xs).sameLocations (canonical (caps ++ ks) ys) ∧
    (canonical (caps ++ ks) xs).sameLocations (canonical caps ys) := by
  have hsum : (caps ++ ks).sum = caps.sum + ks.sum := List.sum_append
  constructor
  · intro i hi
    have hi1 : i < caps.sum := lt_of_lt_of_le hi h
    refine ⟨_, locationOf_canonical caps xs hpos i hi1, ?_⟩
    rw [locationOf_canonical (caps ++ ks) ys hpos1 i (by omega), locate_append caps ks i hi1]
  · intro i hi
    have hi1 : i < caps.sum := lt_of_lt_of_le hi h
    refine ⟨_, locationOf_canonical (caps ++ ks) xs hpos1 i (by omega), ?_⟩
    rw [locationOf_canonical caps ys hpos i hi1, locate_append caps ks i hi1]

theorem sameElements_canonical (caps caps1 : List Nat) (xs ys : List α)
    (hpos : ∀ c ∈ caps, 0 < c) (hpos1 : ∀ c ∈ caps1, 0 < c) (h : xs.length ≤ caps.sum)
    (h1 : ys.length ≤ caps1.sum) (k : Nat) (hk : k ≤ xs.length)
    (hsame : ∀ i, i < k → ys.get? i = xs.get? i) :
    (canonical caps xs).sameElements (canonical caps1 ys) k := by
  intro i hi
  have hx : xs.get? i = some (xs.get ⟨i, by omega⟩) := List.get?_eq_get (by omega)
  exact ⟨_, at_canonical caps xs hpos h i _ hx,
    at_canonical caps1 ys hpos1 h1 i _ (by rw [hsame i hi]; exact hx)⟩

theorem fillExtents_append (caps ks : List Nat) (xs : List α) :
    fillExtents (caps ++ ks) xs = fillExtents caps xs ++ fillExtents ks (xs.drop caps.sum) := by
  induction caps generalizing xs with
  | nil => simp [fillExtents]
  | cons c cs ih =>
    have h := ih (xs.drop c)
    rw [List.drop_drop] at h
    simp only [List.cons_append, fillExtents, List.sum_cons, List.cons.injEq, true_and]
    exact h

/-- The member `insert(begin() + p, n, x)` on a canonical vector, for a position inside the
vector or at its end. -/
theorem insert_canonical (sizeofT : Nat) (hs : 0 < sizeofT) (T0 : α) (caps : List Nat)
    (xs : List α) (hpos : ∀ c ∈ caps, 0 < c) (h : xs.length ≤ caps.sum) (p n : Nat) (x : α)
    (hp : p ≤ xs.length) :
    ∃ ks, (∀ c ∈ caps ++ ks, 0 < c) ∧ xs.length + n ≤ (caps ++ ks).sum ∧
      O2ExtentVector.insert sizeofT T0 (canonical caps xs) p n x
        = .ok (canonical (caps ++ ks) (xs.take p ++ List.replicate n x ++ xs.drop p)) := by
  unfold O2ExtentVector.insert
  rw [beginPlus_canonical caps xs hpos p]
  simp only
  rw [emplace_canonical sizeofT hs T0 caps xs hpos h p n x hp]
  obtain ⟨hg, hroom, ks, hks⟩ := grownCapacities_canonical sizeofT hs caps xs hpos h n false
  by_cases hn : n = 0
  · refine ⟨[], by simpa using hpos, by simp only [List.append_nil]; omega, ?_⟩
    rw [if_pos hn, List.append_nil]
  · rw [if_neg hn, hks]
    rw [hks] at hg hroom
    exact ⟨ks, hg, hroom, rfl⟩

/-- The member `emplace_back(x)` on a canonical vector, with the capacities named. -/
theorem emplace_back_grows (sizeofT : Nat) (hs : 0 < sizeofT) (caps : List Nat)
    (xs : List α) (hpos : ∀ c ∈ caps, 0 < c) (h : xs.length ≤ caps.sum) (x : α) :
    ∃ ks, (∀ c ∈ caps ++ ks, 0 < c) ∧ xs.length + 1 ≤ (caps ++ ks).sum ∧
      (xs.length = caps.sum → ∃ k, 0 < k ∧ ks = [k]) ∧
      ExtentVectorBase.emplace_back sizeofT (canonical caps xs) x
        = some (canonical (caps ++ ks) (xs ++ [x])) := by
  rw [emplace_back_canonical sizeofT hs caps xs hpos h x]
  obtain ⟨hg, hroom, ks, hks⟩ := grownCapacities_canonical sizeofT hs caps xs hpos h 1 false
  refine ⟨ks, by rw [← hks]; exact hg, by rw [← hks]; exact hroom, ?_, by rw [hks]⟩
  intro hfull
  have hm : (canonical caps xs).mExtents.map Extent.capacity = caps :=
    map_capacity_fillExtents caps xs
  have hcap : (canonical caps xs).mCapacity = caps.sum := rfl
  have hsz : (canonical caps xs).mSize = xs.length := rfl
  unfold grownCapacities at hks hg
  rw [hm, hcap, hsz, if_neg (by omega)] at hks hg
  have hk := List.append_cancel_left hks
  exact ⟨_, hg _ (by simp), hk.symm⟩

/-- The member `reserve(m)` on a canonical vector, with the capacities named. -/
theorem reserve_grows (sizeofT : Nat) (hs : 0 < sizeofT) (caps : List Nat) (xs : List α)
    (hpos : ∀ c ∈ caps, 0 < c) (h : xs.length ≤ caps.sum) (m : Nat) :
    ∃ ks, (∀ c ∈ caps ++ ks, 0 < c) ∧
      ExtentVectorBase.reserve sizeofT (canonical caps xs) m
        = some (canonical (caps ++ ks) xs) := by
  rw [reserve_canonical sizeofT hs caps xs hpos h m]
  obtain ⟨hg, _, ks, hks⟩ := grownCapacities_canonical sizeofT hs caps xs hpos h
    (m - xs.length) true
  by_cases hm : caps.sum ≥ m
  · exact ⟨[], by simpa using hpos, by rw [if_pos hm, List.append_nil]⟩
  · rw [hks] at hg
    exact ⟨ks, hg, by rw [if_neg hm, hks]⟩

end detail

open detail

/-- Claim C6. For every vector that satisfies the representation invariant (as every
reachable vector does) and holds the sequence `xs`, every position `p` with
`0 ≤ p ≤ size`, every count `n` and value `x`: `insert(begin() + p, n, x)` returns normally
and leaves a vector that holds `take p xs ++ replicate n x ++ drop p xs`, read from the
extents and read through `size()` and `at(i)` as the parity test reads it, whether or not a
new extent is allocated; `emplace(begin() + p, x)` does the same for `n = 1`. -/
theorem insert_parity {α : Type} (sizeofT : Nat) (hs : 0 < sizeofT) (T0 : α)
    (v : ExtentVectorBase α) (hinv : v.repInvariant) (p n : Nat) (x : α) (hp : p ≤ v.mSize) :
    (∃ v1, O2ExtentVector.insert sizeofT T0 v p n x = .ok v1 ∧
      O2ExtentVector.toList v1
        = (O2ExtentVector.toList v).take p ++ List.replicate n x
            ++ (O2ExtentVector.toList v).drop p ∧
      O2ExtentVector.readsAs v1
        ((O2ExtentVector.toList v).take p ++ List.replicate n x
            ++ (O2ExtentVector.toList v).drop p) ∧
      v1.mSize = v.mSize + n ∧ v1.repInvariant) ∧
    (∃ v1, O2ExtentVector.emplace sizeofT T0 v p x = .ok v1 ∧
      O2ExtentVector.toList v1
        = (O2ExtentVector.toList v).take p ++ [x] ++ (O2ExtentVector.toList v).drop p ∧
      O2ExtentVector.readsAs v1
        ((O2ExtentVector.toList v).take p ++ [x] ++ (O2ExtentVector.toList v).drop p) ∧
      v1.mSize = v.mSize + 1 ∧ v1.repInvariant) := by
  obtain ⟨caps, xs, hpos, hlen, rfl⟩ := exists_canonical_of_repInvariant v hinv
  rw [toList_canonical caps xs hlen]
  have hp1 : p ≤ xs.length := hp
  have key : ∀ m : Nat, ∃ v1, O2ExtentVector.insert sizeofT T0 (canonical caps xs) p m x = .ok v1 ∧
      O2ExtentVector.toList v1 = xs.take p ++ List.replicate m x ++ xs.drop p ∧
      O2ExtentVector.readsAs v1 (xs.take p ++ List.replicate m x ++ xs.drop p) ∧
      v1.mSize = (canonical caps xs).mSize + m ∧ v1.repInvariant := by
    intro m
    obtain ⟨ks, hg, hroom, hins⟩ := insert_canonical sizeofT hs T0 caps xs hpos hlen p m x hp1
    have hl : (xs.take p ++ List.replicate m x ++ xs.drop p).length ≤ (caps ++ ks).sum := by
      simp only [List.length_append, List.length_take, List.length_replicate,
        List.length_drop]
      omega
    refine ⟨_, hins, toList_canonical _ _ hl, readsAs_canonical _ _ hg hl, ?_,
      repInvariant_canonical _ _ hg hl⟩
    simp only [canonical, List.length_append, List.length_take, List.length_replicate,
      List.length_drop]
    omega
  exact ⟨key n, key 1⟩

/-- Claim C7. For every vector that satisfies the representation invariant (as every
reachable vector does) and holds the sequence `xs`, and every value `x`: `push_back(x)` and
`emplace_back(x)` return the same vector, which holds `xs ++ [x]`, has the size increased by
one and reads every earlier element as before; when the size equals the capacity beforehand,
exactly one extent is appended for it. -/
theorem push_back_parity {α : Type} (sizeofT : Nat) (hs : 0 < sizeofT)
    (v : ExtentVectorBase α) (hinv : v.repInvariant) (x : α) :
    ∃ v1, ExtentVectorBase.push_back sizeofT v x = some v1 ∧
      ExtentVectorBase.emplace_back sizeofT v x = some v1 ∧
      O2ExtentVector.toList v1 = O2ExtentVector.toList v ++ [x] ∧
      O2ExtentVector.readsAs v1 (O2ExtentVector.toList v ++ [x]) ∧
      v1.mSize = v.mSize + 1 ∧
      v.sameElements v1 v.mSize ∧
      O2ExtentVector.at_ v1 v.mSize = .value x ∧
      (v.mSize = v.mCapacity → ∃ k, 0 < k ∧ v1.capacities = v.capacities ++ [k]) ∧
      v1.repInvariant := by
  obtain ⟨caps, xs, hpos, hlen, rfl⟩ := exists_canonical_of_repInvariant v hinv
  rw [toList_canonical caps xs hlen]
  obtain ⟨ks, hg, hroom, hfull, hpush⟩ := emplace_back_grows sizeofT hs caps xs hpos hlen x
  have hl : (xs ++ [x]).length ≤ (caps ++ ks).sum := by simpa using hroom
  have hsz : (canonical caps xs).mSize = xs.length := rfl
  have hcap : (canonical caps xs).mCapacity = caps.sum := rfl
  refine ⟨_, hpush, hpush, toList_canonical _ _ hl, readsAs_canonical _ _ hg hl, by simp [canonical],
    ?_, ?_, ?_, repInvariant_canonical _ _ hg hl⟩
  · rw [hsz]
    refine sameElements_canonical caps _ xs _ hpos hg hlen hl xs.length le_rfl ?_
    intro i hi
    rw [List.get?_eq_getElem?, List.get?_eq_getElem?, List.getElem?_append_left hi]
  · rw [hsz]
    exact at_canonical _ _ hg hl _ _ (by simp)
  · rw [hsz, hcap, capacities_canonical, capacities_canonical]
    intro hf
    obtain ⟨k, hk, rfl⟩ := hfull hf
    exact ⟨k, hk, rfl⟩

/-- Claim C8. For every vector that satisfies the representation invariant (as every
reachable vector does) and holds the sequence `xs`, every `n` and value `x`:
`resize(n, x)` returns normally and leaves a vector that holds `take n xs` when
`n ≤ size` and `xs ++ replicate (n - size) x` when `n > size`, of size `n`; and
`resize(n)` is `resize(n, T{})`. -/
theorem resize_parity {α : Type} (sizeofT : Nat) (hs : 0 < sizeofT) (T0 : α)
    (v : ExtentVectorBase α) (hinv : v.repInvariant) (n : Nat) (x : α) :
    (∃ v1, O2ExtentVector.resizeValue sizeofT v n x = .ok v1 ∧
      O2ExtentVector.toList v1
        = (if n ≤ v.mSize then (O2ExtentVector.toList v).take n
            else O2ExtentVector.toList v ++ List.replicate (n - v.mSize) x) ∧
      O2ExtentVector.readsAs v1
        (if n ≤ v.mSize then (O2ExtentVector.toList v).take n
          else O2ExtentVector.toList v ++ List.replicate (n - v.mSize) x) ∧
      v1.mSize = n ∧ v1.repInvariant) ∧
    O2ExtentVector.resize sizeofT T0 v n = O2ExtentVector.resizeValue sizeofT v n T0 := by
  refine ⟨?_, rfl⟩
  obtain ⟨caps, xs, hpos, hlen, rfl⟩ := exists_canonical_of_repInvariant v hinv
  rw [toList_canonical caps xs hlen]
  have hsz : (canonical caps xs).mSize = xs.length := rfl
  rw [hsz]
  unfold O2ExtentVector.resizeValue
  rw [resize_canonical sizeofT hs caps xs hpos hlen n x]
  obtain ⟨hg, hroom, _⟩ := grownCapacities_canonical sizeofT hs caps xs hpos hlen
    (n - xs.length) false
  by_cases hle : n ≤ xs.length
  · simp only [if_pos hle]
    have hl : (xs.take n).length ≤ caps.sum := by
      simp only [List.length_take]; omega
    exact ⟨_, rfl, toList_canonical _ _ hl, readsAs_canonical _ _ hpos hl,
      by simp only [canonical, List.length_take]; omega, repInvariant_canonical _ _ hpos hl⟩
  · simp only [if_neg hle]
    have hl : (xs ++ List.replicate (n - xs.length) x).length
        ≤ (grownCapacities sizeofT (canonical caps xs) (n - xs.length) false).sum := by
      simpa using hroom
    exact ⟨_, rfl, toList_canonical _ _ hl, readsAs_canonical _ _ hg hl,
      by simp only [canonical, List.length_append, List.length_replicate]; omega,
      repInvariant_canonical _ _ hg hl⟩

/-- Claim C9. In every state reachable from the empty vector by `push_back`,
`emplace_back`, `emplace`, `insert`, `resize`, `reserve`, `shrink_to_fit`, `pop_back` and
`clear` (an operation that throws leaves a reachable state too), the recorded capacity is
the sum of the capacities of the extents and `0 ≤ size ≤ capacity`. -/
theorem size_capacity_invariant {α : Type} (sizeofT : Nat) (hs : 0 < sizeofT) (T0 : α)
    (v : ExtentVectorBase α) (hr : Reachable sizeofT T0 v) :
    v.mCapacity = (v.mExtents.map Extent.capacity).sum ∧ 0 ≤ v.mSize ∧
      v.mSize ≤ v.mCapacity := by
  obtain ⟨_, h2, _, h4, _, _⟩ := repInvariant_of_reachable sizeofT hs T0 v hr
  exact ⟨h2, Nat.zero_le _, h4⟩

/-- Claim C10. For every vector that satisfies the representation invariant (as every
reachable vector does): each of `push_back`, `emplace_back`, `emplace` at a position
`0 ≤ p ≤ size`, `reserve` and `shrink_to_fit` returns normally, and every index below the
former size has the same storage location afterwards (the extent that holds it and the
offset inside it). The growing operations leave the former extents in place and append to
them, `shrink_to_fit` removes trailing extents only; the elements in front of the position
of the insertion, all of them for the other operations, are read as before. -/
theorem address_stability {α : Type} (sizeofT : Nat) (hs : 0 < sizeofT) (T0 : α)
    (v : ExtentVectorBase α) (hinv : v.repInvariant) :
    (∀ x, ∃ v1, ExtentVectorBase.push_back sizeofT v x = some v1 ∧
      ExtentVectorBase.emplace_back sizeofT v x = some v1 ∧
      v.sameLocations v1 ∧ (∃ ks, v1.capacities = v.capacities ++ ks) ∧
      v.sameElements v1 v.mSize) ∧
    (∀ (p : Nat) x, p ≤ v.mSize →
      ∃ v1, O2ExtentVector.emplace sizeofT T0 v p x = .ok v1 ∧
        v.sameLocations v1 ∧ (∃ ks, v1.capacities = v.capacities ++ ks) ∧
        v.sameElements v1 p) ∧
    (∀ m, ∃ v1, ExtentVectorBase.reserve sizeofT v m = some v1 ∧
      v.sameLocations v1 ∧ (∃ es, v1.mExtents = v.mExtents ++ es) ∧
      v.sameElements v1 v.mSize) ∧
    (∃ v1, ExtentVectorBase.shrink_to_fit v = some v1 ∧
      v.sameLocations v1 ∧ (∃ es, v.mExtents = v1.mExtents ++ es) ∧
      v.sameElements v1 v.mSize) := by
  obtain ⟨caps, xs, hpos, hlen, rfl⟩ := exists_canonical_of_repInvariant v hinv
  have hsz : (canonical caps xs).mSize = xs.length := rfl
  simp only [hsz, capacities_canonical]
  refine ⟨?_, ?_, ?_, ?_⟩
  · intro x
    obtain ⟨ks, hg, hroom, _, hpush⟩ := emplace_back_grows sizeofT hs caps xs hpos hlen x
    have hl : (xs ++ [x]).length ≤ (caps ++ ks).sum := by simpa using hroom
    refine ⟨_, hpush, hpush, (sameLocations_canonical caps ks xs _ hpos hg hlen).1,
      ⟨ks, capacities_canonical _ _⟩, ?_⟩
    refine sameElements_canonical caps _ xs _ hpos hg hlen hl xs.length le_rfl ?_
    intro i hi
    rw [List.get?_eq_getElem?, List.get?_eq_getElem?, List.getElem?_append_left hi]
  · intro p x hp
    obtain ⟨ks, hg, hroom, hins⟩ := insert_canonical sizeofT hs T0 caps xs hpos hlen p 1 x hp
    have hl : (xs.take p ++ List.replicate 1 x ++ xs.drop p).length ≤ (caps ++ ks).sum := by
      simp only [List.length_append, List.length_take, List.length_replicate,
        List.length_drop]
      omega
    refine ⟨_, hins, (sameLocations_canonical caps ks xs _ hpos hg hlen).1,
      ⟨ks, capacities_canonical _ _⟩, ?_⟩
    refine sameElements_canonical caps _ xs _ hpos hg hlen hl p hp ?_
    intro i hi
    rw [List.get?_eq_getElem?, List.get?_eq_getElem?, List.append_assoc,
      List.getElem?_append_left (by simp only [List.length_take]; omega),
      List.getElem?_take_of_lt hi]
  · intro m
    obtain ⟨ks, hg, hres⟩ := reserve_grows sizeofT hs caps xs hpos hlen m
    have hl : xs.length ≤ (caps ++ ks).sum := by
      simp only [List.sum_append]; omega
    refine ⟨_, hres, (sameLocations_canonical caps ks xs _ hpos hg hlen).1, ?_, ?_⟩
    · exact ⟨fillExtents ks (xs.drop caps.sum), fillExtents_append caps ks xs⟩
    · exact sameElements_canonical caps _ xs _ hpos hg hlen hl xs.length le_rfl
        (fun _ _ => rfl)
  · obtain ⟨h1, h2, ks, hks⟩ := shrunkCapacities_spec caps xs.length hpos hlen
    refine ⟨_, shrink_to_fit_canonical caps xs hpos hlen, ?_, ?_, ?_⟩
    · have hloc := (sameLocations_canonical (shrunkCapacities caps xs.length) ks xs xs h1
        (by rw [← hks]; exact hpos) h2).2
      rw [← hks] at hloc
      exact hloc
    · refine ⟨fillExtents ks (xs.drop (shrunkCapacities caps xs.length).sum), ?_⟩
      have hfe := fillExtents_append (shrunkCapacities caps xs.length) ks xs
      rw [← hks] at hfe
      exact hfe
    · exact sameElements_canonical caps _ xs _ hpos h1 hlen h2 xs.length le_rfl
        (fun _ _ => rfl)

end DataDistribution
end O2

namespace O2
namespace DataDistribution

open detail

/-- Witness of `insert_parity`: three copies of 7 inserted at position 2 of the full vector
`10 20 30 40`, which allocates a second extent, and 7 emplaced at position 2. -/
theorem insert_parity_witness :
    0 < Examples.sizeofElement ∧ Examples.vecFull.repInvariant ∧
    2 ≤ Examples.vecFull.mSize ∧
    (∃ v1, O2ExtentVector.insert Examples.sizeofElement 0 Examples.vecFull 2 3 7 = .ok v1 ∧
      O2ExtentVector.toList v1 = [10, 20, 7, 7, 7, 30, 40] ∧
      O2ExtentVector.readsAs v1 [10, 20, 7, 7, 7, 30, 40] ∧ v1.mSize = 7 ∧
      v1.repInvariant) ∧
    (∃ v1, O2ExtentVector.emplace Examples.sizeofElement 0 Examples.vecFull 2 7 = .ok v1 ∧
      O2ExtentVector.toList v1 = [10, 20, 7, 30, 40] ∧
      O2ExtentVector.readsAs v1 [10, 20, 7, 30, 40] ∧ v1.mSize = 5 ∧ v1.repInvariant) :=
  ⟨by decide, by unfold ExtentVectorBase.repInvariant; decide, by decide,
   insert_parity Examples.sizeofElement (by decide) 0 Examples.vecFull
     (by unfold ExtentVectorBase.repInvariant; decide) 2 3 7 (by decide)⟩

/-- Witness of `push_back_parity`: 50 appended to the full vector `10 20 30 40`, whose size
equals its capacity. -/
theorem push_back_parity_witness :
    0 < Examples.sizeofElement ∧ Examples.vecFull.repInvariant ∧
    Examples.vecFull.mSize = Examples.vecFull.mCapacity ∧
    (∃ v1, ExtentVectorBase.push_back Examples.sizeofElement Examples.vecFull 50 = some v1 ∧
      ExtentVectorBase.emplace_back Examples.sizeofElement Examples.vecFull 50 = some v1 ∧
      O2ExtentVector.toList v1 = [10, 20, 30, 40, 50] ∧
      O2ExtentVector.readsAs v1 [10, 20, 30, 40, 50] ∧
      v1.mSize = 5 ∧
      Examples.vecFull.sameElements v1 4 ∧
      O2ExtentVector.at_ v1 4 = .value 50 ∧
      (Examples.vecFull.mSize = Examples.vecFull.mCapacity →
        ∃ k, 0 < k ∧ v1.capacities = Examples.vecFull.capacities ++ [k]) ∧
      v1.repInvariant) :=
  ⟨by decide, by unfold ExtentVectorBase.repInvariant; decide, by decide,
   push_back_parity Examples.sizeofElement (by decide) Examples.vecFull
     (by unfold ExtentVectorBase.repInvariant; decide) 50⟩

/-- Witness of `resize_parity`: the full vector `10 20 30 40` resized to six elements with
the value 9. -/
theorem resize_parity_witness :
    0 < Examples.sizeofElement ∧ Examples.vecFull.repInvariant ∧
    ((∃ v1, O2ExtentVector.resizeValue Examples.sizeofElement Examples.vecFull 6 9 = .ok v1 ∧
      O2ExtentVector.toList v1 = [10, 20, 30, 40, 9, 9] ∧
      O2ExtentVector.readsAs v1 [10, 20, 30, 40, 9, 9] ∧
      v1.mSize = 6 ∧ v1.repInvariant) ∧
     O2ExtentVector.resize Examples.sizeofElement 0 Examples.vecFull 6
       = O2ExtentVector.resizeValue Examples.sizeofElement Examples.vecFull 6 0) :=
  ⟨by decide, by unfold ExtentVectorBase.repInvariant; decide,
   resize_parity Examples.sizeofElement (by decide) 0 Examples.vecFull
     (by unfold ExtentVectorBase.repInvariant; decide) 6 9⟩

/-- Witness of `size_capacity_invariant`: the vector reached from the empty vector by
`push_back(10)` and `resize(5, 0)`, which holds two extents of four slots. -/
theorem size_capacity_invariant_witness :
    0 < Examples.sizeofElement ∧
    Reachable Examples.sizeofElement 0 Examples.vecResized ∧
    (Examples.vecResized.mCapacity = (Examples.vecResized.mExtents.map Extent.capacity).sum ∧
      0 ≤ Examples.vecResized.mSize ∧
      Examples.vecResized.mSize ≤ Examples.vecResized.mCapacity) :=
  have hr : Reachable Examples.sizeofElement 0 Examples.vecResized :=
    Reachable.resize 5 0
      (Reachable.push_back 10 Reachable.empty
        (show ExtentVectorBase.push_back Examples.sizeofElement ExtentVectorBase.empty 10
            = some Examples.vecOne by decide))
      (Or.inl (show ExtentVectorBase.resize Examples.sizeofElement Examples.vecOne 5 0
            = .ok Examples.vecResized by decide))
  ⟨by decide, hr, size_capacity_invariant Examples.sizeofElement (by decide) 0
    Examples.vecResized hr⟩

/-- Witness of `address_stability`: the full vector `10 20 30 40`, with 50 appended, 7
emplaced at position 2, 100 slots reserved, and shrunk. -/
theorem address_stability_witness :
    0 < Examples.sizeofElement ∧ Examples.vecFull.repInvariant ∧
    (∃ v1, ExtentVectorBase.push_back Examples.sizeofElement Examples.vecFull 50 = some v1 ∧
      ExtentVectorBase.emplace_back Examples.sizeofElement Examples.vecFull 50 = some v1 ∧
      Examples.vecFull.sameLocations v1 ∧
      (∃ ks, v1.capacities = Examples.vecFull.capacities ++ ks) ∧
      Examples.vecFull.sameElements v1 Examples.vecFull.mSize) ∧
    (∃ v1, O2ExtentVector.emplace Examples.sizeofElement 0 Examples.vecFull 2 7 = .ok v1 ∧
      Examples.vecFull.sameLocations v1 ∧
      (∃ ks, v1.capacities = Examples.vecFull.capacities ++ ks) ∧
      Examples.vecFull.sameElements v1 2) ∧
    (∃ v1, ExtentVectorBase.reserve Examples.sizeofElement Examples.vecFull 100 = some v1 ∧
      Examples.vecFull.sameLocations v1 ∧
      (∃ es, v1.mExtents = Examples.vecFull.mExtents ++ es) ∧
      Examples.vecFull.sameElements v1 Examples.vecFull.mSize) ∧
    (∃ v1, ExtentVectorBase.shrink_to_fit Examples.vecFull = some v1 ∧
      Examples.vecFull.sameLocations v1 ∧
      (∃ es, Examples.vecFull.mExtents = v1.mExtents ++ es) ∧
      Examples.vecFull.sameElements v1 Examples.vecFull.mSize) :=
  have h := address_stability Examples.sizeofElement (by decide) 0 Examples.vecFull
    (by unfold ExtentVectorBase.repInvariant; decide)
  ⟨by decide, by unfold ExtentVectorBase.repInvariant; decide,
   h.1 50, h.2.1 2 7 (by decide), h.2.2.1 100, h.2.2.2⟩

end DataDistribution
end O2

namespace O2
namespace DataDistribution
namespace detail

variable {α : Type}

/-! ### for_each -/

theorem stdForEach_append {σ : Type} (func : σ → α → σ × α) (l1 l2 : List α) (acc : σ) :
    algorithm.stdForEach func (l1 ++ l2) acc
      = ((algorithm.stdForEach func l2 (algorithm.stdForEach func l1 acc).1).1,
         (algorithm.stdForEach func l1 acc).2
           ++ (algorithm.stdForEach func l2 (algorithm.stdForEach func l1 acc).1).2) := by
  induction l1 generalizing acc with
  | nil => simp [algorithm.stdForEach]
  | cons x xs ih => simp [algorithm.stdForEach, ih]

theorem length_stdForEach {σ : Type} (func : σ → α → σ × α) (l : List α) (acc : σ) :
    (algorithm.stdForEach func l acc).2.length = l.length := by
  induction l generalizing acc with
  | nil => simp [algorithm.stdForEach]
  | cons x xs ih => simp [algorithm.stdForEach, ih]

theorem stdForEach_fst {σ : Type} (f : σ → α → σ) (l : List α) (acc : σ) :
    (algorithm.stdForEach (fun s x => (f s x, x)) l acc).1 = l.foldl f acc := by
  induction l generalizing acc with
  | nil => simp [algorithm.stdForEach]
  | cons x xs ih => simp [algorithm.stdForEach, ih]

/-- The inner loop on the slots that hold `m`, between `p` and `q`. -/
theorem for_each_slots_spec {σ : Type} (func : σ → α → σ × α) (m p q : List α) (c : Nat)
    (acc : σ) :
    ExtentVectorBase.for_each_slots func m.length (Extent.mk (p ++ m ++ q) c) p.length acc
      = some ((algorithm.stdForEach func m acc).1,
          Extent.mk (p ++ (algorithm.stdForEach func m acc).2 ++ q) c) := by
  induction m generalizing p acc with
  | nil => simp [ExtentVectorBase.for_each_slots, algorithm.stdForEach]
  | cons x m ih =>
    have hget : (p ++ x :: m ++ q).get? p.length = some x := by
      rw [List.get?_eq_getElem?, List.append_assoc, List.getElem?_append_right (le_refl _)]
      simp
    have hset : (p ++ x :: m ++ q).set p.length (func acc x).2
        = (p ++ [(func acc x).2]) ++ m ++ q := by
      simp [List.set_append]
    simp only [List.length_cons, ExtentVectorBase.for_each_slots, hget, hset]
    have h := ih (p ++ [(func acc x).2]) (func acc x).1
    simp only [List.length_append, List.length_singleton] at h
    rw [h]
    simp [algorithm.stdForEach]

theorem for_each_loop_zero {σ : Type} (func : σ → α → σ × α) (exts : List (Extent α))
    (s : Nat) (acc : σ) :
    ExtentVectorBase.for_each_loop func exts 0 s acc = some (acc, exts) := by
  cases exts <;> rfl

/-- The loop of `for_each` over extents filled in order with `pre ++ mid ++ post`, started
at the offset of the first element of `mid`. -/
theorem for_each_loop_fillExtents {σ : Type} (func : σ → α → σ × α) (cs : List Nat)
    (pre mid post : List α) (acc : σ)
    (hlen : pre.length + mid.length + post.length ≤ cs.sum)
    (hpre : ∀ c ∈ cs.head?, pre.length ≤ c) :
    ExtentVectorBase.for_each_loop func (fillExtents cs (pre ++ mid ++ post)) mid.length
        pre.length acc
      = some ((algorithm.stdForEach func mid acc).1,
          fillExtents cs (pre ++ (algorithm.stdForEach func mid acc).2 ++ post)) := by
  induction cs generalizing pre mid acc with
  | nil =>
    have hm : mid = [] :=
      List.length_eq_zero.mp (by simp only [List.sum_nil] at hlen; omega)
    subst hm
    simp [for_each_loop_zero, algorithm.stdForEach]
  | cons c cs ih =>
    cases hmid : mid with
    | nil => simp [for_each_loop_zero, algorithm.stdForEach]
    | cons x m =>
      rw [← hmid]
      have hpc : pre.length ≤ c := hpre c (by simp)
      have hml : mid.length = m.length + 1 := by rw [hmid]; rfl
      simp only [List.sum_cons] at hlen
      by_cases hfit : pre.length + mid.length ≤ c
      · -- the range ends inside this extent
        have htk : ∀ X : List α, X.length = mid.length →
            (pre ++ X ++ post).take c = pre ++ X ++ post.take (c - pre.length - mid.length) := by
          intro X hX
          rw [List.take_append_eq_append_take,
            List.take_of_length_le (by simp only [List.length_append]; omega),
            List.length_append, hX, Nat.sub_sub]
        have hdr : ∀ X : List α, X.length = mid.length →
            (pre ++ X ++ post).drop c = post.drop (c - pre.length - mid.length) := by
          intro X hX
          rw [List.drop_append_eq_append_drop,
            List.drop_of_length_le (by simp only [List.length_append]; omega),
            List.length_append, hX, Nat.sub_sub, List.nil_append]
        have htake := htk mid rfl
        have htake1 := htk _ (length_stdForEach func mid acc)
        have hdrop : (pre ++ (algorithm.stdForEach func mid acc).2 ++ post).drop c
            = (pre ++ mid ++ post).drop c := by
          rw [hdr mid rfl, hdr _ (length_stdForEach func mid acc)]
        have hsize : (Extent.mk (pre ++ mid ++ post.take (c - pre.length - mid.length)) c).size
            = pre.length + mid.length + min (c - pre.length - mid.length) post.length := by
          simp only [Extent.size, List.length_append, List.length_take]
        simp only [fillExtents, htake, htake1, hdrop]
        rw [hml]
        simp only [ExtentVectorBase.for_each_loop]
        rw [← hml, hsize, if_pos (by omega)]
        have hcnt : min (pre.length + mid.length
            + min (c - pre.length - mid.length) post.length - pre.length) mid.length
            = mid.length := by omega
        simp only [hcnt, for_each_slots_spec, Nat.sub_self, for_each_loop_zero]
      · -- the range goes on in the next extent
        have hk : c - pre.length < mid.length := by omega
        have hsplit : mid = mid.take (c - pre.length) ++ mid.drop (c - pre.length) :=
          (List.take_append_drop _ _).symm
        have hl1 : (mid.take (c - pre.length)).length = c - pre.length := by
          simp only [List.length_take]; omega
        have hl2 : (mid.drop (c - pre.length)).length = mid.length - (c - pre.length) := by
          simp only [List.length_drop]
        generalize mid.take (c - pre.length) = m1 at hsplit hl1
        generalize mid.drop (c - pre.length) = m2 at hsplit hl2
        have htake : (pre ++ mid ++ post).take c = pre ++ m1 := by
          rw [hsplit, ← List.append_assoc pre, List.append_assoc (pre ++ m1)]
          exact List.take_left' (by simp only [List.length_append]; omega)
        have hdrop : (pre ++ mid ++ post).drop c = [] ++ m2 ++ post := by
          rw [hsplit, ← List.append_assoc pre, List.append_assoc (pre ++ m1)]
          rw [List.drop_left' (by simp only [List.length_append]; omega)]
          rfl
        have hres : algorithm.stdForEach func mid acc
            = ((algorithm.stdForEach func m2 (algorithm.stdForEach func m1 acc).1).1,
               (algorithm.stdForEach func m1 acc).2
                 ++ (algorithm.stdForEach func m2 (algorithm.stdForEach func m1 acc).1).2) := by
          rw [hsplit]; exact stdForEach_append func m1 m2 acc
        have htake1 : (pre ++ (algorithm.stdForEach func mid acc).2 ++ post).take c
            = pre ++ (algorithm.stdForEach func m1 acc).2 := by
          rw [hres]
          simp only
          rw [← List.append_assoc pre, List.append_assoc (pre ++ _)]
          exact List.take_left' (by simp only [List.length_append, length_stdForEach]; omega)
        have hdrop1 : (pre ++ (algorithm.stdForEach func mid acc).2 ++ post).drop c
            = [] ++ (algorithm.stdForEach func m2 (algorithm.stdForEach func m1 acc).1).2
                ++ post := by
          rw [hres]
          simp only
          rw [← List.append_assoc pre, List.append_assoc (pre ++ _)]
          rw [List.drop_left' (by simp only [List.length_append, length_stdForEach]; omega)]
          rfl
        have hsize : (Extent.mk (pre ++ m1) c).size = c := by
          simp only [Extent.size, List.length_append]; omega
        have hih := ih [] m2 (algorithm.stdForEach func m1 acc).1
          (by simp only [List.length_nil]; rw [hsplit] at hlen
              simp only [List.length_append] at hlen; omega)
          (by intro c1 _; simp)
        simp only [fillExtents, htake, htake1, hdrop, hdrop1]
        rw [hml]
        simp only [ExtentVectorBase.for_each_loop]
        rw [← hml, hsize, if_pos hpc]
        have hcnt : min (c - pre.length) mid.length = m1.length := by omega
        have hrest : mid.length - m1.length = m2.length := by omega
        have hslots := for_each_slots_spec func m1 pre [] c acc
        simp only [List.append_nil] at hslots
        simp only [hcnt, hrest, hslots]
        simp only [List.length_nil] at hih
        rw [hih, hres]

end detail
end DataDistribution
end O2

namespace O2
namespace DataDistribution
namespace detail

variable {α : Type}

theorem mVectorIndex_positionOf (caps : List Nat) (i : Int) :
    (positionOf caps i).mVectorIndex = i := by
  unfold positionOf; split_ifs <;> rfl

theorem fillExtents_congr_take (cs : List Nat) (l1 l2 : List α)
    (h : l1.take cs.sum = l2.take cs.sum) : fillExtents cs l1 = fillExtents cs l2 := by
  induction cs generalizing l1 l2 with
  | nil => rfl
  | cons c cs ih =>
    simp only [List.sum_cons] at h
    have h1 : l1.take c = l2.take c := by
      have := congrArg (List.take c) h
      simpa [List.take_take] using this
    have h2 : (l1.drop c).take cs.sum = (l2.drop c).take cs.sum := by
      have := congrArg (List.drop c) h
      simpa [List.drop_take] using this
    simp only [fillExtents, h1, ih _ _ h2]

theorem take_fillExtents (caps : List Nat) (xs : List α) (i : Nat) :
    (fillExtents caps xs).take i = fillExtents (caps.take i) xs := by
  induction caps generalizing xs i with
  | nil => simp [fillExtents]
  | cons c cs ih =>
    cases i with
    | zero => simp [fillExtents]
    | succ i => simp [fillExtents, ih]

theorem drop_fillExtents (caps : List Nat) (xs : List α) (i : Nat) :
    (fillExtents caps xs).drop i = fillExtents (caps.drop i) (xs.drop (caps.take i).sum) := by
  induction caps generalizing xs i with
  | nil => simp [fillExtents]
  | cons c cs ih =>
    cases i with
    | zero => simp [fillExtents]
    | succ i =>
      simp only [fillExtents, List.drop_succ_cons, List.take_succ_cons, List.sum_cons, ih,
        List.drop_drop]

/-- The member `for_each` on a canonical vector, for a range `[a, b)` inside the elements:
what `std::for_each` does on the same range of a contiguous vector. -/
theorem for_each_canonical {σ : Type} (func : σ → α → σ × α) (caps : List Nat) (xs : List α)
    (hpos : ∀ c ∈ caps, 0 < c) (h : xs.length ≤ caps.sum) (a b : Nat) (hab : a ≤ b)
    (hb : b ≤ xs.length) (acc : σ) :
    ExtentVectorBase.for_each (canonical caps xs) (positionOf caps a) (positionOf caps b)
        func acc
      = some ((algorithm.stdForEachRange func xs a b acc).1,
          canonical caps (algorithm.stdForEachRange func xs a b acc).2) := by
  unfold ExtentVectorBase.for_each algorithm.stdForEachRange
  simp only [mVectorIndex_positionOf]
  by_cases hEq : a = b
  · subst hEq
    simp [algorithm.stdForEach]
  · have hlt : a < b := by omega
    have ha : a < caps.sum := by omega
    rw [if_neg (by omega), positionOf_of_lt caps a ha]
    simp only
    rw [if_neg (by omega)]
    obtain ⟨c, hc, hoff, hsum⟩ := locate_spec caps a ha
    generalize hi : (locate caps a).1 = i at hc hsum
    generalize ho : (locate caps a).2 = off at hoff hsum
    have hto : ((b : Int) - (a : Int)).toNat = b - a := by omega
    have hto2 : ((off : Int)).toNat = off := by omega
    rw [hto, hto2]
    have hmE : (canonical caps xs).mExtents = fillExtents caps xs := rfl
    rw [hmE, drop_fillExtents, take_fillExtents]
    -- the elements from the extent `i` on, split around the range
    set S := (caps.take i).sum with hS
    set r := algorithm.stdForEach func ((xs.drop a).take (b - a)) acc with hr
    have hsplit : xs.drop S = (xs.drop S).take off ++ (xs.drop a).take (b - a) ++ xs.drop b := by
      have h1 : xs.drop a = (xs.drop S).drop off := by
        rw [List.drop_drop, ← hsum, Nat.add_comm]
      have h2 : xs.drop b = (xs.drop a).drop (b - a) := by
        rw [List.drop_drop]; congr 1; omega
      rw [h2, List.append_assoc, List.take_append_drop, h1, List.take_append_drop]
    have hl1 : ((xs.drop S).take off).length = off := by
      simp only [List.length_take, List.length_drop]; omega
    have hl2 : ((xs.drop a).take (b - a)).length = b - a := by
      simp only [List.length_take, List.length_drop]; omega
    have hcaps : (caps.take i).sum + (caps.drop i).sum = caps.sum := by
      rw [← List.sum_append, List.take_append_drop]
    have hloop := for_each_loop_fillExtents func (caps.drop i) ((xs.drop S).take off)
      ((xs.drop a).take (b - a)) (xs.drop b) acc
      (by rw [hl1, hl2]; simp only [List.length_drop]; omega)
      (by
        intro c1 hc1
        rw [List.head?_drop, ← List.get?_eq_getElem?, hc] at hc1
        rw [hl1]
        have : c1 = c := by simpa using hc1.symm
        omega)
    rw [← hsplit, hl1, hl2] at hloop
    rw [hloop]
    simp only [Option.some.injEq, Prod.mk.injEq, true_and]
    -- the extents afterwards are those of the canonical vector
    have hrl : r.2.length = b - a := by rw [hr, length_stdForEach, hl2]
    have hlen : (xs.take a ++ r.2 ++ xs.drop b).length = xs.length := by
      simp only [List.length_append, List.length_take, List.length_drop, hrl]; omega
    have hfront : fillExtents (caps.take i) xs
        = fillExtents (caps.take i) (xs.take a ++ r.2 ++ xs.drop b) := by
      apply fillExtents_congr_take
      rw [← hS, List.append_assoc,
        List.take_append_of_le_length (by simp only [List.length_take]; omega),
        List.take_take, Nat.min_eq_left (by omega)]
    have hback : (xs.drop S).take off ++ r.2 ++ xs.drop b
        = (xs.take a ++ r.2 ++ xs.drop b).drop S := by
      have e1 : (xs.take a).drop S = (xs.drop S).take off := by
        rw [List.drop_take]; congr 1; omega
      rw [List.append_assoc, List.append_assoc,
        List.drop_append_of_le_length (by simp only [List.length_take]; omega), e1]
    have hwhole : fillExtents caps (xs.take a ++ r.2 ++ xs.drop b)
        = fillExtents (caps.take i) (xs.take a ++ r.2 ++ xs.drop b)
          ++ fillExtents (caps.drop i) ((xs.take a ++ r.2 ++ xs.drop b).drop S) := by
      have := fillExtents_append (caps.take i) (caps.drop i) (xs.take a ++ r.2 ++ xs.drop b)
      rw [List.take_append_drop] at this
      exact this
    simp only [canonical, hlen]
    rw [hwhole, ← hfront, ← hback]

end detail
end DataDistribution
end O2

namespace O2
namespace DataDistribution
namespace detail

variable {α : Type}

theorem set_eq_self_of_get? (l : List α) (n : Nat) (x : α) (h : l.get? n = some x) :
    l.set n x = l := by
  induction l generalizing n with
  | nil => rfl
  | cons y ys ih =>
    cases n with
    | zero => simp_all
    | succ n => simp only [List.get?_cons_succ] at h; simp [ih n h]

/-- The `const` overload runs the loop of the other overload with a functor that leaves the
elements as they are. -/
theorem for_each_const_slots_eq {σ : Type} (f : σ → α → σ) (cnt : Nat) (ext : Extent α)
    (start : Nat) (acc : σ) :
    (ExtentVectorBase.for_each_slots (fun s x => (f s x, x)) cnt ext start acc)
      = (ExtentVectorBase.for_each_const_slots f cnt ext start acc).map fun r => (r, ext) := by
  induction cnt generalizing start acc with
  | zero => rfl
  | succ cnt ih =>
    unfold ExtentVectorBase.for_each_slots ExtentVectorBase.for_each_const_slots
    cases hget : ext.mStart.get? start with
    | none => rfl
    | some x =>
      simp only
      rw [set_eq_self_of_get? ext.mStart start x hget]
      exact ih (start + 1) (f acc x)

theorem for_each_const_loop_eq {σ : Type} (f : σ → α → σ) (exts : List (Extent α))
    (elems start : Nat) (acc : σ) :
    ExtentVectorBase.for_each_const_loop f exts elems start acc
      = (ExtentVectorBase.for_each_loop (fun s x => (f s x, x)) exts elems start acc).map
          Prod.fst := by
  induction exts generalizing elems start acc with
  | nil => cases elems <;> rfl
  | cons ext rest ih =>
    cases elems with
    | zero => rfl
    | succ e =>
      unfold ExtentVectorBase.for_each_const_loop ExtentVectorBase.for_each_loop
      by_cases hs : start ≤ ext.size
      · simp only [if_pos hs, for_each_const_slots_eq]
        cases ExtentVectorBase.for_each_const_slots f (min (ext.size - start) (e + 1)) ext
            start acc with
        | none => rfl
        | some acc1 =>
          simp only [Option.map_some']
          rw [ih]
          cases ExtentVectorBase.for_each_loop (fun s x => (f s x, x)) rest
              (e + 1 - min (ext.size - start) (e + 1)) 0 acc1 with
          | none => rfl
          | some r => rfl
      · simp only [if_neg hs, Option.map_none']

theorem for_each_const_eq {σ : Type} (f : σ → α → σ) (v : ExtentVectorBase α)
    (si ei : ExtentPosition) (acc : σ) :
    ExtentVectorBase.for_each_const v si ei f acc
      = (ExtentVectorBase.for_each v si ei (fun s x => (f s x, x)) acc).map Prod.fst := by
  unfold ExtentVectorBase.for_each_const ExtentVectorBase.for_each
  simp only
  split_ifs
  · rfl
  · rfl
  · rw [for_each_const_loop_eq]
    cases ExtentVectorBase.for_each_loop (fun s x => (f s x, x))
        (List.drop si.mExtentIndex v.mExtents) (ei.mVectorIndex - si.mVectorIndex).toNat
        si.mElementIndex.toNat acc with
    | none => rfl
    | some r => rfl

theorem for_each_const_canonical {σ : Type} (f : σ → α → σ) (caps : List Nat) (xs : List α)
    (hpos : ∀ c ∈ caps, 0 < c) (h : xs.length ≤ caps.sum) (a b : Nat) (hab : a ≤ b)
    (hb : b ≤ xs.length) (acc : σ) :
    ExtentVectorBase.for_each_const (canonical caps xs) (positionOf caps a) (positionOf caps b)
        f acc
      = some (((xs.drop a).take (b - a)).foldl f acc) := by
  rw [for_each_const_eq, for_each_canonical _ caps xs hpos h a b hab hb acc]
  simp only [Option.map_some', algorithm.stdForEachRange, stdForEach_fst]

theorem is_dereferenceable_iff (v : ExtentVectorBase α) (p : ExtentPosition) :
    ExtentPosition.is_dereferenceable v p = true
      ↔ 0 ≤ p.mVectorIndex ∧ p.mVectorIndex < (v.mSize : Int) := by
  simp [ExtentPosition.is_dereferenceable, ExtentPosition.is_before_begin]

theorem deref_raised_iff (v : ExtentVectorBase α) (p : ExtentPosition) :
    ExtentPosition.deref v p = .raised
      ↔ ¬ (0 ≤ p.mVectorIndex ∧ p.mVectorIndex < (v.mSize : Int)) := by
  rw [← is_dereferenceable_iff]
  unfold ExtentPosition.deref
  by_cases hd : ExtentPosition.is_dereferenceable v p = true
  · rw [if_pos hd]
    constructor
    · intro hr
      exfalso
      cases hg : v.mExtents.get? p.mExtentIndex with
      | none => rw [hg] at hr; exact Access.noConfusion hr
      | some e =>
        rw [hg] at hr
        cases hx : e.get p.mElementIndex with
        | none => simp only [hx] at hr; exact Access.noConfusion hr
        | some x => simp only [hx] at hr; exact Access.noConfusion hr
    · intro hn; exact absurd hd hn
  · rw [if_neg hd]
    exact ⟨fun _ => hd, fun _ => rfl⟩

end detail

open detail

/-- Claim C11. For every vector that satisfies the representation invariant (as every
reachable vector does) and all indices `a ≤ b ≤ size`: `begin() + a` and `begin() + b` are
iterators, and `o2::algorithm::for_each` between them returns the functor that
`std::for_each` returns on the same range of a contiguous vector with the same elements,
for every functor and every state it starts in: the functor has been applied once to each
of the elements at the indices `a .. b - 1`, in increasing order, and to nothing else. For
the `const` overload that is the left fold over the range; the other overload also leaves
the elements a functor writes as `std::for_each` leaves them, in the same extents. With
`a = b` the functor is returned as it was passed and the vector is unchanged. -/
theorem for_each_parity {α σ : Type} (v : ExtentVectorBase α) (hinv : v.repInvariant)
    (a b : Nat) (hab : a ≤ b) (hb : b ≤ v.mSize) (f : σ → α → σ) (g : σ → α → σ × α)
    (acc : σ) :
    ∃ si ei, O2ExtentVector.beginPlus v a = some si ∧ O2ExtentVector.beginPlus v b = some ei ∧
      algorithm.for_each_const v si ei f acc
        = some ((((O2ExtentVector.toList v).drop a).take (b - a)).foldl f acc) ∧
      (∃ v1, algorithm.for_each v si ei g acc
          = some ((algorithm.stdForEachRange g (O2ExtentVector.toList v) a b acc).1, v1) ∧
        O2ExtentVector.toList v1
          = (algorithm.stdForEachRange g (O2ExtentVector.toList v) a b acc).2 ∧
        v1.capacities = v.capacities ∧ v1.repInvariant) ∧
      (a = b → algorithm.for_each_const v si ei f acc = some acc ∧
        algorithm.for_each v si ei g acc = some (acc, v)) := by
  obtain ⟨caps, xs, hpos, hlen, rfl⟩ := exists_canonical_of_repInvariant v hinv
  rw [toList_canonical caps xs hlen]
  have hb1 : b ≤ xs.length := hb
  have hl : (algorithm.stdForEachRange g xs a b acc).2.length ≤ caps.sum := by
    simp only [algorithm.stdForEachRange, List.length_append, List.length_take,
      List.length_drop, length_stdForEach]
    omega
  refine ⟨_, _, beginPlus_canonical caps xs hpos a, beginPlus_canonical caps xs hpos b,
    for_each_const_canonical f caps xs hpos hlen a b hab hb1 acc,
    ⟨_, for_each_canonical g caps xs hpos hlen a b hab hb1 acc, toList_canonical _ _ hl,
      by rw [capacities_canonical, capacities_canonical], repInvariant_canonical _ _ hpos hl⟩,
    ?_⟩
  intro hEq
  subst hEq
  constructor
  · simp [algorithm.for_each_const, ExtentVectorBase.for_each_const]
  · simp [algorithm.for_each, ExtentVectorBase.for_each]

/-- Claim C12. For every vector that satisfies the representation invariant (as every
reachable vector does): `at(i)` throws exactly when `i ≥ size`, and returns the element at
the logical index `i` otherwise; the iterator `begin() + k` exists for every integer `k`,
carries the logical index `k`, and dereferencing it returns the element at `k` when
`0 ≤ k < size` and throws for every other `k` (underflow, `[size, capacity)` and overflow);
and dereferencing any iterator state throws exactly when its logical index is outside
`[0, size)`. -/
theorem checked_access {α : Type} (v : ExtentVectorBase α) (hinv : v.repInvariant) :
    (∀ i : Nat, (O2ExtentVector.at_ v i = .raised ↔ v.mSize ≤ i) ∧
      (i < v.mSize → ∃ y, (O2ExtentVector.toList v).get? i = some y ∧
        O2ExtentVector.at_ v i = .value y)) ∧
    (∀ k : Int, ∃ p, O2ExtentVector.beginPlus v k = some p ∧ p.mVectorIndex = k ∧
      (0 ≤ k ∧ k < (v.mSize : Int) →
        ∃ y, (O2ExtentVector.toList v).get? k.toNat = some y ∧
          ExtentPosition.deref v p = .value y) ∧
      (¬ (0 ≤ k ∧ k < (v.mSize : Int)) → ExtentPosition.deref v p = .raised)) ∧
    (∀ p : ExtentPosition, ExtentPosition.deref v p = .raised
      ↔ ¬ (0 ≤ p.mVectorIndex ∧ p.mVectorIndex < (v.mSize : Int))) := by
  refine ⟨?_, ?_, fun p => deref_raised_iff v p⟩
  · obtain ⟨caps, xs, hpos, hlen, rfl⟩ := exists_canonical_of_repInvariant v hinv
    rw [toList_canonical caps xs hlen]
    have hsz : (canonical caps xs).mSize = xs.length := rfl
    intro i
    rw [hsz]
    have hval : i < xs.length → ∃ y, xs.get? i = some y ∧
        O2ExtentVector.at_ (canonical caps xs) i = .value y := by
      intro hi
      exact ⟨_, List.get?_eq_get hi, at_canonical caps xs hpos hlen i _ (List.get?_eq_get hi)⟩
    refine ⟨⟨?_, ?_⟩, hval⟩
    · intro hr
      by_contra hlt
      obtain ⟨y, _, hy⟩ := hval (by omega)
      rw [hy] at hr
      exact absurd hr (by simp)
    · intro hge
      unfold O2ExtentVector.at_
      rw [hsz, if_pos hge]
  · intro k
    obtain ⟨caps, xs, hpos, hlen, rfl⟩ := exists_canonical_of_repInvariant v hinv
    rw [toList_canonical caps xs hlen]
    have hsz : (canonical caps xs).mSize = xs.length := rfl
    rw [hsz]
    refine ⟨_, beginPlus_canonical caps xs hpos k, mVectorIndex_positionOf caps k, ?_, ?_⟩
    · rintro ⟨h0, h1⟩
      obtain ⟨i, rfl⟩ := Int.eq_ofNat_of_zero_le h0
      have hi : i < xs.length := by omega
      refine ⟨_, List.get?_eq_get (by simpa using hi), ?_⟩
      exact deref_canonical caps xs hlen i _ (List.get?_eq_get hi)
    · intro hn
      rw [deref_raised_iff, mVectorIndex_positionOf, hsz]
      exact hn

/-- Claim C13. For every vector that satisfies the representation invariant (as every
reachable vector does): on an empty vector `pop_back` throws and leaves the vector as it
was; on a vector that holds `xs ++ [x]` it returns normally and leaves a vector that holds
`xs`, with the size decreased by one, the capacity and the extents' capacities unchanged,
and `end()` equal to `begin() + size` for the new size. -/
theorem pop_back_contract {α : Type} (v : ExtentVectorBase α) (hinv : v.repInvariant) :
    (v.mSize = 0 → ExtentVectorBase.pop_back v = .raised v) ∧
    (∀ xs x, O2ExtentVector.toList v = xs ++ [x] →
      ∃ v1, ExtentVectorBase.pop_back v = .ok v1 ∧ O2ExtentVector.toList v1 = xs ∧
        v1.mSize + 1 = v.mSize ∧ v1.mCapacity = v.mCapacity ∧
        v1.capacities = v.capacities ∧
        O2ExtentVector.beginPlus v1 v1.mSize = some (ExtentVectorBase.end_ v1) ∧
        (ExtentVectorBase.end_ v1).mVectorIndex = v1.mSize ∧
        v1.repInvariant) := by
  obtain ⟨caps, ys, hpos, hlen, rfl⟩ := exists_canonical_of_repInvariant v hinv
  rw [toList_canonical caps ys hlen]
  constructor
  · intro h0
    unfold ExtentVectorBase.pop_back
    rw [if_pos h0]
  · intro xs x hxs
    subst hxs
    simp only [List.length_append, List.length_singleton] at hlen
    have hl : xs.length ≤ caps.sum := by omega
    refine ⟨_, pop_back_canonical caps hpos xs x hlen, toList_canonical _ _ hl,
      by simp [canonical], rfl, by rw [capacities_canonical, capacities_canonical],
      beginPlus_canonical caps xs hpos _, mVectorIndex_positionOf _ _,
      repInvariant_canonical _ _ hpos hl⟩

/-- Witness of `for_each_parity`: the range `[2, 5)` of the vector `10 20 30 40 50`, which
crosses from the first extent into the second, summed and incremented. -/
theorem for_each_parity_witness :
    Examples.vecTwoExtents.repInvariant ∧ 2 ≤ 5 ∧ 5 ≤ Examples.vecTwoExtents.mSize ∧
    ∃ si ei, O2ExtentVector.beginPlus Examples.vecTwoExtents 2 = some si ∧
      O2ExtentVector.beginPlus Examples.vecTwoExtents 5 = some ei ∧
      algorithm.for_each_const Examples.vecTwoExtents si ei (fun s x => s + x) 0 = some 120 ∧
      (∃ v1, algorithm.for_each Examples.vecTwoExtents si ei (fun s x => (s + x, x + 1)) 0
          = some (120, v1) ∧
        O2ExtentVector.toList v1 = [10, 20, 31, 41, 51] ∧
        v1.capacities = Examples.vecTwoExtents.capacities ∧ v1.repInvariant) ∧
      (2 = 5 →
        algorithm.for_each_const Examples.vecTwoExtents si ei (fun s x => s + x) 0 = some 0 ∧
        algorithm.for_each Examples.vecTwoExtents si ei (fun s x => (s + x, x + 1)) 0
          = some (0, Examples.vecTwoExtents)) :=
  ⟨by unfold ExtentVectorBase.repInvariant; decide, by decide, by decide,
   for_each_parity Examples.vecTwoExtents (by unfold ExtentVectorBase.repInvariant; decide)
     2 5 (by decide) (by decide) (fun s x => s + x) (fun s x => (s + x, x + 1)) 0⟩

/-- Witness of `checked_access`: the vector `10 20 30 40 50` in two extents of four
slots. -/
theorem checked_access_witness :
    Examples.vecTwoExtents.repInvariant ∧
    O2ExtentVector.at_ Examples.vecTwoExtents 4 = .value 50 ∧
    (O2ExtentVector.at_ Examples.vecTwoExtents 5 = .raised ↔ Examples.vecTwoExtents.mSize ≤ 5) ∧
    (∃ p, O2ExtentVector.beginPlus Examples.vecTwoExtents 6 = some p ∧ p.mVectorIndex = 6 ∧
      ExtentPosition.deref Examples.vecTwoExtents p = .raised) :=
  have h := checked_access Examples.vecTwoExtents
    (by unfold ExtentVectorBase.repInvariant; decide)
  ⟨by unfold ExtentVectorBase.repInvariant; decide, by decide, (h.1 5).1,
   let ⟨p, h1, h2, _, h4⟩ := h.2.1 6
   ⟨p, h1, h2, h4 (by decide)⟩⟩

/-- Witness of `pop_back_contract`: `pop_back` on the vector `10 20 30 40 50`, whose last
element is the first slot of the second extent. -/
theorem pop_back_contract_witness :
    Examples.vecTwoExtents.repInvariant ∧
    O2ExtentVector.toList Examples.vecTwoExtents = [10, 20, 30, 40] ++ [50] ∧
    ∃ v1, ExtentVectorBase.pop_back Examples.vecTwoExtents = .ok v1 ∧
      O2ExtentVector.toList v1 = [10, 20, 30, 40] ∧
      v1.mSize + 1 = Examples.vecTwoExtents.mSize ∧
      v1.mCapacity = Examples.vecTwoExtents.mCapacity ∧
      v1.capacities = Examples.vecTwoExtents.capacities ∧
      O2ExtentVector.beginPlus v1 v1.mSize = some (ExtentVectorBase.end_ v1) ∧
      (ExtentVectorBase.end_ v1).mVectorIndex = v1.mSize ∧
      v1.repInvariant :=
  ⟨by unfold ExtentVectorBase.repInvariant; decide, by decide,
   (pop_back_contract Examples.vecTwoExtents
     (by unfold ExtentVectorBase.repInvariant; decide)).2 [10, 20, 30, 40] 50 (by decide)⟩

end DataDistribution
end O2

/-! # Theorems: the mutators and the wire layouts -/

namespace O2
namespace DataDistribution

section MapOrder

variable {D O : Type} [LinearOrder D]

theorem operatorLt_trans {a b c : EquipmentIdentifier D O} (h1 : a.operatorLt b = true)
    (h2 : b.operatorLt c = true) : a.operatorLt c = true := by
  rw [operatorLt_iff] at *
  rcases h1 with h1 | ⟨e1, h1⟩ <;> rcases h2 with h2 | ⟨e2, h2⟩
  · exact Or.inl (lt_trans h1 h2)
  · exact Or.inl (by rw [← e2]; exact h1)
  · exact Or.inl (by rw [e1]; exact h2)
  · exact Or.inr ⟨e1.trans e2, lt_trans h1 h2⟩

/-- The order of `operator<` as coded puts two identifiers in the order the specification
states for them. -/
theorem specLexLt_of_operatorLt [LinearOrder O] {a b : EquipmentIdentifier D O}
    (h : a.operatorLt b = true) : EquipmentIdentifier.specLexLt a b := by
  rw [operatorLt_iff] at h
  rcases h with h | ⟨e, h⟩
  · exact Or.inl h
  · exact Or.inr ⟨e, Or.inl h⟩

/-- Offering to `std::map::emplace` a key that is not equivalent to a key present places the
entry in key order. -/
theorem StdMap.emplace_sorted (d : ReadoutMap D O) (k : EquipmentIdentifier D O)
    (v : EquipmentHBFrames D O)
    (hd : d.Pairwise (fun a b => a.1.operatorLt b.1 = true))
    (hk : ∀ x ∈ d, x.1.operatorLt k = true ∨ k.operatorLt x.1 = true) :
    (StdMap.emplace d k v).Pairwise (fun a b => a.1.operatorLt b.1 = true) ∧
    (StdMap.emplace d k v).Perm ((k, v) :: d) := by
  induction d with
  | nil => exact ⟨by simp [StdMap.emplace], by simp [StdMap.emplace]⟩
  | cons hd1 tl ih =>
    obtain ⟨k1, v1⟩ := hd1
    rw [List.pairwise_cons] at hd
    obtain ⟨hhead, htl⟩ := hd
    by_cases h1 : k1.operatorLt k = true
    · simp only [StdMap.emplace, h1, if_true]
      obtain ⟨ihs, ihp⟩ := ih htl (fun x hx => hk x (List.mem_cons_of_mem _ hx))
      refine ⟨?_, ?_⟩
      · rw [List.pairwise_cons]
        refine ⟨?_, ihs⟩
        intro x hx
        rcases (List.mem_cons.mp (ihp.subset hx)) with hx | hx
        · rw [hx]; exact h1
        · exact hhead x hx
      · exact (List.Perm.cons _ ihp).trans (List.Perm.swap _ _ _)
    · have h2 : k.operatorLt k1 = true := by
        rcases hk (k1, v1) (List.mem_cons_self _ _) with h | h
        · exact absurd h h1
        · exact h
      simp only [StdMap.emplace, h1, h2, if_true, Bool.false_eq_true, if_false]
      refine ⟨?_, List.Perm.refl _⟩
      rw [List.pairwise_cons]
      refine ⟨?_, List.pairwise_cons.mpr ⟨hhead, htl⟩⟩
      intro x hx
      rcases List.mem_cons.mp hx with hx | hx
      · rw [hx]; exact h2
      · exact operatorLt_trans h2 (hhead x hx)

/-- Entries with keys of which no two are equivalent, offered to `std::map::emplace` one
after the other in any order, give a map in key order that holds them all. -/
theorem StdMap.foldl_emplace_sorted (es d : ReadoutMap D O)
    (hd : d.Pairwise (fun a b => a.1.operatorLt b.1 = true))
    (hc : (d ++ es).Pairwise
      (fun a b => a.1.operatorLt b.1 = true ∨ b.1.operatorLt a.1 = true)) :
    (es.foldl (fun m kv => StdMap.emplace m kv.1 kv.2) d).Pairwise
        (fun a b => a.1.operatorLt b.1 = true) ∧
    (es.foldl (fun m kv => StdMap.emplace m kv.1 kv.2) d).Perm (d ++ es) := by
  induction es generalizing d with
  | nil => exact ⟨hd, by simp⟩
  | cons e tl ih =>
    obtain ⟨k, v⟩ := e
    have hk : ∀ x ∈ d, x.1.operatorLt k = true ∨ k.operatorLt x.1 = true := by
      intro x hx
      rw [List.pairwise_append] at hc
      exact hc.2.2 x hx (k, v) (List.mem_cons_self _ _)
    obtain ⟨h1, h2⟩ := StdMap.emplace_sorted d k v hd hk
    have hperm : (StdMap.emplace d k v ++ tl).Perm (d ++ (k, v) :: tl) :=
      (List.Perm.append_right tl h2).trans (by simpa using List.perm_middle.symm)
    have hsymm : Symmetric (fun a b : EquipmentIdentifier D O × EquipmentHBFrames D O =>
        a.1.operatorLt b.1 = true ∨ b.1.operatorLt a.1 = true) := fun _ _ h => h.symm
    obtain ⟨h3, h4⟩ := ih (StdMap.emplace d k v) h1
      ((hperm.pairwise_iff (fun {_ _} h => hsymm h)).mpr hc)
    exact ⟨h3, h4.trans hperm⟩

/-- The map does not depend on the order in which its entries were inserted. -/
theorem StdMap.foldl_emplace_perm (m es : ReadoutMap D O)
    (hm : m.Pairwise (fun a b => a.1.operatorLt b.1 = true)) (hp : es.Perm m) :
    es.foldl (fun m kv => StdMap.emplace m kv.1 kv.2) [] = m := by
  have hsymm : Symmetric (fun a b : EquipmentIdentifier D O × EquipmentHBFrames D O =>
      a.1.operatorLt b.1 = true ∨ b.1.operatorLt a.1 = true) := fun _ _ h => h.symm
  have hc : es.Pairwise (fun a b => a.1.operatorLt b.1 = true ∨ b.1.operatorLt a.1 = true) :=
    (hp.pairwise_iff (fun {_ _} h => hsymm h)).mpr (hm.imp Or.inl)
  obtain ⟨h1, h2⟩ := StdMap.foldl_emplace_sorted es [] List.Pairwise.nil (by simpa using hc)
  haveI : IsAntisymm (EquipmentIdentifier D O × EquipmentHBFrames D O)
      (fun a b => a.1.operatorLt b.1 = true) :=
    ⟨fun a b hab hba => by rw [operatorLt_asymm hab] at hba; exact absurd hba (by simp)⟩
  have h3 : (es.foldl (fun m kv => StdMap.emplace m kv.1 kv.2) []).Perm es := by
    simpa using h2
  exact List.eq_of_perm_of_sorted (h3.trans hp) h1 hm

omit [LinearOrder D] in
theorem ReadoutMap.length_interleavedLayout (m : ReadoutMap D O)
    (hm : m.all (fun kv => kv.2.mHeader.isSome) = true) :
    m.interleavedLayout.length = (m.map fun kv => 1 + kv.2.mHBFrames.length).sum := by
  induction m with
  | nil => rfl
  | cons hd tl ih =>
    obtain ⟨k, e⟩ := hd
    simp only [List.all_cons, Bool.and_eq_true] at hm
    obtain ⟨frames_h, frames⟩ := e
    cases frames_h with
    | none => simp at hm
    | some h =>
      rw [ReadoutMap.interleavedLayout_cons]
      simp only [List.length_cons, List.length_append, List.map_cons, List.sum_cons, ih hm.2]
      omega

end MapOrder

/-- Claim C17. For every populated STF whose equipments have their headers, with
`readoutData` in the key order a `std::map` keeps: `InterleavedHdrDataSerializer::serialize`
returns, and the vector it sends is the STF header followed, for each equipment in map
order, by the header of the equipment and then its frames in their stored order; the vector
has `1 + Σ (1 + frame count)` messages; the map order is the order the specification states
for the identifiers; and the vector does not depend on the order in which the equipments
were inserted: the same entries offered to the map in any order give the same vector. -/
theorem interleaved_layout {D O : Type} [LinearOrder D] [LinearOrder O]
    (s : SubTimeFrame D O) (hpop : s.mHeader.isSome = true)
    (hent : s.mReadoutData.all (fun kv => kv.2.mHeader.isSome) = true)
    (hmap : s.mReadoutData.Pairwise (fun a b => a.1.operatorLt b.1 = true)) :
    ∃ h src1, s.mHeader = some h ∧
      InterleavedHdrDataSerializer.serialize s
        = some (FairMQMessage.stfHeader h :: s.mReadoutData.interleavedLayout, src1) ∧
      (FairMQMessage.stfHeader h :: s.mReadoutData.interleavedLayout).length
        = 1 + (s.mReadoutData.map fun kv => 1 + kv.2.mHBFrames.length).sum ∧
      s.getEquipmentIdentifiers.Pairwise EquipmentIdentifier.specLexLt ∧
      ∀ es : ReadoutMap D O, es.Perm s.mReadoutData →
        InterleavedHdrDataSerializer.serialize
            { s with mReadoutData := es.foldl (fun m kv => StdMap.emplace m kv.1 kv.2) [] }
          = some (FairMQMessage.stfHeader h :: s.mReadoutData.interleavedLayout, src1) := by
  cases hh : s.mHeader with
  | none => simp [hh] at hpop
  | some h =>
    have hser : InterleavedHdrDataSerializer.serialize s
        = some (FairMQMessage.stfHeader h :: s.mReadoutData.interleavedLayout,
            { s with mHeader := none, mReadoutData := s.mReadoutData.released }) := by
      simp [InterleavedHdrDataSerializer.serialize, InterleavedHdrDataSerializer.visit, hh,
        InterleavedHdrDataSerializer.visitEntries_interleaved _ _ hent]
    refine ⟨h, _, rfl, hser, ?_, ?_, ?_⟩
    · rw [List.length_cons, ReadoutMap.length_interleavedLayout _ hent]
      omega
    · unfold SubTimeFrame.getEquipmentIdentifiers
      rw [List.pairwise_map]
      exact hmap.imp specLexLt_of_operatorLt
    · intro es hp
      rw [StdMap.foldl_emplace_perm s.mReadoutData es hmap hp]
      simp [InterleavedHdrDataSerializer.serialize, InterleavedHdrDataSerializer.visit, hh,
        InterleavedHdrDataSerializer.visitEntries_interleaved _ _ hent]

/-- The state in which either serializer leaves its source, as coded. After `serialize` has
run on a populated STF whose equipments have their headers, the header of the source STF is
released and every entry of its `readoutData` has its header released and holds no frames;
the map itself is not cleared, it holds one emptied entry under each key it had. -/
theorem serializer_post_condition {D O : Type} (mChan : Channel D O) (s : SubTimeFrame D O)
    (hpop : s.mHeader.isSome = true)
    (hent : s.mReadoutData.all (fun kv => kv.2.mHeader.isSome) = true) :
    (∃ msgs src1, InterleavedHdrDataSerializer.serialize s = some (msgs, src1) ∧
      src1.mHeader = none ∧ src1.mReadoutData = s.mReadoutData.released ∧
      src1.mReadoutData.length = s.mReadoutData.length ∧
      src1.getEquipmentIdentifiers = s.getEquipmentIdentifiers ∧
      ∀ kv ∈ src1.mReadoutData, kv.2.mHeader = none ∧ kv.2.mHBFrames = []) ∧
    (∃ chan1 src1, HdrDataSerializer.serialize mChan s = some (chan1, src1) ∧
      src1.mHeader = none ∧ src1.mReadoutData = s.mReadoutData.released ∧
      src1.mReadoutData.length = s.mReadoutData.length ∧
      src1.getEquipmentIdentifiers = s.getEquipmentIdentifiers ∧
      ∀ kv ∈ src1.mReadoutData, kv.2.mHeader = none ∧ kv.2.mHBFrames = []) := by
  cases hh : s.mHeader with
  | none => simp [hh] at hpop
  | some h =>
    have hrel : ∀ kv ∈ s.mReadoutData.released, kv.2.mHeader = none ∧ kv.2.mHBFrames = [] := by
      intro kv hkv
      simp only [ReadoutMap.released, List.mem_map] at hkv
      obtain ⟨_, _, rfl⟩ := hkv
      exact ⟨rfl, rfl⟩
    have hlen : s.mReadoutData.released.length = s.mReadoutData.length := by
      simp [ReadoutMap.released]
    have hkeys : (s.mReadoutData.released).map Prod.fst = s.mReadoutData.map Prod.fst := by
      simp [ReadoutMap.released]
    constructor
    · refine ⟨FairMQMessage.stfHeader h :: s.mReadoutData.interleavedLayout,
        { s with mHeader := none, mReadoutData := s.mReadoutData.released }, ?_,
        rfl, rfl, hlen, hkeys, hrel⟩
      simp [InterleavedHdrDataSerializer.serialize, InterleavedHdrDataSerializer.visit, hh,
        InterleavedHdrDataSerializer.visitEntries_interleaved _ _ hent]
    · have hv : HdrDataSerializer.visit [] [] s
          = some ([FairMQMessage.stfHeader h] ++ s.mReadoutData.headersLayout,
              [] ++ s.mReadoutData.dataLayout,
              { s with mHeader := none, mReadoutData := s.mReadoutData.released }) := by
        simp [HdrDataSerializer.visit, hh, HdrDataSerializer.visitEntries_split _ _ _ hent]
      unfold HdrDataSerializer.serialize
      rw [hv]
      simp only
      split_ifs
      · exact ⟨_, _, rfl, rfl, rfl, hlen, hkeys, hrel⟩
      · exact ⟨_, _, rfl, rfl, rfl, hlen, hkeys, hrel⟩

/-- Claim C14 on the code: `addHBFrame` with the equipment `(CRUDATA, FLP, link 7)` on the
STF that holds the one equipment `(CRUDATA, CRU, link 7)`. The equipment passed has no entry
and differs from the one present, yet no entry is created for it: `operator<` does not
compare the origins, `find` returns the entry of the other equipment, and the frame is
appended there. Afterwards `getEquipmentIdentifiers` does not contain the equipment passed,
and the frames of the other equipment have changed. -/
theorem addHBFrame_joins_other_origin :
    Examples.eqLink7Flp ∉ Examples.stfOneFrame.getEquipmentIdentifiers ∧
    Examples.eqLink7 ≠ Examples.eqLink7Flp ∧
    Examples.stfOneFrame.addHBFrame Examples.K0 Examples.eqLink7Flp (.data [4])
      = .ok Examples.stfOneFrameJoined ∧
    Examples.stfOneFrameJoined.getEquipmentIdentifiers = [Examples.eqLink7] ∧
    Examples.eqLink7Flp ∉ Examples.stfOneFrameJoined.getEquipmentIdentifiers ∧
    Examples.stfOneFrame.framesOf Examples.eqLink7 = some [.data [9, 8]] ∧
    Examples.stfOneFrameJoined.framesOf Examples.eqLink7 = some [.data [9, 8], .data [4]] := by
  refine ⟨by decide, by decide, by decide, by decide, by decide, by decide, by decide⟩

/-- Claim C15 on the code: `addHBFrames` for the link 7 on the STF that holds the one
equipment `(CRUDATA, FLP, link 7)`. The equipment `(CRUDATA, CRU, link 7)` the call derives
has no entry, yet none is created: `operator<` does not compare the origins, and the
messages are appended to the frames of the other equipment. -/
theorem addHBFrames_joins_other_origin :
    Examples.eqLink7
      = ⟨Examples.K0.gDataDescriptionCruData, Examples.K0.gDataOriginCRU, 7⟩ ∧
    Examples.eqLink7 ∉ Examples.stfOtherOrigin.getEquipmentIdentifiers ∧
    Examples.stfOtherOrigin.addHBFrames Examples.K0 7 [.data [1], .data [2]]
      = .ok Examples.stfOtherOriginJoined ∧
    Examples.stfOtherOriginJoined.getEquipmentIdentifiers = [Examples.eqLink7Flp] ∧
    Examples.eqLink7 ∉ Examples.stfOtherOriginJoined.getEquipmentIdentifiers ∧
    Examples.stfOtherOrigin.framesOf Examples.eqLink7Flp = some [.data [4]] ∧
    Examples.stfOtherOriginJoined.framesOf Examples.eqLink7Flp
      = some [.data [4], .data [1], .data [2]] := by
  refine ⟨by decide, by decide, by decide, by decide, by decide, by decide, by decide⟩

/-- Claim C16 on the code: `dst += src` for two STFs with the id 10, `dst` holding the
equipment `(CRUDATA, CRU, link 7)` and `src` the equipment `(CRUDATA, FLP, link 7)`. The key
of `src` is absent from `dst`, yet its insertion is skipped: `operator<` does not compare
the origins. `dst` is left as it was, its keys are not the union of the keys of both. -/
theorem operatorPlusEq_skips_other_origin :
    Examples.stfOneFrame.id? = Examples.stfOtherOrigin.id? ∧
    Examples.stfOtherOrigin.getEquipmentIdentifiers = [Examples.eqLink7Flp] ∧
    Examples.stfOneFrame.getEquipmentIdentifiers = [Examples.eqLink7] ∧
    Examples.eqLink7Flp ∉ Examples.stfOneFrame.getEquipmentIdentifiers ∧
    Examples.stfOneFrame.operatorPlusEq Examples.stfOtherOrigin
      = .ok Examples.stfOneFrame := by
  refine ⟨by decide, by decide, by decide, by decide, by decide⟩

/-- Claim C19 on the code: either serializer run on the STF with the id 42, the one
equipment `(CRUDATA, CRU, link 7)` and three frames. The header of the source STF is
released, but `readoutData` is not cleared: it still holds the entry of the equipment,
emptied. The sibling visitor `StfToDplAdapter::visit(SubTimeFrame&)`, which consumes an STF
the same way, ends with `pStf.mHeader.release(); pStf.mReadoutData.clear();` and leaves the
same STF without entries, the state the claim describes. -/
theorem serialize_keeps_entries :
    (InterleavedHdrDataSerializer.serialize Examples.stfThreeFrames).map (fun r => r.2)
      = some { mHeader := none
               mReadoutData := [(Examples.eqLink7, { mHeader := none, mHBFrames := [] })]
               mFMQChannelId := 0 } ∧
    (HdrDataSerializer.serialize [] Examples.stfThreeFrames).map (fun r => r.2)
      = some { mHeader := none
               mReadoutData := [(Examples.eqLink7, { mHeader := none, mHBFrames := [] })]
               mFMQChannelId := 0 } ∧
    ¬ (∃ msgs src1, InterleavedHdrDataSerializer.serialize Examples.stfThreeFrames
        = some (msgs, src1) ∧ src1.mHeader = none ∧ src1.mReadoutData = []) ∧
    ¬ (∃ chan1 src1, HdrDataSerializer.serialize [] Examples.stfThreeFrames
        = some (chan1, src1) ∧ src1.mHeader = none ∧ src1.mReadoutData = []) ∧
    (StfToDplAdapter.adapt Examples.K0 Examples.L0 Examples.stfThreeFrames [] []).map
        (fun r => r.2.2)
      = some { mHeader := none, mReadoutData := [], mFMQChannelId := 0 } := by
  have h1 : (InterleavedHdrDataSerializer.serialize Examples.stfThreeFrames).map (fun r => r.2)
      = some { mHeader := none
               mReadoutData := [(Examples.eqLink7, { mHeader := none, mHBFrames := [] })]
               mFMQChannelId := 0 } := by decide
  have h2 : (HdrDataSerializer.serialize [] Examples.stfThreeFrames).map (fun r => r.2)
      = some { mHeader := none
               mReadoutData := [(Examples.eqLink7, { mHeader := none, mHBFrames := [] })]
               mFMQChannelId := 0 } := by decide
  refine ⟨h1, h2, ?_, ?_, by decide⟩
  · rintro ⟨msgs, src1, hs, _, hd⟩
    rw [hs] at h1
    simp only [Option.map_some', Option.some.injEq] at h1
    rw [h1] at hd
    exact absurd hd (by decide)
  · rintro ⟨chan1, src1, hs, _, hd⟩
    rw [hs] at h2
    simp only [Option.map_some', Option.some.injEq] at h2
    rw [h2] at hd
    exact absurd hd (by decide)

/-- Claim C20 on the code: a vector that holds an STF header with the count zero and one
more message. Both deserializers return `true` with the message left over and with the
header stored in the output STF, against the assertion that closes them; and for a header
that counts one equipment with no message behind it the walk reads past the last message,
which no handler catches. -/
theorem deserialize_accepts_leftover :
    InterleavedHdrDataDeserializer.deserialize SubTimeFrame.default
        [.stfHeader (Examples.stfHeaderOf 42 0), (.data [1] : FairMQMessage Nat Nat)]
      = some (true,
          { mHeader := some (Examples.stfHeaderOf 42 0), mReadoutData := [], mFMQChannelId := -1 },
          [.data [1]]) ∧
    HdrDataDeserializer.deserialize
        [[.stfHeader (Examples.stfHeaderOf 42 0),
          .equipmentHeader (Examples.equipmentHeaderOf Examples.eqLink7 0)],
         [(.data [1] : FairMQMessage Nat Nat)]] SubTimeFrame.default
      = some { returned := true
               stf := { mHeader := some (Examples.stfHeaderOf 42 0), mReadoutData := [],
                        mFMQChannelId := -1 }
               chan := []
               headersLeft := [.equipmentHeader (Examples.equipmentHeaderOf Examples.eqLink7 0)]
               dataLeft := [.data [1]] } ∧
    InterleavedHdrDataDeserializer.deserialize SubTimeFrame.default
        [(.stfHeader (Examples.stfHeaderOf 42 1) : FairMQMessage Nat Nat)] = none := by
  refine ⟨by decide, by decide, by decide⟩

/-- Witness of `interleaved_layout`: the STF with two equipments, whose entries are offered
to the map link 7 first. -/
theorem interleaved_layout_witness :
    Examples.stfTwoEquipments.mHeader.isSome = true ∧
    Examples.stfTwoEquipments.mReadoutData.all (fun kv => kv.2.mHeader.isSome) = true ∧
    Examples.stfTwoEquipments.mReadoutData.Pairwise (fun a b => a.1.operatorLt b.1 = true) ∧
    ∃ h src1, Examples.stfTwoEquipments.mHeader = some h ∧
      InterleavedHdrDataSerializer.serialize Examples.stfTwoEquipments
        = some (FairMQMessage.stfHeader h
            :: Examples.stfTwoEquipments.mReadoutData.interleavedLayout, src1) ∧
      (FairMQMessage.stfHeader h
          :: Examples.stfTwoEquipments.mReadoutData.interleavedLayout).length
        = 1 + (Examples.stfTwoEquipments.mReadoutData.map
            fun kv => 1 + kv.2.mHBFrames.length).sum ∧
      Examples.stfTwoEquipments.getEquipmentIdentifiers.Pairwise
        EquipmentIdentifier.specLexLt ∧
      ∀ es : ReadoutMap Nat Nat, es.Perm Examples.stfTwoEquipments.mReadoutData →
        InterleavedHdrDataSerializer.serialize
            { Examples.stfTwoEquipments with
              mReadoutData := es.foldl (fun m kv => StdMap.emplace m kv.1 kv.2) [] }
          = some (FairMQMessage.stfHeader h
              :: Examples.stfTwoEquipments.mReadoutData.interleavedLayout, src1) :=
  ⟨by decide, by decide, by decide,
   interleaved_layout Examples.stfTwoEquipments (by decide) (by decide) (by decide)⟩

/-- The lemma `serializer_post_condition` at the STF with two equipments. -/
theorem serializer_post_condition_witness :
    Examples.stfTwoEquipments.mHeader.isSome = true ∧
    Examples.stfTwoEquipments.mReadoutData.all (fun kv => kv.2.mHeader.isSome) = true ∧
    (∃ msgs src1, InterleavedHdrDataSerializer.serialize Examples.stfTwoEquipments
        = some (msgs, src1) ∧
      src1.mHeader = none ∧
      src1.mReadoutData = Examples.stfTwoEquipments.mReadoutData.released ∧
      src1.mReadoutData.length = Examples.stfTwoEquipments.mReadoutData.length ∧
      src1.getEquipmentIdentifiers = Examples.stfTwoEquipments.getEquipmentIdentifiers ∧
      ∀ kv ∈ src1.mReadoutData, kv.2.mHeader = none ∧ kv.2.mHBFrames = []) :=
  ⟨by decide, by decide,
   (serializer_post_condition [] Examples.stfTwoEquipments (by decide) (by decide)).1⟩

end DataDistribution
end O2

/-! # Theorems: file records and the reader -/

namespace O2
namespace DataDistribution

section FileRecord

variable {D O : Type}

/-- The blocks the writer collects for a map whose equipments have their headers: their
bytes are the blocks of the specification, their sizes add up as the specification adds
them. -/
theorem SubTimeFrameFileWriter.visit_blocks (K : Constants D O) (L : Layout D O)
    (m : ReadoutMap D O) (hent : m.all (fun kv => kv.2.mHeader.isSome) = true) :
    ∃ blocks, SubTimeFrameFileWriter.visit K L m = some blocks ∧
      (blocks.map fun b => L.encodeDataHeader b.1 ++ b.2).flatten = m.fileBlocksLayout K L ∧
      blocks.length * K.sizeofDataHeader + (blocks.map fun b => b.2.length).sum
        = (m.map fun kv =>
            (kv.2.mHBFrames.map fun f => K.sizeofDataHeader + f.GetSize L).sum).sum := by
  induction m with
  | nil => exact ⟨[], rfl, rfl, by simp⟩
  | cons hd tl ih =>
    obtain ⟨k, e⟩ := hd
    simp only [List.all_cons, Bool.and_eq_true] at hent
    obtain ⟨he, htl⟩ := hent
    obtain ⟨b2, hv2, hb2, hs2⟩ := ih htl
    obtain ⟨hdr, frames⟩ := e
    cases hdr with
    | none => simp at he
    | some h =>
      refine ⟨frames.map (fun lHbFrame =>
          (DataHeader.new K h.dataDescription h.dataOrigin h.subSpecification
            (lHbFrame.GetSize L), lHbFrame.GetData L)) ++ b2,
        by simp only [SubTimeFrameFileWriter.visit,
          SubTimeFrameFileWriter.visitEquipment, hv2], ?_, ?_⟩
      · simp only [List.map_append, List.flatten_append, hb2, ReadoutMap.fileBlocksLayout,
          List.map_cons, List.flatten_cons, List.map_map]
        rfl
      · simp only [List.length_append, List.length_map, List.map_append, List.sum_append,
          List.map_cons, List.sum_cons, List.map_map]
        have hframes : ∀ fr : List (FairMQMessage D O), fr.length * K.sizeofDataHeader
            + (fr.map ((fun b : DataHeader D O × List Nat => b.2.length) ∘ fun lHbFrame =>
                (DataHeader.new K h.dataDescription h.dataOrigin h.subSpecification
                  (lHbFrame.GetSize L), lHbFrame.GetData L))).sum
            = (fr.map fun f => K.sizeofDataHeader + f.GetSize L).sum := by
          intro fr
          induction fr with
          | nil => simp
          | cons f fs ihf =>
            simp only [List.length_cons, List.map_cons, List.sum_cons, Function.comp,
              FairMQMessage.GetSize] at ihf ⊢
            rw [← ihf, Nat.add_mul]
            omega
        rw [← hframes frames, ← hs2, Nat.add_mul]
        omega

end FileRecord

/-- Claim C21. For every STF whose equipments have their headers and a stream in good
state: `write` returns, and appends to the file exactly the bytes of the file-level
DataHeader (FILESUBTIMEFRAME, FLP, `payloadSize = sizeof(Meta)`), then the Meta record,
then for each equipment in `readoutData` order and each of its frames in order a DataHeader
with the description, origin and sub-specification of the equipment and
`payloadSize` = the size of the frame, followed by the payload of the frame; the value
returned and the field `mStfSizeInFile` of the Meta record both equal the number of bytes
appended, `sizeof(DataHeader) + sizeof(Meta) + Σ (sizeof(DataHeader) + payload size)`. -/
theorem file_record_written {D O : Type} (K : Constants D O) (L : Layout D O)
    (hL : L.Lawful K) (now : Nat) (w : SubTimeFrameFileWriter) (hgood : w.good = true)
    (s : SubTimeFrame D O) (hent : s.mReadoutData.all (fun kv => kv.2.mHeader.isSome) = true) :
    ∃ w1, SubTimeFrameFileWriter.write K L now w s = some (w1, s.fileRecordSize K L) ∧
      w1.mFile = w.mFile ++ s.fileRecord K L now ∧
      (s.fileRecord K L now).length = s.fileRecordSize K L ∧
      w1.size = w.size + s.fileRecordSize K L ∧
      s.fileRecord K L now
        = L.encodeDataHeader (gStfFileDataHeader K)
          ++ (L.encodeFileMeta (SubTimeFrameFileMeta.new now (s.fileRecordSize K L))
          ++ s.mReadoutData.fileBlocksLayout K L) ∧
      (SubTimeFrameFileMeta.new now (s.fileRecordSize K L)).mStfSizeInFile
        = s.fileRecordSize K L ∧
      (gStfFileDataHeader K).dataDescription = K.gDataDescFileSubTimeFrame ∧
      (gStfFileDataHeader K).dataOrigin = K.gDataOriginFLP ∧
      (gStfFileDataHeader K).payloadSize = K.sizeofSubTimeFrameFileMeta := by
  obtain ⟨blocks, hv, hb, hsz⟩ := SubTimeFrameFileWriter.visit_blocks K L s.mReadoutData hent
  have hsize : SubTimeFrameFileWriter.stf_size_file K blocks = s.fileRecordSize K L := by
    unfold SubTimeFrameFileWriter.stf_size_file SubTimeFrame.fileRecordSize
    omega
  have hlen : (s.fileRecord K L now).length = s.fileRecordSize K L := by
    have hbl : (s.mReadoutData.fileBlocksLayout K L).length
        = blocks.length * K.sizeofDataHeader + (blocks.map fun b => b.2.length).sum := by
      rw [← hb]
      clear hv hb hsz hsize
      induction blocks with
      | nil => simp
      | cons b bs ih =>
        simp only [List.map_cons, List.flatten_cons, List.length_append, List.length_cons,
          List.sum_cons, ih, hL.dataHeader_length, Nat.add_mul]
        omega
    unfold SubTimeFrame.fileRecord
    simp only [List.length_append, hL.dataHeader_length, hL.fileMeta_length, hbl, hsz]
    unfold SubTimeFrame.fileRecordSize
    omega
  have hw := SubTimeFrameFileWriter.write_eq K L now w hgood s blocks hv
  rw [hsize, hb] at hw
  have hrec : L.encodeDataHeader (gStfFileDataHeader K)
      ++ (L.encodeFileMeta (SubTimeFrameFileMeta.new now (s.fileRecordSize K L))
      ++ s.mReadoutData.fileBlocksLayout K L) = s.fileRecord K L now := rfl
  rw [hrec, hlen] at hw
  refine ⟨_, hw, rfl, hlen, ?_, rfl, rfl, rfl, rfl, rfl⟩
  simp only [SubTimeFrameFileWriter.size, List.length_append, hlen]

/-- Witness of `file_record_written`: the STF with two equipments, written at the time 5 to
a new file, gives a record of 30 storage units. -/
theorem file_record_written_witness :
    Examples.L0.Lawful Examples.K0 ∧
    Examples.stfTwoEquipments.mReadoutData.all (fun kv => kv.2.mHeader.isSome) = true ∧
    Examples.stfTwoEquipments.fileRecord Examples.K0 Examples.L0 5
      = [3, 2, 0, 3, 0, 0, 1, 30, 5,
         1, 1, 3, 2, 0, 0, 5, 6, 1, 1, 3, 0, 0, 0, 1, 1, 7, 1, 0, 0, 9] ∧
    ∃ w1, SubTimeFrameFileWriter.write Examples.K0 Examples.L0 5 { mFile := [], good := true }
        Examples.stfTwoEquipments = some (w1, 30) ∧
      w1.mFile = [] ++ Examples.stfTwoEquipments.fileRecord Examples.K0 Examples.L0 5 ∧
      (Examples.stfTwoEquipments.fileRecord Examples.K0 Examples.L0 5).length = 30 :=
  ⟨Examples.L0_lawful, by decide, by decide,
   let ⟨w1, h1, h2, h3, _⟩ := file_record_written Examples.K0 Examples.L0 Examples.L0_lawful 5
     { mFile := [], good := true } rfl Examples.stfTwoEquipments (by decide)
   ⟨w1, h1, h2, h3⟩⟩

/-- Claim C22 on the code: a reader on the file `fileOversizedThenRecord`. The Meta record of
the first record announces 1000 storage units where 25 remain, and `read` returns false
with the STF as it was; but the reader stays open and in good state behind the Meta record,
and the next `read` on it returns true, with a frame added to the STF. Only the path for a
wrong file-level header closes the file. -/
theorem read_usable_after_size_mismatch :
    SubTimeFrameFileReader.read Examples.K0 Examples.L0
        (SubTimeFrameFileReader.new Examples.fileOversizedThenRecord)
        (SubTimeFrame.new Examples.K0 0 10) 10
      = (SubTimeFrameFileReader.positioned Examples.fileOversizedThenRecord 9,
          .returned false (SubTimeFrame.new Examples.K0 0 10)) ∧
    (SubTimeFrameFileReader.read Examples.K0 Examples.L0
        (SubTimeFrameFileReader.positioned Examples.fileOversizedThenRecord 9)
        (SubTimeFrame.new Examples.K0 0 10) 10).2
      = .returned true
          { mHeader := some (Examples.stfHeaderOf 10 1)
            mReadoutData :=
              [(Examples.eqLink7,
                { mHeader := some (Examples.equipmentHeaderOf Examples.eqLink7 1)
                  mHBFrames := [.data [9]] })]
            mFMQChannelId := 0 } := by
  refine ⟨by decide, by decide⟩

end DataDistribution
end O2

/-! # Theorems: reserve and shrink_to_fit -/

namespace O2
namespace DataDistribution
namespace detail

variable {α : Type}

/-- The member `reserve(m)` on a canonical vector whose capacity is below `m`: one extent is
appended, and the capacity becomes the number of elements that fit into the whole pages
needed for `m` elements. -/
theorem reserve_page_rounded (sizeofT : Nat) (hs : 0 < sizeofT) (caps : List Nat)
    (xs : List α) (hpos : ∀ c ∈ caps, 0 < c) (h : xs.length ≤ caps.sum) (m : Nat)
    (hm : caps.sum < m) :
    ExtentVectorBase.reserve sizeofT (canonical caps xs) m
      = some (canonical
          (caps ++ [(m * sizeofT + 4096 - 1) / 4096 * 4096 / sizeofT - caps.sum]) xs) ∧
    m ≤ (m * sizeofT + 4096 - 1) / 4096 * 4096 / sizeofT := by
  have hge : m ≤ (m * sizeofT + 4096 - 1) / 4096 * 4096 / sizeofT := by
    rw [Nat.le_div_iff_mul_le hs]
    omega
  refine ⟨?_, hge⟩
  rw [reserve_canonical sizeofT hs caps xs hpos h m, if_neg (by omega)]
  have hmE : (canonical caps xs).mExtents.map Extent.capacity = caps :=
    map_capacity_fillExtents caps xs
  have hcap : (canonical caps xs).mCapacity = caps.sum := rfl
  have hsz : (canonical caps xs).mSize = xs.length := rfl
  unfold grownCapacities
  rw [hmE, hcap, hsz, if_neg (by omega)]
  have hreq : caps.sum + (m - xs.length - (caps.sum - xs.length)) = m := by omega
  rw [hreq]
  unfold ExtentVectorBase.expand_size ExtentVectorBase.PAGESIZE_ALIGN
  simp only [if_true, hcap]
  rw [Nat.max_eq_left (by omega)]

/-- The extents `shrink_to_fit` leaves end in one that holds an element. -/
theorem shrunkCapacities_last (caps : List Nat) (size : Nat) (cs : List Nat) (c : Nat)
    (h : shrunkCapacities caps size = cs ++ [c]) : cs.sum < size := by
  induction caps using List.reverseRecOn with
  | nil =>
    rw [shrunkCapacities_nil] at h
    exact absurd h (by simp)
  | append_singleton ds d ih =>
    rw [shrunkCapacities_concat] at h
    by_cases hle : size ≤ ds.sum
    · rw [if_pos hle] at h
      exact ih h
    · rw [if_neg hle] at h
      obtain ⟨h1, _⟩ := List.append_inj' h rfl
      rw [← h1]
      omega

/-- A second `shrink_to_fit` removes nothing. -/
theorem shrunkCapacities_idem (caps : List Nat) (size : Nat) :
    shrunkCapacities (shrunkCapacities caps size) size = shrunkCapacities caps size := by
  induction caps using List.reverseRecOn with
  | nil => rfl
  | append_singleton ds d ih =>
    rw [shrunkCapacities_concat]
    by_cases hle : size ≤ ds.sum
    · rw [if_pos hle]
      exact ih
    · rw [if_neg hle, shrunkCapacities_concat, if_neg hle]

theorem size_fillExtents_of_le (ks : List Nat) (ys : List α) (hy : ys = []) :
    ∀ e ∈ fillExtents ks ys, e.size = 0 := by
  subst hy
  induction ks with
  | nil => simp [fillExtents]
  | cons k ks ih =>
    intro e he
    simp only [fillExtents, List.take_nil, List.drop_nil, List.mem_cons] at he
    rcases he with he | he
    · rw [he]; rfl
    · exact ih e he

theorem getLast?_fillExtents (cs : List Nat) (c : Nat) (xs : List α) :
    (fillExtents (cs ++ [c]) xs).getLast? = some (Extent.mk ((xs.drop cs.sum).take c) c) := by
  rw [fillExtents_append]
  simp [fillExtents]

end detail

open detail

/-- Claim C29 as stated fails: `reserve(5)` on the vector that holds `10 20 30 40` in one
extent of four slots, with elements of 1024 bytes. The claim gives `5 - size = 1` more slot;
the code rounds the capacity asked for to whole pages and appends an extent of four slots,
which brings the capacity to eight. -/
theorem reserve_rounds_to_pages :
    ExtentVectorBase.reserve Examples.sizeofElement Examples.vecFull 5
      = some { mExtents := [{ mStart := [10, 20, 30, 40], mCapacity := 4 },
                            { mStart := [], mCapacity := 4 }]
               mSize := 4
               mCapacity := 8
               mBackPosition := { mExtentIndex := 1, mElementIndex := 0, mVectorIndex := 4 } } ∧
    5 - Examples.vecFull.mSize = 1 ∧
    ¬ (∃ v1, ExtentVectorBase.reserve Examples.sizeofElement Examples.vecFull 5 = some v1 ∧
        v1.mCapacity - Examples.vecFull.mCapacity = 5 - Examples.vecFull.mSize) := by
  have h1 : ExtentVectorBase.reserve Examples.sizeofElement Examples.vecFull 5
      = some { mExtents := [{ mStart := [10, 20, 30, 40], mCapacity := 4 },
                            { mStart := [], mCapacity := 4 }]
               mSize := 4
               mCapacity := 8
               mBackPosition := { mExtentIndex := 1, mElementIndex := 0, mVectorIndex := 4 } } := by
    decide
  refine ⟨h1, by decide, ?_⟩
  rintro ⟨v1, hv, hc⟩
  rw [h1] at hv
  rw [← Option.some.inj hv] at hc
  exact absurd hc (by decide)

/-- Claim C29, as amended. For every vector that satisfies the representation invariant (as
every reachable vector does) and every `n`: `reserve(n)` returns and leaves the size and all
elements unchanged; when `n ≤ capacity` it changes nothing; when it grows the container it
appends one extent, and the capacity becomes the number of elements that fit into the whole
pages of 4096 bytes needed for `n` elements, which is at least `n`. -/
theorem reserve_contract {α : Type} (sizeofT : Nat) (hs : 0 < sizeofT)
    (v : ExtentVectorBase α) (hinv : v.repInvariant) (n : Nat) :
    ∃ v1, ExtentVectorBase.reserve sizeofT v n = some v1 ∧
      v1.mSize = v.mSize ∧ O2ExtentVector.toList v1 = O2ExtentVector.toList v ∧
      v.sameElements v1 v.mSize ∧
      (n ≤ v.mCapacity → v1 = v) ∧
      (v.mCapacity < n →
        v1.mCapacity = (n * sizeofT + 4096 - 1) / 4096 * 4096 / sizeofT ∧
        n ≤ v1.mCapacity ∧
        v1.capacities = v.capacities ++ [v1.mCapacity - v.mCapacity] ∧
        ∃ e, v1.mExtents = v.mExtents ++ [e] ∧ e.size = 0) ∧
      v1.repInvariant := by
  obtain ⟨caps, xs, hpos, hlen, rfl⟩ := exists_canonical_of_repInvariant v hinv
  have hsz : (canonical caps xs).mSize = xs.length := rfl
  have hcap : (canonical caps xs).mCapacity = caps.sum := rfl
  rw [toList_canonical caps xs hlen, hsz, hcap]
  by_cases hn : n ≤ caps.sum
  · have hres : ExtentVectorBase.reserve sizeofT (canonical caps xs) n
        = some (canonical caps xs) := by
      rw [reserve_canonical sizeofT hs caps xs hpos hlen n, if_pos hn]
    refine ⟨_, hres, rfl, toList_canonical caps xs hlen,
      sameElements_canonical caps caps xs xs hpos hpos hlen hlen xs.length le_rfl
        (fun _ _ => rfl),
      fun _ => rfl, fun hlt => absurd hlt (by omega), repInvariant_canonical _ _ hpos hlen⟩
  · obtain ⟨hres, hge⟩ := reserve_page_rounded sizeofT hs caps xs hpos hlen n (by omega)
    set k := (n * sizeofT + 4096 - 1) / 4096 * 4096 / sizeofT - caps.sum with hk
    have hg : ∀ c ∈ caps ++ [k], 0 < c := by
      intro c hc
      rcases List.mem_append.mp hc with hc | hc
      · exact hpos c hc
      · simp only [List.mem_singleton] at hc
        omega
    have hl : xs.length ≤ (caps ++ [k]).sum := by
      simp only [List.sum_append]; omega
    have hsum : (caps ++ [k]).sum = (n * sizeofT + 4096 - 1) / 4096 * 4096 / sizeofT := by
      simp only [List.sum_append, List.sum_cons, List.sum_nil]; omega
    refine ⟨_, hres, rfl, toList_canonical _ _ hl,
      sameElements_canonical caps _ xs xs hpos hg hlen hl xs.length le_rfl (fun _ _ => rfl),
      fun hle => absurd hle hn, fun _ => ⟨hsum, by rw [← hsum] at hge; exact hge, ?_, ?_⟩,
      repInvariant_canonical _ _ hg hl⟩
    · rw [capacities_canonical, capacities_canonical]
      have hc1 : (canonical (caps ++ [k]) xs).mCapacity = (caps ++ [k]).sum := rfl
      rw [hc1, hsum]
    · exact ⟨Extent.new k, fillExtents_append_capacity caps xs k hlen, rfl⟩

/-- Witness of `reserve_contract`: `reserve(5)` on the full vector `10 20 30 40`. -/
theorem reserve_contract_witness :
    0 < Examples.sizeofElement ∧ Examples.vecFull.repInvariant ∧
    Examples.vecFull.mCapacity < 5 ∧
    ∃ v1, ExtentVectorBase.reserve Examples.sizeofElement Examples.vecFull 5 = some v1 ∧
      v1.mSize = Examples.vecFull.mSize ∧
      O2ExtentVector.toList v1 = [10, 20, 30, 40] ∧
      v1.mCapacity = 8 ∧ 5 ≤ v1.mCapacity ∧ v1.repInvariant :=
  ⟨by decide, by unfold ExtentVectorBase.repInvariant; decide, by decide,
   let ⟨v1, h1, h2, h3, _, _, h6, h7⟩ := reserve_contract Examples.sizeofElement (by decide)
     Examples.vecFull (by unfold ExtentVectorBase.repInvariant; decide) 5
   ⟨v1, h1, h2, h3, (h6 (by decide)).1, (h6 (by decide)).2.1, h7⟩⟩

/-- Claim C30. For every vector that satisfies the representation invariant (as every
reachable vector does): `shrink_to_fit` returns and removes trailing extents that hold no
element, and nothing else: the size and every element are unchanged, the capacity decreases
by the total capacity of the extents removed, the last extent that remains (if any) holds at
least one element, and a second `shrink_to_fit` changes nothing. -/
theorem shrink_to_fit_contract {α : Type} (v : ExtentVectorBase α) (hinv : v.repInvariant) :
    ∃ v1 es, ExtentVectorBase.shrink_to_fit v = some v1 ∧
      v.mExtents = v1.mExtents ++ es ∧ (∀ e ∈ es, e.size = 0) ∧
      v1.mSize = v.mSize ∧ O2ExtentVector.toList v1 = O2ExtentVector.toList v ∧
      v.sameElements v1 v.mSize ∧
      v1.mCapacity + (es.map Extent.capacity).sum = v.mCapacity ∧
      (∀ e, v1.mExtents.getLast? = some e → 0 < e.size) ∧
      ExtentVectorBase.shrink_to_fit v1 = some v1 ∧
      v1.repInvariant := by
  obtain ⟨caps, xs, hpos, hlen, rfl⟩ := exists_canonical_of_repInvariant v hinv
  have hsz : (canonical caps xs).mSize = xs.length := rfl
  rw [toList_canonical caps xs hlen, hsz]
  obtain ⟨h1, h2, ks, hks⟩ := shrunkCapacities_spec caps xs.length hpos hlen
  set sc := shrunkCapacities caps xs.length with hsc
  have hext : (canonical caps xs).mExtents
      = (canonical sc xs).mExtents ++ fillExtents ks (xs.drop sc.sum) := by
    have hfe := fillExtents_append sc ks xs
    rw [← hks] at hfe
    exact hfe
  have hidem : ExtentVectorBase.shrink_to_fit (canonical sc xs) = some (canonical sc xs) := by
    rw [shrink_to_fit_canonical sc xs h1 h2, hsc, shrunkCapacities_idem]
  refine ⟨canonical sc xs, fillExtents ks (xs.drop sc.sum),
    shrink_to_fit_canonical caps xs hpos hlen, hext,
    size_fillExtents_of_le ks _ (List.drop_eq_nil_of_le h2), rfl,
    toList_canonical _ _ h2,
    sameElements_canonical caps _ xs xs hpos h1 hlen h2 xs.length le_rfl (fun _ _ => rfl),
    ?_, ?_, hidem, repInvariant_canonical _ _ h1 h2⟩
  · have hc1 : (canonical sc xs).mCapacity = sc.sum := rfl
    have hc2 : (canonical caps xs).mCapacity = caps.sum := rfl
    rw [hc1, hc2, map_capacity_fillExtents]
    conv_rhs => rw [hks]
    simp only [List.sum_append]
  · intro e he
    have hmE : (canonical sc xs).mExtents = fillExtents sc xs := rfl
    rw [hmE] at he
    rcases List.eq_nil_or_concat sc with hnil | ⟨cs, c, hcc⟩
    · rw [hnil] at he
      simp [fillExtents] at he
    · rw [List.concat_eq_append] at hcc
      have hlast := shrunkCapacities_last caps xs.length cs c (by rw [← hsc]; exact hcc)
      rw [hcc, getLast?_fillExtents] at he
      rw [← Option.some.inj he]
      have hc : 0 < c := h1 c (by rw [hcc]; simp)
      simp only [Extent.size, List.length_take, List.length_drop]
      omega

/-- Witness of `shrink_to_fit_contract`: the vector `10 20 30 40` with a second, empty
extent, as `reserve(5)` leaves it. -/
theorem shrink_to_fit_contract_witness :
    Examples.vecReserved.repInvariant ∧
    ∃ v1 es, ExtentVectorBase.shrink_to_fit Examples.vecReserved = some v1 ∧
      Examples.vecReserved.mExtents = v1.mExtents ++ es ∧ (∀ e ∈ es, e.size = 0) ∧
      v1.mSize = Examples.vecReserved.mSize ∧
      O2ExtentVector.toList v1 = [10, 20, 30, 40] ∧
      v1.mCapacity + (es.map Extent.capacity).sum = Examples.vecReserved.mCapacity ∧
      (∀ e, v1.mExtents.getLast? = some e → 0 < e.size) ∧
      ExtentVectorBase.shrink_to_fit v1 = some v1 ∧
      v1.repInvariant :=
  ⟨by unfold ExtentVectorBase.repInvariant; decide,
   let ⟨v1, es, h1, h2, h3, h4, h5, _, h7, h8, h9, h10⟩ :=
     shrink_to_fit_contract Examples.vecReserved
       (by unfold ExtentVectorBase.repInvariant; decide)
   ⟨v1, es, h1, h2, h3, h4, h5, h7, h8, h9, h10⟩⟩

end DataDistribution
end O2

/-! # Theorems: the sender -/

namespace O2
namespace DataDistribution

section Sender

variable {D O : Type}

/-- The number of ids below `M` that leave the remainder `d`: the quotient, and one more
for the remainders below that of `M`. -/
theorem StfSenderOutput.ceil_share (N : Nat) (hN : 0 < N) (M d : Nat) (hd : d < N) :
    (M - d + N - 1) / N = M / N + if d < M % N then 1 else 0 := by
  have h1 := Nat.div_add_mod M N
  have h2 := Nat.mod_lt M hN
  generalize M / N = q at h1 ⊢
  generalize M % N = r at h1 h2 ⊢
  split
  · rename_i hlt
    apply Nat.div_eq_of_lt_le
    · simp only [Nat.add_mul, Nat.one_mul, Nat.mul_comm q N]; omega
    · simp only [Nat.add_mul, Nat.one_mul, Nat.mul_comm q N]; omega
  · rename_i hlt
    apply Nat.div_eq_of_lt_le
    · simp only [Nat.add_zero, Nat.mul_comm q N]; omega
    · simp only [Nat.add_zero, Nat.add_mul, Nat.one_mul, Nat.mul_comm q N]; omega

/-- One more id: the share of the remainder of `M` grows by one, the others stay. -/
theorem StfSenderOutput.ceil_share_succ (N : Nat) (hN : 0 < N) (M d : Nat) (hd : d < N) :
    (M + 1 - d + N - 1) / N = (M - d + N - 1) / N + if d = M % N then 1 else 0 := by
  rw [StfSenderOutput.ceil_share N hN (M + 1) d hd, StfSenderOutput.ceil_share N hN M d hd]
  have h1 := Nat.div_add_mod M N
  have h2 := Nat.mod_lt M hN
  by_cases hr : M % N + 1 < N
  · have hq : (M + 1) / N = M / N := by
      apply Nat.div_eq_of_lt_le
      · rw [Nat.mul_comm]; omega
      · rw [Nat.add_mul, Nat.mul_comm]; omega
    have hm : (M + 1) % N = M % N + 1 := by
      have := Nat.div_add_mod (M + 1) N
      rw [hq] at this
      omega
    rw [hq, hm]
    split <;> split <;> split <;> omega
  · have hq : (M + 1) / N = M / N + 1 := by
      apply Nat.div_eq_of_lt_le
      · rw [Nat.add_mul, Nat.mul_comm]; omega
      · rw [Nat.add_mul, Nat.add_mul, Nat.mul_comm]; omega
    have hm : (M + 1) % N = 0 := by
      have := Nat.div_add_mod (M + 1) N
      rw [hq, Nat.mul_add] at this
      omega
    rw [hq, hm]
    split <;> split <;> split <;> omega

/-- The id `M` is the next of its remainder. -/
theorem StfSenderOutput.ceil_share_next (N : Nat) (hN : 0 < N) (M : Nat) :
    M % N + (M - M % N + N - 1) / N * N = M := by
  rw [StfSenderOutput.ceil_share N hN M (M % N) (Nat.mod_lt M hN)]
  have h1 := Nat.div_add_mod M N
  simp only [Nat.lt_irrefl, if_false, Nat.add_zero]
  rw [Nat.mul_comm]
  omega

/-- The dispatches of a stream in two parts. -/
theorem StfSenderOutput.dispatchAll_append (N : Nat) (xs ys : List (SubTimeFrame D O))
    (qs : List (List (SubTimeFrame D O))) :
    StfSenderOutput.dispatchAll N (xs ++ ys) qs
      = (StfSenderOutput.dispatchAll N xs qs).bind (StfSenderOutput.dispatchAll N ys) := by
  induction xs generalizing qs with
  | nil => rfl
  | cons x xs ih =>
    simp only [List.cons_append, StfSenderOutput.dispatchAll]
    cases StfSenderOutput.dispatch N qs x with
    | none => rfl
    | some q1 => exact ih q1

/-- With a destination the loop of the device and the scheduler thread choose alike. -/
theorem StfSenderDevice.Run_eq_dispatchAll (N : Nat) (hN : 0 < N)
    (xs : List (SubTimeFrame D O)) (qs : List (List (SubTimeFrame D O))) :
    StfSenderDevice.Run N xs qs = StfSenderOutput.dispatchAll N xs qs := by
  induction xs generalizing qs with
  | nil => rfl
  | cons x xs ih =>
    simp only [StfSenderDevice.Run, StfSenderOutput.dispatchAll, StfSenderOutput.dispatch]
    cases x.mHeader with
    | none => rfl
    | some h =>
      have hne : ¬ N = 0 := by omega
      simp only [gt_iff_lt, hN, if_true, hne, if_false]
      cases StfSenderOutput.PushStf qs (h.mId % N) x with
      | none => rfl
      | some q1 => exact ih q1

/-- The queues after the ids below `M`: the destination `d` holds the STFs with the ids
`d`, `d + N`, and so on, as many as there are below `M`. -/
theorem StfSenderOutput.dispatchAll_range (N : Nat) (hN : 0 < N)
    (mk : Nat → SubTimeFrame D O) (hid : ∀ i, (mk i).mHeader.map (fun h => h.mId) = some i)
    (M : Nat) :
    StfSenderOutput.dispatchAll N ((List.range M).map mk) (List.replicate N [])
      = some ((List.range N).map fun d =>
          (List.range ((M - d + N - 1) / N)).map fun j => mk (d + j * N)) := by
  induction M with
  | zero =>
    simp only [List.range_zero, List.map_nil, StfSenderOutput.dispatchAll, Option.some.injEq]
    apply List.ext_getElem
    · simp
    · intro d h1 h2
      simp only [List.length_map, List.length_range] at h2
      have : (0 - d + N - 1) / N = 0 := by
        apply Nat.div_eq_of_lt; omega
      simp only [List.getElem_map, List.getElem_range, List.getElem_replicate, this,
        List.range_zero, List.map_nil]
  | succ M ih =>
    rw [List.range_succ, List.map_append, StfSenderOutput.dispatchAll_append, ih]
    simp only [List.map_cons, List.map_nil, Option.some_bind, StfSenderOutput.dispatchAll,
      StfSenderOutput.dispatch]
    have hM := hid M
    cases hh : (mk M).mHeader with
    | none => simp [hh] at hM
    | some h =>
      simp only [hh, Option.map_some', Option.some.injEq] at hM
      have hne : ¬ N = 0 := by omega
      have hlt := Nat.mod_lt M hN
      simp only [hne, if_false, hM, StfSenderOutput.PushStf]
      have hget : ((List.range N).map fun d =>
          (List.range ((M - d + N - 1) / N)).map fun j => mk (d + j * N)).get? (M % N)
          = some ((List.range ((M - M % N + N - 1) / N)).map fun j => mk (M % N + j * N)) := by
        simp [List.get?_eq_getElem?, hlt]
      rw [hget]
      simp only [Option.some.injEq]
      apply List.ext_getElem
      · simp
      · intro d h1 h2
        simp only [List.length_map, List.length_range] at h2
        rw [List.getElem_set]
        simp only [List.getElem_map, List.getElem_range]
        rw [StfSenderOutput.ceil_share_succ N hN M d h2]
        by_cases hd : M % N = d
        · subst hd
          simp only [if_true, List.range_succ, List.map_append, List.map_cons, List.map_nil,
            StfSenderOutput.ceil_share_next N hN M]
        · have hd2 : ¬ d = M % N := fun e => hd e.symm
          simp only [hd, hd2, if_false, Nat.add_zero]

end Sender

/-- Claim C25. With `N ≥ 1` destinations, the scheduler thread of StfSenderOutput and the
loop of `StfSenderDevice::Run` send the STF with the id `i` to the destination `i mod N`;
on the stream of the STFs with the ids `0, 1, …, M − 1` they return, and leave in the queue
of each destination `d < N` exactly `⌈(M − d) / N⌉` STFs (none when `d ≥ M`), those with the
ids `d, d + N, d + 2N, …` in increasing order. -/
theorem round_robin_shares {D O : Type} (N : Nat) (hN : 1 ≤ N)
    (mk : Nat → SubTimeFrame D O) (hid : ∀ i, (mk i).mHeader.map (fun h => h.mId) = some i)
    (M : Nat) :
    (∀ i (qs : List (List (SubTimeFrame D O))),
      StfSenderOutput.dispatch N qs (mk i) = StfSenderOutput.PushStf qs (i % N) (mk i)) ∧
    ∃ queues,
      StfSenderOutput.dispatchAll N ((List.range M).map mk) (List.replicate N []) = some queues ∧
      StfSenderDevice.Run N ((List.range M).map mk) (List.replicate N []) = some queues ∧
      queues.length = N ∧
      ∀ d, d < N → ∃ q, queues.get? d = some q ∧
        q.length = (M - d + N - 1) / N ∧
        (M ≤ d → q = []) ∧
        q = (List.range ((M - d + N - 1) / N)).map (fun j => mk (d + j * N)) ∧
        q.map (fun s => s.mHeader.map fun h => h.mId)
          = (List.range ((M - d + N - 1) / N)).map (fun j => some (d + j * N)) := by
  have hN0 : 0 < N := hN
  refine ⟨?_, _, StfSenderOutput.dispatchAll_range N hN0 mk hid M, ?_, by simp, ?_⟩
  · intro i qs
    have hi := hid i
    unfold StfSenderOutput.dispatch
    cases hh : (mk i).mHeader with
    | none => simp [hh] at hi
    | some h =>
      simp only [hh, Option.map_some', Option.some.injEq] at hi
      have hne : ¬ N = 0 := by omega
      simp only [hne, if_false, hi]
  · rw [StfSenderDevice.Run_eq_dispatchAll N hN0]
    exact StfSenderOutput.dispatchAll_range N hN0 mk hid M
  · intro d hd
    refine ⟨_, by simp [List.get?_eq_getElem?, hd], by simp, ?_, rfl, ?_⟩
    · intro hMd
      have : (M - d + N - 1) / N = 0 := by
        apply Nat.div_eq_of_lt; omega
      simp [this]
    · simp only [List.map_map]
      apply List.map_congr_left
      intro j _
      exact hid (d + j * N)

/-- Witness of `round_robin_shares`: three destinations and the ids `0 … 7`; the queues hold
the ids `0, 3, 6`, the ids `1, 4, 7` and the ids `2, 5`. -/
theorem round_robin_shares_witness :
    (1 ≤ 3) ∧
    (∀ i, ((fun i => SubTimeFrame.new Examples.K0 0 i) i).mHeader.map
        (fun h => h.mId) = some i) ∧
    StfSenderOutput.dispatchAll 3
        ((List.range 8).map fun i => SubTimeFrame.new Examples.K0 0 i) (List.replicate 3 [])
      = some [[SubTimeFrame.new Examples.K0 0 0, SubTimeFrame.new Examples.K0 0 3,
               SubTimeFrame.new Examples.K0 0 6],
              [SubTimeFrame.new Examples.K0 0 1, SubTimeFrame.new Examples.K0 0 4,
               SubTimeFrame.new Examples.K0 0 7],
              [SubTimeFrame.new Examples.K0 0 2, SubTimeFrame.new Examples.K0 0 5]] ∧
    ∃ queues,
      StfSenderOutput.dispatchAll 3
        ((List.range 8).map fun i => SubTimeFrame.new Examples.K0 0 i) (List.replicate 3 [])
          = some queues ∧
      StfSenderDevice.Run 3
        ((List.range 8).map fun i => SubTimeFrame.new Examples.K0 0 i) (List.replicate 3 [])
          = some queues ∧
      queues.length = 3 ∧
      ∀ d, d < 3 → ∃ q, queues.get? d = some q ∧
        q.length = (8 - d + 3 - 1) / 3 ∧
        (8 ≤ d → q = []) ∧
        q = (List.range ((8 - d + 3 - 1) / 3)).map
              (fun j => SubTimeFrame.new Examples.K0 0 (d + j * 3)) ∧
        q.map (fun s => s.mHeader.map fun h => h.mId)
          = (List.range ((8 - d + 3 - 1) / 3)).map (fun j => some (d + j * 3)) :=
  ⟨by decide, fun _ => rfl, by decide,
   (round_robin_shares 3 (by decide)
     (fun i => SubTimeFrame.new Examples.K0 0 i) (fun _ => rfl) 8).2⟩

end DataDistribution
end O2

/-! # Theorems: the send slots -/

namespace O2
namespace DataDistribution

namespace StfSenderOutput

/-- While the device runs, a step keeps the counter at zero or above and the counter plus
the STFs in flight at the capacity or below. -/
theorem SlotState.step_bound_running (capacity : Nat) (s s1 : SlotState) (e : SlotStep)
    (he : e ≠ SlotStep.leaveRunning) (hrun : s.running = true)
    (h0 : 0 ≤ s.mNumSendSlots) (hcap : s.mNumSendSlots + s.inFlight ≤ capacity)
    (hstep : s.step e = some s1) :
    s1.running = true ∧ 0 ≤ s1.mNumSendSlots ∧ s1.mNumSendSlots + s1.inFlight ≤ capacity := by
  cases e with
  | dequeue =>
    simp only [SlotState.step] at hstep
    split at hstep
    · exact Option.noConfusion hstep
    · simp only [Option.some.injEq] at hstep
      subst hstep
      exact ⟨hrun, h0, hcap⟩
  | takeSlot =>
    simp only [SlotState.step] at hstep
    split at hstep
    · rename_i hc
      simp only [Option.some.injEq] at hstep
      subst hstep
      simp only [hrun, and_true] at hc
      refine ⟨hrun, ?_, ?_⟩
      · show 0 ≤ s.mNumSendSlots - 1
        omega
      · show s.mNumSendSlots - 1 + ((s.inFlight + 1 : Nat) : Int) ≤ capacity
        omega
    · exact Option.noConfusion hstep
  | send =>
    simp only [SlotState.step] at hstep
    split at hstep
    · simp only [Option.some.injEq] at hstep
      subst hstep
      refine ⟨hrun, ?_, ?_⟩
      · show 0 ≤ s.mNumSendSlots + 1
        omega
      · show s.mNumSendSlots + 1 + ((s.inFlight - 1 : Nat) : Int) ≤ capacity
        omega
    · exact Option.noConfusion hstep
  | sendFailed =>
    simp only [SlotState.step] at hstep
    split at hstep
    · simp only [Option.some.injEq] at hstep
      subst hstep
      refine ⟨hrun, h0, ?_⟩
      show s.mNumSendSlots + ((s.inFlight - 1 : Nat) : Int) ≤ capacity
      omega
    · exact Option.noConfusion hstep
  | leaveRunning => exact absurd rfl he

/-- While the device runs, the bound of the send slots holds in every state the threads
reach from the start. -/
theorem SlotState.run_bound_running (capacity : Nat) (es : List SlotStep)
    (hes : ∀ e ∈ es, e ≠ SlotStep.leaveRunning) (s s1 : SlotState)
    (hrun : s.running = true) (h0 : 0 ≤ s.mNumSendSlots)
    (hcap : s.mNumSendSlots + s.inFlight ≤ capacity)
    (h : SlotState.run es s = some s1) :
    0 ≤ s1.mNumSendSlots ∧ s1.mNumSendSlots + s1.inFlight ≤ capacity := by
  induction es generalizing s with
  | nil =>
    simp only [SlotState.run, Option.some.injEq] at h
    subst h
    exact ⟨h0, hcap⟩
  | cons e es ih =>
    simp only [SlotState.run] at h
    cases hs : s.step e with
    | none => rw [hs] at h; exact Option.noConfusion h
    | some s2 =>
      rw [hs] at h
      obtain ⟨r2, z2, c2⟩ := SlotState.step_bound_running capacity s s2 e
        (hes e (List.mem_cons_self _ _)) hrun h0 hcap hs
      exact ih (fun e1 h1 => hes e1 (List.mem_cons_of_mem _ h1)) s2 r2 z2 c2 h

end StfSenderOutput

/-- Claim C26 on the code: one send slot. The scheduler takes the slot for a first STF,
dequeues a second one and waits at `mNumSendSlots == 0`; the device leaves the running
state; the waiting loop ends, and `mNumSendSlots--` runs at zero: the counter is `-1` and
two STFs are in flight where the capacity is one. -/
theorem send_slot_taken_at_zero :
    StfSenderOutput.SlotState.run
        [.dequeue, .takeSlot, .dequeue, .leaveRunning, .takeSlot]
        (StfSenderOutput.SlotState.initial 1)
      = some { mNumSendSlots := -1, inFlight := 2, running := false, holding := false } ∧
    (StfSenderOutput.SlotState.run [.dequeue, .takeSlot, .dequeue, .leaveRunning]
        (StfSenderOutput.SlotState.initial 1)).map (fun s => s.mNumSendSlots) = some 0 ∧
    StfSenderOutput.SlotState.run [.dequeue, .takeSlot, .dequeue, .takeSlot]
        (StfSenderOutput.SlotState.initial 1) = none := by
  refine ⟨by decide, by decide, by decide⟩

end DataDistribution
end O2

/-! # Theorems: the DPL adapter and the injector -/

namespace O2
namespace DataDistribution

section Dpl

variable {D O : Type}

/-- The loop over the frames of one equipment gives, for the frame at the place `j` behind
the index `i`, the frame index `i + j`. -/
theorem StfToDplAdapter.visitFrames_eq_zipWith (L : Layout D O) (lDataHdr : DataHeader D O)
    (mDplHdr : DataProcessingHeader) (i : Nat) (frames : List (FairMQMessage D O)) :
    StfToDplAdapter.visitFrames L lDataHdr mDplHdr i frames
      = (List.range' i frames.length).zipWith
          (fun j f =>
            ({ dataHeader := { lDataHdr with payloadSize := f.GetSize L }
               hbFrameHeader := { mHBFrameId := j }
               dplHeader := mDplHdr }, f))
          frames := by
  induction frames generalizing i with
  | nil => rfl
  | cons f fs ih =>
    simp only [StfToDplAdapter.visitFrames, List.length_cons, List.range'_succ,
      List.zipWith_cons_cons, ih (i + 1)]

/-- The visit of one equipment gives the pairs the specification lists for it. -/
theorem StfToDplAdapter.visitEquipment_layout (K : Constants D O) (L : Layout D O)
    (k : EquipmentIdentifier D O) (dpl : DataProcessingHeader) (e : EquipmentHBFrames D O) :
    (StfToDplAdapter.visitEquipment K L k dpl e).1 = e.dplLayout K L k dpl := by
  simp only [StfToDplAdapter.visitEquipment, EquipmentHBFrames.dplLayout,
    StfToDplAdapter.visitFrames_eq_zipWith, List.range_eq_range']

/-- The visit of the entries gives the pairs of the equipments, in map order. -/
theorem StfToDplAdapter.visitEntries_layout (K : Constants D O) (L : Layout D O)
    (dpl : DataProcessingHeader) (m : ReadoutMap D O) :
    StfToDplAdapter.visitEntries K L dpl m = m.dplLayout K L dpl := by
  induction m with
  | nil => rfl
  | cons hd tl ih =>
    obtain ⟨k, e⟩ := hd
    simp only [StfToDplAdapter.visitEntries, ReadoutMap.dplLayout, List.map_cons,
      List.flatten_cons, StfToDplAdapter.visitEquipment_layout]
    rw [ih]
    rfl

/-- The number of pairs of one equipment in the DPL layout: one per frame. -/
theorem EquipmentHBFrames.length_equipmentDplLayout (K : Constants D O) (L : Layout D O)
    (k : EquipmentIdentifier D O) (dpl : DataProcessingHeader) (e : EquipmentHBFrames D O) :
    (e.dplLayout K L k dpl).length = e.mHBFrames.length := by
  simp [EquipmentHBFrames.dplLayout]

/-- The number of pairs of the DPL layout: one per frame. -/
theorem ReadoutMap.length_dplLayout (K : Constants D O) (L : Layout D O)
    (dpl : DataProcessingHeader) (m : ReadoutMap D O) :
    (m.dplLayout K L dpl).length = (m.map fun kv => kv.2.mHBFrames.length).sum := by
  induction m with
  | nil => rfl
  | cons hd tl ih =>
    simp only [ReadoutMap.dplLayout] at ih
    simp only [ReadoutMap.dplLayout, List.map_cons, List.flatten_cons, List.length_append,
      List.sum_cons, EquipmentHBFrames.length_equipmentDplLayout, ih]

/-- A list of pairs is the zip of its two projections. -/
theorem zip_fst_snd {α β : Type} (l : List (α × β)) :
    (l.map Prod.fst).zip (l.map Prod.snd) = l := by
  induction l with
  | nil => rfl
  | cons hd tl ih => simp only [List.map_cons, List.zip_cons_cons, ih]

/-- The pair of the frame at the index `j` in the DPL layout of one equipment. -/
theorem EquipmentHBFrames.dplLayout_get (K : Constants D O) (L : Layout D O)
    (k : EquipmentIdentifier D O) (dpl : DataProcessingHeader) (e : EquipmentHBFrames D O)
    (j : Nat) (f : FairMQMessage D O) (hf : e.mHBFrames.get? j = some f) :
    (e.dplLayout K L k dpl).get? j
      = some ({ dataHeader :=
                  { K.defaultDataHeader with
                    dataOrigin := k.mDataOrigin, dataDescription := k.mDataDescription,
                    subSpecification := k.mSubSpecification, payloadSize := f.GetSize L }
                hbFrameHeader := { mHBFrameId := j }
                dplHeader := dpl }, f) := by
  rw [List.get?_eq_getElem?] at hf ⊢
  have hj : j < e.mHBFrames.length := by
    by_contra hn
    rw [List.getElem?_eq_none (by omega)] at hf
    exact Option.noConfusion hf
  simp only [EquipmentHBFrames.dplLayout, List.getElem?_zipWith, hf,
    List.getElem?_range hj, Option.map_some', Option.bind_some]

/-- The broadcast loop of the injector numbers the messages from the counter on, in steps
of `step`, in `size_t`, and leaves the messages otherwise as they are. -/
theorem SubTimeFrameModelDplAdaptor.broadcastLoop_get [LinearOrder D] (step : Nat)
    (t : Nat) (ht : t < 2 ^ 64) (msgs : List (Stack D O × FairMQMessage D O)) :
    (SubTimeFrameModelDplAdaptor.broadcastLoop step t msgs).1
        = (t + msgs.length * step) % 2 ^ 64 ∧
    (SubTimeFrameModelDplAdaptor.broadcastLoop step t msgs).2.length = msgs.length ∧
    ∀ i m, (SubTimeFrameModelDplAdaptor.broadcastLoop step t msgs).2.get? i = some m →
      m.1.dplHeader.startTime = (t + i * step) % 2 ^ 64 := by
  induction msgs generalizing t with
  | nil =>
    refine ⟨?_, rfl, ?_⟩
    · simp only [SubTimeFrameModelDplAdaptor.broadcastLoop, List.length_nil, Nat.zero_mul,
        Nat.add_zero]
      exact (Nat.mod_eq_of_lt ht).symm
    · intro i m h
      simp [SubTimeFrameModelDplAdaptor.broadcastLoop] at h
  | cons hd tl ih =>
    obtain ⟨hdr, data⟩ := hd
    have ht1 : (t + step) % 2 ^ 64 < 2 ^ 64 := Nat.mod_lt _ (by decide)
    obtain ⟨h1, h2, h3⟩ := ih ((t + step) % 2 ^ 64) ht1
    refine ⟨?_, ?_, ?_⟩
    · simp only [SubTimeFrameModelDplAdaptor.broadcastLoop, h1, List.length_cons]
      rw [Nat.add_mod, Nat.mod_mod, ← Nat.add_mod]
      congr 1
      rw [Nat.add_mul]
      omega
    · simp only [SubTimeFrameModelDplAdaptor.broadcastLoop, List.length_cons, h2]
    · intro i m h
      cases i with
      | zero =>
        simp only [SubTimeFrameModelDplAdaptor.broadcastLoop, List.get?_cons_zero,
          Option.some.injEq] at h
        subst h
        simp only [Nat.zero_mul, Nat.add_zero]
        exact (Nat.mod_eq_of_lt ht).symm
      | succ i =>
        simp only [SubTimeFrameModelDplAdaptor.broadcastLoop, List.get?_cons_succ] at h
        rw [h3 i m h, Nat.add_mod, Nat.mod_mod, ← Nat.add_mod]
        congr 1
        rw [Nat.add_mul]
        omega

/-- The injector of `Common/SubTimeFrameDplAdapter.cxx` returns on every message vector the
deserializer accepts; across its invocations, the message at the place `i` of all those it
broadcasts carries the start time `(timesliceId + i * step) mod 2^64`, where `timesliceId`
is the value of the counter before the first of them. -/
theorem SubTimeFrameModelDplAdaptor.invokeAll_startTime [LinearOrder D]
    (K : Constants D O) (L : Layout D O) (step : Nat)
    (invocations : List (List (FairMQMessage D O)))
    (hwire : ∀ parts ∈ invocations,
      (InterleavedHdrDataDeserializer.deserialize SubTimeFrame.default parts).isSome = true)
    (t : Nat) (ht : t < 2 ^ 64) :
    ∃ msgs, SubTimeFrameModelDplAdaptor.invokeAll K L step t invocations = some msgs ∧
      ∀ i m, msgs.get? i = some m → m.1.dplHeader.startTime = (t + i * step) % 2 ^ 64 := by
  induction invocations generalizing t with
  | nil =>
    refine ⟨[], rfl, ?_⟩
    intro i m h
    simp at h
  | cons parts rest ih =>
    have hp := hwire parts (List.mem_cons_self _ _)
    cases hd : InterleavedHdrDataDeserializer.deserialize SubTimeFrame.default parts with
    | none => simp [hd] at hp
    | some r =>
      obtain ⟨b, lStf, left⟩ := r
      have hhdr : lStf.mHeader.isSome = true := by
        unfold InterleavedHdrDataDeserializer.deserialize at hd
        cases hv : InterleavedHdrDataDeserializer.visit parts SubTimeFrame.default with
        | none => simp [hv] at hd
        | some r2 =>
          simp only [hv, Option.some.injEq, Prod.mk.injEq] at hd
          obtain ⟨_, hs, _⟩ := hd
          subst hs
          unfold InterleavedHdrDataDeserializer.visit at hv
          split at hv
          · exact Option.noConfusion hv
          · split at hv
            · exact Option.noConfusion hv
            · split at hv
              · exact Option.noConfusion hv
              · simp only [Option.some.injEq] at hv
                subst hv
                rfl
      cases hh : lStf.mHeader with
      | none => simp [hh] at hhdr
      | some h =>
        obtain ⟨pairs, hpairs⟩ : ∃ pairs, SubTimeFrameModelDplAdaptor.invoke K L step t parts
            = some (SubTimeFrameModelDplAdaptor.broadcastLoop step t pairs) :=
          ⟨(List.map Prod.fst (StfToDplAdapter.visitEntries K L
                { startTime := h.mId, duration := 0 } lStf.mReadoutData)).zip
              (List.map Prod.snd (StfToDplAdapter.visitEntries K L
                { startTime := h.mId, duration := 0 } lStf.mReadoutData)),
            by simp only [SubTimeFrameModelDplAdaptor.invoke, hd, StfToDplAdapter.adapt, hh,
              List.nil_append]⟩
        obtain ⟨b1, b2, b3⟩ := SubTimeFrameModelDplAdaptor.broadcastLoop_get step t ht pairs
        obtain ⟨more, hmore, hget⟩ := ih
          (fun p hp => hwire p (List.mem_cons_of_mem _ hp))
          (SubTimeFrameModelDplAdaptor.broadcastLoop step t pairs).1
          (b1 ▸ Nat.mod_lt _ (by decide))
        refine ⟨(SubTimeFrameModelDplAdaptor.broadcastLoop step t pairs).2 ++ more, ?_, ?_⟩
        · simp only [SubTimeFrameModelDplAdaptor.invokeAll, hpairs, hmore]
        · intro i m hm
          rw [List.get?_eq_getElem?] at hm
          by_cases hi : i < (SubTimeFrameModelDplAdaptor.broadcastLoop step t pairs).2.length
          · rw [List.getElem?_append_left hi] at hm
            exact b3 i m (by rw [List.get?_eq_getElem?]; exact hm)
          · rw [List.getElem?_append_right (by omega)] at hm
            rw [hget _ m (by rw [List.get?_eq_getElem?]; exact hm), b1, b2]
            rw [Nat.add_mod, Nat.mod_mod, ← Nat.add_mod]
            congr 1
            rw [b2] at hi
            have : i = pairs.length + (i - pairs.length) := by omega
            conv_rhs => rw [this, Nat.add_mul]
            omega

end Dpl

/-- Claim C27. For every populated STF, `StfToDplAdapter::adapt` returns and appends to the
header vector and to the payload vector the same number of elements, one pair per HB frame,
the equipments in map order, which is the order the specification states for the
identifiers, and the frames of an equipment in their stored order; the pair for the frame
at the index `j` of the equipment stored under the identifier `e` has a header stack whose
DataHeader carries the origin, description and sub-specification of `e` and the size of the
frame as `payloadSize`, whose HBFrameHeader carries `j`, followed by the
DataProcessingHeader of the STF, and its payload is that frame; afterwards the source STF
has its header released and no equipments. -/
theorem dpl_adapter_flattening {D O : Type} [LinearOrder D] [LinearOrder O]
    (K : Constants D O) (L : Layout D O)
    (s : SubTimeFrame D O) (hpop : s.mHeader.isSome = true)
    (hmap : s.mReadoutData.Pairwise (fun a b => a.1.operatorLt b.1 = true))
    (pDplHdr : List (Stack D O)) (pDplData : List (FairMQMessage D O)) :
    ∃ h hdrs data src1, s.mHeader = some h ∧
      StfToDplAdapter.adapt K L s pDplHdr pDplData = some (pDplHdr ++ hdrs, pDplData ++ data, src1) ∧
      hdrs.zip data = s.mReadoutData.dplLayout K L { startTime := h.mId, duration := 0 } ∧
      hdrs.length = data.length ∧
      hdrs.length = (s.mReadoutData.map fun kv => kv.2.mHBFrames.length).sum ∧
      s.mReadoutData.dplLayout K L { startTime := h.mId, duration := 0 }
        = (s.mReadoutData.map fun kv =>
            kv.2.dplLayout K L kv.1 { startTime := h.mId, duration := 0 }).flatten ∧
      (∀ kv ∈ s.mReadoutData, ∀ j f, kv.2.mHBFrames.get? j = some f →
        (kv.2.dplLayout K L kv.1 { startTime := h.mId, duration := 0 }).get? j
          = some ({ dataHeader :=
                      { K.defaultDataHeader with
                        dataOrigin := kv.1.mDataOrigin
                        dataDescription := kv.1.mDataDescription
                        subSpecification := kv.1.mSubSpecification
                        payloadSize := f.GetSize L }
                    hbFrameHeader := { mHBFrameId := j }
                    dplHeader := { startTime := h.mId, duration := 0 } }, f)) ∧
      s.getEquipmentIdentifiers.Pairwise EquipmentIdentifier.specLexLt ∧
      src1.mHeader = none ∧ src1.mReadoutData = [] := by
  cases hh : s.mHeader with
  | none => simp [hh] at hpop
  | some h =>
    refine ⟨h, (s.mReadoutData.dplLayout K L { startTime := h.mId, duration := 0 }).map Prod.fst,
      (s.mReadoutData.dplLayout K L { startTime := h.mId, duration := 0 }).map Prod.snd,
      { s with mHeader := none, mReadoutData := [] }, rfl, ?_, ?_, by simp, ?_, rfl, ?_, ?_,
      rfl, rfl⟩
    · simp only [StfToDplAdapter.adapt, hh, StfToDplAdapter.visitEntries_layout]
    · exact zip_fst_snd _
    · rw [List.length_map, ReadoutMap.length_dplLayout]
    · intro kv _ j f hf
      exact EquipmentHBFrames.dplLayout_get K L kv.1 _ kv.2 j f hf
    · unfold SubTimeFrame.getEquipmentIdentifiers
      rw [List.pairwise_map]
      exact hmap.imp specLexLt_of_operatorLt

/-- Witness of `dpl_adapter_flattening`: the STF with the id 10 and two equipments, link 3
with two frames and link 7 with one, gives three pairs. -/
theorem dpl_adapter_flattening_witness :
    Examples.stfTwoEquipments.mHeader.isSome = true ∧
    Examples.stfTwoEquipments.mReadoutData.Pairwise (fun a b => a.1.operatorLt b.1 = true) ∧
    StfToDplAdapter.adapt Examples.K0 Examples.L0 Examples.stfTwoEquipments [] []
      = some ([{ dataHeader := { Examples.K0.defaultDataHeader with
                    dataDescription := 1, dataOrigin := 1, subSpecification := 3,
                    payloadSize := 2 }
                 hbFrameHeader := { mHBFrameId := 0 }
                 dplHeader := { startTime := 10, duration := 0 } },
               { dataHeader := { Examples.K0.defaultDataHeader with
                    dataDescription := 1, dataOrigin := 1, subSpecification := 3,
                    payloadSize := 0 }
                 hbFrameHeader := { mHBFrameId := 1 }
                 dplHeader := { startTime := 10, duration := 0 } },
               { dataHeader := { Examples.K0.defaultDataHeader with
                    dataDescription := 1, dataOrigin := 1, subSpecification := 7,
                    payloadSize := 1 }
                 hbFrameHeader := { mHBFrameId := 0 }
                 dplHeader := { startTime := 10, duration := 0 } }],
              [.data [5, 6], .data [], .data [9]],
              { mHeader := none, mReadoutData := [], mFMQChannelId := 0 }) ∧
    ∃ h hdrs data src1, Examples.stfTwoEquipments.mHeader = some h ∧
      StfToDplAdapter.adapt Examples.K0 Examples.L0 Examples.stfTwoEquipments [] []
        = some ([] ++ hdrs, [] ++ data, src1) ∧
      hdrs.zip data = Examples.stfTwoEquipments.mReadoutData.dplLayout Examples.K0 Examples.L0
        { startTime := h.mId, duration := 0 } ∧
      hdrs.length = data.length :=
  ⟨by decide, by decide, by decide,
   let ⟨h, hdrs, data, src1, h1, h2, h3, h4, _⟩ :=
     dpl_adapter_flattening Examples.K0 Examples.L0 Examples.stfTwoEquipments (by decide)
       (by decide) [] []
   ⟨h, hdrs, data, src1, h1, h2, h3, h4⟩⟩

/-- Claim C28 on the code: the injector that
`SubTimeFrameBuilder/src/SubTimeFrameBuilderDPL.cxx` defines under the name
`SubTimeFrameModelDplAdaptor` broadcasts the pairs of its adapter as they are: whatever the
adapter, the start time and the step, the messages are those of the injector made with the
start time 0 and the step 1, and the counter stays as it was. Made with the start time 5
and the step 3 and invoked on the vector of the STF with the id 10 and two frames, with the
flattening of the specification for adapter, it broadcasts two messages with the start
time 10, where the injector of `Common/SubTimeFrameDplAdapter.cxx` broadcasts them with the
start times 5 and 8. -/
theorem builder_injector_keeps_start_time :
    (∀ (adaptO2 : SubTimeFrame Nat Nat → List (Stack Nat Nat × FairMQMessage Nat Nat))
        (step timesliceId : Nat) (parts : List (FairMQMessage Nat Nat)),
      (SubTimeFrameModelDplAdaptor.invokeBuilderDPL adaptO2 step timesliceId parts).map Prod.snd
        = (SubTimeFrameModelDplAdaptor.invokeBuilderDPL adaptO2 1 0 parts).map Prod.snd ∧
      (SubTimeFrameModelDplAdaptor.invokeBuilderDPL adaptO2 step timesliceId parts).map Prod.fst
        = (SubTimeFrameModelDplAdaptor.invokeBuilderDPL adaptO2 1 0 parts).map
            (fun _ => timesliceId)) ∧
    (SubTimeFrameModelDplAdaptor.invokeBuilderDPL
        (StfToO2Adapter.adapt Examples.K0 Examples.L0) 3 5 Examples.wireStfTwoFrames).map
        (fun r => r.2.map fun m => m.1.dplHeader.startTime) = some [10, 10] ∧
    (SubTimeFrameModelDplAdaptor.invoke Examples.K0 Examples.L0 3 5
        Examples.wireStfTwoFrames).map
        (fun r => r.2.map fun m => m.1.dplHeader.startTime) = some [5, 8] := by
  refine ⟨?_, by decide, by decide⟩
  intro adaptO2 step timesliceId parts
  unfold SubTimeFrameModelDplAdaptor.invokeBuilderDPL
  cases InterleavedHdrDataDeserializer.deserialize SubTimeFrame.default parts with
  | none => exact ⟨rfl, rfl⟩
  | some r => exact ⟨rfl, rfl⟩

end DataDistribution
end O2

/-! # Theorems: the file sink -/

namespace O2
namespace DataDistribution

section Sink

variable {D O : Type}

/-- A batch that is complete does not change when more STFs arrive. -/
theorem rotatedBatch_append_left {α : Type} (k j : Nat) (xs ys : List α)
    (h : (j + 1) * k ≤ xs.length) :
    rotatedBatch k j (xs ++ ys) = rotatedBatch k j xs := by
  have h1 : j * k ≤ xs.length := by rw [Nat.add_mul] at h; omega
  unfold rotatedBatch
  rw [List.drop_append_of_le_length h1, List.take_append_of_le_length]
  rw [List.length_drop, Nat.add_mul] at *
  omega

/-- The next STF joins the batch with the counter `n / k`, at its end. -/
theorem rotatedBatch_snoc {α : Type} (k : Nat) (hk : 0 < k) (xs : List α) (x : α) :
    rotatedBatch k (xs.length / k) (xs ++ [x]) = rotatedBatch k (xs.length / k) xs ++ [x] := by
  have h1 : xs.length / k * k ≤ xs.length := Nat.div_mul_le_self _ _
  have h2 : xs.length - xs.length / k * k < k := by
    have := Nat.div_add_mod xs.length k
    have := Nat.mod_lt xs.length hk
    rw [Nat.mul_comm] at h1 ⊢
    omega
  unfold rotatedBatch
  rw [List.drop_append_of_le_length h1,
    List.take_of_length_le (by rw [List.length_append, List.length_drop]; simp; omega),
    List.take_of_length_le (by rw [List.length_drop]; omega)]

/-- The batch of the counter `i / k` holds the STF that arrived at the index `i`, at the
place `i % k`. -/
theorem rotatedBatch_get {α : Type} (k : Nat) (hk : 0 < k) (xs : List α) (i : Nat) :
    (rotatedBatch k (i / k) xs).get? (i % k) = xs.get? i := by
  unfold rotatedBatch
  rw [List.get?_eq_getElem?, List.get?_eq_getElem?, List.getElem?_take_of_lt (Nat.mod_lt i hk),
    List.getElem?_drop]
  congr 1
  have := Nat.div_add_mod i k
  rw [Nat.mul_comm]
  omega

/-- The length of a batch: `k` for a batch that is complete, never more. -/
theorem length_rotatedBatch {α : Type} (k c : Nat) (xs : List α) :
    (rotatedBatch k c xs).length = min k (xs.length - c * k) := by
  unfold rotatedBatch
  rw [List.length_take, List.length_drop]

/-- The record of an STF whose equipments have their headers has the size the writer
computes for it. -/
theorem SubTimeFrame.length_fileRecord (K : Constants D O) (L : Layout D O) (hL : L.Lawful K)
    (now : Nat) (s : SubTimeFrame D O)
    (hent : s.mReadoutData.all (fun kv => kv.2.mHeader.isSome) = true) :
    (s.fileRecord K L now).length = s.fileRecordSize K L := by
  obtain ⟨blocks, hv, hb, hsz⟩ := SubTimeFrameFileWriter.visit_blocks K L s.mReadoutData hent
  have hbl : (s.mReadoutData.fileBlocksLayout K L).length
      = blocks.length * K.sizeofDataHeader + (blocks.map fun b => b.2.length).sum := by
    rw [← hb]
    clear hv hb hsz
    induction blocks with
    | nil => simp
    | cons b bs ih =>
      simp only [List.map_cons, List.flatten_cons, List.length_append, List.length_cons,
        List.sum_cons, ih, hL.dataHeader_length, Nat.add_mul]
      omega
  unfold SubTimeFrame.fileRecord
  simp only [List.length_append, hL.dataHeader_length, hL.fileMeta_length, hbl, hsz]
  unfold SubTimeFrame.fileRecordSize
  omega

/-- A writer in good state appends the record of the STF and returns its size. -/
theorem SubTimeFrameFileWriter.write_record (K : Constants D O) (L : Layout D O)
    (hL : L.Lawful K) (now : Nat) (w : SubTimeFrameFileWriter) (hgood : w.good = true)
    (s : SubTimeFrame D O)
    (hent : s.mReadoutData.all (fun kv => kv.2.mHeader.isSome) = true) :
    SubTimeFrameFileWriter.write K L now w s
      = some ({ w with mFile := w.mFile ++ s.fileRecord K L now }, s.fileRecordSize K L) := by
  obtain ⟨blocks, hv, hb, hsz⟩ := SubTimeFrameFileWriter.visit_blocks K L s.mReadoutData hent
  have hsize : SubTimeFrameFileWriter.stf_size_file K blocks = s.fileRecordSize K L := by
    unfold SubTimeFrameFileWriter.stf_size_file SubTimeFrame.fileRecordSize
    omega
  have hw := SubTimeFrameFileWriter.write_eq K L now w hgood s blocks hv
  rw [hsize, hb] at hw
  have hrec : L.encodeDataHeader (gStfFileDataHeader K)
      ++ (L.encodeFileMeta (SubTimeFrameFileMeta.new now (s.fileRecordSize K L))
      ++ s.mReadoutData.fileBlocksLayout K L) = s.fileRecord K L now := rfl
  rw [hrec, SubTimeFrame.length_fileRecord K L hL now s hent] at hw
  exact hw

/-- A new writer, or one in good state, appends the record of the STF and returns its
size. -/
theorem SubTimeFrameFileWriter.write_record_good (K : Constants D O) (L : Layout D O)
    (hL : L.Lawful K) (now : Nat) (file : List Nat) (s : SubTimeFrame D O)
    (hent : s.mReadoutData.all (fun kv => kv.2.mHeader.isSome) = true) :
    SubTimeFrameFileWriter.write K L now { mFile := file, good := true } s
      = some ({ mFile := file ++ s.fileRecord K L now, good := true },
          s.fileRecordSize K L) :=
  SubTimeFrameFileWriter.write_record K L hL now { mFile := file, good := true } rfl s hent

/-- The size of the file with the counter `c`: the sizes of the records of its STFs. -/
theorem SubTimeFrameFileSink.length_rotatedContent (K : Constants D O) (L : Layout D O)
    (hL : L.Lawful K) (k c : Nat) (inputs : List (Nat × SubTimeFrame D O))
    (hent : ∀ p ∈ inputs, p.2.mReadoutData.all (fun kv => kv.2.mHeader.isSome) = true) :
    (SubTimeFrameFileSink.rotatedContent K L k c inputs).length
      = ((rotatedBatch k c inputs).map fun p => p.2.fileRecordSize K L).sum := by
  have hsub : ∀ p ∈ rotatedBatch k c inputs,
      p.2.mReadoutData.all (fun kv => kv.2.mHeader.isSome) = true := by
    intro p hp
    exact hent p (List.mem_of_mem_drop (List.mem_of_mem_take hp))
  unfold SubTimeFrameFileSink.rotatedContent
  generalize rotatedBatch k c inputs = b at hsub
  induction b with
  | nil => rfl
  | cons p ps ih =>
    simp only [List.map_cons, List.flatten_cons, List.length_append, List.sum_cons]
    rw [ih (fun q hq => hsub q (List.mem_cons_of_mem _ hq)),
      SubTimeFrame.length_fileRecord K L hL p.1 p.2 (hsub p (List.mem_cons_self _ _))]

/-- The thread on a sequence of STFs in two parts. -/
theorem SubTimeFrameFileSink.DataHandlerThread_append (K : Constants D O) (L : Layout D O)
    (xs ys : List (Nat × SubTimeFrame D O)) (s : SubTimeFrameFileSink D O) :
    SubTimeFrameFileSink.DataHandlerThread K L (xs ++ ys) s
      = (SubTimeFrameFileSink.DataHandlerThread K L xs s).bind
          (SubTimeFrameFileSink.DataHandlerThread K L ys) := by
  induction xs generalizing s with
  | nil => rfl
  | cons x xs ih =>
    obtain ⟨now, stf⟩ := x
    simp only [List.cons_append, SubTimeFrameFileSink.DataHandlerThread]
    cases SubTimeFrameFileSink.handle K L s now stf with
    | none => rfl
    | some s1 => exact ih s1

/-- The file that takes the next STF grows by the record of that STF. -/
theorem SubTimeFrameFileSink.rotatedContent_snoc (K : Constants D O) (L : Layout D O)
    (k : Nat) (hk : 0 < k) (xs : List (Nat × SubTimeFrame D O)) (x : Nat × SubTimeFrame D O) :
    SubTimeFrameFileSink.rotatedContent K L k (xs.length / k) (xs ++ [x])
      = SubTimeFrameFileSink.rotatedContent K L k (xs.length / k) xs
          ++ x.2.fileRecord K L x.1 := by
  unfold SubTimeFrameFileSink.rotatedContent
  rw [rotatedBatch_snoc k hk]
  simp

/-- A file that is complete does not change when more STFs arrive. -/
theorem SubTimeFrameFileSink.rotatedContent_append_left (K : Constants D O) (L : Layout D O)
    (k j : Nat) (xs ys : List (Nat × SubTimeFrame D O)) (h : (j + 1) * k ≤ xs.length) :
    SubTimeFrameFileSink.rotatedContent K L k j (xs ++ ys)
      = SubTimeFrameFileSink.rotatedContent K L k j xs := by
  unfold SubTimeFrameFileSink.rotatedContent
  rw [rotatedBatch_append_left k j xs ys h]

/-- A file whose first STF has not arrived is empty. -/
theorem SubTimeFrameFileSink.rotatedContent_of_le (K : Constants D O) (L : Layout D O)
    (k c : Nat) (xs : List (Nat × SubTimeFrame D O)) (h : xs.length ≤ c * k) :
    SubTimeFrameFileSink.rotatedContent K L k c xs = [] := by
  unfold SubTimeFrameFileSink.rotatedContent rotatedBatch
  rw [List.drop_of_length_le h]
  simp

/-- One round of the thread under rotation by count: the sink after the STFs `xs` handles
the next STF and is the sink after `xs ++ [x]`. -/
theorem SubTimeFrameFileSink.handle_rotatedState (K : Constants D O) (L : Layout D O)
    (hL : L.Lawful K) (hpos : 0 < K.sizeofDataHeader) (k : Nat) (hk : 1 ≤ k) (fileSize : Nat)
    (xs : List (Nat × SubTimeFrame D O)) (x : Nat × SubTimeFrame D O)
    (hent : ∀ p ∈ xs ++ [x], p.2.mReadoutData.all (fun kv => kv.2.mHeader.isSome) = true)
    (hsize : ∀ c, c < ((xs ++ [x]).length - 1) / k + 1 →
      ((rotatedBatch k c (xs ++ [x])).map fun p => p.2.fileRecordSize K L).sum
        < max 1 fileSize)
    (hidx : ((xs ++ [x]).length - 1) / k + 1 < 2 ^ 32) :
    SubTimeFrameFileSink.handle K L (SubTimeFrameFileSink.rotatedState K L k fileSize xs)
        x.1 x.2
      = some (SubTimeFrameFileSink.rotatedState K L k fileSize (xs ++ [x])) := by
  have hk0 : 0 < k := hk
  have hmaxk : max 1 k = k := by omega
  have hentx : x.2.mReadoutData.all (fun kv => kv.2.mHeader.isSome) = true :=
    hent x (by simp)
  have hentxs : ∀ p ∈ xs, p.2.mReadoutData.all (fun kv => kv.2.mHeader.isSome) = true :=
    fun p hp => hent p (List.mem_append_left _ hp)
  have hrecpos : x.2.fileRecordSize K L ≠ 0 := by
    unfold SubTimeFrame.fileRecordSize
    omega
  have hn1 : (xs ++ [x]).length - 1 = xs.length := by simp
  rw [hn1] at hidx hsize
  -- the counter of the file of the last STF, and of the file of the next
  have hc1 : (xs.length - 1) / k * k ≤ xs.length :=
    Nat.le_trans (Nat.div_mul_le_self _ _) (Nat.sub_le _ _)
  have hc2 : xs.length ≤ (xs.length - 1) / k * k + k := by
    have h := Nat.lt_mul_div_succ (xs.length - 1) hk0
    rw [Nat.mul_add, Nat.mul_one, Nat.mul_comm] at h
    omega
  unfold SubTimeFrameFileSink.handle
  by_cases hrot : xs.length - (xs.length - 1) / k * k ≥ k
  · -- the file of the last STF is full
    have hfull : xs.length = ((xs.length - 1) / k + 1) * k := by
      rw [Nat.add_mul, Nat.one_mul]
      omega
    have hnext : xs.length / k = (xs.length - 1) / k + 1 := by
      conv_lhs => rw [hfull]
      exact Nat.mul_div_cancel _ hk0
    have hsnoc := SubTimeFrameFileSink.rotatedContent_snoc K L k hk0 xs x
    rw [hnext, SubTimeFrameFileSink.rotatedContent_of_le K L k _ xs (le_of_eq hfull)] at hsnoc
    have hclosed : ∀ j ∈ List.range ((xs.length - 1) / k + 1),
        (j, SubTimeFrameFileSink.rotatedContent K L k j (xs ++ [x]))
          = (j, SubTimeFrameFileSink.rotatedContent K L k j xs) := by
      intro j hj
      rw [List.mem_range] at hj
      rw [SubTimeFrameFileSink.rotatedContent_append_left K L k j xs [x]]
      calc (j + 1) * k ≤ ((xs.length - 1) / k + 1) * k := Nat.mul_le_mul_right _ (by omega)
        _ = xs.length := hfull.symm
    have hmod : ((xs.length - 1) / k + 1 + 1) % 2 ^ 32 = (xs.length - 1) / k + 1 + 1 := by
      apply Nat.mod_eq_of_lt
      rw [← hnext]
      exact hidx
    simp only [SubTimeFrameFileSink.rotatedState, Bool.not_true, Bool.false_eq_true, if_false,
      hmaxk, hrot, true_or, if_true, SubTimeFrameFileSink.newStfFileName,
      SubTimeFrameFileSink.closeWriter, SubTimeFrameFileSink.files, hn1, hnext,
      SubTimeFrameFileWriter.write_record_good K L hL x.1 _ x.2 hentx, hrecpos, ne_eq,
      not_false_eq_true, hsnoc, List.nil_append, hmod, SubTimeFrameFileWriter.size,
      List.length_append, List.length_singleton]
    have hclosed2 := List.map_congr_left hclosed
    have hstfs : xs.length + 1 - ((xs.length - 1) / k + 1) * k = 1 := by
      rw [← hfull]
      omega
    simp only [Nat.add_sub_cancel, hnext, hsnoc, List.nil_append, hclosed2, Nat.zero_add, hstfs]
    rw [List.range_succ, List.map_append, List.map_cons, List.map_nil]
  · -- the file of the last STF takes the next one
    have hlt : xs.length < (xs.length - 1) / k * k + k := by omega
    have hnext : xs.length / k = (xs.length - 1) / k := by
      apply Nat.div_eq_of_lt_le hc1
      rw [Nat.add_mul, Nat.one_mul]
      exact hlt
    have hsnoc := SubTimeFrameFileSink.rotatedContent_snoc K L k hk0 xs x
    have hbatch := rotatedBatch_snoc k hk0 xs x
    rw [hnext] at hsnoc hbatch
    have hsmall : ¬ (SubTimeFrameFileSink.rotatedContent K L k ((xs.length - 1) / k) xs).length
        ≥ max 1 fileSize := by
      have h1 := hsize ((xs.length - 1) / k) (by omega)
      rw [hbatch, List.map_append, List.sum_append] at h1
      rw [SubTimeFrameFileSink.length_rotatedContent K L hL k _ xs hentxs]
      omega
    have hclosed : ∀ j ∈ List.range ((xs.length - 1) / k),
        (j, SubTimeFrameFileSink.rotatedContent K L k j (xs ++ [x]))
          = (j, SubTimeFrameFileSink.rotatedContent K L k j xs) := by
      intro j hj
      rw [List.mem_range] at hj
      rw [SubTimeFrameFileSink.rotatedContent_append_left K L k j xs [x]]
      calc (j + 1) * k ≤ (xs.length - 1) / k * k := Nat.mul_le_mul_right _ (by omega)
        _ ≤ xs.length := hc1
    have hclosed2 := List.map_congr_left hclosed
    have hstfs : xs.length + 1 - (xs.length - 1) / k * k
        = xs.length - (xs.length - 1) / k * k + 1 := by omega
    simp only [SubTimeFrameFileSink.rotatedState, Bool.not_true, Bool.false_eq_true, if_false,
      hmaxk, hrot, hsmall, or_self, SubTimeFrameFileSink.newStfFileName,
      SubTimeFrameFileSink.closeWriter, SubTimeFrameFileSink.files, hn1, hnext,
      SubTimeFrameFileWriter.write_record_good K L hL x.1 _ x.2 hentx, hrecpos, ne_eq,
      not_false_eq_true, if_true, hsnoc, SubTimeFrameFileWriter.size, List.length_append,
      List.length_singleton, Nat.add_sub_cancel, hclosed2, hstfs]

/-- A batch grows at its end when more STFs arrive. -/
theorem rotatedBatch_append {α : Type} (k c : Nat) (xs ys : List α) :
    ∃ r, rotatedBatch k c (xs ++ ys) = rotatedBatch k c xs ++ r := by
  unfold rotatedBatch
  rw [List.drop_append_eq_append_drop, List.take_append_eq_append_take]
  exact ⟨_, rfl⟩

/-- The thread under rotation by count: from the sink as configured, the STFs `inputs`
lead to the sink the specification describes. -/
theorem SubTimeFrameFileSink.DataHandlerThread_rotatedState (K : Constants D O)
    (L : Layout D O) (hL : L.Lawful K) (hpos : 0 < K.sizeofDataHeader) (k : Nat) (hk : 1 ≤ k)
    (fileSize : Nat) (inputs : List (Nat × SubTimeFrame D O))
    (hent : ∀ p ∈ inputs, p.2.mReadoutData.all (fun kv => kv.2.mHeader.isSome) = true)
    (hsize : ∀ c, c < (inputs.length - 1) / k + 1 →
      ((rotatedBatch k c inputs).map fun p => p.2.fileRecordSize K L).sum < max 1 fileSize)
    (hidx : (inputs.length - 1) / k + 1 < 2 ^ 32) :
    SubTimeFrameFileSink.DataHandlerThread K L inputs
        (SubTimeFrameFileSink.loadVerifyConfig true k fileSize)
      = some (SubTimeFrameFileSink.rotatedState K L k fileSize inputs) := by
  induction inputs using List.reverseRecOn with
  | nil =>
    simp [SubTimeFrameFileSink.DataHandlerThread, SubTimeFrameFileSink.loadVerifyConfig,
      SubTimeFrameFileSink.rotatedState, SubTimeFrameFileSink.rotatedContent, rotatedBatch]
  | append_singleton xs x ih =>
    have hmono : (xs.length - 1) / k ≤ ((xs ++ [x]).length - 1) / k := by
      apply Nat.div_le_div_right
      simp
    rw [SubTimeFrameFileSink.DataHandlerThread_append, ih
      (fun p hp => hent p (List.mem_append_left _ hp))
      (fun c hc => by
        obtain ⟨r, hr⟩ := rotatedBatch_append k c xs [x]
        have h1 := hsize c (by omega)
        rw [hr, List.map_append, List.sum_append] at h1
        omega)
      (by omega)]
    simp only [Option.some_bind, SubTimeFrameFileSink.DataHandlerThread]
    rw [SubTimeFrameFileSink.handle_rotatedState K L hL hpos k hk fileSize xs x hent hsize hidx]

end Sink

/-- Claim C23. With the sink enabled, `stfsPerFile = k ≥ 1`, STFs the writer can write and
every file staying below the configured size: the thread handles the STFs and leaves in the
session directory the files with the counters `0` to `(n - 1) / k`, and the file with the
counter `c` holds the records of the STFs that arrived at the indices `c * k` to
`c * k + k - 1`, in arrival order; so the STF that arrived at the index `i` is in the file
with the counter `i / k`, at the place `i % k`, and every file before the last holds
exactly `k` STFs. -/
theorem file_rotation_by_count {D O : Type} (K : Constants D O) (L : Layout D O)
    (hL : L.Lawful K) (hpos : 0 < K.sizeofDataHeader) (k : Nat) (hk : 1 ≤ k)
    (fileSize : Nat) (inputs : List (Nat × SubTimeFrame D O))
    (hent : ∀ p ∈ inputs, p.2.mReadoutData.all (fun kv => kv.2.mHeader.isSome) = true)
    (hsize : ∀ c, c < (inputs.length - 1) / k + 1 →
      ((rotatedBatch k c inputs).map fun p => p.2.fileRecordSize K L).sum < max 1 fileSize)
    (hidx : (inputs.length - 1) / k + 1 < 2 ^ 32) :
    ∃ s1, SubTimeFrameFileSink.DataHandlerThread K L inputs
        (SubTimeFrameFileSink.loadVerifyConfig true k fileSize) = some s1 ∧
      s1.mEnabled = true ∧
      s1.files = SubTimeFrameFileSink.rotatedFiles K L k inputs ∧
      s1.files = (List.range ((inputs.length - 1) / k + 1)).map (fun c =>
        (c, ((rotatedBatch k c inputs).map fun p => p.2.fileRecord K L p.1).flatten)) ∧
      (∀ i, (rotatedBatch k (i / k) inputs).get? (i % k) = inputs.get? i) ∧
      (∀ c, (rotatedBatch k c inputs).length ≤ k) ∧
      (∀ c, (c + 1) * k ≤ inputs.length → (rotatedBatch k c inputs).length = k) := by
  have hfiles : (SubTimeFrameFileSink.rotatedState K L k fileSize inputs).files
      = SubTimeFrameFileSink.rotatedFiles K L k inputs := by
    simp only [SubTimeFrameFileSink.files, SubTimeFrameFileSink.rotatedState,
      SubTimeFrameFileSink.rotatedFiles, List.range_succ, List.map_append, List.map_cons,
      List.map_nil]
  refine ⟨_, SubTimeFrameFileSink.DataHandlerThread_rotatedState K L hL hpos k hk fileSize
    inputs hent hsize hidx, rfl, hfiles, hfiles, fun i => rotatedBatch_get k hk inputs i, ?_, ?_⟩
  · intro c
    rw [length_rotatedBatch]
    exact Nat.min_le_left _ _
  · intro c hc
    rw [length_rotatedBatch, Nat.add_mul] at *
    omega

/-- Witness of `file_rotation_by_count`: two STFs per file and the STFs with the ids 10 to
14, written at the times 1 to 5, give the file 0 with the records of the ids 10 and 11,
the file 1 with those of 12 and 13, and the file 2 with that of 14. -/
theorem file_rotation_by_count_witness :
    Examples.L0.Lawful Examples.K0 ∧ 0 < Examples.K0.sizeofDataHeader ∧ 1 ≤ 2 ∧
    (∀ p ∈ Examples.stfs10to14,
      p.2.mReadoutData.all (fun kv => kv.2.mHeader.isSome) = true) ∧
    (∀ c, c < (Examples.stfs10to14.length - 1) / 2 + 1 →
      ((rotatedBatch 2 c Examples.stfs10to14).map
        fun p => p.2.fileRecordSize Examples.K0 Examples.L0).sum < max 1 1000) ∧
    (Examples.stfs10to14.length - 1) / 2 + 1 < 2 ^ 32 ∧
    SubTimeFrameFileSink.rotatedFiles Examples.K0 Examples.L0 2 Examples.stfs10to14
      = [(0, (Examples.stfWithId 10).fileRecord Examples.K0 Examples.L0 1
              ++ (Examples.stfWithId 11).fileRecord Examples.K0 Examples.L0 2),
         (1, (Examples.stfWithId 12).fileRecord Examples.K0 Examples.L0 3
              ++ (Examples.stfWithId 13).fileRecord Examples.K0 Examples.L0 4),
         (2, (Examples.stfWithId 14).fileRecord Examples.K0 Examples.L0 5)] ∧
    ∃ s1, SubTimeFrameFileSink.DataHandlerThread Examples.K0 Examples.L0 Examples.stfs10to14
        (SubTimeFrameFileSink.loadVerifyConfig true 2 1000) = some s1 ∧
      s1.mEnabled = true ∧
      s1.files = SubTimeFrameFileSink.rotatedFiles Examples.K0 Examples.L0 2
        Examples.stfs10to14 :=
  ⟨Examples.L0_lawful, by decide, by decide, by decide, by decide, by decide, by decide,
   let ⟨s1, h1, h2, h3, _⟩ := file_rotation_by_count Examples.K0 Examples.L0
     Examples.L0_lawful (by decide) 2 (by decide) 1000 Examples.stfs10to14 (by decide)
     (by decide) (by decide)
   ⟨s1, h1, h2, h3⟩⟩

/-- Claim C24 on the code: the STFs with the ids 10 to 14 on an enabled sink are written to
the files and none reaches the output queue; on a disabled sink all five reach it, in
arrival order; on an enabled sink whose stream is in a bad state the write of the first
fails, the sink disables itself, and the output queue receives the STFs 11 to 14 but not
the STF 10. Only the branch for a disabled sink pushes to the output queue. -/
theorem sink_enabled_drops_stfs :
    (SubTimeFrameFileSink.DataHandlerThread Examples.K0 Examples.L0 Examples.stfs10to14
        (SubTimeFrameFileSink.loadVerifyConfig true 2 1000)).map
        (fun s => (s.mEnabled, s.mOutStfQueue)) = some (true, []) ∧
    (SubTimeFrameFileSink.DataHandlerThread Examples.K0 Examples.L0 Examples.stfs10to14
        (SubTimeFrameFileSink.loadVerifyConfig false 2 1000)).map
        (fun s => (s.mEnabled, s.mOutStfQueue))
      = some (false, [Examples.stfWithId 10, Examples.stfWithId 11, Examples.stfWithId 12,
          Examples.stfWithId 13, Examples.stfWithId 14]) ∧
    (SubTimeFrameFileSink.DataHandlerThread Examples.K0 Examples.L0 Examples.stfs10to14
        { (SubTimeFrameFileSink.loadVerifyConfig true 2 1000 : SubTimeFrameFileSink Nat Nat)
          with mStfWriter := some (0, { mFile := [], good := false }) }).map
        (fun s => (s.mEnabled, s.mOutStfQueue))
      = some (false, [Examples.stfWithId 11, Examples.stfWithId 12, Examples.stfWithId 13,
          Examples.stfWithId 14]) := by
  refine ⟨by decide, by decide, by decide⟩

end DataDistribution
end O2

/-! # Theorems: chunked writes, the order as coded, file names -/

namespace O2
namespace DataDistribution

section Chunks

/-- The chunks of the loop of `buffered_write`: each takes between 1 and 512 bytes, and
there are `⌈count / 512⌉` of them. -/
theorem SubTimeFrameFileWriter.buffered_write_loop_chunks (fuel : Nat) (p : List Nat)
    (h : p.length ≤ fuel) :
    (∀ c ∈ SubTimeFrameFileWriter.buffered_write_loop fuel p, 1 ≤ c.length ∧ c.length ≤ 512) ∧
    (SubTimeFrameFileWriter.buffered_write_loop fuel p).length = (p.length + 511) / 512 := by
  induction fuel generalizing p with
  | zero =>
    have hp : p = [] := List.length_eq_zero.mp (Nat.le_zero.mp h)
    subst hp
    simp [SubTimeFrameFileWriter.buffered_write_loop]
  | succ fuel ih =>
    unfold SubTimeFrameFileWriter.buffered_write_loop
    by_cases hp : p.length > 0
    · rw [if_pos hp]
      have hdrop : (p.drop (min p.length SubTimeFrameFileWriter.sChunkSize)).length ≤ fuel := by
        simp only [List.length_drop, SubTimeFrameFileWriter.sChunkSize]; omega
      obtain ⟨h1, h2⟩ := ih _ hdrop
      refine ⟨?_, ?_⟩
      · intro c hc
        rcases List.mem_cons.mp hc with hc | hc
        · subst hc
          simp only [List.length_take, SubTimeFrameFileWriter.sChunkSize]
          omega
        · exact h1 c hc
      · rw [List.length_cons, h2, List.length_drop]
        simp only [SubTimeFrameFileWriter.sChunkSize]
        omega
    · rw [if_neg hp]
      have hp0 : p = [] := List.length_eq_zero.mp (by omega)
      subst hp0
      simp

end Chunks

/-- Claim C36. For every byte buffer `b`: `buffered_write` ends (the bound of its loop is
never what stops it: all bytes are written), and the chunks it passes to the stream, in
order, concatenate to `b`; when `count ≥ 256 KiB` it issues the single write of the whole
buffer; otherwise every chunk has between 1 and 512 bytes and there are exactly
`⌈count / 512⌉` chunks. -/
theorem buffered_write_chunks (b : List Nat) :
    (SubTimeFrameFileWriter.buffered_write b).flatten = b ∧
    (256 * 1024 ≤ b.length → SubTimeFrameFileWriter.buffered_write b = [b]) ∧
    (b.length < 256 * 1024 →
      (∀ c ∈ SubTimeFrameFileWriter.buffered_write b, 1 ≤ c.length ∧ c.length ≤ 512) ∧
      (SubTimeFrameFileWriter.buffered_write b).length = (b.length + 511) / 512) := by
  refine ⟨SubTimeFrameFileWriter.flatten_buffered_write b, ?_, ?_⟩
  · intro h
    unfold SubTimeFrameFileWriter.buffered_write SubTimeFrameFileWriter.sBuffSize
    rw [if_pos h]
  · intro h
    unfold SubTimeFrameFileWriter.buffered_write SubTimeFrameFileWriter.sBuffSize
    rw [if_neg (by omega)]
    exact SubTimeFrameFileWriter.buffered_write_loop_chunks _ _ (le_refl _)

/-- Witness of `buffered_write_chunks`: a buffer of three bytes goes out in one chunk. -/
theorem buffered_write_chunks_witness :
    [1, 2, 3].length < 256 * 1024 ∧
    SubTimeFrameFileWriter.buffered_write [1, 2, 3] = [[1, 2, 3]] ∧
    (∀ c ∈ SubTimeFrameFileWriter.buffered_write [1, 2, 3], 1 ≤ c.length ∧ c.length ≤ 512) ∧
    (SubTimeFrameFileWriter.buffered_write [1, 2, 3]).length = ([1, 2, 3].length + 511) / 512 :=
  ⟨by decide, by decide, (buffered_write_chunks [1, 2, 3]).2.2 (by decide)⟩

/-- Claim C37. The member `operator<` of EquipmentIdentifier as coded: `a < b` holds exactly
when the DataDescription of `a` is smaller, or the descriptions are equal and the
SubSpecification of `a` is smaller; the result does not depend on the DataOrigin of either
side; and `operator<` is a strict weak ordering: irreflexive, transitive, and with
transitive incomparability. -/
theorem operator_lt_as_coded {D O : Type} [LinearOrder D] (a b c : EquipmentIdentifier D O) :
    (a.operatorLt b = true ↔
      a.mDataDescription < b.mDataDescription ∨
      (a.mDataDescription = b.mDataDescription ∧
        a.mSubSpecification < b.mSubSpecification)) ∧
    (∀ o1 o2 : O,
      EquipmentIdentifier.operatorLt { a with mDataOrigin := o1 } { b with mDataOrigin := o2 }
        = a.operatorLt b) ∧
    a.operatorLt a = false ∧
    (a.operatorLt b = true → b.operatorLt c = true → a.operatorLt c = true) ∧
    (a.operatorLt b = false → b.operatorLt a = false →
      b.operatorLt c = false → c.operatorLt b = false →
      a.operatorLt c = false ∧ c.operatorLt a = false) := by
  refine ⟨operatorLt_iff a b, ?_, operatorLt_irrefl a, operatorLt_trans, ?_⟩
  · intro o1 o2
    rfl
  · intro h1 h2 h3 h4
    have e1 : ∀ x y : EquipmentIdentifier D O, x.operatorLt y = false →
        ¬ (x.mDataDescription < y.mDataDescription ∨
          (x.mDataDescription = y.mDataDescription ∧
            x.mSubSpecification < y.mSubSpecification)) := by
      intro x y h hc
      rw [← operatorLt_iff, h] at hc
      exact Bool.noConfusion hc
    have k1 := e1 a b h1
    have k2 := e1 b a h2
    have k3 := e1 b c h3
    have k4 := e1 c b h4
    simp only [not_or, not_and, not_lt] at k1 k2 k3 k4
    have dab : a.mDataDescription = b.mDataDescription := le_antisymm k2.1 k1.1
    have dbc : b.mDataDescription = c.mDataDescription := le_antisymm k4.1 k3.1
    have sab : a.mSubSpecification = b.mSubSpecification :=
      le_antisymm (k2.2 dab.symm) (k1.2 dab)
    have sbc : b.mSubSpecification = c.mSubSpecification :=
      le_antisymm (k4.2 dbc.symm) (k3.2 dbc)
    constructor
    · cases h : a.operatorLt c
      · rfl
      · rw [operatorLt_iff] at h
        rcases h with h | ⟨_, h⟩
        · rw [dab, dbc] at h; exact absurd h (lt_irrefl _)
        · omega
    · cases h : c.operatorLt a
      · rfl
      · rw [operatorLt_iff] at h
        rcases h with h | ⟨_, h⟩
        · rw [dab, dbc] at h; exact absurd h (lt_irrefl _)
        · omega

/-- Witness of `operator_lt_as_coded`: the identifiers `(1, CRU 0, 3)`, `(1, CRU 1, 7)` and
`(2, CRU 0, 1)` are in this order; the identifiers `(1, 0, 7)`, `(1, 1, 7)` and `(1, 2, 7)`,
which differ in the origin only, are pairwise incomparable. -/
theorem operator_lt_as_coded_witness :
    EquipmentIdentifier.operatorLt (⟨1, 0, 3⟩ : EquipmentIdentifier Nat Nat) ⟨1, 1, 7⟩ = true ∧
    EquipmentIdentifier.operatorLt (⟨1, 1, 7⟩ : EquipmentIdentifier Nat Nat) ⟨2, 0, 1⟩ = true ∧
    EquipmentIdentifier.operatorLt (⟨1, 0, 3⟩ : EquipmentIdentifier Nat Nat) ⟨2, 0, 1⟩ = true ∧
    EquipmentIdentifier.operatorLt (⟨1, 0, 7⟩ : EquipmentIdentifier Nat Nat) ⟨1, 1, 7⟩ = false ∧
    EquipmentIdentifier.operatorLt (⟨1, 1, 7⟩ : EquipmentIdentifier Nat Nat) ⟨1, 0, 7⟩ = false ∧
    EquipmentIdentifier.operatorLt (⟨1, 1, 7⟩ : EquipmentIdentifier Nat Nat) ⟨1, 2, 7⟩ = false ∧
    EquipmentIdentifier.operatorLt (⟨1, 2, 7⟩ : EquipmentIdentifier Nat Nat) ⟨1, 1, 7⟩ = false ∧
    (EquipmentIdentifier.operatorLt (⟨1, 0, 7⟩ : EquipmentIdentifier Nat Nat) ⟨1, 2, 7⟩ = false ∧
      EquipmentIdentifier.operatorLt (⟨1, 2, 7⟩ : EquipmentIdentifier Nat Nat) ⟨1, 0, 7⟩
        = false) :=
  ⟨by decide, by decide,
   (operator_lt_as_coded (⟨1, 0, 3⟩ : EquipmentIdentifier Nat Nat) ⟨1, 1, 7⟩ ⟨2, 0, 1⟩).2.2.2.1
     (by decide) (by decide),
   by decide, by decide, by decide, by decide,
   (operator_lt_as_coded (⟨1, 0, 7⟩ : EquipmentIdentifier Nat Nat) ⟨1, 1, 7⟩ ⟨1, 2, 7⟩).2.2.2.2
     (by decide) (by decide) (by decide) (by decide)⟩

section ExpandSize

open detail

/-- When `sizeof(T)` divides the page size, the value `expand_size` returns satisfies the
assertion that ends the function. -/
theorem expand_size_assertion_of_dvd {α : Type} (sizeofT : Nat) (hs : 0 < sizeofT)
    (hdvd : sizeofT ∣ 4096) (v : ExtentVectorBase α) (req_cap : Nat) (exact : Bool) :
    ExtentVectorBase.expand_size_assertion sizeofT
      (ExtentVectorBase.expand_size sizeofT v req_cap exact) = true := by
  unfold ExtentVectorBase.expand_size_assertion ExtentVectorBase.expand_size
    ExtentVectorBase.PAGESIZE_ALIGN
  simp only [decide_eq_true_eq]
  generalize (if exact = true then max req_cap v.mCapacity
    else max (max v.mCapacity 2 * 3 / 2) req_cap) = nc
  have hd : sizeofT ∣ (nc * sizeofT + 4096 - 1) / 4096 * 4096 :=
    Dvd.dvd.mul_left hdvd _
  rw [Nat.div_mul_cancel hd, Nat.mul_mod_left]
  exact hs

end ExpandSize

/-- Claim C39 on the code: elements of three bytes. On the empty vector the first
`push_back` asks `expand_size` for room for one element; the value returned is 1365, which
is at least the capacity asked for and at least the current capacity, but
`1365 * 3 = 4095` leaves the remainder 4095 by the page size, which is not below 3: the
assertion that ends `expand_size` fails. -/
theorem expand_size_breaks_page_assertion :
    detail.ExtentVectorBase.expand_size 3
        (detail.ExtentVectorBase.empty : detail.ExtentVectorBase Nat) 1 false = 1365 ∧
    1 ≤ detail.ExtentVectorBase.expand_size 3
        (detail.ExtentVectorBase.empty : detail.ExtentVectorBase Nat) 1 false ∧
    (1365 * 3) % 4096 = 4095 ∧
    detail.ExtentVectorBase.expand_size_assertion 3
      (detail.ExtentVectorBase.expand_size 3
        (detail.ExtentVectorBase.empty : detail.ExtentVectorBase Nat) 1 false) = false ∧
    (detail.ExtentVectorBase.make_space_for 3
        (detail.ExtentVectorBase.empty : detail.ExtentVectorBase Nat) 1 false).map
        (fun v => v.mCapacity) = some 1365 := by
  refine ⟨by decide, by decide, by decide, by decide, by decide⟩

/-- Claim C35 on the code: a reader on the file `fileTwoRecords`. The first `read` returns
true after the first block of the first record: the STF holds the frame `09` and not the
frame `08 07`, and the reader stands at 16, not at 24 where the second record starts. The
next `read` takes the header of the second block for a file-level header, closes the file
and returns false, so the second record is never read. -/
theorem read_stops_after_first_block :
    (SubTimeFrameFileWriter.write Examples.K0 Examples.L0 1000 { mFile := [], good := true }
        Examples.stfTwoFrames).bind
        (fun r => SubTimeFrameFileWriter.write Examples.K0 Examples.L0 1001 r.1
          Examples.stfOneFrame)
      = some ({ mFile := Examples.fileTwoRecords, good := true }, 17) ∧
    SubTimeFrameFileReader.read Examples.K0 Examples.L0
        (SubTimeFrameFileReader.new Examples.fileTwoRecords)
        (SubTimeFrame.new Examples.K0 0 10) 10
      = (SubTimeFrameFileReader.positioned Examples.fileTwoRecords 16,
          .returned true
            { mHeader := some (Examples.stfHeaderOf 10 1)
              mReadoutData :=
                [(Examples.eqLink7,
                  { mHeader := some (Examples.equipmentHeaderOf Examples.eqLink7 1)
                    mHBFrames := [.data [9]] })]
              mFMQChannelId := 0 }) ∧
    (SubTimeFrameFileReader.read Examples.K0 Examples.L0
        (SubTimeFrameFileReader.positioned Examples.fileTwoRecords 16)
        (SubTimeFrame.new Examples.K0 0 10) 10).2
      = .returned false (SubTimeFrame.new Examples.K0 0 10) ∧
    (SubTimeFrameFileReader.read Examples.K0 Examples.L0
        (SubTimeFrameFileReader.positioned Examples.fileTwoRecords 16)
        (SubTimeFrame.new Examples.K0 0 10) 10).1.isOpen = false := by
  refine ⟨by decide, by decide, by decide, by decide⟩

/-- Claim C32 on the code: the pattern `stf_%n_%D_%T.tf`, the counter 0 and the local time
2018-03-05 14:07:09. The specification names the file `stf_000000_2018-03-05_14_07_09.tf`;
the code returns `stf_000000_2018-03-05_%H_07_09.tf`: the format handed to `strftime` for
`%T` starts with `%%`, a percent sign, so the hour is never written. The counter goes to 1,
and without `%T` in the pattern the name is the one of the specification. -/
theorem file_name_lacks_hour :
    SubTimeFrameFileSink.newStfFileNameText "stf_%n_%D_%T.tf".toList 0 Examples.tmAfternoon
      = ("stf_000000_2018-03-05_%H_07_09.tf".toList, 1) ∧
    SubTimeFrameFileSink.specFileName "stf_%n_%D_%T.tf".toList 0 Examples.tmAfternoon
      = "stf_000000_2018-03-05_14_07_09.tf".toList ∧
    SubTimeFrameFileSink.newStfFileNameText "stf_%n_%D.tf".toList 41 Examples.tmAfternoon
      = (SubTimeFrameFileSink.specFileName "stf_%n_%D.tf".toList 41 Examples.tmAfternoon, 42) ∧
    strftime "%%H_%M_%S".toList Examples.tmAfternoon = "%H_07_09".toList := by
  refine ⟨by decide, by decide, by decide, by decide⟩

end DataDistribution
end O2

/-! # Theorems: mutators on an STF without header -/

namespace O2
namespace DataDistribution

section MovedFrom

variable {D O : Type} [LinearOrder D]

/-- Writing through `at(k)` changes the value a lookup of `k` finds, and not its key. -/
theorem StdMap.find_assignAt (m : ReadoutMap D O) (k k0 : EquipmentIdentifier D O)
    (e0 v : EquipmentHBFrames D O) (h : StdMap.find m k = some (k0, e0)) :
    StdMap.find (StdMap.assignAt m k v) k = some (k0, v) := by
  induction m with
  | nil => simp [StdMap.find] at h
  | cons hd tl ih =>
    obtain ⟨k1, v1⟩ := hd
    unfold StdMap.find at h
    by_cases h1 : k1.operatorLt k = true
    · rw [if_pos h1] at h
      simp only [StdMap.assignAt, StdMap.find, h1, if_true]
      exact ih h
    · rw [if_neg h1] at h
      by_cases h2 : k.operatorLt k1 = true
      · rw [if_pos h2] at h
        exact Option.noConfusion h
      · rw [if_neg h2] at h
        simp only [Option.some.injEq, Prod.mk.injEq] at h
        obtain ⟨e1, _⟩ := h
        subst e1
        simp [StdMap.assignAt, StdMap.find, h1, h2]

/-- An insertion under a key that no lookup finds adds an entry. -/
theorem StdMap.length_emplace_of_find_none (m : ReadoutMap D O) (k : EquipmentIdentifier D O)
    (v : EquipmentHBFrames D O) (h : StdMap.find m k = none) :
    (StdMap.emplace m k v).length = m.length + 1 := by
  induction m with
  | nil => rfl
  | cons hd tl ih =>
    obtain ⟨k1, v1⟩ := hd
    unfold StdMap.find at h
    by_cases h1 : k1.operatorLt k = true
    · rw [if_pos h1] at h
      simp only [StdMap.emplace, h1, if_true, List.length_cons, ih h]
    · rw [if_neg h1] at h
      by_cases h2 : k.operatorLt k1 = true
      · simp [StdMap.emplace, h1, h2]
      · rw [if_neg h2] at h
        exact Option.noConfusion h

/-- The shared body of `addHBFrame` and `addHBFrames` on an STF without header, for a
mutator `f` of the entry that appends the frames `fs` whether it raises or not: the call
ends with an exception, the header is still absent, and the frames stand at the end of the
frames of the equipment. -/
theorem SubTimeFrame.withEquipment_of_no_header (K : Constants D O) (s : SubTimeFrame D O)
    (hh : s.mHeader = none) (id : EquipmentIdentifier D O)
    (f : EquipmentHBFrames D O → Outcome (EquipmentHBFrames D O))
    (fs : List (FairMQMessage D O))
    (hf : ∀ e, ∃ e1, (f e = .ok e1 ∨ f e = .raised e1) ∧ e1.mHBFrames = e.mHBFrames ++ fs) :
    ∃ s1, SubTimeFrame.withEquipment K s id f = .raised s1 ∧ s1.mHeader = none ∧
      s1.mFMQChannelId = s.mFMQChannelId ∧
      s1.mReadoutData.length
        = s.mReadoutData.length + (if (s.framesOf id).isSome then 0 else 1) ∧
      s1.framesOf id = some ((s.framesOf id).getD [] ++ fs) := by
  unfold SubTimeFrame.withEquipment
  -- the entry the lookup finds after the entry is made
  have hfind : ∃ k0 e0,
      StdMap.find (if (StdMap.find s.mReadoutData id).isNone then
          StdMap.emplace s.mReadoutData id (EquipmentHBFrames.new K s.mFMQChannelId id)
        else s.mReadoutData) id = some (k0, e0) ∧
      e0.mHBFrames = (s.framesOf id).getD [] ∧
      (if (StdMap.find s.mReadoutData id).isNone then
          StdMap.emplace s.mReadoutData id (EquipmentHBFrames.new K s.mFMQChannelId id)
        else s.mReadoutData).length
        = s.mReadoutData.length + (if (s.framesOf id).isSome then 0 else 1) := by
    cases hf0 : StdMap.find s.mReadoutData id with
    | none =>
      rcases StdMap.find_emplace s.mReadoutData id
          (EquipmentHBFrames.new K s.mFMQChannelId id) with ⟨kv, h1, _⟩ | ⟨_, h2⟩
      · rw [hf0] at h1; exact Option.noConfusion h1
      · refine ⟨id, _, by simpa using h2, by simp [SubTimeFrame.framesOf, hf0,
          EquipmentHBFrames.new], ?_⟩
        simp only [Option.isNone_none, if_true, SubTimeFrame.framesOf, hf0, Option.map_none',
          Option.isSome_none, Bool.false_eq_true, if_false]
        exact StdMap.length_emplace_of_find_none _ _ _ hf0
    | some kv =>
      obtain ⟨k0, e0⟩ := kv
      exact ⟨k0, e0, by simp [hf0], by simp [SubTimeFrame.framesOf, hf0],
        by simp [SubTimeFrame.framesOf, hf0]⟩
  obtain ⟨k0, e0, hfd, hfr, hlen⟩ := hfind
  obtain ⟨e1, hfe, he1⟩ := hf e0
  simp only [hfd]
  have hres : ∀ m1 : ReadoutMap D O,
      StdMap.find m1 id = some (k0, e0) →
      SubTimeFrame.framesOf
          ({ s with mReadoutData := StdMap.assignAt m1 id e1 } : SubTimeFrame D O) id
        = some ((s.framesOf id).getD [] ++ fs) := by
    intro m1 hm1
    simp only [SubTimeFrame.framesOf, StdMap.find_assignAt m1 id k0 e0 e1 hm1, Option.map_some',
      he1, hfr]
  rcases hfe with hfe | hfe
  · rw [hfe]
    simp only [SubTimeFrame.updateCount, hh]
    exact ⟨_, rfl, rfl, rfl, by simp only [StdMap.length_assignAt]; exact hlen, hres _ hfd⟩
  · rw [hfe]
    exact ⟨_, rfl, hh, rfl, by simp only [StdMap.length_assignAt]; exact hlen, hres _ hfd⟩

end MovedFrom

/-- Claim C31, the part that fails: a default-constructed STF, whose header is absent.
`addHBFrame` ends with an exception, but the STF holds the equipment and the frame
afterwards; so does `addHBFrames`; and `operator+=` has inserted the entry of the source
before it raises. None of the three leaves the STF as it was. -/
theorem moved_from_stf_is_changed :
    SubTimeFrame.addHBFrame Examples.K0 SubTimeFrame.default Examples.eqLink7 (.data [1])
      = .raised
          { mHeader := none
            mReadoutData :=
              [(Examples.eqLink7,
                { mHeader := some (Examples.equipmentHeaderOf Examples.eqLink7 1)
                  mHBFrames := [.data [1]] })]
            mFMQChannelId := -1 } ∧
    SubTimeFrame.addHBFrame Examples.K0 SubTimeFrame.default Examples.eqLink7 (.data [1])
      ≠ .raised SubTimeFrame.default ∧
    SubTimeFrame.addHBFrames Examples.K0 SubTimeFrame.default 7 [.data [1], .data [2]]
      = .raised
          { mHeader := none
            mReadoutData :=
              [(Examples.eqLink7,
                { mHeader := some (Examples.equipmentHeaderOf Examples.eqLink7 2)
                  mHBFrames := [.data [1], .data [2]] })]
            mFMQChannelId := -1 } ∧
    SubTimeFrame.operatorPlusEq SubTimeFrame.default Examples.stfOneFrame
      = .raised
          { mHeader := none
            mReadoutData := Examples.stfOneFrame.mReadoutData
            mFMQChannelId := -1 } ∧
    SubTimeFrame.operatorPlusEq SubTimeFrame.default Examples.stfOneFrame
      ≠ .raised SubTimeFrame.default := by
  refine ⟨by decide, by decide, by decide, by decide, by decide⟩

/-- Claim C31, as amended. For every STF whose header is absent: `addHBFrame`,
`addHBFrames` and `operator+=` end with an error, raised by the update of the count that
ends them, after `readoutData` has been changed as for a populated STF: the frame (the
frames) stand at the end of the frames of the equipment, whose entry is made if there was
none, and the entries of the source are offered to the map; the header is still absent. -/
theorem moved_from_stf_raises_late {D O : Type} [LinearOrder D] (K : Constants D O)
    (s : SubTimeFrame D O) (hh : s.mHeader = none) :
    (∀ id f, ∃ s1, s.addHBFrame K id f = .raised s1 ∧ s1.mHeader = none ∧
      s1.mFMQChannelId = s.mFMQChannelId ∧
      s1.mReadoutData.length
        = s.mReadoutData.length + (if (s.framesOf id).isSome then 0 else 1) ∧
      s1.framesOf id = some ((s.framesOf id).getD [] ++ [f])) ∧
    (∀ linkId fs, ∃ s1, s.addHBFrames K linkId fs = .raised s1 ∧ s1.mHeader = none ∧
      s1.mFMQChannelId = s.mFMQChannelId ∧
      s1.framesOf ⟨K.gDataDescriptionCruData, K.gDataOriginCRU, linkId⟩
        = some ((s.framesOf ⟨K.gDataDescriptionCruData, K.gDataOriginCRU, linkId⟩).getD []
            ++ fs)) ∧
    (∀ src : SubTimeFrame D O,
      s.operatorPlusEq src
        = .raised { s with
            mReadoutData := SubTimeFrame.mergeInto s.mReadoutData src.mReadoutData }) := by
  have hset : ∀ (e : EquipmentHBFrames D O) (fs : List (FairMQMessage D O)),
      ∃ e1, (EquipmentHBFrames.setPayloadSize { e with mHBFrames := e.mHBFrames ++ fs } = .ok e1 ∨
          EquipmentHBFrames.setPayloadSize { e with mHBFrames := e.mHBFrames ++ fs }
            = .raised e1) ∧
        e1.mHBFrames = e.mHBFrames ++ fs := by
    intro e fs
    unfold EquipmentHBFrames.setPayloadSize
    cases e.mHeader with
    | none => exact ⟨_, Or.inr rfl, rfl⟩
    | some h => exact ⟨_, Or.inl rfl, rfl⟩
  refine ⟨?_, ?_, ?_⟩
  · intro id f
    exact SubTimeFrame.withEquipment_of_no_header K s hh id _ [f]
      (fun e => hset e [f])
  · intro linkId fs
    obtain ⟨s1, h1, h2, h3, _, h5⟩ := SubTimeFrame.withEquipment_of_no_header K s hh
      ⟨K.gDataDescriptionCruData, K.gDataOriginCRU, linkId⟩ _ fs (fun e => hset e fs)
    exact ⟨s1, h1, h2, h3, h5⟩
  · intro src
    simp only [SubTimeFrame.operatorPlusEq, SubTimeFrame.updateCount, hh]

/-- Witness of `moved_from_stf_raises_late`: the default-constructed STF. -/
theorem moved_from_stf_raises_late_witness :
    (SubTimeFrame.default : SubTimeFrame Nat Nat).mHeader = none ∧
    (∃ s1, SubTimeFrame.addHBFrame Examples.K0 SubTimeFrame.default Examples.eqLink7
        (.data [1]) = .raised s1 ∧ s1.mHeader = none ∧
      s1.framesOf Examples.eqLink7 = some [.data [1]]) ∧
    SubTimeFrame.operatorPlusEq (SubTimeFrame.default : SubTimeFrame Nat Nat)
        Examples.stfOneFrame
      = .raised { (SubTimeFrame.default : SubTimeFrame Nat Nat) with
          mReadoutData := SubTimeFrame.mergeInto [] Examples.stfOneFrame.mReadoutData } :=
  ⟨rfl,
   let ⟨s1, h1, h2, _, _, h5⟩ :=
     (moved_from_stf_raises_late Examples.K0 SubTimeFrame.default rfl).1
       Examples.eqLink7 (.data [1])
   ⟨s1, h1, h2, h5⟩,
   (moved_from_stf_raises_late Examples.K0 SubTimeFrame.default rfl).2.2
     Examples.stfOneFrame⟩

end DataDistribution
end O2

/-! # Theorems: the growth policy -/

namespace O2
namespace DataDistribution

section Growth

open detail

variable {α : Type}

/-- The member `make_space_for(n)` on a canonical vector without room for `n` more
elements: one extent is appended, which brings the capacity to the value of `expand_size`
for the capacity `size + n`. -/
theorem make_space_for_grows (sizeofT : Nat) (hs : 0 < sizeofT) (caps : List Nat)
    (xs : List α) (hpos : ∀ c ∈ caps, 0 < c) (h : xs.length ≤ caps.sum) (n : Nat)
    (hn : caps.sum - xs.length < n) :
    ∃ k, 0 < k ∧
      caps.sum + k
        = (max (max caps.sum 2 * 3 / 2) (xs.length + n) * sizeofT + 4096 - 1) / 4096 * 4096
            / sizeofT ∧
      xs.length + n ≤ caps.sum + k ∧
      ExtentVectorBase.make_space_for sizeofT (canonical caps xs) n false
        = some (canonical (caps ++ [k]) xs) ∧
      (canonical (caps ++ [k]) xs).mExtents = (canonical caps xs).mExtents ++ [Extent.new k] := by
  have hsz : (canonical caps xs).mSize = xs.length := rfl
  have hcap : (canonical caps xs).mCapacity = caps.sum := rfl
  obtain ⟨hg, hroom, _⟩ := grownCapacities_canonical sizeofT hs caps xs hpos h n false
  have hmk := make_space_for_canonical sizeofT caps xs hpos h n false hg
  have hgc : grownCapacities sizeofT (canonical caps xs) n false
      = caps ++ [ExtentVectorBase.expand_size sizeofT (canonical caps xs)
          (caps.sum + (n - (caps.sum - xs.length))) false - caps.sum] := by
    unfold grownCapacities
    rw [hsz, hcap, if_neg (by omega)]
    have : (canonical caps xs).mExtents.map Extent.capacity = caps :=
      map_capacity_fillExtents caps xs
    rw [this]
  have hreq : caps.sum + (n - (caps.sum - xs.length)) = xs.length + n := by omega
  rw [hreq] at hgc
  have hge := expand_size_ge sizeofT hs (canonical caps xs) (xs.length + n) false
  rw [hcap] at hge
  have hval : ExtentVectorBase.expand_size sizeofT (canonical caps xs) (xs.length + n) false
      = (max (max caps.sum 2 * 3 / 2) (xs.length + n) * sizeofT + 4096 - 1) / 4096 * 4096
          / sizeofT := by
    unfold ExtentVectorBase.expand_size ExtentVectorBase.PAGESIZE_ALIGN
    rw [hcap]
    simp
  rw [hgc] at hmk hroom
  refine ⟨_, by omega, by rw [← hval]; omega, ?_, hmk, ?_⟩
  · rw [List.sum_append] at hroom
    simpa using hroom
  · show fillExtents (caps ++ [_]) xs = fillExtents caps xs ++ [Extent.new _]
    rw [fillExtents_append, List.drop_of_length_le h]
    simp [fillExtents, Extent.new]

end Growth

/-- Claim C34, the part that fails. The full vector `10 20 30 40` of elements of 1024
bytes: `push_back` allocates one extent of 4 slots, the difference between the new capacity
8 and the old capacity 4, where the specification gives the new extent
`max(1.5 × 4, requested)` = 6 slots rounded up to a page, 8 slots. And on the empty vector
of elements of 4096 bytes `push_back` allocates 3 slots, as the capacity taken times 1.5 is
at least 2, where the specification gives `max(0, 1)` = 1 slot. -/
theorem growth_extent_is_the_difference :
    (detail.ExtentVectorBase.push_back Examples.sizeofElement Examples.vecFull 50).map
        (fun v => (v.capacities, v.mCapacity)) = some ([4, 4], 8) ∧
    detail.ExtentVectorBase.specNewExtentSlots Examples.sizeofElement 4 5 = 8 ∧
    detail.ExtentVectorBase.specNewExtentSlots Examples.sizeofElement 4 1 = 8 ∧
    (detail.ExtentVectorBase.push_back 4096
        (detail.ExtentVectorBase.empty : detail.ExtentVectorBase Nat) 50).map
        (fun v => (v.capacities, v.mCapacity)) = some ([3], 3) ∧
    detail.ExtentVectorBase.specNewExtentSlots 4096 0 1 = 1 := by
  refine ⟨by decide, by decide, by decide, by decide, by decide⟩

/-- Claim C34, as amended. For every vector that satisfies the representation invariant (as
every reachable vector does) and every `n`: `make_space_for(n)`, which every append of `n`
elements runs first, returns and keeps the size and the elements; when `capacity - size`
is at least `n` it changes nothing; otherwise it allocates exactly one new extent, which
brings the capacity to `max(⌊1.5 × max(capacity, 2)⌋, size + n)` elements rounded up to
whole pages of 4096 bytes, and the new extent holds the difference between the new and the
old capacity, at least one slot; and `fill_expand(n, x)` then appends the `n` elements
without another allocation. -/
theorem growth_policy {α : Type} (sizeofT : Nat) (hs : 0 < sizeofT)
    (v : detail.ExtentVectorBase α) (hinv : v.repInvariant) (n : Nat) (x : α) :
    ∃ v1 v2, detail.ExtentVectorBase.make_space_for sizeofT v n false = some v1 ∧
      v1.mSize = v.mSize ∧ O2ExtentVector.toList v1 = O2ExtentVector.toList v ∧
      (n ≤ v.mCapacity - v.mSize → v1 = v) ∧
      (v.mCapacity - v.mSize < n →
        ∃ k, 0 < k ∧ v1.mExtents = v.mExtents ++ [detail.Extent.new k] ∧
          v1.mCapacity = v.mCapacity + k ∧
          v1.mCapacity
            = (max (max v.mCapacity 2 * 3 / 2) (v.mSize + n) * sizeofT + 4096 - 1) / 4096
                * 4096 / sizeofT ∧
          v.mSize + n ≤ v1.mCapacity) ∧
      detail.ExtentVectorBase.fill_expand sizeofT v n x = some v2 ∧
      v2.capacities = v1.capacities ∧
      O2ExtentVector.toList v2 = O2ExtentVector.toList v ++ List.replicate n x ∧
      v1.repInvariant := by
  obtain ⟨caps, xs, hpos, hlen, rfl⟩ := detail.exists_canonical_of_repInvariant v hinv
  have hsz : (detail.canonical caps xs).mSize = xs.length := rfl
  have hcap : (detail.canonical caps xs).mCapacity = caps.sum := rfl
  obtain ⟨hg, hroom, _⟩ := detail.grownCapacities_canonical sizeofT hs caps xs hpos hlen n false
  have hmk := detail.make_space_for_canonical sizeofT caps xs hpos hlen n false hg
  have hfe := detail.fill_expand_canonical sizeofT hs caps xs hpos hlen n x
  have hroom0 : xs.length
      ≤ (detail.grownCapacities sizeofT (detail.canonical caps xs) n false).sum := by omega
  have hroom2 : (xs ++ List.replicate n x).length
      ≤ (detail.grownCapacities sizeofT (detail.canonical caps xs) n false).sum := by
    rw [List.length_append, List.length_replicate]
    exact hroom
  refine ⟨_, _, hmk, rfl, ?_, ?_, ?_, hfe, ?_, ?_,
    detail.repInvariant_canonical _ _ hg hroom0⟩
  · rw [detail.toList_canonical _ xs hroom0, detail.toList_canonical caps xs hlen]
  · intro hle
    rw [hsz, hcap] at hle
    have : detail.grownCapacities sizeofT (detail.canonical caps xs) n false = caps := by
      unfold detail.grownCapacities
      rw [hsz, hcap, if_pos (by omega)]
      exact detail.map_capacity_fillExtents caps xs
    rw [this]
  · intro hlt
    rw [hsz, hcap] at hlt
    obtain ⟨k, hk, hval, hge, hmk2, hext⟩ :=
      make_space_for_grows sizeofT hs caps xs hpos hlen n hlt
    rw [hmk] at hmk2
    rw [Option.some.inj hmk2]
    refine ⟨k, hk, hext, ?_, ?_, ?_⟩
    · show (caps ++ [k]).sum = caps.sum + k
      simp
    · show (caps ++ [k]).sum = _
      rw [hsz, hcap, ← hval]
      simp
    · show xs.length + n ≤ (caps ++ [k]).sum
      simpa using hge
  · rw [detail.capacities_canonical, detail.capacities_canonical]
  · rw [detail.toList_canonical _ _ hroom2, detail.toList_canonical caps xs hlen]

/-- Witness of `growth_policy`: `make_space_for(1)` on the full vector `10 20 30 40` of
elements of 1024 bytes appends an extent of 4 slots. -/
theorem growth_policy_witness :
    0 < Examples.sizeofElement ∧ Examples.vecFull.repInvariant ∧
    Examples.vecFull.mCapacity - Examples.vecFull.mSize < 1 ∧
    ∃ v1 k, detail.ExtentVectorBase.make_space_for Examples.sizeofElement Examples.vecFull 1
        false = some v1 ∧
      0 < k ∧ v1.mExtents = Examples.vecFull.mExtents ++ [detail.Extent.new k] ∧
      v1.mCapacity = Examples.vecFull.mCapacity + k ∧
      v1.mCapacity
        = (max (max Examples.vecFull.mCapacity 2 * 3 / 2) (Examples.vecFull.mSize + 1)
            * Examples.sizeofElement + 4096 - 1) / 4096 * 4096 / Examples.sizeofElement :=
  ⟨by decide, by unfold detail.ExtentVectorBase.repInvariant; decide, by decide,
   let ⟨v1, _, h1, _, _, _, h5, _⟩ := growth_policy Examples.sizeofElement (by decide)
     Examples.vecFull (by unfold detail.ExtentVectorBase.repInvariant; decide) 1 50
   let ⟨k, hk, h6, h7, h8, _⟩ := h5 (by decide)
   ⟨v1, k, h1, hk, h6, h7, h8⟩⟩

end DataDistribution
end O2

/-! # Theorems: the representation invariant in reachable states -/

namespace O2
namespace DataDistribution

section RepInvariant

open detail

variable {α : Type}

/-- In a canonical vector the extent at the index `k` holds what is left of the elements
behind the capacity of the extents before it, up to its own capacity. -/
theorem size_fillExtents_get? (caps : List Nat) (xs : List α) (k : Nat) (e : Extent α)
    (he : (fillExtents caps xs).get? k = some e) :
    e.size = min e.capacity (xs.length - (caps.take k).sum) := by
  have hc := get?_fillExtents_capacity caps xs k
  rw [he, Option.map_some'] at hc
  rw [fillExtents_get? caps xs k e.capacity hc.symm] at he
  have := Option.some.inj he
  rw [← this]
  simp [Extent.size, Extent.capacity, List.length_take, List.length_drop]

/-- The assertions of `emplace_back` and `fill_expand` hold in a canonical vector with
room. -/
theorem backAssertions_canonical (caps : List Nat) (xs : List α)
    (h : xs.length < caps.sum) : (canonical caps xs).backAssertions := by
  obtain ⟨c, hc, hlt, hsum⟩ := locate_spec caps xs.length h
  have hpos : (canonical caps xs).mBackPosition
      = { mExtentIndex := (locate caps xs.length).1,
          mElementIndex := ((locate caps xs.length).2 : Int),
          mVectorIndex := (xs.length : Int) } := positionOf_of_lt caps xs.length h
  unfold ExtentVectorBase.backAssertions
  rw [hpos]
  have hlen : (locate caps xs.length).1 < caps.length := by
    by_contra hn
    rw [List.get?_eq_getElem?, List.getElem?_eq_none (by omega)] at hc
    exact Option.noConfusion hc
  refine ⟨by show _ < (fillExtents caps xs).length; rw [length_fillExtents]; exact hlen, ?_⟩
  intro e he
  have hsz := size_fillExtents_get? caps xs _ e he
  have hcap := get?_fillExtents_capacity caps xs (locate caps xs.length).1
  have he2 : (fillExtents caps xs).get? (locate caps xs.length).1 = some e := he
  rw [he2, Option.map_some', hc] at hcap
  have hcc : e.capacity = c := Option.some.inj hcap
  show ((locate caps xs.length).2 : Int) = (e.size : Int)
  rw [hsz, hcc]
  have : min c (xs.length - (caps.take (locate caps xs.length).1).sum)
      = (locate caps xs.length).2 := by omega
  rw [this]

/-- The assertions of `pop_back` hold in a canonical vector that holds an element. -/
theorem popAssertions_canonical (caps : List Nat) (xs : List α) (hpos : ∀ c ∈ caps, 0 < c)
    (h : xs.length ≤ caps.sum) (hne : 0 < xs.length) :
    (canonical caps xs).popAssertions := by
  unfold ExtentVectorBase.popAssertions
  have hback : (canonical caps xs).mBackPosition = positionOf caps (xs.length : Int) := rfl
  rw [hback, operatorMinusEq_canonical caps xs hpos _ 1 (by omega)]
  have hj : ((xs.length : Int) - 1) = ((xs.length - 1 : Nat) : Int) := by omega
  have hlt : xs.length - 1 < caps.sum := by omega
  rw [hj, positionOf_of_lt caps (xs.length - 1) hlt]
  obtain ⟨c, hc, _, _⟩ := locate_spec caps (xs.length - 1) hlt
  have hlen : (locate caps (xs.length - 1)).1 < caps.length := by
    by_contra hn
    rw [List.get?_eq_getElem?, List.getElem?_eq_none (by omega)] at hc
    exact Option.noConfusion hc
  refine ⟨_, rfl, ?_, ?_⟩
  · show _ < (fillExtents caps xs).length
    rw [length_fillExtents]
    exact hlen
  · show ((xs.length - 1 : Nat) : Int) = ((canonical caps xs).mSize : Int) - 1
    show ((xs.length - 1 : Nat) : Int) = (xs.length : Int) - 1
    omega

end RepInvariant

/-- Claim C38. In every state reachable from the empty vector by the public operations:
every extent has a capacity above zero; the extents are filled in order, the extent at the
index `k` holding what is left of the `size` elements behind the capacities of the extents
before it, up to its own capacity (so the extents before the one that holds the logical
index `size` are full, that one holds the rest, the later ones are empty); the element
counts of the extents add up to `size`; the recorded capacity is the sum of the capacities
and `size` does not exceed it; the back position is the position of the logical index
`size`, the overflow position `(0, 0, size)` when `size` equals the capacity; and the
assertions hold that `emplace_back` and every round of `fill_expand` make on the back
position and the size of its extent, and those of `pop_back` when there is an element. -/
theorem representation_invariant {α : Type} (sizeofT : Nat) (hs : 0 < sizeofT) (T0 : α)
    (v : detail.ExtentVectorBase α) (hr : detail.Reachable sizeofT T0 v) :
    (∀ e ∈ v.mExtents, 0 < e.capacity) ∧
    (∀ k e, v.mExtents.get? k = some e →
      e.size = min e.capacity (v.mSize - ((v.mExtents.take k).map detail.Extent.capacity).sum)) ∧
    (v.mExtents.map detail.Extent.size).sum = v.mSize ∧
    v.mCapacity = (v.mExtents.map detail.Extent.capacity).sum ∧
    v.mSize ≤ v.mCapacity ∧
    v.mBackPosition = detail.positionOf v.capacities v.mSize ∧
    (v.mSize = v.mCapacity →
      v.mBackPosition = { mExtentIndex := 0, mElementIndex := 0, mVectorIndex := v.mSize }) ∧
    (v.mSize < v.mCapacity → v.backAssertions) ∧
    (∀ n x i, i < n →
      ∃ v1 vi, detail.ExtentVectorBase.make_space_for sizeofT v n false = some v1 ∧
        detail.ExtentVectorBase.fill_expand_loop i v1 x = some vi ∧ vi.backAssertions) ∧
    (0 < v.mSize → v.popAssertions) := by
  have hinv := detail.repInvariant_of_reachable sizeofT hs T0 v hr
  obtain ⟨caps, xs, hpos, hlen, rfl⟩ := detail.exists_canonical_of_repInvariant v hinv
  have hsz : (detail.canonical caps xs).mSize = xs.length := rfl
  have hcap : (detail.canonical caps xs).mCapacity = caps.sum := rfl
  have hext : (detail.canonical caps xs).mExtents = detail.fillExtents caps xs := rfl
  have hcaps : (detail.fillExtents caps xs).map detail.Extent.capacity = caps :=
    detail.map_capacity_fillExtents caps xs
  refine ⟨?_, ?_, ?_, ?_, ?_, ?_, ?_, ?_, ?_, ?_⟩
  · intro e he
    apply hpos
    rw [← hcaps]
    exact List.mem_map_of_mem _ he
  · intro k e he
    rw [hext] at he ⊢
    rw [hsz, List.map_take, hcaps]
    exact size_fillExtents_get? caps xs k e he
  · rw [hext, hsz]
    exact detail.sum_size_fillExtents caps xs hlen
  · rw [hext, hcaps]
    rfl
  · exact hlen
  · rw [detail.capacities_canonical]
    rfl
  · intro heq
    rw [hsz, hcap] at heq
    show detail.positionOf caps (xs.length : Int) = _
    rw [detail.positionOf_of_ge caps _ (Or.inr (by omega))]
    rfl
  · intro hlt
    exact backAssertions_canonical caps xs hlt
  · intro n x i hi
    obtain ⟨hg, hroom, _⟩ :=
      detail.grownCapacities_canonical sizeofT hs caps xs hpos hlen n false
    refine ⟨_, _, detail.make_space_for_canonical sizeofT caps xs hpos hlen n false hg,
      detail.fill_expand_loop_canonical _ hg i xs x (by omega), ?_⟩
    apply backAssertions_canonical
    rw [List.length_append, List.length_replicate]
    omega
  · intro hne
    exact popAssertions_canonical caps xs hpos hlen hne

/-- Witness of `representation_invariant`: the vector that holds `10` after one
`push_back` on the empty vector. -/
theorem representation_invariant_witness :
    0 < Examples.sizeofElement ∧
    detail.Reachable Examples.sizeofElement 0 Examples.vecOne ∧
    (∀ e ∈ Examples.vecOne.mExtents, 0 < e.capacity) ∧
    (Examples.vecOne.mExtents.map detail.Extent.size).sum = Examples.vecOne.mSize ∧
    Examples.vecOne.mBackPosition
      = detail.positionOf Examples.vecOne.capacities Examples.vecOne.mSize ∧
    Examples.vecOne.backAssertions :=
  have hr : detail.Reachable Examples.sizeofElement 0 Examples.vecOne :=
    detail.Reachable.push_back 10 detail.Reachable.empty (by decide)
  have h := representation_invariant Examples.sizeofElement (by decide) 0 Examples.vecOne hr
  ⟨by decide, hr, h.1, h.2.2.1, h.2.2.2.2.2.1, h.2.2.2.2.2.2.2.1 (by decide)⟩

end DataDistribution
end O2

/-! # Theorems: positions of the iterator -/

namespace O2
namespace DataDistribution

section IteratorPositions

open detail

variable {α : Type}

/-- The position of an index behind the first `ext` extents, counted from there. -/
theorem locate_drop (caps : List Nat) (ext r : Nat) (h : ext ≤ caps.length) :
    locate caps ((caps.take ext).sum + r)
      = (ext + (locate (caps.drop ext) r).1, (locate (caps.drop ext) r).2) := by
  induction caps generalizing ext with
  | nil =>
    have : ext = 0 := by simpa using h
    subst this
    simp
  | cons c cs ih =>
    cases ext with
    | zero => simp
    | succ ext =>
      simp only [List.length_cons, Nat.add_le_add_iff_right] at h
      simp only [List.take_succ_cons, List.sum_cons, List.drop_succ_cons]
      have hstep : ∀ k, ¬ k < c →
          locate (c :: cs) k = ((locate cs (k - c)).1 + 1, (locate cs (k - c)).2) := by
        intro k hk
        simp [locate, hk]
      rw [hstep _ (by omega)]
      have e1 : c + (cs.take ext).sum + r - c = (cs.take ext).sum + r := by omega
      rw [e1, ih ext h]
      simp only [Prod.mk.injEq, and_true]
      omega

/-- The part of `operator+=` for `n > 0` on a canonical vector, from the position of any
index `i`: the position of `i + n`. -/
theorem addPos_canonical (caps : List Nat) (xs : List α) (hpos : ∀ c ∈ caps, 0 < c)
    (i n : Int) (hn : 0 < n) :
    ExtentPosition.addPos (canonical caps xs) (positionOf caps i) n
      = some (positionOf caps (i + n)) := by
  unfold ExtentPosition.addPos
  have hidx : (positionOf caps i).mVectorIndex = i := by
    unfold positionOf; split_ifs <;> rfl
  have hcap : (canonical caps xs).mCapacity = caps.sum := rfl
  simp only [hidx, hcap]
  by_cases hout : i + n < 0 ∨ i + n ≥ (caps.sum : Int)
  · rw [if_pos hout, positionOf_of_ge caps (i + n) hout]
  · rw [if_neg hout]
    obtain ⟨t, ht⟩ := Int.eq_ofNat_of_zero_le (by omega : 0 ≤ i + n)
    have htlt : t < caps.sum := by omega
    by_cases hneg : i < 0
    · -- from underflow: up to -1, one increment, then the walk from index 0
      rw [if_pos hneg]
      have habs : |i| = -i := abs_of_neg hneg
      have hmin : min (|i| - 1) n = -i - 1 := by
        rw [habs]
        apply min_eq_left
        omega
      simp only [hmin]
      rw [if_pos (by omega)]
      have hp1 : ({ positionOf caps i with mVectorIndex := i + (-i - 1) } : ExtentPosition)
          = positionOf caps (-1) := by
        rw [positionOf_of_ge caps i (Or.inl hneg), positionOf_of_ge caps (-1) (Or.inl (by omega))]
        simp only [ExtentPosition.mk.injEq, true_and]
        omega
      rw [hp1, inc_canonical caps xs hpos (-1)]
      have h0 : ((-1 : Int) + 1) = 0 := by omega
      rw [h0, positionOf_zero caps hpos]
      simp only [Option.map_some', List.drop_zero]
      have hm : n - (-i - 1) - 1 = (t : Int) := by omega
      rw [hm]
      have hw := walkForward_locate (canonical caps xs).mExtents 0 0 t
        (by
          intro c hc
          have : (canonical caps xs).mExtents.map Extent.capacity = caps :=
            map_capacity_fillExtents caps xs
          rw [this] at hc
          exact hpos c hc)
        (by
          intro e he
          have hmem : e ∈ (canonical caps xs).mExtents := List.mem_of_mem_head? he
          have : e.capacity ∈ (canonical caps xs).mExtents.map Extent.capacity :=
            List.mem_map_of_mem _ hmem
          rw [show (canonical caps xs).mExtents.map Extent.capacity = caps from
            map_capacity_fillExtents caps xs] at this
          exact hpos _ this)
        (by
          rw [show (canonical caps xs).mExtents.map Extent.capacity = caps from
            map_capacity_fillExtents caps xs]
          omega)
      simp only [Nat.cast_zero, zero_add] at hw
      rw [hw]
      simp only [Option.map_some',
        show (canonical caps xs).mExtents.map Extent.capacity = caps from
          map_capacity_fillExtents caps xs]
      rw [ht, positionOf_of_lt caps t htlt]
      simp
    · -- from inside the capacity: the walk from the position of i
      rw [if_neg hneg]
      obtain ⟨j, hj⟩ := Int.eq_ofNat_of_zero_le (by omega : 0 ≤ i)
      obtain ⟨m, hm⟩ := Int.eq_ofNat_of_zero_le (by omega : 0 ≤ n)
      subst hj hm
      have hjlt : j < caps.sum := by omega
      have htjm : t = j + m := by omega
      subst htjm
      obtain ⟨c, hc, hlt, hsum⟩ := locate_spec caps j hjlt
      have hlen : (locate caps j).1 < caps.length := by
        by_contra hn2
        rw [List.get?_eq_getElem?, List.getElem?_eq_none (by omega)] at hc
        exact Option.noConfusion hc
      rw [positionOf_of_lt caps j hjlt]
      simp only
      have hmapdrop : ((canonical caps xs).mExtents.drop (locate caps j).1).map Extent.capacity
          = caps.drop (locate caps j).1 := by
        rw [List.map_drop]
        congr 1
        exact map_capacity_fillExtents caps xs
      have hsplit : (caps.take (locate caps j).1).sum + (caps.drop (locate caps j).1).sum
          = caps.sum := by
        rw [← List.sum_append, List.take_append_drop]
      have hhead : (caps.drop (locate caps j).1).head? = some c := by
        rw [List.head?_drop, ← List.get?_eq_getElem?]
        exact hc
      have hw := walkForward_locate ((canonical caps xs).mExtents.drop (locate caps j).1)
        (locate caps j).1 (locate caps j).2 m
        (by
          intro c1 hc1
          rw [hmapdrop] at hc1
          exact hpos c1 (List.mem_of_mem_drop hc1))
        (by
          intro e he
          have h1 : (((canonical caps xs).mExtents.drop (locate caps j).1).map
              Extent.capacity).head? = some e.capacity := by
            rw [List.head?_map]
            simp only [Option.mem_def] at he
            rw [he]
            rfl
          rw [hmapdrop, hhead] at h1
          have := Option.some.inj h1
          omega)
        (by
          rw [hmapdrop]
          omega)
      rw [hw, hmapdrop]
      simp only [Option.map_some']
      have hloc := locate_drop caps (locate caps j).1 ((locate caps j).2 + m) (by omega)
      have hidx2 : (caps.take (locate caps j).1).sum + ((locate caps j).2 + m) = j + m := by
        omega
      rw [hidx2] at hloc
      have hcast : ((j : Int) + (m : Int)) = ((j + m : Nat) : Int) := by push_cast; rfl
      rw [hcast, positionOf_of_lt caps (j + m) htlt, hloc]

/-- The member `operator+=` on a canonical vector, from the position of any index `i` and
for any integer `n`: the position of `i + n`. -/
theorem operatorPlusEq_canonical (caps : List Nat) (xs : List α) (hpos : ∀ c ∈ caps, 0 < c)
    (i n : Int) :
    ExtentPosition.operatorPlusEq (canonical caps xs) (positionOf caps i) n
      = some (positionOf caps (i + n)) := by
  by_cases h0 : n = 0
  · subst h0
    simp [ExtentPosition.operatorPlusEq]
  · by_cases hneg : n < 0
    · have h1 := operatorMinusEq_canonical caps xs hpos i (-n) (by omega)
      unfold ExtentPosition.operatorMinusEq at h1
      rw [if_neg (by omega), if_neg (by omega)] at h1
      unfold ExtentPosition.operatorPlusEq
      rw [if_neg h0, if_pos hneg, abs_of_neg hneg, h1]
      congr 2
      omega
    · unfold ExtentPosition.operatorPlusEq
      rw [if_neg h0, if_neg hneg]
      exact addPos_canonical caps xs hpos i n (by omega)

/-- The member `operator-=` on a canonical vector, from the position of any index `i` and
for any integer `n`: the position of `i - n`. -/
theorem operatorMinusEq_any (caps : List Nat) (xs : List α) (hpos : ∀ c ∈ caps, 0 < c)
    (i n : Int) :
    ExtentPosition.operatorMinusEq (canonical caps xs) (positionOf caps i) n
      = some (positionOf caps (i - n)) := by
  by_cases h0 : n = 0
  · subst h0
    simp [ExtentPosition.operatorMinusEq]
  · by_cases hneg : n < 0
    · unfold ExtentPosition.operatorMinusEq
      rw [if_neg h0, if_pos hneg, abs_of_neg hneg,
        addPos_canonical caps xs hpos i (-n) (by omega)]
      rfl
    · exact operatorMinusEq_canonical caps xs hpos i n (by omega)

end IteratorPositions

/-- Claim C33. For every vector that satisfies the representation invariant (as every
reachable vector does), every iterator of it in a consistent state, that is the position of
an integer index `i` (the located pair inside `[0, capacity)`, the pair `(0, 0)` in
underflow and in overflow), and all integers `n`, `a`, `b`: `it += n` and `it -= n` return
the consistent iterator of the logical index `i + n` and `i - n`; whenever a logical index
`j` lies in `[0, capacity)`, the pair of its iterator is the one pair `(ext, elem)` with
`elem` below the capacity of the extent `ext` and `j` equal to the capacity of the extents
before `ext` plus `elem`, so `ext` is the first extent whose cumulative capacity exceeds
`j`; `(it + a) + b` and `it + (a + b)` are equal in all three fields, whatever the
intermediate position; and `++` followed by `--` restores the iterator. -/
theorem iterator_positions {α : Type} (v : detail.ExtentVectorBase α) (hinv : v.repInvariant)
    (i n a b : Int) :
    detail.ExtentPosition.operatorPlusEq v (detail.positionOf v.capacities i) n
      = some (detail.positionOf v.capacities (i + n)) ∧
    detail.ExtentPosition.operatorMinusEq v (detail.positionOf v.capacities i) n
      = some (detail.positionOf v.capacities (i - n)) ∧
    (detail.positionOf v.capacities (i + n)).mVectorIndex = i + n ∧
    (detail.positionOf v.capacities (i - n)).mVectorIndex = i - n ∧
    (∀ j : Nat, j < v.mCapacity →
      ∃ ext elem c : Nat, detail.positionOf v.capacities (j : Int)
          = { mExtentIndex := ext, mElementIndex := (elem : Int), mVectorIndex := (j : Int) } ∧
        v.capacities.get? ext = some c ∧ elem < c ∧
        (v.capacities.take ext).sum + elem = j ∧
        (v.capacities.take ext).sum ≤ j ∧ j < (v.capacities.take (ext + 1)).sum ∧
        ∀ ext1 elem1 c1, v.capacities.get? ext1 = some c1 → elem1 < c1 →
          (v.capacities.take ext1).sum + elem1 = j → ext1 = ext ∧ elem1 = elem) ∧
    (detail.ExtentPosition.operatorPlusEq v (detail.positionOf v.capacities i) a).bind
        (fun q => detail.ExtentPosition.operatorPlusEq v q b)
      = detail.ExtentPosition.operatorPlusEq v (detail.positionOf v.capacities i) (a + b) ∧
    (detail.ExtentPosition.inc v (detail.positionOf v.capacities i)).bind
        (detail.ExtentPosition.dec v)
      = some (detail.positionOf v.capacities i) := by
  obtain ⟨caps, xs, hpos, hlen, rfl⟩ := detail.exists_canonical_of_repInvariant v hinv
  rw [detail.capacities_canonical]
  have hidx : ∀ k : Int, (detail.positionOf caps k).mVectorIndex = k := by
    intro k
    unfold detail.positionOf
    split_ifs <;> rfl
  refine ⟨operatorPlusEq_canonical caps xs hpos i n, operatorMinusEq_any caps xs hpos i n,
    hidx _, hidx _, ?_, ?_, ?_⟩
  · intro j hj
    have hj2 : j < caps.sum := hj
    obtain ⟨c, hc, hlt, hsum⟩ := detail.locate_spec caps j hj2
    refine ⟨(detail.locate caps j).1, (detail.locate caps j).2, c,
      detail.positionOf_of_lt caps j hj2, hc, hlt, hsum, by omega, ?_, ?_⟩
    · have hlen2 : (detail.locate caps j).1 < caps.length := by
        by_contra hn2
        rw [List.get?_eq_getElem?, List.getElem?_eq_none (by omega)] at hc
        exact Option.noConfusion hc
      rw [List.get?_eq_getElem?, List.getElem?_eq_getElem hlen2] at hc
      rw [List.take_succ, List.sum_append, List.getElem?_eq_getElem hlen2]
      simp only [Option.toList_some, List.sum_cons, List.sum_nil, Nat.add_zero]
      have := Option.some.inj hc
      omega
    · intro ext1 elem1 c1 h1 h2 h3
      have := detail.locate_unique caps j ext1 elem1 c1 h1 h2 h3
      rw [this]
      exact ⟨rfl, rfl⟩
  · rw [operatorPlusEq_canonical caps xs hpos i a, Option.some_bind,
      operatorPlusEq_canonical caps xs hpos (i + a) b,
      operatorPlusEq_canonical caps xs hpos i (a + b), add_assoc]
  · rw [detail.inc_canonical caps xs hpos i, Option.some_bind,
      detail.dec_canonical caps xs hpos (i + 1)]
    congr 2
    omega

/-- Witness of `iterator_positions`: the vector with the two extents of four slots that
holds five elements; from the index 2, `+= 3` gives the second extent, slot 1, and `+= -4`
the underflow position with the index -2. -/
theorem iterator_positions_witness :
    Examples.vecTwoExtents.repInvariant ∧
    detail.ExtentPosition.operatorPlusEq Examples.vecTwoExtents
        { mExtentIndex := 0, mElementIndex := 2, mVectorIndex := 2 } 3
      = some { mExtentIndex := 1, mElementIndex := 1, mVectorIndex := 5 } ∧
    detail.ExtentPosition.operatorPlusEq Examples.vecTwoExtents
        { mExtentIndex := 0, mElementIndex := 2, mVectorIndex := 2 } (-4)
      = some { mExtentIndex := 0, mElementIndex := 0, mVectorIndex := -2 } ∧
    detail.ExtentPosition.operatorPlusEq Examples.vecTwoExtents
        (detail.positionOf Examples.vecTwoExtents.capacities 2) 3
      = some (detail.positionOf Examples.vecTwoExtents.capacities (2 + 3)) ∧
    (detail.ExtentPosition.operatorPlusEq Examples.vecTwoExtents
        (detail.positionOf Examples.vecTwoExtents.capacities 2) (-4)).bind
        (fun q => detail.ExtentPosition.operatorPlusEq Examples.vecTwoExtents q 9)
      = detail.ExtentPosition.operatorPlusEq Examples.vecTwoExtents
          (detail.positionOf Examples.vecTwoExtents.capacities 2) (-4 + 9) :=
  have hinv : Examples.vecTwoExtents.repInvariant := by
    unfold detail.ExtentVectorBase.repInvariant; decide
  ⟨hinv, by decide, by decide,
   (iterator_positions Examples.vecTwoExtents hinv 2 3 (-4) 9).1,
   (iterator_positions Examples.vecTwoExtents hinv 2 3 (-4) 9).2.2.2.2.2.1⟩

end DataDistribution
end O2

/-! # Theorems: the STF a deserializer builds -/

namespace O2
namespace DataDistribution

section Deserialized

variable {D O : Type} [LinearOrder D]

end Deserialized

/-- The same loss for two identifiers that differ in the origin only: the message vector
`wireEquivalentEquipments` names `(CRUDATA, CRU, link 7)` and `(CRUDATA, FLP, link 7)`,
which `operator<` as coded does not tell apart. Both deserializers return true having
consumed every message, and the STF built again has `payloadSize` 2 and the one entry of
the first equipment. -/
theorem deserialize_drops_equivalent_equipment :
    InterleavedHdrDataDeserializer.deserialize SubTimeFrame.default
        Examples.wireEquivalentEquipments
      = some (true, Examples.stfOneOfTwo, []) ∧
    HdrDataDeserializer.deserialize Examples.channelEquivalentEquipments SubTimeFrame.default
      = some { returned := true, stf := Examples.stfOneOfTwo, chan := [], headersLeft := [],
               dataLeft := [] } ∧
    Examples.stfOneOfTwo.invariant = false ∧
    Examples.stfOneOfTwo.mHeader.map (fun h => h.payloadSize) = some 2 ∧
    Examples.stfOneOfTwo.mReadoutData.length = 1 ∧
    (Examples.stfOneOfTwo.mReadoutData.map fun kv => kv.2.mHBFrames).flatten = [.data [1]] := by
  refine ⟨by decide, by decide, by decide, by decide, by decide, by decide⟩

end DataDistribution
end O2
